import Mathlib

/-!
# SHAMap delta engine (`SHAMapDelta.cpp`): a shallow embedding

The development embeds `SHAMap::walkBranch`, `SHAMap::compare`, the two
overloads of `SHAMap::integrate` and `SHAMap::walkMap` of
`src/ripple/module/app/shamap/SHAMapDelta.cpp`, and `RPC::parseAccountIds` of
`src/ripple/module/rpc/impl/ParseAccountIds.cpp`, and states properties of the
natural-language specification over that embedding.

Conventions of the embedding

* `uint256` tags are natural numbers below `16 ^ 64`; the `<` of `uint256`
  is the numeric order.
* `SHAMapItem::pointer` is `Option SHAMapItem`; the null pointer is `none`.
* `Delta` (`std::map<uint256, DeltaRef>`) is a key-ordered association list
  and `Delta.insert` is `std::map::insert`: it never replaces the value of a
  key that is already present.
* `int maxCount` is an `Int` (the wrap-around of `--maxCount` at `INT_MIN`
  is outside the model).
* The two `while` loops run on an explicit stack (a list, top first) and on a
  fuel counter; running out of fuel is the separate outcome
  `Outcome.outOfFuel`, a thrown `SHAMapMissingNode` is
  `Outcome.missingNode`.
* A child hash is `Option Hs`: `none` is the zero hash of an empty branch.
* The leaf content of the tree that `integrate` mutates is the list of its items in
  tag order; a `std::set` of items is the list of its items in iteration order.
* `walkMap` gets the member `root` as an argument, and `int maxMissing` is an `Int`.
* A `boost::unordered_set` of addresses is the duplicate-free list of its elements;
  `RippleAddress::setAccountID` is an argument of `parseAccountIds`.

Layout

1. The embedding of the methods, the trees behind a map, and the trees of the
   concrete scenario.
2. A second, budget-free reading of the two walks (`Trace`): the list of the
   insertions and node resolutions a walk makes, in order. A call with a budget
   is the replay of that list against the budget (`compare_run`).
3. The notions the properties are stated with: for `compare` and `walkBranch`, for
   `integrate` (the leaf under a tag, best-effort processing), for `walkMap` (the
   children that cannot be resolved), for maps with missing nodes, and for trees
   on which `walkBranch` does not meet its single item again.
4. The properties, first for the budget-free reading on well-formed trees
   (`compareTrace_spec`), then for the calls themselves.
-/

set_option linter.unusedSectionVars false

namespace Ripple

/-! ## Items and the difference table -/

/-- A leaf record `SHAMapItem`: `getTag ()` and `peekData ()`. -/
structure SHAMapItem where
  tag : Nat
  data : List Nat
deriving DecidableEq, Repr

/-- The pair `DeltaRef` of the source: (item of this tree, item of the other tree). -/
abbrev DeltaRef := Option SHAMapItem × Option SHAMapItem

/-- The table `Delta` of the source, `std::map<uint256, DeltaRef>`, in key order. -/
abbrev Delta := List (Nat × DeltaRef)

/-- The call `differences.insert (std::make_pair (k, v))`: the pair is added in key
order unless the key is already present, in which case the table is unchanged. -/
def Delta.insert : Delta → Nat → DeltaRef → Delta
  | [], k, v => [(k, v)]
  | (k', v') :: rest, k, v =>
    if k < k' then (k, v) :: (k', v') :: rest
    else if k = k' then (k', v') :: rest
    else (k', v') :: Delta.insert rest k v

/-- The value stored under a key, if any. -/
def Delta.find : Delta → Nat → Option DeltaRef
  | [], _ => none
  | (k', v') :: rest, k => if k = k' then some v' else Delta.find rest k

/-- The table with the two sides of every entry exchanged. -/
def Delta.swap (d : Delta) : Delta :=
  d.map (fun e => (e.1, (e.2.2, e.2.1)))

/-! ## Nodes, maps and node resolution -/

/-- A node position `SHAMapNode`: the branch numbers on the way down from the root
(the depth is the length). -/
abbrev NodeID := List Nat

/-- Modelled from the spec: the node type `SHAMapTreeNode` is not declared in
`SHAMapDelta.cpp`. Following the data model, a node is a variant: an inner node
with its position and 16 branch slots, each empty (`none`, the zero hash) or holding
the declared hash of the child, or a leaf with its position and its item. -/
inductive SHAMapTreeNode (Hs : Type) where
  | inner (mNodeID : NodeID) (mHashes : List (Option Hs))
  | leaf (mNodeID : NodeID) (mItem : SHAMapItem)

namespace SHAMapTreeNode

variable {Hs : Type}

/-- The position of the node. -/
def getID : SHAMapTreeNode Hs → NodeID
  | inner id _ => id
  | leaf id _ => id

/-- The accessor `getChildHash (i)`; `none` is the zero hash. -/
def getChildHash : SHAMapTreeNode Hs → Nat → Option Hs
  | inner _ hashes, i => hashes[i]?.join
  | leaf _ _, _ => none

/-- The accessor `getChildNodeID (i)`. -/
def getChildNodeID (n : SHAMapTreeNode Hs) (i : Nat) : NodeID :=
  n.getID ++ [i]

end SHAMapTreeNode

/-- Modelled from the spec: the class `SHAMap` is not declared in
`SHAMapDelta.cpp`. The delta engine reads a map through `getHash ()` (the root hash) and
`getNodePointer (id, hash)` (node resolution by position and hash, `none` when
the node cannot be resolved). -/
structure SHAMap (Hs : Type) where
  getHash : Hs
  getNodePointer : NodeID → Hs → Option (SHAMapTreeNode Hs)

/-- The map `m` without the nodes at the positions where `avail` is false: a
request for such a position cannot be resolved. -/
def SHAMap.restrict {Hs : Type} (m : SHAMap Hs) (avail : NodeID → Bool) : SHAMap Hs where
  getHash := m.getHash
  getNodePointer := fun id h => if avail id then m.getNodePointer id h else none

/-- The outcome of a call: a normal return, a thrown `SHAMapMissingNode`, or the
loop budget of the embedding being used up. -/
inductive Outcome (α : Type) where
  | ok (a : α)
  | missingNode (id : NodeID)
  | outOfFuel
deriving DecidableEq, Repr

/-- The mutable data the two walks share: the table `differences`, the
remaining budget `maxCount`, and the log of the node resolutions made so far
(`true` marks a resolution on this map, `false` one on the other map). -/
structure WalkState where
  differences : Delta
  maxCount : Int
  resolved : List (Bool × NodeID)
deriving DecidableEq, Repr

/-- The statement pair `differences.insert (std::make_pair (k, v)); --maxCount`. -/
def WalkState.record (s : WalkState) (k : Nat) (v : DeltaRef) : WalkState :=
  { s with differences := s.differences.insert k v, maxCount := s.maxCount - 1 }

/-- The log entry of one `getNodePointer` call. -/
def WalkState.log (s : WalkState) (isFirstMap : Bool) (id : NodeID) : WalkState :=
  { s with resolved := (isFirstMap, id) :: s.resolved }

/-- The entry for an item found on one side only: `DeltaRef (item, null)` when
the item is of this map, `DeltaRef (null, item)` when it is of the other map. -/
def oneSided (ofThisMap : Bool) (item : SHAMapItem) : DeltaRef :=
  if ofThisMap then (some item, none) else (none, some item)

/-- The entry for a pair of items with the same tag: `node` is the item met in the
walked branch, `other` the single item of the opposite map. -/
def twoSided (isFirstMap : Bool) (node other : SHAMapItem) : DeltaRef :=
  if isFirstMap then (some node, some other) else (some other, some node)

/-! ## `SHAMap::walkBranch` -/

section Walk

variable {Hs : Type} [DecidableEq Hs]

/-- The `for` loop of `walkBranch` over the branch numbers `is`: every non-empty
branch is resolved and pushed. A failing resolution ends the loop with the ID of
the child. -/
def pushBranches (m : SHAMap Hs) (isFirstMap : Bool) (node : SHAMapTreeNode Hs) :
    List Nat → List (SHAMapTreeNode Hs) → WalkState →
      Except NodeID (List (SHAMapTreeNode Hs) × WalkState)
  | [], nodeStack, s => .ok (nodeStack, s)
  | i :: is, nodeStack, s =>
    match node.getChildHash i with
    | none => pushBranches m isFirstMap node is nodeStack s
    | some h =>
      match m.getNodePointer (node.getChildNodeID i) h with
      | none => .error (node.getChildNodeID i)
      | some child =>
        pushBranches m isFirstMap node is (child :: nodeStack)
          (s.log isFirstMap (node.getChildNodeID i))

/-- Lines 82-96 of `walkBranch`: when the single item of the opposite map is still
unmatched and its tag is below the tag of the leaf just met, it is added as an
unmatched item. `.error s` is `return false` in state `s`; `.ok` carries the new
value of `emptyBranch`. -/
def walkLeafOther (item : SHAMapItem) (otherMapItem : Option SHAMapItem) (isFirstMap : Bool)
    (emptyBranch : Bool) (s : WalkState) : Except WalkState (Bool × WalkState) :=
  match otherMapItem with
  | none => .ok (emptyBranch, s)
  | some other =>
    if !emptyBranch && other.tag < item.tag then
      let s1 := s.record other.tag (oneSided (!isFirstMap) other)
      if s1.maxCount ≤ 0 then .error s1 else .ok (true, s1)
    else .ok (emptyBranch, s)

/-- Lines 98-124 of `walkBranch`: the leaf is unmatched, or it has the tag of the
single item and is compared with it. -/
def walkLeafItem (item : SHAMapItem) (otherMapItem : Option SHAMapItem) (isFirstMap : Bool)
    (emptyBranch : Bool) (s : WalkState) : Except WalkState (Bool × WalkState) :=
  match otherMapItem with
  | none =>
    let s1 := s.record item.tag (oneSided isFirstMap item)
    if s1.maxCount ≤ 0 then .error s1 else .ok (emptyBranch, s1)
  | some other =>
    if emptyBranch || item.tag ≠ other.tag then
      let s1 := s.record item.tag (oneSided isFirstMap item)
      if s1.maxCount ≤ 0 then .error s1 else .ok (emptyBranch, s1)
    else if item.data ≠ other.data then
      let s1 := s.record other.tag (twoSided isFirstMap item other)
      if s1.maxCount ≤ 0 then .error s1 else .ok (true, s1)
    else .ok (true, s)

/-- The body of the loop of `walkBranch` for a leaf node (lines 79-124). -/
def walkLeaf (item : SHAMapItem) (otherMapItem : Option SHAMapItem) (isFirstMap : Bool)
    (emptyBranch : Bool) (s : WalkState) : Except WalkState (Bool × WalkState) :=
  match walkLeafOther item otherMapItem isFirstMap emptyBranch s with
  | .error s1 => .error s1
  | .ok (emptyBranch1, s1) => walkLeafItem item otherMapItem isFirstMap emptyBranch1 s1

/-- The code after the loop of `walkBranch` (lines 128-142): a single item that was
never matched is added. -/
def walkFinish (otherMapItem : Option SHAMapItem) (isFirstMap : Bool)
    (emptyBranch : Bool) (s : WalkState) : Bool × WalkState :=
  match otherMapItem with
  | none => (true, s)
  | some other =>
    if !emptyBranch then
      let s1 := s.record other.tag (oneSided (!isFirstMap) other)
      if s1.maxCount ≤ 0 then (false, s1) else (true, s1)
    else (true, s)

/-- The `while (!nodeStack.empty ())` loop of `walkBranch` followed by the code
after it. The stack is a list with its top first. -/
def walkBranchLoop (m : SHAMap Hs) (otherMapItem : Option SHAMapItem) (isFirstMap : Bool) :
    Nat → List (SHAMapTreeNode Hs) → Bool → WalkState → Outcome (Bool × WalkState)
  | _, [], emptyBranch, s => .ok (walkFinish otherMapItem isFirstMap emptyBranch s)
  | 0, _ :: _, _, _ => .outOfFuel
  | fuel + 1, node :: nodeStack, emptyBranch, s =>
    match node with
    | .inner _ _ =>
      match pushBranches m isFirstMap node (List.range 16) nodeStack s with
      | .error id => .missingNode id
      | .ok (nodeStack1, s1) =>
        walkBranchLoop m otherMapItem isFirstMap fuel nodeStack1 emptyBranch s1
    | .leaf _ item =>
      match walkLeaf item otherMapItem isFirstMap emptyBranch s with
      | .error s1 => .ok (false, s1)
      | .ok (emptyBranch1, s1) =>
        walkBranchLoop m otherMapItem isFirstMap fuel nodeStack emptyBranch1 s1

/-- The method `SHAMap::walkBranch (node, otherMapItem, isFirstMap, differences,
maxCount)` called on the map `m`; the two reference parameters are the state. -/
def SHAMap.walkBranch (m : SHAMap Hs) (fuel : Nat) (node : SHAMapTreeNode Hs)
    (otherMapItem : Option SHAMapItem) (isFirstMap : Bool) (s : WalkState) :
    Outcome (Bool × WalkState) :=
  walkBranchLoop m otherMapItem isFirstMap fuel [node] otherMapItem.isNone s

/-! ## `SHAMap::compare` -/

/-- The stack entry `SHAMapDeltaNode` of `compare`. -/
structure SHAMapDeltaNode (Hs : Type) where
  mNodeID : NodeID
  mOurHash : Hs
  mOtherHash : Hs

/-- A call of `walkBranch` from `compare` on a branch root that is first resolved:
`.ok (.error s)` is `return false`, `.ok (.ok s)` lets `compare` go on. -/
def walkResolved (m : SHAMap Hs) (fuel : Nat) (id : NodeID) (h : Hs) (isFirstMap : Bool)
    (s : WalkState) : Outcome (Except WalkState WalkState) :=
  match m.getNodePointer id h with
  | none => .missingNode id
  | some iNode =>
    match m.walkBranch fuel iNode none isFirstMap (s.log isFirstMap id) with
    | .ok (true, s1) => .ok (.ok s1)
    | .ok (false, s1) => .ok (.error s1)
    | .missingNode id1 => .missingNode id1
    | .outOfFuel => .outOfFuel

/-- The `for` loop of the inner/inner case of `compare` (lines 218-241) over the
branch numbers `is`. -/
def compareBranches (self other : SHAMap Hs) (fuel : Nat) (ourNode otherNode : SHAMapTreeNode Hs) :
    List Nat → List (SHAMapDeltaNode Hs) → WalkState →
      Outcome (Except WalkState (List (SHAMapDeltaNode Hs) × WalkState))
  | [], nodeStack, s => .ok (.ok (nodeStack, s))
  | i :: is, nodeStack, s =>
    if ourNode.getChildHash i ≠ otherNode.getChildHash i then
      match ourNode.getChildHash i, otherNode.getChildHash i with
      | some ourHash, none =>
        -- We have a branch, the other tree does not
        match walkResolved self fuel (ourNode.getChildNodeID i) ourHash true s with
        | .ok (.ok s1) => compareBranches self other fuel ourNode otherNode is nodeStack s1
        | .ok (.error s1) => .ok (.error s1)
        | .missingNode id => .missingNode id
        | .outOfFuel => .outOfFuel
      | none, some otherHash =>
        -- The other tree has a branch, we do not
        match walkResolved other fuel (otherNode.getChildNodeID i) otherHash false s with
        | .ok (.ok s1) => compareBranches self other fuel ourNode otherNode is nodeStack s1
        | .ok (.error s1) => .ok (.error s1)
        | .missingNode id => .missingNode id
        | .outOfFuel => .outOfFuel
      | some ourHash, some otherHash =>
        -- The two trees have different non-empty branches
        compareBranches self other fuel ourNode otherNode is
          (⟨ourNode.getChildNodeID i, ourHash, otherHash⟩ :: nodeStack) s
      | none, none => compareBranches self other fuel ourNode otherNode is nodeStack s
    else compareBranches self other fuel ourNode otherNode is nodeStack s

/-- The four-way case distinction of `compare` on a resolved pair of nodes
(lines 177-244). -/
def compareNodes (self other : SHAMap Hs) (fuel : Nat) (ourNode otherNode : SHAMapTreeNode Hs)
    (nodeStack : List (SHAMapDeltaNode Hs)) (s : WalkState) :
    Outcome (Except WalkState (List (SHAMapDeltaNode Hs) × WalkState)) :=
  match ourNode, otherNode with
  | .leaf _ ourItem, .leaf _ otherItem =>
    -- two leaves
    if ourItem.tag = otherItem.tag then
      if ourItem.data ≠ otherItem.data then
        let s1 := s.record ourItem.tag (some ourItem, some otherItem)
        if s1.maxCount ≤ 0 then .ok (.error s1) else .ok (.ok (nodeStack, s1))
      else .ok (.ok (nodeStack, s))
    else
      let s1 := s.record ourItem.tag (some ourItem, none)
      if s1.maxCount ≤ 0 then .ok (.error s1)
      else
        let s2 := s1.record otherItem.tag (none, some otherItem)
        if s2.maxCount ≤ 0 then .ok (.error s2) else .ok (.ok (nodeStack, s2))
  | .inner _ _, .leaf _ otherItem =>
    match self.walkBranch fuel ourNode (some otherItem) true s with
    | .ok (true, s1) => .ok (.ok (nodeStack, s1))
    | .ok (false, s1) => .ok (.error s1)
    | .missingNode id => .missingNode id
    | .outOfFuel => .outOfFuel
  | .leaf _ ourItem, .inner _ _ =>
    match other.walkBranch fuel otherNode (some ourItem) false s with
    | .ok (true, s1) => .ok (.ok (nodeStack, s1))
    | .ok (false, s1) => .ok (.error s1)
    | .missingNode id => .missingNode id
    | .outOfFuel => .outOfFuel
  | .inner _ _, .inner _ _ =>
    compareBranches self other fuel ourNode otherNode (List.range 16) nodeStack s

/-- The `while (!nodeStack.empty ())` loop of `compare` (lines 163-247). -/
def compareLoop (self other : SHAMap Hs) :
    Nat → List (SHAMapDeltaNode Hs) → WalkState → Outcome (Bool × WalkState)
  | _, [], s => .ok (true, s)
  | 0, _ :: _, _ => .outOfFuel
  | fuel + 1, dNode :: nodeStack, s =>
    match self.getNodePointer dNode.mNodeID dNode.mOurHash,
        other.getNodePointer dNode.mNodeID dNode.mOtherHash with
    | some ourNode, some otherNode =>
      match compareNodes self other fuel ourNode otherNode nodeStack
          ((s.log true dNode.mNodeID).log false dNode.mNodeID) with
      | .ok (.ok (nodeStack1, s1)) => compareLoop self other fuel nodeStack1 s1
      | .ok (.error s1) => .ok (false, s1)
      | .missingNode id => .missingNode id
      | .outOfFuel => .outOfFuel
    | _, _ => .missingNode dNode.mNodeID

/-- The method `SHAMap::compare (otherMap, differences, maxCount)` called on `self`.
The result is the returned flag with the final state: the table, what is left of
the budget, and the resolution log. -/
def SHAMap.compare (self other : SHAMap Hs) (fuel : Nat) (differences : Delta)
    (maxCount : Int) : Outcome (Bool × WalkState) :=
  if self.getHash = other.getHash then .ok (true, ⟨differences, maxCount, []⟩)
  else compareLoop self other fuel [⟨[], self.getHash, other.getHash⟩]
    ⟨differences, maxCount, []⟩

/-! ## `SHAMap::walkMap` -/

/-- The content of a caught `SHAMapMissingNode` that `walkMap` reports: the position
of the node that could not be resolved and the hash it was asked for with. -/
abbrev SHAMapMissingNode (Hs : Type) := NodeID × Hs

/-- The `for` loop of `walkMap` (lines 388-405) over the branch numbers `is`. The
call `getNode (id, hash, false)` is the node resolution of the map, a thrown
`SHAMapMissingNode` being the answer `none`. `.error` is the `return` at line 403
with the list as it then stands. -/
def walkMapBranches (m : SHAMap Hs) (node : SHAMapTreeNode Hs) :
    List Nat → List (SHAMapTreeNode Hs) → List (SHAMapMissingNode Hs) → Int →
      Except (List (SHAMapMissingNode Hs))
        (List (SHAMapTreeNode Hs) × List (SHAMapMissingNode Hs) × Int)
  | [], nodeStack, missingNodes, maxMissing => .ok (nodeStack, missingNodes, maxMissing)
  | i :: is, nodeStack, missingNodes, maxMissing =>
    match node.getChildHash i with
    | none => walkMapBranches m node is nodeStack missingNodes maxMissing
    | some h =>
      match m.getNodePointer (node.getChildNodeID i) h with
      | some (.inner id hashes) =>
        walkMapBranches m node is (.inner id hashes :: nodeStack) missingNodes maxMissing
      | some (.leaf _ _) => walkMapBranches m node is nodeStack missingNodes maxMissing
      | none =>
        if maxMissing - 1 ≤ 0 then .error (missingNodes ++ [(node.getChildNodeID i, h)])
        else
          walkMapBranches m node is nodeStack (missingNodes ++ [(node.getChildNodeID i, h)])
            (maxMissing - 1)

/-- The `while (!nodeStack.empty ())` loop of `walkMap` (lines 383-406). -/
def walkMapLoop (m : SHAMap Hs) :
    Nat → List (SHAMapTreeNode Hs) → List (SHAMapMissingNode Hs) → Int →
      Outcome (List (SHAMapMissingNode Hs))
  | _, [], missingNodes, _ => .ok missingNodes
  | 0, _ :: _, _, _ => .outOfFuel
  | fuel + 1, node :: nodeStack, missingNodes, maxMissing =>
    match walkMapBranches m node (List.range 16) nodeStack missingNodes maxMissing with
    | .error missingNodes1 => .ok missingNodes1
    | .ok (nodeStack1, missingNodes1, maxMissing1) =>
      walkMapLoop m fuel nodeStack1 missingNodes1 maxMissing1

/-- The method `SHAMap::walkMap (missingNodes, maxMissing)` called on the map `m`
whose member `root` is the node `root`; the result is the vector `missingNodes`
after the call. -/
def SHAMap.walkMap (m : SHAMap Hs) (root : SHAMapTreeNode Hs) (fuel : Nat)
    (missingNodes : List (SHAMapMissingNode Hs)) (maxMissing : Int) :
    Outcome (List (SHAMapMissingNode Hs)) :=
  match root with
  | .leaf _ _ => .ok missingNodes
  | .inner _ _ => walkMapLoop m fuel [root] missingNodes maxMissing

end Walk

/-! ## Well-formed trees -/

/-- Modelled from the spec: the hash tree behind a `SHAMap` (node representation and
storage are not part of `SHAMapDelta.cpp`): a leaf with its item, or an inner node
with its branch slots, each empty or holding a child. -/
inductive Trie where
  | leaf (item : SHAMapItem)
  | inner (branches : List (Option Trie))

namespace Trie

/-- The child in branch `i`. -/
def child : Trie → Nat → Option Trie
  | leaf _, _ => none
  | inner bs, i => bs[i]?.join

/-- The node at a position, walking down from this node. -/
def sub : Trie → NodeID → Option Trie
  | t, [] => some t
  | t, i :: rest =>
    match t.child i with
    | none => none
    | some c => c.sub rest

mutual
/-- The items of the leaves below a node, branch 0 first. -/
def leaves : Trie → List SHAMapItem
  | leaf item => [item]
  | inner bs => leavesList bs
/-- The items of the leaves below a list of branches. -/
def leavesList : List (Option Trie) → List SHAMapItem
  | [] => []
  | none :: rest => leavesList rest
  | some t :: rest => leaves t ++ leavesList rest
end

mutual
/-- The number of nodes of a tree. -/
def size : Trie → Nat
  | leaf _ => 1
  | inner bs => 1 + sizeList bs
/-- The number of nodes below a list of branches. -/
def sizeList : List (Option Trie) → Nat
  | [] => 0
  | none :: rest => sizeList rest
  | some t :: rest => size t + sizeList rest
end

mutual
/-- Equality of two trees is decidable. -/
def decEq : (a b : Trie) → Decidable (a = b)
  | leaf x, leaf y =>
    if h : x = y then isTrue (by rw [h]) else isFalse (fun e => h (leaf.inj e))
  | inner as, inner bs =>
    match decEqList as bs with
    | isTrue h => isTrue (by rw [h])
    | isFalse h => isFalse (fun e => h (inner.inj e))
  | leaf _, inner _ => isFalse (fun e => Trie.noConfusion e)
  | inner _, leaf _ => isFalse (fun e => Trie.noConfusion e)
/-- Equality of two branch lists is decidable. -/
def decEqList : (as bs : List (Option Trie)) → Decidable (as = bs)
  | [], [] => isTrue rfl
  | none :: r, none :: s =>
    match decEqList r s with
    | isTrue h => isTrue (by rw [h])
    | isFalse h => isFalse (fun e => h (List.cons.inj e).2)
  | some a :: r, some b :: s =>
    match decEq a b, decEqList r s with
    | isTrue h1, isTrue h2 => isTrue (by rw [h1, h2])
    | isFalse h1, _ => isFalse (fun e => h1 (Option.some.inj (List.cons.inj e).1))
    | _, isFalse h2 => isFalse (fun e => h2 (List.cons.inj e).2)
  | [], _ :: _ => isFalse (fun e => List.noConfusion e)
  | _ :: _, [] => isFalse (fun e => List.noConfusion e)
  | none :: _, some _ :: _ => isFalse (fun e => Option.noConfusion (List.cons.inj e).1)
  | some _ :: _, none :: _ => isFalse (fun e => Option.noConfusion (List.cons.inj e).1)
end

instance : DecidableEq Trie := decEq

end Trie

/-- Modelled from the spec: the branch number of a tag at a depth
(`SHAMapNode::selectBranch`), the nibbles of the 256-bit tag, most significant
first. This is the placement under which the left-to-right order of the leaves is
the order of their tags, which `walkBranch` relies on when it compares tags
with `<`. -/
def selectBranch (depth : Nat) (tag : Nat) : Nat :=
  (tag / 16 ^ (63 - depth)) % 16

/-- The 64 nibbles of a tag, most significant first. -/
def nibbles (tag : Nat) : List Nat :=
  (List.range 64).map (fun d => selectBranch d tag)

namespace Trie

mutual
/-- Well-formedness of the tree at position `id`: every inner node has 16 branch
slots and lies above depth 64, and every leaf holds a 256-bit tag whose nibbles
begin with the position of the leaf. -/
def wf : NodeID → Trie → Bool
  | id, leaf item => decide (item.tag < 16 ^ 64) && decide (id <+: nibbles item.tag)
  | id, inner bs => decide (bs.length = 16) && wfList id 0 bs
/-- Well-formedness of the branches from number `i` on of the node at `id`. -/
def wfList : NodeID → Nat → List (Option Trie) → Bool
  | _, _, [] => true
  | id, i, none :: rest => wfList id (i + 1) rest
  | id, i, some t :: rest => wf (id ++ [i]) t && wfList id (i + 1) rest
end

end Trie

/-- A content hash on trees: the hash a map declares for a node. -/
structure Hasher (Hs : Type) where
  hashOf : Trie → Hs

/-- The node object the map hands out for the tree `t` at position `id`. -/
def Trie.toNode {Hs : Type} (hs : Hasher Hs) (id : NodeID) : Trie → SHAMapTreeNode Hs
  | .leaf item => .leaf id item
  | .inner bs => .inner id (bs.map (fun b => b.map hs.hashOf))

/-- The map whose nodes are those of the tree `t`: the root hash is the hash of
`t`, and a position resolves when the tree has a node there with the hash asked
for. -/
def SHAMap.ofTrie {Hs : Type} [DecidableEq Hs] (hs : Hasher Hs) (t : Trie) : SHAMap Hs where
  getHash := hs.hashOf t
  getNodePointer := fun id h =>
    match t.sub id with
    | none => none
    | some c => if hs.hashOf c = h then some (c.toNode hs id) else none

/-- The hash that is the content itself: no two contents collide. -/
def contentHasher : Hasher Trie where
  hashOf := id

/-- Modelled from the spec: the subtree for the items that share a position at depth
`depth` (the trie is keyed by the nibbles of the tags): no node for no item, a leaf
for a single item, otherwise an inner node with the items distributed over its
branches. -/
def buildNode : Nat → Nat → List SHAMapItem → Option Trie
  | _, _, [] => none
  | _, _, [item] => some (.leaf item)
  | 0, _, _ => none
  | fuel + 1, depth, items =>
    some (.inner ((List.range 16).map (fun i =>
      buildNode fuel (depth + 1) (items.filter (fun x => selectBranch depth x.tag = i)))))

/-- Modelled from the spec: the tree holding a set of items. The root is an inner
node; below it every item sits at the first depth at which no other item shares its
nibbles. -/
def Trie.ofItems (items : List SHAMapItem) : Trie :=
  .inner ((List.range 16).map (fun i =>
    buildNode 64 1 (items.filter (fun x => selectBranch 0 x.tag = i))))

/-- The returned flag and the table of a finished call. -/
def Outcome.result : Outcome (Bool × WalkState) → Option (Bool × Delta)
  | .ok (b, s) => some (b, s.differences)
  | _ => none

/-- The node resolutions a finished call has made. -/
def Outcome.resolutions : Outcome (Bool × WalkState) → Option (List (Bool × NodeID))
  | .ok (_, s) => some s.resolved
  | _ => none

/-! ## `SHAMap::integrate` -/

/-- Modelled from the spec: the leaf content of the tree that `integrate` mutates,
as the list of its items in tag order. The mutation primitives `hasItem`,
`updateGiveItem`, `delItem` and `addGiveItem` are not defined in
`SHAMapDelta.cpp`; they act on this content. -/
abbrev LeafMap := List SHAMapItem

namespace LeafMap

/-- Modelled from the spec: `hasItem (tag)`, whether a leaf with the tag exists. -/
def hasItem (m : LeafMap) (tag : Nat) : Bool :=
  m.any (fun x => decide (x.tag = tag))

/-- Modelled from the spec: `updateGiveItem (item, ..)`, the payload of the leaf
with the tag of the item is replaced. -/
def updateGiveItem (m : LeafMap) (item : SHAMapItem) : LeafMap :=
  m.map (fun x => if x.tag = item.tag then item else x)

/-- Modelled from the spec: `delItem (tag)`, the leaf with the tag is removed. -/
def delItem (m : LeafMap) (tag : Nat) : LeafMap :=
  m.filter (fun x => decide (x.tag ≠ tag))

/-- Modelled from the spec: `addGiveItem (item, ..)`, a leaf for the item is added
(in tag order) when no leaf has its tag. -/
def addGiveItem : LeafMap → SHAMapItem → LeafMap
  | [], item => [item]
  | x :: rest, item =>
    if item.tag < x.tag then item :: x :: rest
    else if item.tag = x.tag then x :: rest
    else x :: addGiveItem rest item

end LeafMap

/-- The first loop of the three-set `integrate` (lines 284-297), on the pair of
`ret_val` and the leaf content. -/
def integrateModified (st : Bool × LeafMap) (modified_leaves : List SHAMapItem) :
    Bool × LeafMap :=
  modified_leaves.foldl (fun st leaf =>
    if st.2.hasItem leaf.tag then (st.1, st.2.updateGiveItem leaf) else (false, st.2)) st

/-- The second loop of the three-set `integrate` (lines 299-312). -/
def integrateDeleted (st : Bool × LeafMap) (deleted_leaves : List SHAMapItem) :
    Bool × LeafMap :=
  deleted_leaves.foldl (fun st leaf =>
    if st.2.hasItem leaf.tag then (st.1, st.2.delItem leaf.tag) else (false, st.2)) st

/-- The third loop of the three-set `integrate` (lines 314-327). -/
def integrateNew (st : Bool × LeafMap) (new_leaves : List SHAMapItem) : Bool × LeafMap :=
  new_leaves.foldl (fun st leaf =>
    if !st.2.hasItem leaf.tag then (st.1, st.2.addGiveItem leaf) else (false, st.2)) st

/-- The three-set `SHAMap::integrate (modified_leaves, deleted_leaves, new_leaves)`
on a tree with the leaf content `leaves`: the returned `ret_val` and the leaf
content afterwards. Each `std::set` is given as the list of its items in iteration
order. -/
def SHAMap.integrate (leaves : LeafMap) (modified_leaves deleted_leaves new_leaves :
    List SHAMapItem) : Bool × LeafMap :=
  integrateNew (integrateDeleted (integrateModified (true, leaves) modified_leaves)
    deleted_leaves) new_leaves

/-- The single-set overload `SHAMap::integrate (transaction_without_meta_data_leaves)`
(lines 334-369) on a tree with the leaf content `leaves`: the returned `ret_val` and
the leaf content afterwards. -/
def SHAMap.integrateSingle (leaves : LeafMap)
    (transaction_without_meta_data_leaves : List SHAMapItem) : Bool × LeafMap :=
  transaction_without_meta_data_leaves.foldl (fun st leaf =>
    if st.2.hasItem leaf.tag then (st.1, st.2.updateGiveItem leaf)
    else (st.1, st.2.addGiveItem leaf)) (true, leaves)

/-- Modelled from the spec: the caller's partition of a table by populated sides.
An entry with both sides goes to the modified set with the item of the other tree,
an entry with our side only to the deleted set, an entry with their side only to the
new set. The result is (modified, deleted, new). -/
def partitionDelta (d : Delta) : List SHAMapItem × List SHAMapItem × List SHAMapItem :=
  (d.filterMap (fun e => match e.2 with
      | (some _, some theirs) => some theirs
      | _ => none),
   d.filterMap (fun e => match e.2 with
      | (some ours, none) => some ours
      | _ => none),
   d.filterMap (fun e => match e.2 with
      | (none, some theirs) => some theirs
      | _ => none))

/-! ## The trees of the concrete scenario -/

/-- Tree A of the scenario: leaves 10 with payload "x" and 20 with payload "y"
(payloads as byte lists). -/
def scenarioA : Trie := Trie.ofItems [⟨10, [120]⟩, ⟨20, [121]⟩]

/-- Tree B of the scenario: leaves 10 "x", 20 "z" and 30 "w". -/
def scenarioB : Trie := Trie.ofItems [⟨10, [120]⟩, ⟨20, [122]⟩, ⟨30, [119]⟩]

/-- The scenario with an unchanged leaf 20: leaves 10 "x", 20 "y" and 30 "w". -/
def scenarioC : Trie := Trie.ofItems [⟨10, [120]⟩, ⟨20, [121]⟩, ⟨30, [119]⟩]

/-- A tag whose first nibble is 1 and whose other nibbles are zero. -/
def tagOne : Nat := 1 * 16 ^ 63

/-- A tree with the single leaf `tagOne` with payload 1. -/
def singleA : Trie := Trie.ofItems [⟨tagOne, [1]⟩]

/-- A tree with the single leaf `tagOne` with payload 2. -/
def singleB : Trie := Trie.ofItems [⟨tagOne, [2]⟩]

/-- A tree with the single leaf `tagOne + 1` with payload 2; the leaf has the
position of the leaf of `singleA`. -/
def singleC : Trie := Trie.ofItems [⟨tagOne + 1, [2]⟩]

/-- A tag whose first nibble is 2 and whose other nibbles are zero. -/
def tagTwo : Nat := 2 * 16 ^ 63

/-- A tree with a leaf in branch 1 of the root and an inner node in branch 2 that
has a leaf in its branches 0 and 1. -/
def forkTree : Trie :=
  Trie.ofItems [⟨tagOne, [1]⟩, ⟨tagTwo, [2]⟩, ⟨tagTwo + 16 ^ 62, [3]⟩]

/-- The positions of `forkTree` other than the leaf in branch 1 of the root and the
leaf in branch 1 of the inner node below the root. -/
def forkAvail (id : NodeID) : Bool := !(id == [1] || id == [2, 1])

/-- What a walk does to the shared state, one step at a time. -/
inductive Event where
  | record (k : Nat) (v : DeltaRef)
  | log (isFirstMap : Bool) (id : NodeID)
deriving DecidableEq, Repr

/-- The two ways a walk ends without returning. -/
inductive Failure where
  | missingNode (id : NodeID)
  | outOfFuel
deriving DecidableEq, Repr

/-- The events of a computation that never looks at the budget, with what it
yields at its end. -/
structure Trace (α : Type) where
  events : List Event
  result : Except Failure α

namespace Trace

variable {α β : Type}

/-- The computation that does nothing and yields `a`. -/
def pure (a : α) : Trace α := ⟨[], .ok a⟩

/-- The computation that fails at once. -/
def fail (f : Failure) : Trace α := ⟨[], .error f⟩

/-- The computation `t` preceded by the events `evs`. -/
def emit (evs : List Event) (t : Trace α) : Trace α := ⟨evs ++ t.events, t.result⟩

/-- Sequencing: `f` runs on what `t` yields, unless `t` fails. -/
def bind (t : Trace α) (f : α → Trace β) : Trace β :=
  match t.result with
  | .ok a => (f a).emit t.events
  | .error e => ⟨t.events, .error e⟩

end Trace

/-- The state after one event. -/
def WalkState.apply (s : WalkState) : Event → WalkState
  | .record k v => s.record k v
  | .log b id => s.log b id

/-- The events replayed against a budget: after every `record` the budget is
checked, and the replay stops with `.error` (the walk returns `false`) in the
state reached once the budget is no longer positive. -/
def replayEvents : List Event → WalkState → Except WalkState WalkState
  | [], s => .ok s
  | .log b id :: es, s => replayEvents es (s.log b id)
  | .record k v :: es, s =>
    if (s.record k v).maxCount ≤ 0 then .error (s.record k v)
    else replayEvents es (s.record k v)

/-- A budget-free computation run against a budget. -/
def Trace.run {α : Type} (t : Trace α) (s : WalkState) :
    Outcome (Except WalkState (α × WalkState)) :=
  match replayEvents t.events s with
  | .error s1 => .ok (.error s1)
  | .ok s1 =>
    match t.result with
    | .ok a => .ok (.ok (a, s1))
    | .error (.missingNode id) => .missingNode id
    | .error .outOfFuel => .outOfFuel

/-- The outcome of a loop in the shape the methods return it. -/
def lower : Outcome (Except WalkState (Unit × WalkState)) → Outcome (Bool × WalkState)
  | .ok (.ok (_, s)) => .ok (true, s)
  | .ok (.error s) => .ok (false, s)
  | .missingNode id => .missingNode id
  | .outOfFuel => .outOfFuel

section TraceWalk

variable {Hs : Type} [DecidableEq Hs]

/-- The events of `pushBranches`. -/
def pushTrace (m : SHAMap Hs) (isFirstMap : Bool) (node : SHAMapTreeNode Hs) :
    List Nat → List (SHAMapTreeNode Hs) → Trace (List (SHAMapTreeNode Hs))
  | [], nodeStack => .pure nodeStack
  | i :: is, nodeStack =>
    match node.getChildHash i with
    | none => pushTrace m isFirstMap node is nodeStack
    | some h =>
      match m.getNodePointer (node.getChildNodeID i) h with
      | none => .fail (.missingNode (node.getChildNodeID i))
      | some child =>
        (pushTrace m isFirstMap node is (child :: nodeStack)).emit
          [.log isFirstMap (node.getChildNodeID i)]

/-- The events of `walkLeafOther`, yielding the new value of `emptyBranch`. -/
def walkLeafOtherTrace (item : SHAMapItem) (otherMapItem : Option SHAMapItem)
    (isFirstMap : Bool) (emptyBranch : Bool) : Trace Bool :=
  match otherMapItem with
  | none => .pure emptyBranch
  | some other =>
    if !emptyBranch && other.tag < item.tag then
      ⟨[.record other.tag (oneSided (!isFirstMap) other)], .ok true⟩
    else .pure emptyBranch

/-- The events of `walkLeafItem`, yielding the new value of `emptyBranch`. -/
def walkLeafItemTrace (item : SHAMapItem) (otherMapItem : Option SHAMapItem)
    (isFirstMap : Bool) (emptyBranch : Bool) : Trace Bool :=
  match otherMapItem with
  | none => ⟨[.record item.tag (oneSided isFirstMap item)], .ok emptyBranch⟩
  | some other =>
    if emptyBranch || item.tag ≠ other.tag then
      ⟨[.record item.tag (oneSided isFirstMap item)], .ok emptyBranch⟩
    else if item.data ≠ other.data then
      ⟨[.record other.tag (twoSided isFirstMap item other)], .ok true⟩
    else .pure true

/-- The events of `walkLeaf`. -/
def walkLeafTrace (item : SHAMapItem) (otherMapItem : Option SHAMapItem)
    (isFirstMap : Bool) (emptyBranch : Bool) : Trace Bool :=
  (walkLeafOtherTrace item otherMapItem isFirstMap emptyBranch).bind
    (fun emptyBranch1 => walkLeafItemTrace item otherMapItem isFirstMap emptyBranch1)

/-- The events of `walkFinish`. -/
def walkFinishTrace (otherMapItem : Option SHAMapItem) (isFirstMap : Bool)
    (emptyBranch : Bool) : Trace Unit :=
  match otherMapItem with
  | none => .pure ()
  | some other =>
    if !emptyBranch then ⟨[.record other.tag (oneSided (!isFirstMap) other)], .ok ()⟩
    else .pure ()

/-- The events of `walkBranchLoop`. -/
def walkTraceLoop (m : SHAMap Hs) (otherMapItem : Option SHAMapItem) (isFirstMap : Bool) :
    Nat → List (SHAMapTreeNode Hs) → Bool → Trace Unit
  | _, [], emptyBranch => walkFinishTrace otherMapItem isFirstMap emptyBranch
  | 0, _ :: _, _ => .fail .outOfFuel
  | fuel + 1, node :: nodeStack, emptyBranch =>
    match node with
    | .inner _ _ =>
      (pushTrace m isFirstMap node (List.range 16) nodeStack).bind
        (fun nodeStack1 => walkTraceLoop m otherMapItem isFirstMap fuel nodeStack1 emptyBranch)
    | .leaf _ item =>
      (walkLeafTrace item otherMapItem isFirstMap emptyBranch).bind
        (fun emptyBranch1 => walkTraceLoop m otherMapItem isFirstMap fuel nodeStack emptyBranch1)

/-- The events of `SHAMap.walkBranch`. -/
def walkBranchTrace (m : SHAMap Hs) (fuel : Nat) (node : SHAMapTreeNode Hs)
    (otherMapItem : Option SHAMapItem) (isFirstMap : Bool) : Trace Unit :=
  walkTraceLoop m otherMapItem isFirstMap fuel [node] otherMapItem.isNone

/-- The events of `walkResolved`. -/
def walkResolvedTrace (m : SHAMap Hs) (fuel : Nat) (id : NodeID) (h : Hs)
    (isFirstMap : Bool) : Trace Unit :=
  match m.getNodePointer id h with
  | none => .fail (.missingNode id)
  | some iNode => (walkBranchTrace m fuel iNode none isFirstMap).emit [.log isFirstMap id]

/-- The events of `compareBranches`, yielding the stack. -/
def compareBranchesTrace (self other : SHAMap Hs) (fuel : Nat)
    (ourNode otherNode : SHAMapTreeNode Hs) :
    List Nat → List (SHAMapDeltaNode Hs) → Trace (List (SHAMapDeltaNode Hs))
  | [], nodeStack => .pure nodeStack
  | i :: is, nodeStack =>
    if ourNode.getChildHash i ≠ otherNode.getChildHash i then
      match ourNode.getChildHash i, otherNode.getChildHash i with
      | some ourHash, none =>
        (walkResolvedTrace self fuel (ourNode.getChildNodeID i) ourHash true).bind
          (fun _ => compareBranchesTrace self other fuel ourNode otherNode is nodeStack)
      | none, some otherHash =>
        (walkResolvedTrace other fuel (otherNode.getChildNodeID i) otherHash false).bind
          (fun _ => compareBranchesTrace self other fuel ourNode otherNode is nodeStack)
      | some ourHash, some otherHash =>
        compareBranchesTrace self other fuel ourNode otherNode is
          (⟨ourNode.getChildNodeID i, ourHash, otherHash⟩ :: nodeStack)
      | none, none => compareBranchesTrace self other fuel ourNode otherNode is nodeStack
    else compareBranchesTrace self other fuel ourNode otherNode is nodeStack

/-- The events of `compareNodes`, yielding the stack. -/
def compareNodesTrace (self other : SHAMap Hs) (fuel : Nat)
    (ourNode otherNode : SHAMapTreeNode Hs) (nodeStack : List (SHAMapDeltaNode Hs)) :
    Trace (List (SHAMapDeltaNode Hs)) :=
  match ourNode, otherNode with
  | .leaf _ ourItem, .leaf _ otherItem =>
    if ourItem.tag = otherItem.tag then
      if ourItem.data ≠ otherItem.data then
        ⟨[.record ourItem.tag (some ourItem, some otherItem)], .ok nodeStack⟩
      else .pure nodeStack
    else
      ⟨[.record ourItem.tag (some ourItem, none),
        .record otherItem.tag (none, some otherItem)], .ok nodeStack⟩
  | .inner _ _, .leaf _ otherItem =>
    (walkBranchTrace self fuel ourNode (some otherItem) true).bind (fun _ => .pure nodeStack)
  | .leaf _ ourItem, .inner _ _ =>
    (walkBranchTrace other fuel otherNode (some ourItem) false).bind (fun _ => .pure nodeStack)
  | .inner _ _, .inner _ _ =>
    compareBranchesTrace self other fuel ourNode otherNode (List.range 16) nodeStack

/-- The events of `compareLoop`. -/
def compareTraceLoop (self other : SHAMap Hs) :
    Nat → List (SHAMapDeltaNode Hs) → Trace Unit
  | _, [] => .pure ()
  | 0, _ :: _ => .fail .outOfFuel
  | fuel + 1, dNode :: nodeStack =>
    match self.getNodePointer dNode.mNodeID dNode.mOurHash,
        other.getNodePointer dNode.mNodeID dNode.mOtherHash with
    | some ourNode, some otherNode =>
      ((compareNodesTrace self other fuel ourNode otherNode nodeStack).bind
        (fun nodeStack1 => compareTraceLoop self other fuel nodeStack1)).emit
        [.log true dNode.mNodeID, .log false dNode.mNodeID]
    | _, _ => .fail (.missingNode dNode.mNodeID)

/-- The events of `SHAMap.compare`. -/
def compareTrace (self other : SHAMap Hs) (fuel : Nat) : Trace Unit :=
  if self.getHash = other.getHash then .pure ()
  else compareTraceLoop self other fuel [⟨[], self.getHash, other.getHash⟩]

end TraceWalk


/-! ## Notions used to state the properties -/

/-- The `record` events of a list of events, in order. -/
def recordsOf : List Event → List (Nat × DeltaRef)
  | [] => []
  | .record k v :: es => (k, v) :: recordsOf es
  | .log _ _ :: es => recordsOf es

/-- The table after a list of insertions. -/
def Delta.insertAll (d : Delta) (rs : List (Nat × DeltaRef)) : Delta :=
  rs.foldl (fun d r => d.insert r.1 r.2) d

/-- The keys of a table. -/
def Delta.keys (d : Delta) : List Nat := d.map Prod.fst

/-- The keys of a table are strictly increasing. -/
def Delta.Sorted (d : Delta) : Prop := d.Pairwise (fun a b => a.1 < b.1)

/-- The state in which a replay ends, whether it was stopped or not. -/
def stateOf : Except WalkState WalkState → WalkState
  | .ok s => s
  | .error s => s

/-- An entry of the table is attributed to the two leaf sets `ours` and `theirs`:
its first item, when present, is an item of `ours` with the key as its tag, its
second item, when present, is an item of `theirs` with the key as its tag, not both
are absent, and two items that are both present differ in their payload. -/
def Attributed (ours theirs : List SHAMapItem) (r : Nat × DeltaRef) : Prop :=
  (∀ x, r.2.1 = some x → x ∈ ours ∧ x.tag = r.1) ∧
  (∀ y, r.2.2 = some y → y ∈ theirs ∧ y.tag = r.1) ∧
  (r.2.1 ≠ none ∨ r.2.2 ≠ none) ∧
  (∀ x y, r.2.1 = some x → r.2.2 = some y → x.data ≠ y.data)

/-- The differing tags of two leaf sets, each once: the tags of the items of
either set that the other set does not hold with the same payload. -/
def differingTags (ours theirs : List SHAMapItem) : List Nat :=
  ((ours.filter (fun a => decide (a ∉ theirs))).map (fun a => a.tag) ++
    (theirs.filter (fun b => decide (b ∉ ours))).map (fun b => b.tag)).dedup

/-- The true number of differing tags of two leaf sets. -/
def diffCount (ours theirs : List SHAMapItem) : Nat :=
  (differingTags ours theirs).length

/-- The items below an optional child. -/
def Trie.leavesOpt : Option Trie → List SHAMapItem
  | none => []
  | some t => t.leaves

/-- The number of nodes of an optional child. -/
def Trie.sizeOpt : Option Trie → Nat
  | none => 0
  | some t => t.size

/-- What a walk over the leaves `leaves` with the single item `other` may record:
a leaf as unmatched, the single item as unmatched, or a leaf paired with the single
item of the same tag and a different payload. -/
def WalkAttr (other : Option SHAMapItem) (isFirstMap : Bool) (leaves : List SHAMapItem)
    (r : Nat × DeltaRef) : Prop :=
  (∃ x ∈ leaves, r = (x.tag, oneSided isFirstMap x)) ∨
  (∃ y, other = some y ∧ r = (y.tag, oneSided (!isFirstMap) y)) ∨
  (∃ x ∈ leaves, ∃ y, other = some y ∧ x.tag = y.tag ∧ x.data ≠ y.data ∧
    r = (y.tag, twoSided isFirstMap x y))

section Ghost

variable {Hs : Type}

/-- The node objects of a list of positioned trees. -/
def nodesOf (hs : Hasher Hs) (ts : List (NodeID × Trie)) : List (SHAMapTreeNode Hs) :=
  ts.map (fun p => p.2.toNode hs p.1)

/-- The items below a list of positioned trees. -/
def leavesOf (ts : List (NodeID × Trie)) : List SHAMapItem :=
  ts.flatMap (fun p => p.2.leaves)

/-- The number of nodes of a list of positioned trees. -/
def totalSize (ts : List (NodeID × Trie)) : Nat :=
  (ts.map (fun p => p.2.size)).sum

/-- The children of the tree `t` at `id` in the branches `is`, with their
positions. -/
def kids (id : NodeID) (t : Trie) (is : List Nat) : List (NodeID × Trie) :=
  is.filterMap (fun i => (t.child i).map (fun c => (id ++ [i], c)))

end Ghost

section GhostPairs

variable {Hs : Type}

/-- The stack entries of a list of positioned pairs of trees. -/
def deltaNodesOf (hs : Hasher Hs) (ps : List (NodeID × Trie × Trie)) :
    List (SHAMapDeltaNode Hs) :=
  ps.map (fun p => ⟨p.1, hs.hashOf p.2.1, hs.hashOf p.2.2⟩)

/-- The pairs of different children that the trees `a` and `b` at `id` both have
in the branches `is`, with their positions. -/
def pairKids (id : NodeID) (a b : Trie) (is : List Nat) : List (NodeID × Trie × Trie) :=
  is.filterMap (fun i =>
    match a.child i, b.child i with
    | some x, some y => if x = y then none else some (id ++ [i], x, y)
    | _, _ => none)

/-- The number of nodes of a list of positioned pairs of trees. -/
def pairSize (ps : List (NodeID × Trie × Trie)) : Nat :=
  (ps.map (fun p => p.2.1.size + p.2.2.size)).sum

end GhostPairs

/-- A record with its two sides exchanged. -/
def swapRecord (r : Nat × DeltaRef) : Nat × DeltaRef := (r.1, (r.2.2, r.2.1))

/-- Two lists of insertions that are the same up to the exchange of the two sides
in every record and up to the order of two neighbouring insertions with different
keys. -/
inductive SwapEquiv : List (Nat × DeltaRef) → List (Nat × DeltaRef) → Prop where
  | nil : SwapEquiv [] []
  | cons (r : Nat × DeltaRef) {rs rs' : List (Nat × DeltaRef)} :
      SwapEquiv rs rs' → SwapEquiv (r :: rs) (swapRecord r :: rs')
  | pair (r1 r2 : Nat × DeltaRef) {rs rs' : List (Nat × DeltaRef)} :
      r1.1 ≠ r2.1 → SwapEquiv rs rs' →
      SwapEquiv (r1 :: r2 :: rs) (swapRecord r2 :: swapRecord r1 :: rs')

/-- Two budget-free computations whose results correspond under `g` and whose
insertions are the same up to the exchange of sides. -/
def RecEquiv {α β : Type} (g : α → β) (t : Trace α) (t' : Trace β) : Prop :=
  t'.result = t.result.map g ∧ SwapEquiv (recordsOf t.events) (recordsOf t'.events)

/-- A stack entry of `compare` with its two hashes exchanged. -/
def swapNode {Hs : Type} (d : SHAMapDeltaNode Hs) : SHAMapDeltaNode Hs :=
  ⟨d.mNodeID, d.mOtherHash, d.mOurHash⟩

/-- A map hands out, for a position, a node that carries that position. -/
def SHAMap.Faithful {Hs : Type} (m : SHAMap Hs) : Prop :=
  ∀ id h n, m.getNodePointer id h = some n → n.getID = id

/-- Content addressing for a pair of trees: two nodes at the same position of the
two trees that have the same hash are the same node. -/
def CollisionFree {Hs : Type} (hs : Hasher Hs) (ours theirs : Trie) : Prop :=
  ∀ id a b, ours.sub id = some a → theirs.sub id = some b →
    hs.hashOf a = hs.hashOf b → a = b

/-- An entry of the table is well formed: at least one side is present, every item
present has the key as its tag, and two items that are both present have the same
tag and different payloads. -/
def EntryWF (e : Nat × DeltaRef) : Prop :=
  (e.2.1 ≠ none ∨ e.2.2 ≠ none) ∧
  (∀ x, e.2.1 = some x → x.tag = e.1) ∧
  (∀ y, e.2.2 = some y → y.tag = e.1) ∧
  (∀ x y, e.2.1 = some x → e.2.2 = some y → x.tag = y.tag ∧ x.data ≠ y.data)

/-- The leaves below a stack of positioned trees in the order in which a walk that
pops the top of the stack and pushes the branches 0 to 15 of an inner node meets
them. -/
def visitOrder (ts : List (NodeID × Trie)) : List SHAMapItem :=
  ts.flatMap (fun p => p.2.leaves.reverse)

/-! ## Notions used to state the properties of `integrate` -/

namespace LeafMap

/-- The leaf with a tag, if the content has one. -/
def peekItem (m : LeafMap) (tag : Nat) : Option SHAMapItem :=
  m.find? (fun x => decide (x.tag = tag))

/-- The tags of the content are strictly increasing: the leaves are in tag order
and no two have the same tag. -/
def Sorted (m : LeafMap) : Prop := m.Pairwise (fun a b => a.tag < b.tag)

end LeafMap

/-- The three sets an item of the three-set `integrate` can come from. -/
inductive LeafKind where
  | modified
  | deleted
  | new
deriving DecidableEq, Repr

/-- The precondition of an item in the words of the specification: the tag of a
modified or deleted item is present, the tag of a new item is absent. -/
def LeafKind.precondition : LeafKind → LeafMap → SHAMapItem → Bool
  | .modified, m, x => m.hasItem x.tag
  | .deleted, m, x => m.hasItem x.tag
  | .new, m, x => !m.hasItem x.tag

/-- What an item whose precondition holds does to the content. -/
def LeafKind.perform : LeafKind → LeafMap → SHAMapItem → LeafMap
  | .modified, m, x => m.updateGiveItem x
  | .deleted, m, x => m.delItem x.tag
  | .new, m, x => m.addGiveItem x

/-- One loop of the three-set `integrate` for the items of one kind, written with the
precondition and the effect of the kind. -/
def integrateKind (kind : LeafKind) (st : Bool × LeafMap) (items : List SHAMapItem) :
    Bool × LeafMap :=
  items.foldl (fun st leaf =>
    if kind.precondition st.2 leaf then (st.1, kind.perform st.2 leaf) else (false, st.2)) st

/-- The best-effort processing of a list of items in the words of the
specification: every item is attempted in turn on the content left by the items
before it; an item whose precondition fails is skipped. The result is, for every
item in order, whether its precondition held, and the content at the end. -/
def bestEffort : LeafMap → List (LeafKind × SHAMapItem) → List Bool × LeafMap
  | m, [] => ([], m)
  | m, (kind, x) :: rest =>
    if kind.precondition m x then
      (true :: (bestEffort (kind.perform m x) rest).1, (bestEffort (kind.perform m x) rest).2)
    else (false :: (bestEffort m rest).1, (bestEffort m rest).2)

/-- The processing order of the three-set form: modified, then deleted, then new. -/
def schedule (modified deleted new : List SHAMapItem) : List (LeafKind × SHAMapItem) :=
  modified.map (fun x => (LeafKind.modified, x)) ++
    deleted.map (fun x => (LeafKind.deleted, x)) ++ new.map (fun x => (LeafKind.new, x))

/-- What the modified items do to the leaf of one tag: each item with the tag
replaces the leaf if there is one. -/
def modifiedAt (tag : Nat) (modified : List SHAMapItem) (cur : Option SHAMapItem) :
    Option SHAMapItem :=
  modified.foldl (fun cur x => if x.tag = tag then cur.map (fun _ => x) else cur) cur

/-- What the deleted items do to the leaf of one tag: an item with the tag removes
the leaf. -/
def deletedAt (tag : Nat) (deleted : List SHAMapItem) (cur : Option SHAMapItem) :
    Option SHAMapItem :=
  deleted.foldl (fun cur x => if x.tag = tag then none else cur) cur

/-- What the new items do to the leaf of one tag: an item with the tag becomes the
leaf if there is none. -/
def newAt (tag : Nat) (new : List SHAMapItem) (cur : Option SHAMapItem) :
    Option SHAMapItem :=
  new.foldl (fun cur x => if x.tag = tag then (if cur.isSome then cur else some x) else cur) cur

/-- The leaf of one tag after the three loops, from the leaf before them. -/
def integratedAt (tag : Nat) (modified deleted new : List SHAMapItem)
    (cur : Option SHAMapItem) : Option SHAMapItem :=
  newAt tag new (deletedAt tag deleted (modifiedAt tag modified cur))

/-- The upsert of the specification for the single-set form: the item updates the
leaf of its tag if the tag exists, else it is inserted. -/
def LeafMap.upsert (m : LeafMap) (x : SHAMapItem) : LeafMap :=
  if m.hasItem x.tag then m.updateGiveItem x else m.addGiveItem x

/-- Whether a content is in tag order can be decided. -/
instance LeafMap.decidableSorted (m : LeafMap) : Decidable m.Sorted := by
  unfold LeafMap.Sorted
  infer_instance

/-! ## Notions used to state the properties of `walkMap` -/

section MissingDefs

variable {Hs : Type}

mutual
/-- The descriptors of the children that cannot be resolved below the node `t` at the
position `id`, the node itself being at hand: a child at a position where `avail` is
false gives the descriptor of its position and its declared hash and hides what is
below it, a child that can be resolved gives the descriptors below it. -/
def Trie.missing (hs : Hasher Hs) (avail : NodeID → Bool) :
    NodeID → Trie → List (SHAMapMissingNode Hs)
  | _, .leaf _ => []
  | id, .inner bs => Trie.missingList hs avail id 0 bs
/-- The descriptors below the branches from number `i` on of the node at `id`. -/
def Trie.missingList (hs : Hasher Hs) (avail : NodeID → Bool) :
    NodeID → Nat → List (Option Trie) → List (SHAMapMissingNode Hs)
  | _, _, [] => []
  | id, i, none :: rest => Trie.missingList hs avail id (i + 1) rest
  | id, i, some c :: rest =>
    (if avail (id ++ [i]) then Trie.missing hs avail (id ++ [i]) c
      else [(id ++ [i], hs.hashOf c)]) ++ Trie.missingList hs avail id (i + 1) rest
end

/-- The descriptors that branch `i` of the node `t` at `id` contributes. -/
def branchMissing (hs : Hasher Hs) (avail : NodeID → Bool) (id : NodeID) (t : Trie)
    (i : Nat) : List (SHAMapMissingNode Hs) :=
  match t.child i with
  | none => []
  | some c =>
    if avail (id ++ [i]) then c.missing hs avail (id ++ [i]) else [(id ++ [i], hs.hashOf c)]

/-- The descriptors of the children of `t` in the branches `is` that cannot be
resolved, in the order of the branches. -/
def missedKids (hs : Hasher Hs) (avail : NodeID → Bool) (id : NodeID) (t : Trie)
    (is : List Nat) : List (SHAMapMissingNode Hs) :=
  (kids id t is).filterMap (fun p => if avail p.1 then none else some (p.1, hs.hashOf p.2))

/-- A tree is an inner node. -/
def Trie.isInner : Trie → Bool
  | .inner _ => true
  | .leaf _ => false

/-- The children of `t` in the branches `is` that can be resolved and are inner
nodes. -/
def innerKids (avail : NodeID → Bool) (id : NodeID) (t : Trie) (is : List Nat) :
    List (NodeID × Trie) :=
  (kids id t is).filter (fun p => avail p.1 && p.2.isInner)

/-- The children of `t` in the branches `is` that can be resolved. -/
def availKids (avail : NodeID → Bool) (id : NodeID) (t : Trie) (is : List Nat) :
    List (NodeID × Trie) :=
  (kids id t is).filter (fun p => avail p.1)

/-- The descriptors `ds` reported one after the other against the cap: `.error` is
the `return` of `walkMap` once the cap is no longer positive after a report. -/
def capped : List (SHAMapMissingNode Hs) → List (SHAMapMissingNode Hs) → Int →
    Except (List (SHAMapMissingNode Hs)) (List (SHAMapMissingNode Hs) × Int)
  | missingNodes, [], maxMissing => .ok (missingNodes, maxMissing)
  | missingNodes, d :: ds, maxMissing =>
    if maxMissing - 1 ≤ 0 then .error (missingNodes ++ [d])
    else capped (missingNodes ++ [d]) ds (maxMissing - 1)

/-- The list of descriptors at the end of a capped report. -/
def reported : Except (List (SHAMapMissingNode Hs)) (List (SHAMapMissingNode Hs) × Int) →
    List (SHAMapMissingNode Hs)
  | .ok (missingNodes, _) => missingNodes
  | .error missingNodes => missingNodes

/-- The number of descriptors a cap lets through: the cap itself, and one when the
cap is not positive. -/
def capCount (maxMissing : Int) : Nat := if maxMissing ≤ 1 then 1 else maxMissing.toNat

/-- A descriptor names an unresolvable child that the walk reaches: the child in a
non-empty branch `i` of a node `p` of the tree at `parent`, with the hash that `p`
declares for the branch, where the child cannot be resolved and every node on the way
from the root to `p`, the root apart, can. -/
def Unresolved (hs : Hasher Hs) (avail : NodeID → Bool) (T : Trie)
    (d : SHAMapMissingNode Hs) : Prop :=
  ∃ parent i p, d.1 = parent ++ [i] ∧ i < 16 ∧ T.sub parent = some p ∧
    (p.toNode hs parent).getChildHash i = some d.2 ∧ avail d.1 = false ∧
    ∀ q, q <+: parent → q ≠ [] → avail q = true

end MissingDefs

/-! ## The work stack of `compare` -/

section ReachDefs

variable {Hs : Type} [DecidableEq Hs]

/-- The configurations (work stack, state) that the loop of `compare` goes through
in a call with the table `differences` and the budget `maxCount`: the configuration
after the root push at line 161, and from a configuration with the task `dNode` on
top the configuration after one iteration of the loop that does not return. -/
inductive CompareReach (self other : SHAMap Hs) (differences : Delta) (maxCount : Int) :
    List (SHAMapDeltaNode Hs) → WalkState → Prop where
  | start : self.getHash ≠ other.getHash →
      CompareReach self other differences maxCount
        [⟨[], self.getHash, other.getHash⟩] ⟨differences, maxCount, []⟩
  | step {dNode : SHAMapDeltaNode Hs} {nodeStack nodeStack1 : List (SHAMapDeltaNode Hs)}
      {s s1 : WalkState} {ourNode otherNode : SHAMapTreeNode Hs} (fuel : Nat) :
      CompareReach self other differences maxCount (dNode :: nodeStack) s →
      self.getNodePointer dNode.mNodeID dNode.mOurHash = some ourNode →
      other.getNodePointer dNode.mNodeID dNode.mOtherHash = some otherNode →
      compareNodes self other fuel ourNode otherNode nodeStack
        ((s.log true dNode.mNodeID).log false dNode.mNodeID) = .ok (.ok (nodeStack1, s1)) →
      CompareReach self other differences maxCount nodeStack1 s1

/-- The two trees have different hashes at every position on the way from the root
to `q`, `q` included, at which both have a node. -/
def Diverge (hs : Hasher Hs) (TA TB : Trie) (q : NodeID) : Prop :=
  ∀ p, p <+: q → ∀ a b, TA.sub p = some a → TB.sub p = some b → hs.hashOf a ≠ hs.hashOf b

end ReachDefs

/-- A task of the work stack of `compare` on two trees: its two hashes differ, and
the trees have different hashes at every position above the position of the task at
which both have a node. -/
def TaskOK {Hs : Type} (hs : Hasher Hs) (TA TB : Trie) (d : SHAMapDeltaNode Hs) : Prop :=
  d.mOurHash ≠ d.mOtherHash ∧
  ∀ p, p <+: d.mNodeID → p ≠ d.mNodeID →
    ∀ a b, TA.sub p = some a → TB.sub p = some b → hs.hashOf a ≠ hs.hashOf b

/-! ## Notions used to state what a missing node does to `compare` -/

/-- Whether the node that an event resolves is at hand: `avail true` tells the
positions of this map and `avail false` those of the other map at which nodes can be
resolved. An insertion resolves no node. -/
def Event.avail (avail : Bool → NodeID → Bool) : Event → Bool
  | .record _ _ => true
  | .log b id => avail b id

/-- The budget-free computation `t'` is the computation `t` cut at the first node
that is not at hand: either every node that `t` resolves is at hand and `t'` is `t`,
or `t` resolves a first node that is not at hand and `t'` fails with a missing node
at that position, having made the insertions that `t` makes before it. -/
def Cut (avail : Bool → NodeID → Bool) {α : Type} (t t' : Trace α) : Prop :=
  ((∀ e ∈ t.events, e.avail avail = true) ∧ t' = t) ∨
  (∃ pre mid post b id, t.events = pre ++ mid ++ Event.log b id :: post ∧
    (∀ e ∈ pre ++ mid, e.avail avail = true) ∧ recordsOf mid = [] ∧
    avail b id = false ∧ t' = ⟨pre, .error (.missingNode id)⟩)

/-! ## The account list parser `RPC::parseAccountIds` (`ParseAccountIds.cpp`) -/

/-- Modelled from the spec: the class `Json::Value` is not declared in
`ParseAccountIds.cpp`. A value is one of the JSON kinds; an array holds its elements
in index order and an object its members in key order. -/
inductive JsonValue where
  | nullValue
  | intValue (i : Int)
  | uintValue (n : Nat)
  | realValue (r : Rat)
  | stringValue (s : String)
  | booleanValue (b : Bool)
  | arrayValue (elems : List JsonValue)
  | objectValue (members : List (String × JsonValue))

/-- Modelled from the spec: the values that the iteration from `begin ()` to `end ()`
visits, in order: the elements of an array, the member values of an object, and
nothing for a value of another kind. -/
def JsonValue.iterate : JsonValue → List JsonValue
  | .arrayValue elems => elems
  | .objectValue members => members.map Prod.snd
  | _ => []

/-- Modelled from the spec: `isString ()`, whether the value is of the string kind. -/
def JsonValue.isString : JsonValue → Bool
  | .stringValue _ => true
  | _ => false

/-- The loop of `parseAccountIds` over the values still to visit, with the set
`usnaResult` built so far (a `boost::unordered_set` is the duplicate-free list of its
elements). `setAccountID` is `RippleAddress::setAccountID` on a fresh address `naString`:
`some` of the address it sets when it returns true, `none` when it returns false.
The left operand of `||` decides for a value that is not a string, so `asString ()` is
only taken of a string. On a failing element the set is cleared and the loop is left. -/
def parseAccountIdsLoop {RippleAddress : Type} [DecidableEq RippleAddress]
    (setAccountID : String → Option RippleAddress) :
    List JsonValue → List RippleAddress → List RippleAddress
  | [], usnaResult => usnaResult
  | it :: rest, usnaResult =>
    match it with
    | .stringValue s =>
      match setAccountID s with
      | some naString => parseAccountIdsLoop setAccountID rest (usnaResult.insert naString)
      | none => []
    | _ => []

/-- The function `parseAccountIds (jvArray)`: the loop from `jvArray.begin ()` to
`jvArray.end ()`, started with the empty set. -/
def parseAccountIds {RippleAddress : Type} [DecidableEq RippleAddress]
    (setAccountID : String → Option RippleAddress) (jvArray : JsonValue) :
    List RippleAddress :=
  parseAccountIdsLoop setAccountID jvArray.iterate []

/-- An element that `parseAccountIds` accepts: a string of which `setAccountID` makes
an account ID. -/
def JsonValue.parsesAs {RippleAddress : Type} (setAccountID : String → Option RippleAddress)
    (e : JsonValue) (a : RippleAddress) : Prop :=
  ∃ s, e = .stringValue s ∧ setAccountID s = some a

/-- An element that `parseAccountIds` rejects: not a string, or a string of which
`setAccountID` makes no account ID. -/
def JsonValue.rejected {RippleAddress : Type} (setAccountID : String → Option RippleAddress)
    (e : JsonValue) : Prop :=
  ∀ s, e = .stringValue s → setAccountID s = none

/-- A sample reading of account strings for the examples: two known accounts. -/
def sampleAccountID (s : String) : Option Nat :=
  if s = "rAlice" then some 1 else if s = "rBob" then some 2 else none

/-! ## Trees on which `walkBranch` does not meet its single item again -/

namespace Trie

mutual
/-- Wherever a leaf of one tree lies at the position of an inner node of the other
tree, the tag of the leaf is not held below that inner node: the single item that
`walkBranch` gets from `compare` has no leaf of the same tag in the branch walked. -/
def freshItems : Trie → Trie → Bool
  | leaf _, leaf _ => true
  | leaf x, inner bs => decide (x.tag ∉ (leavesList bs).map (fun y => y.tag))
  | inner as, leaf y => decide (y.tag ∉ (leavesList as).map (fun x => x.tag))
  | inner as, inner bs => freshItemsList as bs
/-- The same for the branches of two inner nodes, slot by slot. -/
def freshItemsList : List (Option Trie) → List (Option Trie) → Bool
  | [], _ => true
  | _ :: _, [] => true
  | some a :: as, some b :: bs => freshItems a b && freshItemsList as bs
  | some _ :: as, none :: bs => freshItemsList as bs
  | none :: as, _ :: bs => freshItemsList as bs
end

end Trie

namespace Trace

variable {α β : Type}

theorem replayEvents_append (es1 es2 : List Event) (s : WalkState) :
    replayEvents (es1 ++ es2) s =
      match replayEvents es1 s with
      | .error s1 => .error s1
      | .ok s1 => replayEvents es2 s1 := by
  induction es1 generalizing s with
  | nil => rfl
  | cons e es1 ih =>
    cases e with
    | log b id =>
      simp only [List.cons_append, replayEvents]
      exact ih _
    | record k v =>
      simp only [List.cons_append, replayEvents]
      split
      · rfl
      · exact ih _

@[simp] theorem run_pure (a : α) (s : WalkState) : (Trace.pure a).run s = .ok (.ok (a, s)) := rfl

@[simp] theorem run_fail_missing (id : NodeID) (s : WalkState) :
    (Trace.fail (.missingNode id) : Trace α).run s = .missingNode id := rfl

@[simp] theorem run_fail_fuel (s : WalkState) :
    (Trace.fail .outOfFuel : Trace α).run s = .outOfFuel := rfl

theorem run_emit (evs : List Event) (t : Trace α) (s : WalkState) :
    (t.emit evs).run s =
      match replayEvents evs s with
      | .error s1 => .ok (.error s1)
      | .ok s1 => t.run s1 := by
  simp only [run, emit, replayEvents_append]
  cases replayEvents evs s <;> rfl

theorem run_bind (t : Trace α) (f : α → Trace β) (s : WalkState) :
    (t.bind f).run s =
      match t.run s with
      | .ok (.ok (a, s1)) => (f a).run s1
      | .ok (.error s1) => .ok (.error s1)
      | .missingNode id => .missingNode id
      | .outOfFuel => .outOfFuel := by
  obtain ⟨evs, res⟩ := t
  cases res with
  | ok a =>
    simp only [bind, run_emit]
    simp only [run]
    cases replayEvents evs s <;> rfl
  | error e =>
    simp only [bind, run]
    cases replayEvents evs s with
    | error s1 => rfl
    | ok s1 => cases e <;> rfl

end Trace


section Replay

variable {Hs : Type} [DecidableEq Hs]

theorem walkLeafOther_run (item : SHAMapItem) (o : Option SHAMapItem) (isF e : Bool)
    (s : WalkState) :
    (walkLeafOtherTrace item o isF e).run s = .ok (walkLeafOther item o isF e s) := by
  unfold walkLeafOtherTrace walkLeafOther
  cases o with
  | none => rfl
  | some other =>
    simp only
    split
    · simp only [Trace.run, replayEvents]
      split_ifs <;> rfl
    · rfl

theorem walkLeafItem_run (item : SHAMapItem) (o : Option SHAMapItem) (isF e : Bool)
    (s : WalkState) :
    (walkLeafItemTrace item o isF e).run s = .ok (walkLeafItem item o isF e s) := by
  unfold walkLeafItemTrace walkLeafItem
  cases o with
  | none =>
    simp only [Trace.run, replayEvents]
    split_ifs <;> rfl
  | some other =>
    simp only
    split
    · simp only [Trace.run, replayEvents]
      split_ifs <;> rfl
    · split
      · simp only [Trace.run, replayEvents]
        split_ifs <;> rfl
      · rfl

theorem walkLeaf_run (item : SHAMapItem) (o : Option SHAMapItem) (isF e : Bool)
    (s : WalkState) :
    (walkLeafTrace item o isF e).run s = .ok (walkLeaf item o isF e s) := by
  unfold walkLeafTrace walkLeaf
  rw [Trace.run_bind, walkLeafOther_run]
  cases walkLeafOther item o isF e s with
  | error s1 => rfl
  | ok r =>
    obtain ⟨e1, s1⟩ := r
    simp only [walkLeafItem_run]

theorem walkFinish_run (o : Option SHAMapItem) (isF e : Bool) (s : WalkState) :
    lower ((walkFinishTrace o isF e).run s) = .ok (walkFinish o isF e s) := by
  unfold walkFinishTrace walkFinish
  cases o with
  | none => rfl
  | some other =>
    simp only
    split
    · simp only [Trace.run, replayEvents]
      split_ifs <;> rfl
    · rfl

theorem pushBranches_run (m : SHAMap Hs) (isF : Bool) (node : SHAMapTreeNode Hs)
    (is : List Nat) (st : List (SHAMapTreeNode Hs)) (s : WalkState) :
    (pushTrace m isF node is st).run s =
      match pushBranches m isF node is st s with
      | .ok r => .ok (.ok r)
      | .error id => .missingNode id := by
  induction is generalizing st s with
  | nil => rfl
  | cons i is ih =>
    simp only [pushTrace, pushBranches]
    cases node.getChildHash i with
    | none => exact ih st s
    | some h =>
      simp only
      cases m.getNodePointer (node.getChildNodeID i) h with
      | none => rfl
      | some child =>
        simp only [Trace.run_emit, replayEvents]
        exact ih _ _

theorem walkBranchLoop_run (m : SHAMap Hs) (o : Option SHAMapItem) (isF : Bool)
    (fuel : Nat) (st : List (SHAMapTreeNode Hs)) (e : Bool) (s : WalkState) :
    walkBranchLoop m o isF fuel st e s = lower ((walkTraceLoop m o isF fuel st e).run s) := by
  induction fuel generalizing st e s with
  | zero =>
    cases st with
    | nil => simp only [walkBranchLoop, walkTraceLoop, walkFinish_run]
    | cons node st => rfl
  | succ fuel ih =>
    cases st with
    | nil => simp only [walkBranchLoop, walkTraceLoop, walkFinish_run]
    | cons node st =>
      cases node with
      | inner id hashes =>
        simp only [walkBranchLoop, walkTraceLoop, Trace.run_bind, pushBranches_run]
        cases pushBranches m isF (.inner id hashes) (List.range 16) st s with
        | error id1 => rfl
        | ok r =>
          obtain ⟨st1, s1⟩ := r
          exact ih st1 e s1
      | leaf id item =>
        simp only [walkBranchLoop, walkTraceLoop, Trace.run_bind, walkLeaf_run]
        cases walkLeaf item o isF e s with
        | error s1 => rfl
        | ok r =>
          obtain ⟨e1, s1⟩ := r
          exact ih st e1 s1

theorem walkBranch_run (m : SHAMap Hs) (fuel : Nat) (node : SHAMapTreeNode Hs)
    (o : Option SHAMapItem) (isF : Bool) (s : WalkState) :
    m.walkBranch fuel node o isF s = lower ((walkBranchTrace m fuel node o isF).run s) :=
  walkBranchLoop_run m o isF fuel [node] o.isNone s

theorem walkResolved_run (m : SHAMap Hs) (fuel : Nat) (id : NodeID) (h : Hs) (isF : Bool)
    (s : WalkState) :
    (walkResolvedTrace m fuel id h isF).run s =
      match walkResolved m fuel id h isF s with
      | .ok (.ok s1) => .ok (.ok ((), s1))
      | .ok (.error s1) => .ok (.error s1)
      | .missingNode id1 => .missingNode id1
      | .outOfFuel => .outOfFuel := by
  unfold walkResolvedTrace walkResolved
  cases m.getNodePointer id h with
  | none => rfl
  | some iNode =>
    simp only [Trace.run_emit, replayEvents, walkBranch_run]
    generalize (walkBranchTrace m fuel iNode none isF).run (s.log isF id) = r
    cases r with
    | ok x =>
      cases x with
      | ok y => obtain ⟨u, s1⟩ := y; rfl
      | error s1 => rfl
    | missingNode id1 => rfl
    | outOfFuel => rfl

theorem compareBranches_run (self other : SHAMap Hs) (fuel : Nat)
    (ourNode otherNode : SHAMapTreeNode Hs) (is : List Nat)
    (st : List (SHAMapDeltaNode Hs)) (s : WalkState) :
    (compareBranchesTrace self other fuel ourNode otherNode is st).run s =
      compareBranches self other fuel ourNode otherNode is st s := by
  induction is generalizing st s with
  | nil => rfl
  | cons i is ih =>
    simp only [compareBranchesTrace, compareBranches]
    split
    · split
      · simp only [Trace.run_bind, walkResolved_run]
        generalize walkResolved self fuel _ _ true s = r
        cases r with
        | ok x =>
          cases x with
          | ok s1 => exact ih st s1
          | error s1 => rfl
        | missingNode id1 => rfl
        | outOfFuel => rfl
      · simp only [Trace.run_bind, walkResolved_run]
        generalize walkResolved other fuel _ _ false s = r
        cases r with
        | ok x =>
          cases x with
          | ok s1 => exact ih st s1
          | error s1 => rfl
        | missingNode id1 => rfl
        | outOfFuel => rfl
      · exact ih _ s
      · exact ih st s
    · exact ih st s

theorem compareNodes_run (self other : SHAMap Hs) (fuel : Nat)
    (ourNode otherNode : SHAMapTreeNode Hs) (st : List (SHAMapDeltaNode Hs)) (s : WalkState) :
    (compareNodesTrace self other fuel ourNode otherNode st).run s =
      compareNodes self other fuel ourNode otherNode st s := by
  unfold compareNodesTrace compareNodes
  cases ourNode with
  | leaf id ourItem =>
    cases otherNode with
    | leaf id2 otherItem =>
      simp only
      split
      · split
        · simp only [Trace.run, replayEvents]
          split_ifs <;> rfl
        · rfl
      · simp only [Trace.run, replayEvents]
        split_ifs <;> rfl
    | inner id2 hashes2 =>
      simp only [Trace.run_bind, walkBranch_run]
      generalize (walkBranchTrace other fuel _ _ false).run s = r
      cases r with
      | ok x =>
        cases x with
        | ok y => obtain ⟨u, s1⟩ := y; rfl
        | error s1 => rfl
      | missingNode id1 => rfl
      | outOfFuel => rfl
  | inner id hashes =>
    cases otherNode with
    | leaf id2 otherItem =>
      simp only [Trace.run_bind, walkBranch_run]
      generalize (walkBranchTrace self fuel _ _ true).run s = r
      cases r with
      | ok x =>
        cases x with
        | ok y => obtain ⟨u, s1⟩ := y; rfl
        | error s1 => rfl
      | missingNode id1 => rfl
      | outOfFuel => rfl
    | inner id2 hashes2 => exact compareBranches_run _ _ _ _ _ _ _ _

theorem compareLoop_run (self other : SHAMap Hs) (fuel : Nat)
    (st : List (SHAMapDeltaNode Hs)) (s : WalkState) :
    compareLoop self other fuel st s = lower ((compareTraceLoop self other fuel st).run s) := by
  induction fuel generalizing st s with
  | zero => cases st <;> rfl
  | succ fuel ih =>
    cases st with
    | nil => rfl
    | cons dNode st =>
      simp only [compareLoop, compareTraceLoop]
      cases self.getNodePointer dNode.mNodeID dNode.mOurHash with
      | none => rfl
      | some ourNode =>
        cases other.getNodePointer dNode.mNodeID dNode.mOtherHash with
        | none => rfl
        | some otherNode =>
          simp only [Trace.run_emit, replayEvents, Trace.run_bind, compareNodes_run]
          generalize compareNodes self other fuel ourNode otherNode st _ = r
          cases r with
          | ok x =>
            cases x with
            | ok y => obtain ⟨st1, s1⟩ := y; exact ih st1 s1
            | error s1 => rfl
          | missingNode id1 => rfl
          | outOfFuel => rfl

/-- A call of `compare` is the replay of its events against the budget. -/
theorem compare_run (self other : SHAMap Hs) (fuel : Nat) (d : Delta) (maxCount : Int) :
    self.compare other fuel d maxCount =
      lower ((compareTrace self other fuel).run ⟨d, maxCount, []⟩) := by
  unfold SHAMap.compare compareTrace
  split
  · rfl
  · exact compareLoop_run _ _ _ _ _

end Replay


/-! ## The difference table -/

namespace Delta

theorem mem_insert_of_mem {d : Delta} {e : Nat × DeltaRef} (k : Nat) (v : DeltaRef)
    (h : e ∈ d) : e ∈ d.insert k v := by
  induction d with
  | nil => cases h
  | cons a rest ih =>
    obtain ⟨k', v'⟩ := a
    simp only [insert]
    split_ifs
    · exact List.mem_cons_of_mem _ h
    · exact h
    · rcases List.mem_cons.1 h with h | h
      · exact h ▸ List.mem_cons_self _ _
      · exact List.mem_cons_of_mem _ (ih h)

theorem mem_insert {d : Delta} {e : Nat × DeltaRef} {k : Nat} {v : DeltaRef}
    (h : e ∈ d.insert k v) : e ∈ d ∨ e = (k, v) := by
  induction d with
  | nil => simpa [insert] using h
  | cons a rest ih =>
    obtain ⟨k', v'⟩ := a
    simp only [insert] at h
    split_ifs at h
    · rcases List.mem_cons.1 h with h | h
      · exact Or.inr h
      · exact Or.inl h
    · exact Or.inl h
    · rcases List.mem_cons.1 h with h | h
      · exact Or.inl (h ▸ List.mem_cons_self _ _)
      · rcases ih h with h | h
        · exact Or.inl (List.mem_cons_of_mem _ h)
        · exact Or.inr h

theorem key_mem_insert (d : Delta) (k : Nat) (v : DeltaRef) : k ∈ (d.insert k v).keys := by
  induction d with
  | nil => simp [insert, keys]
  | cons a rest ih =>
    obtain ⟨k', v'⟩ := a
    simp only [insert]
    split_ifs with h1 h2
    · simp [keys]
    · simp [keys, h2]
    · simp only [keys, List.map_cons, List.mem_cons]
      exact Or.inr ih

theorem length_insert_le (d : Delta) (k : Nat) (v : DeltaRef) :
    (d.insert k v).length ≤ d.length + 1 := by
  induction d with
  | nil => simp [insert]
  | cons a rest ih =>
    obtain ⟨k', v'⟩ := a
    simp only [insert]
    split_ifs
    · simp
    · simp
    · simp only [List.length_cons]
      omega

theorem sorted_insert {d : Delta} (k : Nat) (v : DeltaRef) (h : d.Sorted) :
    (d.insert k v).Sorted := by
  induction d with
  | nil => simp [insert, Sorted]
  | cons a rest ih =>
    obtain ⟨k', v'⟩ := a
    simp only [insert]
    have h' := List.pairwise_cons.1 h
    split_ifs with h1 h2
    · refine List.pairwise_cons.2 ⟨?_, h⟩
      intro b hb
      rcases List.mem_cons.1 hb with hb | hb
      · rw [hb]; exact h1
      · exact Nat.lt_trans h1 (h'.1 b hb)
    · exact h
    · refine List.pairwise_cons.2 ⟨?_, ih h'.2⟩
      intro b hb
      rcases mem_insert hb with hb | hb
      · exact h'.1 b hb
      · rw [hb]
        show k' < k
        omega

theorem insert_comm (d : Delta) {k1 k2 : Nat} (v1 v2 : DeltaRef) (h : k1 ≠ k2) :
    (d.insert k1 v1).insert k2 v2 = (d.insert k2 v2).insert k1 v1 := by
  induction d with
  | nil =>
    simp only [insert]
    split_ifs <;> first | rfl | omega
  | cons a rest ih =>
    obtain ⟨k', v'⟩ := a
    simp only [insert]
    split_ifs <;> simp only [insert] <;> split_ifs <;> first | rfl | omega | (rw [ih])

theorem swap_insert (d : Delta) (k : Nat) (v : DeltaRef) :
    (d.insert k v).swap = d.swap.insert k (v.2, v.1) := by
  induction d with
  | nil => rfl
  | cons a rest ih =>
    obtain ⟨k', v'⟩ := a
    simp only [insert, swap, List.map_cons]
    split_ifs
    · rfl
    · rfl
    · simp only [List.map_cons, List.cons.injEq, true_and]
      exact ih

theorem find_eq_of_mem {d : Delta} (h : d.Sorted) {k : Nat} {v : DeltaRef}
    (hm : (k, v) ∈ d) : d.find k = some v := by
  induction d with
  | nil => cases hm
  | cons a rest ih =>
    obtain ⟨k', v'⟩ := a
    have h' := List.pairwise_cons.1 h
    simp only [find]
    rcases List.mem_cons.1 hm with hm | hm
    · cases hm
      simp
    · have := h'.1 _ hm
      have hne : k ≠ k' := by
        simp only at this
        omega
      simp only [hne, if_false]
      exact ih h'.2 hm

theorem mem_of_find {d : Delta} {k : Nat} {v : DeltaRef} (h : d.find k = some v) :
    (k, v) ∈ d := by
  induction d with
  | nil => cases h
  | cons a rest ih =>
    obtain ⟨k', v'⟩ := a
    simp only [find] at h
    split_ifs at h with h1
    · cases h
      rw [h1]
      exact List.mem_cons_self _ _
    · exact List.mem_cons_of_mem _ (ih h)

theorem insertAll_append (d : Delta) (r1 r2 : List (Nat × DeltaRef)) :
    d.insertAll (r1 ++ r2) = (d.insertAll r1).insertAll r2 := by
  simp [insertAll, List.foldl_append]

theorem mem_insertAll_of_mem {d : Delta} {e : Nat × DeltaRef} (rs : List (Nat × DeltaRef))
    (h : e ∈ d) : e ∈ d.insertAll rs := by
  induction rs generalizing d with
  | nil => exact h
  | cons r rs ih => exact ih (mem_insert_of_mem _ _ h)

theorem mem_insertAll {d : Delta} {e : Nat × DeltaRef} {rs : List (Nat × DeltaRef)}
    (h : e ∈ d.insertAll rs) : e ∈ d ∨ e ∈ rs := by
  induction rs generalizing d with
  | nil => exact Or.inl h
  | cons r rs ih =>
    rcases ih h with h | h
    · rcases mem_insert h with h | h
      · exact Or.inl h
      · exact Or.inr (h ▸ List.mem_cons_self _ _)
    · exact Or.inr (List.mem_cons_of_mem _ h)

theorem key_mem_insertAll_of_key_mem {d : Delta} {k : Nat} (rs : List (Nat × DeltaRef))
    (h : k ∈ d.keys) : k ∈ (d.insertAll rs).keys := by
  obtain ⟨e, he, rfl⟩ := List.mem_map.1 h
  exact List.mem_map.2 ⟨e, mem_insertAll_of_mem rs he, rfl⟩

theorem key_mem_insertAll {d : Delta} {k : Nat} {rs : List (Nat × DeltaRef)}
    (h : k ∈ rs.map Prod.fst) : k ∈ (d.insertAll rs).keys := by
  induction rs generalizing d with
  | nil => cases h
  | cons r rs ih =>
    rcases List.mem_cons.1 h with h | h
    · exact key_mem_insertAll_of_key_mem rs (h ▸ key_mem_insert d r.1 r.2)
    · exact ih h

theorem length_insertAll_le (d : Delta) (rs : List (Nat × DeltaRef)) :
    (d.insertAll rs).length ≤ d.length + rs.length := by
  induction rs generalizing d with
  | nil => simp [insertAll]
  | cons r rs ih =>
    have h1 := ih (d.insert r.1 r.2)
    have h2 := length_insert_le d r.1 r.2
    simp only [insertAll, List.foldl_cons, List.length_cons] at h1 ⊢
    omega

theorem sorted_insertAll {d : Delta} (rs : List (Nat × DeltaRef)) (h : d.Sorted) :
    (d.insertAll rs).Sorted := by
  induction rs generalizing d with
  | nil => exact h
  | cons r rs ih => exact ih (sorted_insert _ _ h)

end Delta

/-! ## What a replay does to the table and the budget -/

theorem recordsOf_append (es1 es2 : List Event) :
    recordsOf (es1 ++ es2) = recordsOf es1 ++ recordsOf es2 := by
  induction es1 with
  | nil => rfl
  | cons e es1 ih =>
    cases e with
    | record k v =>
      show (k, v) :: recordsOf (es1 ++ es2) = (k, v) :: (recordsOf es1 ++ recordsOf es2)
      rw [ih]
    | log b id => exact ih

@[simp] theorem recordsOf_log (b : Bool) (id : NodeID) (es : List Event) :
    recordsOf (.log b id :: es) = recordsOf es := rfl

@[simp] theorem recordsOf_record (k : Nat) (v : DeltaRef) (es : List Event) :
    recordsOf (.record k v :: es) = (k, v) :: recordsOf es := rfl

@[simp] theorem recordsOf_nil : recordsOf [] = [] := rfl

theorem replay_ok {es : List Event} {s s' : WalkState} (h : replayEvents es s = .ok s') :
    s'.differences = s.differences.insertAll (recordsOf es) ∧
    s'.maxCount = s.maxCount - (recordsOf es).length ∧
    (recordsOf es ≠ [] → 0 < s'.maxCount) := by
  induction es generalizing s with
  | nil =>
    simp only [replayEvents, Except.ok.injEq] at h
    subst h
    simp [recordsOf, Delta.insertAll]
  | cons e es ih =>
    cases e with
    | log b id =>
      simp only [replayEvents] at h
      simpa only [recordsOf] using ih h
    | record k v =>
      simp only [replayEvents] at h
      split_ifs at h with h1
      obtain ⟨h2, h3, h4⟩ := ih h
      refine ⟨?_, ?_, ?_⟩
      · simpa only [recordsOf, Delta.insertAll, List.foldl_cons] using h2
      · rw [h3]
        simp only [WalkState.record, recordsOf, List.length_cons]
        push_cast
        ring
      · intro _
        by_cases hr : recordsOf es = []
        · rw [h3, hr]
          simp only [List.length_nil, Nat.cast_zero, sub_zero]
          omega
        · exact h4 hr

theorem replay_ok_of_lt (es : List Event) (s : WalkState)
    (h : ((recordsOf es).length : Int) < s.maxCount) : ∃ s', replayEvents es s = .ok s' := by
  induction es generalizing s with
  | nil => exact ⟨s, rfl⟩
  | cons e es ih =>
    cases e with
    | log b id =>
      simp only [replayEvents]
      exact ih _ (by simpa only [recordsOf] using h)
    | record k v =>
      simp only [recordsOf, List.length_cons] at h
      push_cast at h
      have h1 : ¬ (s.record k v).maxCount ≤ 0 := by
        simp only [WalkState.record]
        omega
      simp only [replayEvents, h1, if_false]
      apply ih
      simp only [WalkState.record]
      omega

theorem replay_subset (es : List Event) (s : WalkState) (e : Nat × DeltaRef)
    (h : e ∈ (stateOf (replayEvents es s)).differences) :
    e ∈ s.differences.insertAll (recordsOf es) := by
  induction es generalizing s with
  | nil => exact h
  | cons ev es ih =>
    cases ev with
    | log b id =>
      simp only [replayEvents] at h
      simpa only [recordsOf] using ih _ h
    | record k v =>
      simp only [replayEvents] at h
      simp only [recordsOf, Delta.insertAll, List.foldl_cons]
      split_ifs at h with h1
      · exact Delta.mem_insertAll_of_mem _ h
      · exact ih _ h

theorem replay_length (es : List Event) (s : WalkState) (h : 1 ≤ s.maxCount) :
    ((stateOf (replayEvents es s)).differences.length : Int) +
        (stateOf (replayEvents es s)).maxCount ≤ s.differences.length + s.maxCount ∧
      0 ≤ (stateOf (replayEvents es s)).maxCount := by
  induction es generalizing s with
  | nil =>
    simp only [replayEvents, stateOf]
    omega
  | cons ev es ih =>
    cases ev with
    | log b id =>
      simp only [replayEvents]
      exact ih (s.log b id) h
    | record k v =>
      have hl := Delta.length_insert_le s.differences k v
      simp only [replayEvents]
      split_ifs with h1
      · simp only [stateOf, WalkState.record] at h1 ⊢
        omega
      · have h2 : 1 ≤ (s.record k v).maxCount := by omega
        obtain ⟨h3, h4⟩ := ih (s.record k v) h2
        refine ⟨?_, h4⟩
        simp only [WalkState.record] at h3 ⊢
        omega

theorem Delta.insert_ne_nil (d : Delta) (k : Nat) (v : DeltaRef) : 0 < (d.insert k v).length := by
  cases d with
  | nil => simp [Delta.insert]
  | cons a rest =>
    obtain ⟨k', v'⟩ := a
    simp only [Delta.insert]
    split_ifs <;> simp

theorem replay_error_pos {es : List Event} {s s' : WalkState}
    (h : replayEvents es s = .error s') : 0 < s'.differences.length := by
  induction es generalizing s with
  | nil => cases h
  | cons ev es ih =>
    cases ev with
    | log b id =>
      simp only [replayEvents] at h
      exact ih h
    | record k v =>
      simp only [replayEvents] at h
      split_ifs at h with h1
      · simp only [Except.error.injEq] at h
        subst h
        exact Delta.insert_ne_nil _ _ _
      · exact ih h

theorem replay_error_budget {es : List Event} {s s' : WalkState}
    (h : replayEvents es s = .error s') : s'.maxCount ≤ 0 := by
  induction es generalizing s with
  | nil => cases h
  | cons ev es ih =>
    cases ev with
    | log b id =>
      simp only [replayEvents] at h
      exact ih h
    | record k v =>
      simp only [replayEvents] at h
      split_ifs at h with h1
      · simp only [Except.error.injEq] at h
        subst h
        exact h1
      · exact ih h

theorem replay_sorted (es : List Event) (s : WalkState) (h : s.differences.Sorted) :
    (stateOf (replayEvents es s)).differences.Sorted := by
  induction es generalizing s with
  | nil => exact h
  | cons ev es ih =>
    cases ev with
    | log b id =>
      simp only [replayEvents]
      exact ih (s.log b id) h
    | record k v =>
      simp only [replayEvents]
      split_ifs with h1
      · exact Delta.sorted_insert _ _ h
      · exact ih (s.record k v) (Delta.sorted_insert _ _ h)

/-- A returned result of a run, read on the replay: either the replay went through
and the run returned `true`, or the replay was stopped and the run returned
`false`. -/
theorem lower_run_ok {t : Trace Unit} {s s' : WalkState} {b : Bool}
    (h : lower (t.run s) = .ok (b, s')) :
    (b = true ∧ replayEvents t.events s = .ok s' ∧ t.result = .ok ()) ∨
    (b = false ∧ replayEvents t.events s = .error s') := by
  simp only [Trace.run] at h
  cases hr : replayEvents t.events s with
  | error s1 =>
    rw [hr] at h
    simp only [lower, Outcome.ok.injEq, Prod.mk.injEq] at h
    exact Or.inr ⟨h.1.symm, by rw [h.2]⟩
  | ok s1 =>
    rw [hr] at h
    cases hres : t.result with
    | ok a =>
      rw [hres] at h
      simp only [lower, Outcome.ok.injEq, Prod.mk.injEq] at h
      exact Or.inl ⟨h.1.symm, by rw [h.2], rfl⟩
    | error f =>
      rw [hres] at h
      cases f <;> simp [lower] at h

/-- A run whose computation does not fail returns. -/
theorem lower_run_of_result {t : Trace Unit} (s : WalkState) (h : t.result = .ok ()) :
    lower (t.run s) = .ok (match replayEvents t.events s with
      | .ok s1 => (true, s1)
      | .error s1 => (false, s1)) := by
  simp only [Trace.run, h]
  cases replayEvents t.events s <;> rfl

/-! ## Trees and the maps built from them -/

namespace Trie

theorem leavesList_eq (bs : List (Option Trie)) : leavesList bs = bs.flatMap leavesOpt := by
  induction bs with
  | nil => simp [leavesList]
  | cons b bs ih =>
    cases b with
    | none => simpa [leavesList, leavesOpt] using ih
    | some t => simp [leavesList, leavesOpt, ih]

theorem sizeList_eq (bs : List (Option Trie)) : sizeList bs = (bs.map sizeOpt).sum := by
  induction bs with
  | nil => simp [sizeList]
  | cons b bs ih =>
    cases b with
    | none => simpa [sizeList, sizeOpt] using ih
    | some t => simp [sizeList, sizeOpt, ih]

theorem size_pos (t : Trie) : 0 < t.size := by
  cases t <;> simp [size]

theorem range_children {α : Type} (bs : List (Option α)) :
    (List.range bs.length).map (fun i => bs[i]?.join) = bs := by
  apply List.ext_getElem?
  intro n
  rw [List.getElem?_map]
  by_cases h : n < bs.length
  · rw [List.getElem?_range h, List.getElem?_eq_getElem h]
    simp [List.getElem?_eq_getElem h]
  · have h1 : bs.length ≤ n := Nat.le_of_not_lt h
    rw [List.getElem?_eq_none (by simpa using h1), List.getElem?_eq_none h1]
    rfl

theorem getElem?_of_child {bs : List (Option Trie)} {i : Nat} {c : Trie}
    (h : (inner bs).child i = some c) : bs[i]? = some (some c) := by
  simp only [child] at h
  cases hb : bs[i]? with
  | none => rw [hb] at h; cases h
  | some b =>
    rw [hb] at h
    simp only [Option.join] at h
    simpa using h

theorem child_lt_length {bs : List (Option Trie)} {i : Nat} {c : Trie}
    (h : (inner bs).child i = some c) : i < bs.length := by
  have := getElem?_of_child h
  by_contra hn
  rw [List.getElem?_eq_none (Nat.le_of_not_lt hn)] at this
  cases this

theorem mem_leaves_inner {bs : List (Option Trie)} {x : SHAMapItem} :
    x ∈ (inner bs).leaves ↔ ∃ i c, (inner bs).child i = some c ∧ x ∈ c.leaves := by
  simp only [leaves, leavesList_eq, List.mem_flatMap]
  constructor
  · rintro ⟨b, hb, hx⟩
    cases b with
    | none => simp [leavesOpt] at hx
    | some c =>
      obtain ⟨i, hi, hget⟩ := List.getElem_of_mem hb
      refine ⟨i, c, ?_, hx⟩
      simp [child, List.getElem?_eq_getElem hi, hget]
  · rintro ⟨i, c, hc, hx⟩
    have h1 := getElem?_of_child hc
    exact ⟨some c, List.getElem?_mem h1, hx⟩

theorem sub_append_single (t : Trie) (id : NodeID) (i : Nat) :
    t.sub (id ++ [i]) = (t.sub id).bind (fun c => c.child i) := by
  induction id generalizing t with
  | nil =>
    simp only [List.nil_append, sub, Option.bind]
    cases t.child i <;> rfl
  | cons j id ih =>
    simp only [List.cons_append, sub]
    cases t.child j with
    | none => rfl
    | some c => exact ih c

theorem sub_child {t : Trie} {id : NodeID} {c d : Trie} {i : Nat}
    (h : t.sub id = some c) (hc : c.child i = some d) : t.sub (id ++ [i]) = some d := by
  rw [sub_append_single, h]
  exact hc

theorem leaves_child_subset {t c : Trie} {i : Nat} (h : t.child i = some c) :
    ∀ x ∈ c.leaves, x ∈ t.leaves := by
  intro x hx
  cases t with
  | leaf item => cases h
  | inner bs => exact mem_leaves_inner.2 ⟨i, c, h, hx⟩

theorem leaves_sub_subset {t c : Trie} {id : NodeID} (h : t.sub id = some c) :
    ∀ x ∈ c.leaves, x ∈ t.leaves := by
  induction id generalizing t with
  | nil =>
    simp only [sub, Option.some.injEq] at h
    subst h
    exact fun _ hx => hx
  | cons j id ih =>
    simp only [sub] at h
    cases hj : t.child j with
    | none => rw [hj] at h; cases h
    | some d =>
      rw [hj] at h
      intro x hx
      exact leaves_child_subset hj x (ih h x hx)

theorem wfList_getElem? {id : NodeID} {k : Nat} {bs : List (Option Trie)}
    (h : wfList id k bs = true) {j : Nat} {c : Trie} (hc : bs[j]? = some (some c)) :
    wf (id ++ [k + j]) c = true := by
  induction bs generalizing k j with
  | nil => cases hc
  | cons b bs ih =>
    cases j with
    | zero =>
      simp only [List.getElem?_cons_zero, Option.some.injEq] at hc
      subst hc
      simp only [wfList, Bool.and_eq_true] at h
      exact h.1
    | succ j =>
      simp only [List.getElem?_cons_succ] at hc
      have h' : wfList id (k + 1) bs = true := by
        cases b with
        | none => simpa only [wfList] using h
        | some t =>
          simp only [wfList, Bool.and_eq_true] at h
          exact h.2
      have := ih h' hc
      rwa [show k + 1 + j = k + (j + 1) by omega] at this

theorem wf_inner_length {id : NodeID} {bs : List (Option Trie)} (h : wf id (inner bs) = true) :
    bs.length = 16 := by
  simp only [wf, Bool.and_eq_true, decide_eq_true_eq] at h
  exact h.1

theorem wf_child {id : NodeID} {t c : Trie} {i : Nat} (h : wf id t = true)
    (hc : t.child i = some c) : wf (id ++ [i]) c = true := by
  cases t with
  | leaf item => cases hc
  | inner bs =>
    simp only [wf, Bool.and_eq_true] at h
    have := wfList_getElem? h.2 (getElem?_of_child hc)
    simpa using this

theorem wf_sub {id0 : NodeID} {t c : Trie} {id : NodeID} (h : wf id0 t = true)
    (hc : t.sub id = some c) : wf (id0 ++ id) c = true := by
  induction id generalizing t id0 with
  | nil =>
    simp only [sub, Option.some.injEq] at hc
    subst hc
    simpa using h
  | cons j id ih =>
    simp only [sub] at hc
    cases hj : t.child j with
    | none => rw [hj] at hc; cases hc
    | some d =>
      rw [hj] at hc
      have := ih (wf_child h hj) hc
      simpa using this

theorem size_inner_eq {bs : List (Option Trie)} (h : bs.length = 16) :
    (inner bs).size = 1 + ((List.range 16).map (fun i => sizeOpt ((inner bs).child i))).sum := by
  have h1 := range_children bs
  rw [h] at h1
  simp only [size, sizeList_eq]
  congr 2
  conv_lhs => rw [← h1]
  simp only [List.map_map]
  rfl

theorem sizeOpt_getElem?_le (bs : List (Option Trie)) (i : Nat) :
    sizeOpt bs[i]?.join ≤ sizeList bs := by
  induction bs generalizing i with
  | nil => simp [sizeOpt]
  | cons b bs ih =>
    cases i with
    | zero =>
      cases b with
      | none => simp [sizeOpt]
      | some t => simp [sizeOpt, sizeList]
    | succ i =>
      have := ih i
      simp only [List.getElem?_cons_succ]
      cases b with
      | none => simpa [sizeList] using this
      | some t =>
        simp only [sizeList]
        omega

theorem sizeOpt_child_lt (t : Trie) (i : Nat) : sizeOpt (t.child i) < t.size := by
  cases t with
  | leaf item => simp [child, sizeOpt, size]
  | inner bs =>
    have := sizeOpt_getElem?_le bs i
    simp only [child, size]
    omega

theorem mem_leaves_inner_range {bs : List (Option Trie)} (h : bs.length = 16)
    {x : SHAMapItem} :
    x ∈ (inner bs).leaves ↔
      ∃ i ∈ List.range 16, ∃ c, (inner bs).child i = some c ∧ x ∈ c.leaves := by
  rw [mem_leaves_inner]
  constructor
  · rintro ⟨i, c, hc, hx⟩
    exact ⟨i, List.mem_range.2 (h ▸ child_lt_length hc), c, hc, hx⟩
  · rintro ⟨i, _, c, hc, hx⟩
    exact ⟨i, c, hc, hx⟩

end Trie

section OfTrie

variable {Hs : Type} [DecidableEq Hs]

theorem ofTrie_resolve (hs : Hasher Hs) {t c : Trie} {id : NodeID} (h : t.sub id = some c) :
    (SHAMap.ofTrie hs t).getNodePointer id (hs.hashOf c) = some (c.toNode hs id) := by
  simp [SHAMap.ofTrie, h]

omit [DecidableEq Hs] in
theorem toNode_getChildHash (hs : Hasher Hs) (id : NodeID) (t : Trie) (i : Nat) :
    (t.toNode hs id).getChildHash i = (t.child i).map hs.hashOf := by
  cases t with
  | leaf item => rfl
  | inner bs =>
    simp only [Trie.toNode, SHAMapTreeNode.getChildHash, Trie.child, List.getElem?_map]
    cases bs[i]? with
    | none => rfl
    | some b => cases b <;> rfl

omit [DecidableEq Hs] in
theorem toNode_getChildNodeID (hs : Hasher Hs) (id : NodeID) (t : Trie) (i : Nat) :
    (t.toNode hs id).getChildNodeID i = id ++ [i] := by
  cases t <;> rfl

end OfTrie

/-! ## The events of `walkBranch` on a well-formed tree -/

theorem Trace.bind_mk {α β : Type} (evs : List Event) (a : α) (f : α → Trace β) :
    (Trace.bind ⟨evs, .ok a⟩ f) = ⟨evs ++ (f a).events, (f a).result⟩ := rfl

theorem Trace.emit_mk {α : Type} (evs evs1 : List Event) (r : Except Failure α) :
    (Trace.emit evs ⟨evs1, r⟩) = ⟨evs ++ evs1, r⟩ := rfl

section WalkSpec

variable {Hs : Type} [DecidableEq Hs]

theorem kids_cons_none {id : NodeID} {t : Trie} {i : Nat} (is : List Nat)
    (h : t.child i = none) : kids id t (i :: is) = kids id t is := by
  simp [kids, List.filterMap_cons, h]

theorem kids_cons_some {id : NodeID} {t c : Trie} {i : Nat} (is : List Nat)
    (h : t.child i = some c) : kids id t (i :: is) = (id ++ [i], c) :: kids id t is := by
  simp [kids, List.filterMap_cons, h]

theorem kids_sub {T t : Trie} {id : NodeID} (hsub : T.sub id = some t) (is : List Nat) :
    ∀ p ∈ kids id t is, T.sub p.1 = some p.2 := by
  intro p hp
  simp only [kids, List.mem_filterMap, Option.map_eq_some'] at hp
  obtain ⟨i, _, c, hc, rfl⟩ := hp
  exact Trie.sub_child hsub hc

theorem totalSize_kids (id : NodeID) (t : Trie) (is : List Nat) :
    totalSize (kids id t is) = (is.map (fun i => Trie.sizeOpt (t.child i))).sum := by
  induction is with
  | nil => rfl
  | cons i is ih =>
    cases hc : t.child i with
    | none =>
      rw [kids_cons_none is hc, ih]
      simp [hc, Trie.sizeOpt]
    | some c =>
      rw [kids_cons_some is hc]
      simp only [totalSize, List.map_cons, List.sum_cons] at ih ⊢
      rw [ih]
      simp [hc, Trie.sizeOpt]

theorem mem_leavesOf_kids {id : NodeID} {t : Trie} {is : List Nat} {x : SHAMapItem} :
    x ∈ leavesOf (kids id t is) ↔ ∃ i ∈ is, ∃ c, t.child i = some c ∧ x ∈ c.leaves := by
  simp only [leavesOf, kids, List.mem_flatMap, List.mem_filterMap, Option.map_eq_some']
  constructor
  · rintro ⟨p, ⟨i, hi, c, hc, rfl⟩, hx⟩
    exact ⟨i, hi, c, hc, hx⟩
  · rintro ⟨i, hi, c, hc, hx⟩
    exact ⟨(id ++ [i], c), ⟨i, hi, c, hc, rfl⟩, hx⟩

theorem totalSize_append (ts1 ts2 : List (NodeID × Trie)) :
    totalSize (ts1 ++ ts2) = totalSize ts1 + totalSize ts2 := by
  simp [totalSize]

theorem totalSize_reverse (ts : List (NodeID × Trie)) :
    totalSize ts.reverse = totalSize ts := by
  simp [totalSize, List.sum_reverse]

theorem pushTrace_ofTrie (hs : Hasher Hs) {T t : Trie} {id : NodeID}
    (hsub : T.sub id = some t) (isF : Bool) (is : List Nat) (st : List (SHAMapTreeNode Hs)) :
    ∃ evs, recordsOf evs = [] ∧
      pushTrace (SHAMap.ofTrie hs T) isF (t.toNode hs id) is st =
        ⟨evs, .ok ((nodesOf hs (kids id t is)).reverse ++ st)⟩ := by
  induction is generalizing st with
  | nil => exact ⟨[], rfl, rfl⟩
  | cons i is ih =>
    simp only [pushTrace, toNode_getChildHash, toNode_getChildNodeID]
    cases hc : t.child i with
    | none =>
      simp only [Option.map_none']
      rw [kids_cons_none is hc]
      exact ih st
    | some c =>
      simp only [Option.map_some']
      rw [ofTrie_resolve hs (Trie.sub_child hsub hc), kids_cons_some is hc]
      obtain ⟨evs, h1, h2⟩ := ih (c.toNode hs (id ++ [i]) :: st)
      refine ⟨.log isF (id ++ [i]) :: evs, h1, ?_⟩
      simp only [h2, Trace.emit_mk, nodesOf, List.map_cons, List.reverse_cons,
        List.append_assoc, List.singleton_append]

theorem walkLeafTrace_spec (x : SHAMapItem) (o : Option SHAMapItem) (isF e : Bool) :
    ∃ evs e1, walkLeafTrace x o isF e = ⟨evs, .ok e1⟩ ∧
      (∀ r ∈ recordsOf evs, WalkAttr o isF [x] r) ∧
      (x.tag ∈ (recordsOf evs).map Prod.fst ∨ o = some x) ∧
      (∀ y, o = some y → e = false →
        e1 = false ∨ y.tag ∈ (recordsOf evs).map Prod.fst ∨ y = x) := by
  cases o with
  | none =>
    refine ⟨[.record x.tag (oneSided isF x)], e, rfl, ?_, ?_, ?_⟩
    · intro r hr
      simp only [recordsOf, List.mem_singleton] at hr
      exact Or.inl ⟨x, List.mem_singleton_self x, hr⟩
    · simp [recordsOf]
    · intro y hy
      cases hy
  | some y =>
    by_cases h1 : (!e && decide (y.tag < x.tag)) = true
    · refine ⟨[.record y.tag (oneSided (!isF) y), .record x.tag (oneSided isF x)], true,
        ?_, ?_, ?_, ?_⟩
      · simp [walkLeafTrace, walkLeafOtherTrace, walkLeafItemTrace, h1, Trace.bind_mk]
      · intro r hr
        simp only [recordsOf, List.mem_cons, List.mem_singleton, List.not_mem_nil,
          or_false] at hr
        rcases hr with hr | hr
        · exact Or.inr (Or.inl ⟨y, rfl, hr⟩)
        · exact Or.inl ⟨x, List.mem_singleton_self x, hr⟩
      · simp [recordsOf]
      · intro y' hy' _
        cases hy'
        simp [recordsOf]
    · by_cases h2 : (e || decide (x.tag ≠ y.tag)) = true
      · refine ⟨[.record x.tag (oneSided isF x)], e, ?_, ?_, ?_, ?_⟩
        · have h2' : e = true ∨ ¬ x.tag = y.tag := by simpa using h2
          simp [walkLeafTrace, walkLeafOtherTrace, walkLeafItemTrace, h1, Trace.bind,
            Trace.pure, Trace.emit, if_pos h2']
        · intro r hr
          simp only [recordsOf, List.mem_singleton] at hr
          exact Or.inl ⟨x, List.mem_singleton_self x, hr⟩
        · simp [recordsOf]
        · intro y' _ he
          exact Or.inl he
      · have h3 : e = false ∧ x.tag = y.tag := by
          cases e <;> simp_all
        by_cases h4 : x.data ≠ y.data
        · refine ⟨[.record y.tag (twoSided isF x y)], true, ?_, ?_, ?_, ?_⟩
          · have h2' : ¬ (e = true ∨ ¬ x.tag = y.tag) := by simpa using h2
            simp [walkLeafTrace, walkLeafOtherTrace, walkLeafItemTrace, h1, h4, Trace.bind,
              Trace.pure, Trace.emit, if_neg h2']
          · intro r hr
            simp only [recordsOf, List.mem_singleton] at hr
            exact Or.inr (Or.inr ⟨x, List.mem_singleton_self x, y, rfl, h3.2, h4, hr⟩)
          · simp [recordsOf, h3.2]
          · intro y' hy' _
            cases hy'
            simp [recordsOf]
        · have h5 : y = x := by
            cases x; cases y
            simp only [ne_eq, not_not] at h4
            simp only at h3
            simp [h3.2, h4]
          refine ⟨[], true, ?_, ?_, ?_, ?_⟩
          · have h2' : ¬ (e = true ∨ ¬ x.tag = y.tag) := by simpa using h2
            simp [walkLeafTrace, walkLeafOtherTrace, walkLeafItemTrace, h1, h4, Trace.bind,
              Trace.pure, Trace.emit, if_neg h2']
          · intro r hr
            cases hr
          · exact Or.inr (by rw [h5])
          · intro y' hy' _
            cases hy'
            exact Or.inr (Or.inr h5)

theorem walkAttr_mono {o : Option SHAMapItem} {isF : Bool} {l1 l2 : List SHAMapItem}
    {r : Nat × DeltaRef} (h : WalkAttr o isF l1 r) (hsub : ∀ x ∈ l1, x ∈ l2) :
    WalkAttr o isF l2 r := by
  rcases h with ⟨x, hx, hr⟩ | ⟨y, hy, hr⟩ | ⟨x, hx, y, hy, h1, h2, hr⟩
  · exact Or.inl ⟨x, hsub x hx, hr⟩
  · exact Or.inr (Or.inl ⟨y, hy, hr⟩)
  · exact Or.inr (Or.inr ⟨x, hsub x hx, y, hy, h1, h2, hr⟩)

theorem walkFinishTrace_spec (o : Option SHAMapItem) (isF e : Bool) :
    ∃ evs, walkFinishTrace o isF e = ⟨evs, .ok ()⟩ ∧
      (∀ r ∈ recordsOf evs, WalkAttr o isF [] r) ∧
      (∀ y, o = some y → e = false → y.tag ∈ (recordsOf evs).map Prod.fst) := by
  cases o with
  | none =>
    refine ⟨[], rfl, ?_, ?_⟩
    · intro r hr
      cases hr
    · intro y hy
      cases hy
  | some y =>
    cases e with
    | true =>
      refine ⟨[], rfl, ?_, ?_⟩
      · intro r hr
        cases hr
      · intro y' _ he
        cases he
    | false =>
      refine ⟨[.record y.tag (oneSided (!isF) y)], rfl, ?_, ?_⟩
      · intro r hr
        simp only [recordsOf, List.mem_singleton] at hr
        exact Or.inr (Or.inl ⟨y, rfl, hr⟩)
      · intro y' hy' _
        cases hy'
        simp [recordsOf]

theorem leavesOf_cons (p : NodeID × Trie) (ts : List (NodeID × Trie)) :
    leavesOf (p :: ts) = p.2.leaves ++ leavesOf ts := by
  simp [leavesOf]

theorem leavesOf_append (ts1 ts2 : List (NodeID × Trie)) :
    leavesOf (ts1 ++ ts2) = leavesOf ts1 ++ leavesOf ts2 := by
  simp [leavesOf]

theorem mem_leavesOf_reverse {ts : List (NodeID × Trie)} {x : SHAMapItem} :
    x ∈ leavesOf ts.reverse ↔ x ∈ leavesOf ts := by
  simp [leavesOf]

theorem nodesOf_append (hs : Hasher Hs) (ts1 ts2 : List (NodeID × Trie)) :
    nodesOf hs (ts1 ++ ts2) = nodesOf hs ts1 ++ nodesOf hs ts2 := by
  simp [nodesOf]

theorem nodesOf_reverse (hs : Hasher Hs) (ts : List (NodeID × Trie)) :
    nodesOf hs ts.reverse = (nodesOf hs ts).reverse := by
  simp [nodesOf]

/-- On a well-formed tree and with fuel for every node on the stack, the loop of
`walkBranch` ends normally; it records only leaves of the stack and the single
item, it records every leaf that is not the single item itself, and it records the
single item unless that item is one of the leaves. -/
theorem walkTraceLoop_spec (hs : Hasher Hs) {T : Trie} (hwf : T.wf [] = true)
    (o : Option SHAMapItem) (isF : Bool) :
    ∀ (fuel : Nat) (ts : List (NodeID × Trie)) (e : Bool),
      (∀ p ∈ ts, T.sub p.1 = some p.2) → totalSize ts ≤ fuel →
      ∃ evs, walkTraceLoop (SHAMap.ofTrie hs T) o isF fuel (nodesOf hs ts) e = ⟨evs, .ok ()⟩ ∧
        (∀ r ∈ recordsOf evs, WalkAttr o isF (leavesOf ts) r) ∧
        (∀ x ∈ leavesOf ts, x.tag ∈ (recordsOf evs).map Prod.fst ∨ o = some x) ∧
        (∀ y, o = some y → e = false →
          y.tag ∈ (recordsOf evs).map Prod.fst ∨ y ∈ leavesOf ts) := by
  have finish : ∀ (fuel : Nat) (e : Bool),
      ∃ evs, walkTraceLoop (SHAMap.ofTrie hs T) o isF fuel (nodesOf hs []) e = ⟨evs, .ok ()⟩ ∧
        (∀ r ∈ recordsOf evs, WalkAttr o isF (leavesOf []) r) ∧
        (∀ x ∈ leavesOf [], x.tag ∈ (recordsOf evs).map Prod.fst ∨ o = some x) ∧
        (∀ y, o = some y → e = false →
          y.tag ∈ (recordsOf evs).map Prod.fst ∨ y ∈ leavesOf []) := by
    intro fuel e
    obtain ⟨evs, h1, h2, h3⟩ := walkFinishTrace_spec o isF e
    refine ⟨evs, ?_, h2, ?_, ?_⟩
    · cases fuel <;> simpa only [nodesOf, List.map_nil, walkTraceLoop] using h1
    · intro x hx
      cases hx
    · intro y hy he
      exact Or.inl (h3 y hy he)
  intro fuel
  induction fuel with
  | zero =>
    intro ts e hsub hsz
    cases ts with
    | nil => exact finish 0 e
    | cons p ts =>
      have := Trie.size_pos p.2
      simp only [totalSize, List.map_cons, List.sum_cons] at hsz
      omega
  | succ fuel ih =>
    intro ts e hsub hsz
    cases ts with
    | nil => exact finish (fuel + 1) e
    | cons p ts =>
      obtain ⟨id, t⟩ := p
      have hsubt : T.sub id = some t := hsub (id, t) (List.mem_cons_self _ _)
      have hsub' : ∀ p ∈ ts, T.sub p.1 = some p.2 :=
        fun p hp => hsub p (List.mem_cons_of_mem _ hp)
      simp only [totalSize, List.map_cons, List.sum_cons] at hsz
      cases t with
      | leaf x =>
        obtain ⟨evs0, e1, h0, ha, hb, hc⟩ := walkLeafTrace_spec x o isF e
        obtain ⟨evs1, h1, ha1, hb1, hc1⟩ := ih ts e1 hsub' (by
          simp only [Trie.size] at hsz
          simp only [totalSize]
          omega)
        refine ⟨evs0 ++ evs1, ?_, ?_, ?_, ?_⟩
        · have hn : nodesOf hs ((id, Trie.leaf x) :: ts) = .leaf id x :: nodesOf hs ts := rfl
          rw [hn]
          simp only [walkTraceLoop]
          rw [h0, Trace.bind_mk, h1]
        · intro r hr
          rw [recordsOf_append, List.mem_append] at hr
          rw [leavesOf_cons]
          rcases hr with hr | hr
          · exact walkAttr_mono (ha r hr) (fun z hz => List.mem_append_left _ hz)
          · exact walkAttr_mono (ha1 r hr) (fun z hz => List.mem_append_right _ hz)
        · intro z hz
          rw [leavesOf_cons, List.mem_append] at hz
          rw [recordsOf_append, List.map_append, List.mem_append]
          rcases hz with hz | hz
          · simp only [Trie.leaves, List.mem_singleton] at hz
            subst hz
            rcases hb with hb | hb
            · exact Or.inl (Or.inl hb)
            · exact Or.inr hb
          · rcases hb1 z hz with h | h
            · exact Or.inl (Or.inr h)
            · exact Or.inr h
        · intro y hy he
          rw [recordsOf_append, List.map_append, List.mem_append, leavesOf_cons,
            List.mem_append]
          rcases hc y hy he with h | h | h
          · rcases hc1 y hy h with h | h
            · exact Or.inl (Or.inr h)
            · exact Or.inr (Or.inr h)
          · exact Or.inl (Or.inl h)
          · exact Or.inr (Or.inl (by simp [Trie.leaves, h]))
      | inner bs =>
        have hlen : bs.length = 16 := by
          have := Trie.wf_sub hwf hsubt
          exact Trie.wf_inner_length this
        obtain ⟨evs0, hr0, h0⟩ :=
          pushTrace_ofTrie hs hsubt isF (List.range 16) (nodesOf hs ts)
        have hsz' : totalSize ((kids id (.inner bs) (List.range 16)).reverse ++ ts) ≤ fuel := by
          rw [totalSize_append, totalSize_reverse, totalSize_kids]
          have := Trie.size_inner_eq hlen
          simp only [totalSize]
          omega
        have hsubk : ∀ p ∈ (kids id (.inner bs) (List.range 16)).reverse ++ ts,
            T.sub p.1 = some p.2 := by
          intro p hp
          rcases List.mem_append.1 hp with hp | hp
          · exact kids_sub hsubt _ p (List.mem_reverse.1 hp)
          · exact hsub' p hp
        obtain ⟨evs1, h1, ha1, hb1, hc1⟩ := ih _ e hsubk hsz'
        have hmem : ∀ z, z ∈ leavesOf ((kids id (.inner bs) (List.range 16)).reverse ++ ts) ↔
            z ∈ leavesOf ((id, .inner bs) :: ts) := by
          intro z
          rw [leavesOf_append, List.mem_append, mem_leavesOf_reverse, mem_leavesOf_kids,
            leavesOf_cons, List.mem_append, Trie.mem_leaves_inner_range hlen]
        refine ⟨evs0 ++ evs1, ?_, ?_, ?_, ?_⟩
        · rw [nodesOf_append, nodesOf_reverse] at h1
          have hn : nodesOf hs ((id, Trie.inner bs) :: ts) =
              .inner id (bs.map (fun b => b.map hs.hashOf)) :: nodesOf hs ts := rfl
          have ht : Trie.toNode hs id (.inner bs) =
              .inner id (bs.map (fun b => b.map hs.hashOf)) := rfl
          rw [hn]
          simp only [walkTraceLoop]
          rw [← ht, h0, Trace.bind_mk, h1]
        · intro r hr
          rw [recordsOf_append, hr0, List.nil_append] at hr
          exact walkAttr_mono (ha1 r hr) (fun z hz => (hmem z).1 hz)
        · intro z hz
          rw [recordsOf_append, hr0, List.nil_append]
          exact hb1 z ((hmem z).2 hz)
        · intro y hy he
          rw [recordsOf_append, hr0, List.nil_append]
          rcases hc1 y hy he with h | h
          · exact Or.inl h
          · exact Or.inr ((hmem y).1 h)

end WalkSpec

/-! ## The events of `compare` on well-formed trees -/

section CompareSpec

variable {Hs : Type} [DecidableEq Hs]

theorem walkAttr_attributed {o : Option SHAMapItem} {isF : Bool} {l ours theirs : List SHAMapItem}
    {r : Nat × DeltaRef} (h : WalkAttr o isF l r)
    (hl : ∀ x ∈ l, x ∈ (if isF then ours else theirs))
    (ho : ∀ y, o = some y → y ∈ (if isF then theirs else ours)) :
    Attributed ours theirs r := by
  cases isF with
  | true =>
    simp only [if_true] at hl ho
    rcases h with ⟨x, hx, rfl⟩ | ⟨y, hy, rfl⟩ | ⟨x, hx, y, hy, h1, h2, rfl⟩
    · refine ⟨?_, ?_, ?_, ?_⟩ <;> simp [oneSided, hl x hx]
    · refine ⟨?_, ?_, ?_, ?_⟩ <;> simp [oneSided, ho y hy]
    · refine ⟨?_, ?_, ?_, ?_⟩ <;> simp [twoSided, hl x hx, ho y hy, h1, h2]
  | false =>
    simp only [Bool.false_eq_true, if_false] at hl ho
    rcases h with ⟨x, hx, rfl⟩ | ⟨y, hy, rfl⟩ | ⟨x, hx, y, hy, h1, h2, rfl⟩
    · refine ⟨?_, ?_, ?_, ?_⟩ <;> simp [oneSided, hl x hx]
    · refine ⟨?_, ?_, ?_, ?_⟩ <;> simp [oneSided, ho y hy]
    · refine ⟨?_, ?_, ?_, ?_⟩ <;> simp [twoSided, hl x hx, ho y hy, h1, Ne.symm h2]

theorem walkBranchTrace_spec (hs : Hasher Hs) {T t : Trie} (hwf : T.wf [] = true)
    {id : NodeID} (hsub : T.sub id = some t) (o : Option SHAMapItem) (isF : Bool)
    {fuel : Nat} (hf : t.size ≤ fuel) :
    ∃ evs, walkBranchTrace (SHAMap.ofTrie hs T) fuel (t.toNode hs id) o isF = ⟨evs, .ok ()⟩ ∧
      (∀ r ∈ recordsOf evs, WalkAttr o isF t.leaves r) ∧
      (∀ x ∈ t.leaves, x.tag ∈ (recordsOf evs).map Prod.fst ∨ o = some x) ∧
      (∀ y, o = some y → y.tag ∈ (recordsOf evs).map Prod.fst ∨ y ∈ t.leaves) := by
  obtain ⟨evs, h1, h2, h3, h4⟩ := walkTraceLoop_spec hs hwf o isF fuel [(id, t)] o.isNone
    (by
      intro p hp
      simp only [List.mem_singleton] at hp
      subst hp
      exact hsub)
    (by simpa [totalSize] using hf)
  have hl : leavesOf [(id, t)] = t.leaves := by simp [leavesOf]
  rw [hl] at h2 h3 h4
  refine ⟨evs, h1, h2, h3, ?_⟩
  intro y hy
  exact h4 y hy (by simp [hy])

theorem walkResolvedTrace_spec (hs : Hasher Hs) {T t : Trie} (hwf : T.wf [] = true)
    {id : NodeID} (hsub : T.sub id = some t) (isF : Bool) {fuel : Nat} (hf : t.size ≤ fuel) :
    ∃ evs, walkResolvedTrace (SHAMap.ofTrie hs T) fuel id (hs.hashOf t) isF = ⟨evs, .ok ()⟩ ∧
      (∀ r ∈ recordsOf evs, WalkAttr none isF t.leaves r) ∧
      (∀ x ∈ t.leaves, x.tag ∈ (recordsOf evs).map Prod.fst) := by
  obtain ⟨evs, h1, h2, h3, _⟩ := walkBranchTrace_spec hs hwf hsub none isF hf
  refine ⟨.log isF id :: evs, ?_, h2, ?_⟩
  · simp only [walkResolvedTrace, ofTrie_resolve hs hsub, h1, Trace.emit_mk,
      List.singleton_append]
  · intro x hx
    rcases h3 x hx with h | h
    · exact h
    · cases h

theorem pairKids_cons_skip (id : NodeID) {a b : Trie} {i : Nat} (is : List Nat)
    (h : a.child i = none ∨ b.child i = none ∨ a.child i = b.child i) :
    pairKids id a b (i :: is) = pairKids id a b is := by
  simp only [pairKids, List.filterMap_cons]
  cases ha : a.child i with
  | none => rfl
  | some x =>
    cases hb : b.child i with
    | none => rfl
    | some y =>
      rcases h with h | h | h
      · rw [ha] at h; cases h
      · rw [hb] at h; cases h
      · rw [ha, hb] at h
        cases h
        simp

theorem pairKids_cons_push (id : NodeID) {a b x y : Trie} {i : Nat} (is : List Nat)
    (ha : a.child i = some x) (hb : b.child i = some y) (h : x ≠ y) :
    pairKids id a b (i :: is) = (id ++ [i], x, y) :: pairKids id a b is := by
  simp [pairKids, List.filterMap_cons, ha, hb, h]

theorem pairSize_pairKids_le (id : NodeID) (a b : Trie) (is : List Nat) :
    pairSize (pairKids id a b is) ≤
      (is.map (fun i => Trie.sizeOpt (a.child i))).sum +
      (is.map (fun i => Trie.sizeOpt (b.child i))).sum := by
  induction is with
  | nil => simp [pairKids, pairSize]
  | cons i is ih =>
    cases ha : a.child i with
    | none =>
      rw [pairKids_cons_skip id is (Or.inl ha)]
      simp only [List.map_cons, List.sum_cons]
      omega
    | some x =>
      cases hb : b.child i with
      | none =>
        rw [pairKids_cons_skip id is (Or.inr (Or.inl hb))]
        simp only [List.map_cons, List.sum_cons]
        omega
      | some y =>
        by_cases hxy : x = y
        · rw [pairKids_cons_skip id is (Or.inr (Or.inr (by rw [ha, hb, hxy])))]
          simp only [List.map_cons, List.sum_cons]
          omega
        · rw [pairKids_cons_push id is ha hb hxy]
          simp only [pairSize, List.map_cons, List.sum_cons, ha, hb, Trie.sizeOpt] at ih ⊢
          omega

theorem pairKids_sub {TA TB a b : Trie} {id : NodeID} (ha : TA.sub id = some a)
    (hb : TB.sub id = some b) (is : List Nat) :
    ∀ p ∈ pairKids id a b is, TA.sub p.1 = some p.2.1 ∧ TB.sub p.1 = some p.2.2 := by
  intro p hp
  simp only [pairKids, List.mem_filterMap] at hp
  obtain ⟨i, _, hi⟩ := hp
  cases hx : a.child i with
  | none => simp [hx] at hi
  | some x =>
    cases hy : b.child i with
    | none => simp [hx, hy] at hi
    | some y =>
      simp only [hx, hy] at hi
      split_ifs at hi
      simp only [Option.some.injEq] at hi
      subst hi
      exact ⟨Trie.sub_child ha hx, Trie.sub_child hb hy⟩

theorem deltaNodesOf_cons (hs : Hasher Hs) (p : NodeID × Trie × Trie)
    (ps : List (NodeID × Trie × Trie)) :
    deltaNodesOf hs (p :: ps) = ⟨p.1, hs.hashOf p.2.1, hs.hashOf p.2.2⟩ :: deltaNodesOf hs ps :=
  rfl

theorem compareBranchesTrace_spec (hs : Hasher Hs) {TA TB a b : Trie}
    (hwfA : TA.wf [] = true) (hwfB : TB.wf [] = true)
    (hcf : CollisionFree hs TA TB) {id : NodeID}
    (ha : TA.sub id = some a) (hb : TB.sub id = some b) (fuel : Nat) :
    ∀ (is : List Nat) (st : List (SHAMapDeltaNode Hs)),
      (∀ i ∈ is, Trie.sizeOpt (a.child i) ≤ fuel ∧ Trie.sizeOpt (b.child i) ≤ fuel) →
      ∃ evs, compareBranchesTrace (SHAMap.ofTrie hs TA) (SHAMap.ofTrie hs TB) fuel
          (a.toNode hs id) (b.toNode hs id) is st =
            ⟨evs, .ok ((deltaNodesOf hs (pairKids id a b is)).reverse ++ st)⟩ ∧
        (∀ r ∈ recordsOf evs, Attributed TA.leaves TB.leaves r) ∧
        (∀ i ∈ is, ∀ x ∈ Trie.leavesOpt (a.child i),
          x ∈ TB.leaves ∨ x.tag ∈ (recordsOf evs).map Prod.fst ∨
            ∃ p ∈ pairKids id a b is, x ∈ p.2.1.leaves) ∧
        (∀ i ∈ is, ∀ y ∈ Trie.leavesOpt (b.child i),
          y ∈ TA.leaves ∨ y.tag ∈ (recordsOf evs).map Prod.fst ∨
            ∃ p ∈ pairKids id a b is, y ∈ p.2.2.leaves) := by
  intro is
  induction is with
  | nil =>
    intro st _
    refine ⟨[], rfl, ?_, ?_, ?_⟩
    · intro r hr
      cases hr
    · intro i hi
      cases hi
    · intro i hi
      cases hi
  | cons i is ih =>
    intro st hsz
    have hsz' : ∀ j ∈ is, Trie.sizeOpt (a.child j) ≤ fuel ∧ Trie.sizeOpt (b.child j) ≤ fuel :=
      fun j hj => hsz j (List.mem_cons_of_mem _ hj)
    have hszi := hsz i (List.mem_cons_self _ _)
    cases hai : a.child i with
    | none =>
      cases hbi : b.child i with
      | none =>
        -- both branches are empty
        obtain ⟨evs, h1, h2, h3, h4⟩ := ih st hsz'
        refine ⟨evs, ?_, h2, ?_, ?_⟩
        · rw [pairKids_cons_skip id is (Or.inl hai)]
          simp only [compareBranchesTrace, toNode_getChildHash, hai, hbi, Option.map_none',
            ne_eq, not_true_eq_false, if_false]
          exact h1
        · intro j hj x hx
          rw [pairKids_cons_skip id is (Or.inl hai)]
          rcases List.mem_cons.1 hj with hj | hj
          · subst hj
            rw [hai] at hx
            cases hx
          · exact h3 j hj x hx
        · intro j hj y hy
          rw [pairKids_cons_skip id is (Or.inl hai)]
          rcases List.mem_cons.1 hj with hj | hj
          · subst hj
            rw [hbi] at hy
            cases hy
          · exact h4 j hj y hy
      | some y =>
        -- the other tree has a branch, we do not
        have hsuby : TB.sub (id ++ [i]) = some y := Trie.sub_child hb hbi
        obtain ⟨evs0, hw1, hw2, hw3⟩ := walkResolvedTrace_spec hs hwfB hsuby false
          (show y.size ≤ fuel by simpa [hbi, Trie.sizeOpt] using hszi.2)
        obtain ⟨evs, h1, h2, h3, h4⟩ := ih st hsz'
        refine ⟨evs0 ++ evs, ?_, ?_, ?_, ?_⟩
        · rw [pairKids_cons_skip id is (Or.inl hai)]
          simp only [compareBranchesTrace, toNode_getChildHash, toNode_getChildNodeID, hai,
            hbi, Option.map_none', Option.map_some', ne_eq, not_false_eq_true, if_true,
            reduceCtorEq]
          rw [hw1, Trace.bind_mk, h1]
        · intro r hr
          rw [recordsOf_append, List.mem_append] at hr
          rcases hr with hr | hr
          · exact walkAttr_attributed (hw2 r hr)
              (by simpa using Trie.leaves_sub_subset hsuby) (by simp)
          · exact h2 r hr
        · intro j hj x hx
          rw [pairKids_cons_skip id is (Or.inl hai), recordsOf_append, List.map_append]
          rcases List.mem_cons.1 hj with hj | hj
          · subst hj
            rw [hai] at hx
            cases hx
          · rcases h3 j hj x hx with h | h | h
            · exact Or.inl h
            · exact Or.inr (Or.inl (List.mem_append_right _ h))
            · exact Or.inr (Or.inr h)
        · intro j hj z hz
          rw [pairKids_cons_skip id is (Or.inl hai), recordsOf_append, List.map_append]
          rcases List.mem_cons.1 hj with hj | hj
          · subst hj
            rw [hbi] at hz
            exact Or.inr (Or.inl (List.mem_append_left _ (hw3 z hz)))
          · rcases h4 j hj z hz with h | h | h
            · exact Or.inl h
            · exact Or.inr (Or.inl (List.mem_append_right _ h))
            · exact Or.inr (Or.inr h)
    | some x =>
      have hsubx : TA.sub (id ++ [i]) = some x := Trie.sub_child ha hai
      cases hbi : b.child i with
      | none =>
        -- we have a branch, the other tree does not
        obtain ⟨evs0, hw1, hw2, hw3⟩ := walkResolvedTrace_spec hs hwfA hsubx true
          (show x.size ≤ fuel by simpa [hai, Trie.sizeOpt] using hszi.1)
        obtain ⟨evs, h1, h2, h3, h4⟩ := ih st hsz'
        refine ⟨evs0 ++ evs, ?_, ?_, ?_, ?_⟩
        · rw [pairKids_cons_skip id is (Or.inr (Or.inl hbi))]
          simp only [compareBranchesTrace, toNode_getChildHash, toNode_getChildNodeID, hai,
            hbi, Option.map_none', Option.map_some', ne_eq, not_false_eq_true, if_true,
            reduceCtorEq]
          rw [hw1, Trace.bind_mk, h1]
        · intro r hr
          rw [recordsOf_append, List.mem_append] at hr
          rcases hr with hr | hr
          · exact walkAttr_attributed (hw2 r hr)
              (by simpa using Trie.leaves_sub_subset hsubx) (by simp)
          · exact h2 r hr
        · intro j hj z hz
          rw [pairKids_cons_skip id is (Or.inr (Or.inl hbi)), recordsOf_append, List.map_append]
          rcases List.mem_cons.1 hj with hj | hj
          · subst hj
            rw [hai] at hz
            exact Or.inr (Or.inl (List.mem_append_left _ (hw3 z hz)))
          · rcases h3 j hj z hz with h | h | h
            · exact Or.inl h
            · exact Or.inr (Or.inl (List.mem_append_right _ h))
            · exact Or.inr (Or.inr h)
        · intro j hj z hz
          rw [pairKids_cons_skip id is (Or.inr (Or.inl hbi)), recordsOf_append, List.map_append]
          rcases List.mem_cons.1 hj with hj | hj
          · subst hj
            rw [hbi] at hz
            cases hz
          · rcases h4 j hj z hz with h | h | h
            · exact Or.inl h
            · exact Or.inr (Or.inl (List.mem_append_right _ h))
            · exact Or.inr (Or.inr h)
      | some y =>
        have hsuby : TB.sub (id ++ [i]) = some y := Trie.sub_child hb hbi
        by_cases hxy : x = y
        · -- equal hashes: the branch is skipped
          obtain ⟨evs, h1, h2, h3, h4⟩ := ih st hsz'
          have hskip := pairKids_cons_skip id is
            (Or.inr (Or.inr (show a.child i = b.child i by rw [hai, hbi, hxy])))
          refine ⟨evs, ?_, h2, ?_, ?_⟩
          · rw [hskip]
            simp only [compareBranchesTrace, toNode_getChildHash, hai, hbi, hxy,
              ne_eq, not_true_eq_false, if_false]
            exact h1
          · intro j hj z hz
            rw [hskip]
            rcases List.mem_cons.1 hj with hj | hj
            · subst hj
              rw [hai] at hz
              exact Or.inl (Trie.leaves_sub_subset hsuby z (hxy ▸ hz))
            · exact h3 j hj z hz
          · intro j hj z hz
            rw [hskip]
            rcases List.mem_cons.1 hj with hj | hj
            · subst hj
              rw [hbi] at hz
              exact Or.inl (Trie.leaves_sub_subset hsubx z (hxy ▸ hz))
            · exact h4 j hj z hz
        · -- different non-empty branches: the pair is pushed
          have hne : hs.hashOf x ≠ hs.hashOf y := fun h => hxy (hcf _ x y hsubx hsuby h)
          obtain ⟨evs, h1, h2, h3, h4⟩ :=
            ih (⟨id ++ [i], hs.hashOf x, hs.hashOf y⟩ :: st) hsz'
          have hpush := pairKids_cons_push id is hai hbi hxy
          refine ⟨evs, ?_, h2, ?_, ?_⟩
          · rw [hpush]
            simp only [compareBranchesTrace, toNode_getChildHash, toNode_getChildNodeID, hai,
              hbi, Option.map_some', ne_eq, Option.some.injEq, hne, not_false_eq_true, if_true]
            rw [h1, deltaNodesOf_cons, List.reverse_cons, List.append_assoc]
            rfl
          · intro j hj z hz
            rw [hpush]
            rcases List.mem_cons.1 hj with hj | hj
            · subst hj
              rw [hai] at hz
              exact Or.inr (Or.inr ⟨_, List.mem_cons_self _ _, hz⟩)
            · rcases h3 j hj z hz with h | h | ⟨p, hp, h⟩
              · exact Or.inl h
              · exact Or.inr (Or.inl h)
              · exact Or.inr (Or.inr ⟨p, List.mem_cons_of_mem _ hp, h⟩)
          · intro j hj z hz
            rw [hpush]
            rcases List.mem_cons.1 hj with hj | hj
            · subst hj
              rw [hbi] at hz
              exact Or.inr (Or.inr ⟨_, List.mem_cons_self _ _, hz⟩)
            · rcases h4 j hj z hz with h | h | ⟨p, hp, h⟩
              · exact Or.inl h
              · exact Or.inr (Or.inl h)
              · exact Or.inr (Or.inr ⟨p, List.mem_cons_of_mem _ hp, h⟩)

theorem item_eq_of_tag_data {x y : SHAMapItem} (h1 : x.tag = y.tag) (h2 : x.data = y.data) :
    x = y := by
  cases x
  cases y
  simp only at h1 h2
  rw [h1, h2]

theorem compareNodesTrace_spec (hs : Hasher Hs) {TA TB a b : Trie}
    (hwfA : TA.wf [] = true) (hwfB : TB.wf [] = true)
    (hcf : CollisionFree hs TA TB) {id : NodeID}
    (ha : TA.sub id = some a) (hb : TB.sub id = some b) (fuel : Nat)
    (hf : a.size + b.size ≤ fuel + 1) (st : List (SHAMapDeltaNode Hs)) :
    ∃ evs ps, compareNodesTrace (SHAMap.ofTrie hs TA) (SHAMap.ofTrie hs TB) fuel
        (a.toNode hs id) (b.toNode hs id) st =
          ⟨evs, .ok ((deltaNodesOf hs ps).reverse ++ st)⟩ ∧
      (∀ p ∈ ps, TA.sub p.1 = some p.2.1 ∧ TB.sub p.1 = some p.2.2) ∧
      pairSize ps + 2 ≤ a.size + b.size ∧
      (∀ r ∈ recordsOf evs, Attributed TA.leaves TB.leaves r) ∧
      (∀ x ∈ a.leaves, x ∈ TB.leaves ∨ x.tag ∈ (recordsOf evs).map Prod.fst ∨
        ∃ p ∈ ps, x ∈ p.2.1.leaves) ∧
      (∀ y ∈ b.leaves, y ∈ TA.leaves ∨ y.tag ∈ (recordsOf evs).map Prod.fst ∨
        ∃ p ∈ ps, y ∈ p.2.2.leaves) := by
  have hla := Trie.leaves_sub_subset ha
  have hlb := Trie.leaves_sub_subset hb
  have hpa := Trie.size_pos a
  have hpb := Trie.size_pos b
  cases a with
  | leaf x =>
    have hx : x ∈ TA.leaves := hla x (by simp [Trie.leaves])
    cases b with
    | leaf y =>
      have hy : y ∈ TB.leaves := hlb y (by simp [Trie.leaves])
      by_cases ht : x.tag = y.tag
      · by_cases hd : x.data ≠ y.data
        · refine ⟨[.record x.tag (some x, some y)], [], ?_, ?_, ?_, ?_, ?_, ?_⟩
          · simp [compareNodesTrace, Trie.toNode, ht, hd, deltaNodesOf]
          · intro p hp
            cases hp
          · simp [pairSize, Trie.size]
          · intro r hr
            simp only [recordsOf, List.mem_singleton] at hr
            subst hr
            refine ⟨?_, ?_, ?_, ?_⟩ <;> simp [hx, hy, ht, hd]
          · intro z hz
            simp only [Trie.leaves, List.mem_singleton] at hz
            subst hz
            exact Or.inr (Or.inl (by simp [recordsOf]))
          · intro z hz
            simp only [Trie.leaves, List.mem_singleton] at hz
            subst hz
            exact Or.inr (Or.inl (by simp [recordsOf, ht]))
        · have hxy : x = y := item_eq_of_tag_data ht (by simpa using hd)
          refine ⟨[], [], ?_, ?_, ?_, ?_, ?_, ?_⟩
          · simp [compareNodesTrace, Trie.toNode, hxy, deltaNodesOf, Trace.pure]
          · intro p hp
            cases hp
          · simp [pairSize, Trie.size]
          · intro r hr
            cases hr
          · intro z hz
            simp only [Trie.leaves, List.mem_singleton] at hz
            subst hz
            exact Or.inl (hxy ▸ hy)
          · intro z hz
            simp only [Trie.leaves, List.mem_singleton] at hz
            subst hz
            exact Or.inl (hxy ▸ hx)
      · refine ⟨[.record x.tag (some x, none), .record y.tag (none, some y)], [],
          ?_, ?_, ?_, ?_, ?_, ?_⟩
        · simp [compareNodesTrace, Trie.toNode, ht, deltaNodesOf]
        · intro p hp
          cases hp
        · simp [pairSize, Trie.size]
        · intro r hr
          simp only [recordsOf, List.mem_cons, List.mem_singleton, List.not_mem_nil,
            or_false] at hr
          rcases hr with hr | hr
          · subst hr
            refine ⟨?_, ?_, ?_, ?_⟩ <;> simp [hx]
          · subst hr
            refine ⟨?_, ?_, ?_, ?_⟩ <;> simp [hy]
        · intro z hz
          simp only [Trie.leaves, List.mem_singleton] at hz
          subst hz
          exact Or.inr (Or.inl (by simp [recordsOf]))
        · intro z hz
          simp only [Trie.leaves, List.mem_singleton] at hz
          subst hz
          exact Or.inr (Or.inl (by simp [recordsOf]))
    | inner bs =>
      obtain ⟨evs, h1, h2, h3, h4⟩ := walkBranchTrace_spec hs hwfB hb (some x) false
        (show (Trie.inner bs).size ≤ fuel by
          simp only [Trie.size] at hf ⊢
          omega)
      refine ⟨evs, [], ?_, ?_, ?_, ?_, ?_, ?_⟩
      · have ht : compareNodesTrace (SHAMap.ofTrie hs TA) (SHAMap.ofTrie hs TB) fuel
            (Trie.toNode hs id (.leaf x)) (Trie.toNode hs id (.inner bs)) st =
            (walkBranchTrace (SHAMap.ofTrie hs TB) fuel (Trie.toNode hs id (.inner bs))
              (some x) false).bind (fun _ => .pure st) := rfl
        rw [ht, h1, Trace.bind_mk]
        simp [Trace.pure, deltaNodesOf]
      · intro p hp
        cases hp
      · simp only [pairSize, List.map_nil, List.sum_nil, Trie.size]
        simp only [Trie.size] at hpb
        omega
      · intro r hr
        exact walkAttr_attributed (h2 r hr) (by simpa using hlb)
          (by
            intro y hy
            cases hy
            simpa using hx)
      · intro z hz
        simp only [Trie.leaves, List.mem_singleton] at hz
        subst hz
        rcases h4 z rfl with h | h
        · exact Or.inr (Or.inl h)
        · exact Or.inl (hlb z h)
      · intro z hz
        rcases h3 z hz with h | h
        · exact Or.inr (Or.inl h)
        · cases h
          exact Or.inl hx
  | inner as =>
    cases b with
    | leaf y =>
      have hy : y ∈ TB.leaves := hlb y (by simp [Trie.leaves])
      obtain ⟨evs, h1, h2, h3, h4⟩ := walkBranchTrace_spec hs hwfA ha (some y) true
        (show (Trie.inner as).size ≤ fuel by
          simp only [Trie.size] at hf ⊢
          omega)
      refine ⟨evs, [], ?_, ?_, ?_, ?_, ?_, ?_⟩
      · have ht : compareNodesTrace (SHAMap.ofTrie hs TA) (SHAMap.ofTrie hs TB) fuel
            (Trie.toNode hs id (.inner as)) (Trie.toNode hs id (.leaf y)) st =
            (walkBranchTrace (SHAMap.ofTrie hs TA) fuel (Trie.toNode hs id (.inner as))
              (some y) true).bind (fun _ => .pure st) := rfl
        rw [ht, h1, Trace.bind_mk]
        simp [Trace.pure, deltaNodesOf]
      · intro p hp
        cases hp
      · simp only [pairSize, List.map_nil, List.sum_nil, Trie.size]
        simp only [Trie.size] at hpa
        omega
      · intro r hr
        exact walkAttr_attributed (h2 r hr) (by simpa using hla)
          (by
            intro y' hy'
            cases hy'
            simpa using hy)
      · intro z hz
        rcases h3 z hz with h | h
        · exact Or.inr (Or.inl h)
        · cases h
          exact Or.inl hy
      · intro z hz
        simp only [Trie.leaves, List.mem_singleton] at hz
        subst hz
        rcases h4 z rfl with h | h
        · exact Or.inr (Or.inl h)
        · exact Or.inl (hla z h)
    | inner bs =>
      have hlenA : as.length = 16 := Trie.wf_inner_length (Trie.wf_sub hwfA ha)
      have hlenB : bs.length = 16 := Trie.wf_inner_length (Trie.wf_sub hwfB hb)
      have hsA := Trie.size_inner_eq hlenA
      have hsB := Trie.size_inner_eq hlenB
      obtain ⟨evs, h1, h2, h3, h4⟩ := compareBranchesTrace_spec hs hwfA hwfB hcf ha hb fuel
        (List.range 16) st (by
          intro i _
          have h1 := Trie.sizeOpt_child_lt (.inner as) i
          have h2 := Trie.sizeOpt_child_lt (.inner bs) i
          constructor <;> omega)
      refine ⟨evs, pairKids id (.inner as) (.inner bs) (List.range 16), ?_, ?_, ?_, h2, ?_, ?_⟩
      · exact h1
      · exact pairKids_sub ha hb _
      · have := pairSize_pairKids_le id (.inner as) (.inner bs) (List.range 16)
        omega
      · intro z hz
        obtain ⟨i, hi, c, hc, hzc⟩ := (Trie.mem_leaves_inner_range hlenA).1 hz
        exact h3 i hi z (by rw [hc]; exact hzc)
      · intro z hz
        obtain ⟨i, hi, c, hc, hzc⟩ := (Trie.mem_leaves_inner_range hlenB).1 hz
        exact h4 i hi z (by rw [hc]; exact hzc)

theorem pairSize_append (ps1 ps2 : List (NodeID × Trie × Trie)) :
    pairSize (ps1 ++ ps2) = pairSize ps1 + pairSize ps2 := by
  simp [pairSize]

theorem pairSize_reverse (ps : List (NodeID × Trie × Trie)) :
    pairSize ps.reverse = pairSize ps := by
  simp [pairSize, List.sum_reverse]

theorem deltaNodesOf_append (hs : Hasher Hs) (ps1 ps2 : List (NodeID × Trie × Trie)) :
    deltaNodesOf hs (ps1 ++ ps2) = deltaNodesOf hs ps1 ++ deltaNodesOf hs ps2 := by
  simp [deltaNodesOf]

theorem deltaNodesOf_reverse (hs : Hasher Hs) (ps : List (NodeID × Trie × Trie)) :
    deltaNodesOf hs ps.reverse = (deltaNodesOf hs ps).reverse := by
  simp [deltaNodesOf]

/-- On well-formed trees and with fuel for every node of the pairs on the stack,
the loop of `compare` ends normally; every record is attributed to the two leaf
sets, and every leaf below a pair of the stack is recorded unless the opposite
tree holds the same item. -/
theorem compareTraceLoop_spec (hs : Hasher Hs) {TA TB : Trie}
    (hwfA : TA.wf [] = true) (hwfB : TB.wf [] = true)
    (hcf : CollisionFree hs TA TB) :
    ∀ (fuel : Nat) (ps : List (NodeID × Trie × Trie)),
      (∀ p ∈ ps, TA.sub p.1 = some p.2.1 ∧ TB.sub p.1 = some p.2.2) → pairSize ps ≤ fuel →
      ∃ evs, compareTraceLoop (SHAMap.ofTrie hs TA) (SHAMap.ofTrie hs TB) fuel
          (deltaNodesOf hs ps) = ⟨evs, .ok ()⟩ ∧
        (∀ r ∈ recordsOf evs, Attributed TA.leaves TB.leaves r) ∧
        (∀ p ∈ ps,
          (∀ x ∈ p.2.1.leaves, x ∈ TB.leaves ∨ x.tag ∈ (recordsOf evs).map Prod.fst) ∧
          (∀ y ∈ p.2.2.leaves, y ∈ TA.leaves ∨ y.tag ∈ (recordsOf evs).map Prod.fst)) := by
  intro fuel
  induction fuel with
  | zero =>
    intro ps hsub hsz
    cases ps with
    | nil =>
      refine ⟨[], rfl, ?_, ?_⟩
      · intro r hr
        cases hr
      · intro p hp
        cases hp
    | cons p ps =>
      have := Trie.size_pos p.2.1
      simp only [pairSize, List.map_cons, List.sum_cons] at hsz
      omega
  | succ fuel ih =>
    intro ps hsub hsz
    cases ps with
    | nil =>
      refine ⟨[], rfl, ?_, ?_⟩
      · intro r hr
        cases hr
      · intro p hp
        cases hp
    | cons p ps =>
      obtain ⟨id, a, b⟩ := p
      have ha : TA.sub id = some a := (hsub (id, a, b) (List.mem_cons_self _ _)).1
      have hb : TB.sub id = some b := (hsub (id, a, b) (List.mem_cons_self _ _)).2
      have hsub' : ∀ p ∈ ps, TA.sub p.1 = some p.2.1 ∧ TB.sub p.1 = some p.2.2 :=
        fun p hp => hsub p (List.mem_cons_of_mem _ hp)
      have hsz2 : a.size + b.size + pairSize ps ≤ fuel + 1 := by
        simpa [pairSize] using hsz
      obtain ⟨evs0, ps0, h0, hs0, hz0, ha0, hca, hcb⟩ :=
        compareNodesTrace_spec hs hwfA hwfB hcf ha hb fuel (by omega) (deltaNodesOf hs ps)
      obtain ⟨evs1, h1, ha1, hc1⟩ := ih (ps0.reverse ++ ps)
        (by
          intro p hp
          rcases List.mem_append.1 hp with hp | hp
          · exact hs0 p (List.mem_reverse.1 hp)
          · exact hsub' p hp)
        (by
          rw [pairSize_append, pairSize_reverse]
          omega)
      rw [deltaNodesOf_append, deltaNodesOf_reverse] at h1
      refine ⟨.log true id :: .log false id :: (evs0 ++ evs1), ?_, ?_, ?_⟩
      · rw [deltaNodesOf_cons]
        simp only [compareTraceLoop, ofTrie_resolve hs ha, ofTrie_resolve hs hb]
        rw [h0, Trace.bind_mk, h1, Trace.emit_mk]
        rfl
      · intro r hr
        simp only [recordsOf_log, recordsOf_append, List.mem_append] at hr
        rcases hr with hr | hr
        · exact ha0 r hr
        · exact ha1 r hr
      · have hkeys : ∀ k, k ∈ (recordsOf evs0).map Prod.fst ∨ k ∈ (recordsOf evs1).map Prod.fst →
            k ∈ (recordsOf (.log true id :: .log false id :: (evs0 ++ evs1))).map Prod.fst := by
          intro k hk
          simp only [recordsOf_log, recordsOf_append, List.map_append, List.mem_append]
          exact hk
        intro p hp
        rcases List.mem_cons.1 hp with hp | hp
        · subst hp
          constructor
          · intro x hx
            rcases hca x hx with h | h | ⟨q, hq, h⟩
            · exact Or.inl h
            · exact Or.inr (hkeys _ (Or.inl h))
            · rcases (hc1 q (List.mem_append_left _ (List.mem_reverse.2 hq))).1 x h with h | h
              · exact Or.inl h
              · exact Or.inr (hkeys _ (Or.inr h))
          · intro y hy
            rcases hcb y hy with h | h | ⟨q, hq, h⟩
            · exact Or.inl h
            · exact Or.inr (hkeys _ (Or.inl h))
            · rcases (hc1 q (List.mem_append_left _ (List.mem_reverse.2 hq))).2 y h with h | h
              · exact Or.inl h
              · exact Or.inr (hkeys _ (Or.inr h))
        · obtain ⟨hx1, hy1⟩ := hc1 p (List.mem_append_right _ hp)
          constructor
          · intro x hx
            rcases hx1 x hx with h | h
            · exact Or.inl h
            · exact Or.inr (hkeys _ (Or.inr h))
          · intro y hy
            rcases hy1 y hy with h | h
            · exact Or.inl h
            · exact Or.inr (hkeys _ (Or.inr h))

/-- The events of `compare` on two well-formed trees, with fuel for all their
nodes: the computation ends normally, every record is attributed to the two leaf
sets, and every item that the opposite tree does not hold has its tag recorded. -/
theorem compareTrace_spec (hs : Hasher Hs) {TA TB : Trie}
    (hwfA : TA.wf [] = true) (hwfB : TB.wf [] = true)
    (hcf : CollisionFree hs TA TB) {fuel : Nat}
    (hf : TA.size + TB.size ≤ fuel) :
    ∃ evs, compareTrace (SHAMap.ofTrie hs TA) (SHAMap.ofTrie hs TB) fuel = ⟨evs, .ok ()⟩ ∧
      (∀ r ∈ recordsOf evs, Attributed TA.leaves TB.leaves r) ∧
      (∀ x ∈ TA.leaves, x ∈ TB.leaves ∨ x.tag ∈ (recordsOf evs).map Prod.fst) ∧
      (∀ y ∈ TB.leaves, y ∈ TA.leaves ∨ y.tag ∈ (recordsOf evs).map Prod.fst) := by
  by_cases h : hs.hashOf TA = hs.hashOf TB
  · have hAB : TA = TB := hcf [] TA TB rfl rfl h
    refine ⟨[], ?_, ?_, ?_, ?_⟩
    · simp only [compareTrace, SHAMap.ofTrie, h, if_true]
      rfl
    · intro r hr
      cases hr
    · intro x hx
      exact Or.inl (hAB ▸ hx)
    · intro y hy
      exact Or.inl (hAB ▸ hy)
  · obtain ⟨evs, h1, h2, h3⟩ := compareTraceLoop_spec hs hwfA hwfB hcf fuel [([], TA, TB)]
      (by
        intro p hp
        simp only [List.mem_singleton] at hp
        subst hp
        exact ⟨rfl, rfl⟩)
      (by simpa [pairSize] using hf)
    refine ⟨evs, ?_, h2, ?_, ?_⟩
    · have hc : compareTrace (SHAMap.ofTrie hs TA) (SHAMap.ofTrie hs TB) fuel =
          compareTraceLoop (SHAMap.ofTrie hs TA) (SHAMap.ofTrie hs TB) fuel
            [⟨[], hs.hashOf TA, hs.hashOf TB⟩] := by
        simp only [compareTrace, SHAMap.ofTrie, h, if_false]
      rw [hc]
      exact h1
    · exact (h3 _ (List.mem_singleton_self _)).1
    · exact (h3 _ (List.mem_singleton_self _)).2

end CompareSpec

/-! ## The tags of a well-formed tree are pairwise different -/

namespace Trie

/-- Induction on trees: a property that holds for leaves, and for an inner node
whenever it holds for its children, holds for all trees. -/
theorem induction_on {P : Trie → Prop} (hleaf : ∀ x, P (leaf x))
    (hinner : ∀ bs, (∀ i c, (inner bs).child i = some c → P c) → P (inner bs)) :
    ∀ t, P t := by
  have key : ∀ n t, t.size ≤ n → P t := by
    intro n
    induction n with
    | zero =>
      intro t ht
      have := size_pos t
      omega
    | succ n ih =>
      intro t ht
      cases t with
      | leaf x => exact hleaf x
      | inner bs =>
        apply hinner
        intro i c hc
        apply ih
        have := sizeOpt_child_lt (inner bs) i
        rw [hc] at this
        simp only [sizeOpt] at this
        omega
  intro t
  exact key t.size t (Nat.le_refl _)

theorem leaf_position : ∀ (t : Trie) (id : NodeID), wf id t = true →
    ∀ x ∈ t.leaves, id <+: nibbles x.tag := by
  intro t
  induction t using induction_on with
  | hleaf z =>
    intro id h x hx
    simp only [leaves, List.mem_singleton] at hx
    subst hx
    simp only [wf, Bool.and_eq_true, decide_eq_true_eq] at h
    exact h.2
  | hinner bs ih =>
    intro id h x hx
    obtain ⟨i, c, hc, hxc⟩ := mem_leaves_inner.1 hx
    exact (List.prefix_append id [i]).trans (ih i c hc _ (wf_child h hc) x hxc)

theorem tag_inj : ∀ (t : Trie) (id : NodeID), wf id t = true →
    ∀ x ∈ t.leaves, ∀ y ∈ t.leaves, x.tag = y.tag → x = y := by
  intro t
  induction t using induction_on with
  | hleaf z =>
    intro id _ x hx y hy _
    simp only [leaves, List.mem_singleton] at hx hy
    rw [hx, hy]
  | hinner bs ih =>
    intro id h x hx y hy hxy
    obtain ⟨i, c, hc, hxc⟩ := mem_leaves_inner.1 hx
    obtain ⟨j, d, hd, hyd⟩ := mem_leaves_inner.1 hy
    have h1 := leaf_position c _ (wf_child h hc) x hxc
    have h2 := leaf_position d _ (wf_child h hd) y hyd
    rw [← hxy] at h2
    have h3 : id ++ [i] = id ++ [j] := by
      have := List.prefix_of_prefix_length_le h1 h2 (by simp)
      exact this.eq_of_length (by simp)
    have hij : i = j := by simpa using h3
    subst hij
    rw [hc] at hd
    cases hd
    exact ih i c hc _ (wf_child h hc) x hxc y hyd hxy

end Trie

/-! ## Exchanging the two trees -/

namespace SwapEquiv

theorem map_swap (rs : List (Nat × DeltaRef)) : SwapEquiv rs (rs.map swapRecord) := by
  induction rs with
  | nil => exact .nil
  | cons r rs ih => exact .cons r ih

theorem append {a a' b b' : List (Nat × DeltaRef)} (h1 : SwapEquiv a a')
    (h2 : SwapEquiv b b') : SwapEquiv (a ++ b) (a' ++ b') := by
  induction h1 with
  | nil => exact h2
  | cons r _ ih => exact .cons r ih
  | pair r1 r2 hne _ ih => exact .pair r1 r2 hne ih

theorem length_eq {a a' : List (Nat × DeltaRef)} (h : SwapEquiv a a') :
    a'.length = a.length := by
  induction h with
  | nil => rfl
  | cons r _ ih => simp [ih]
  | pair r1 r2 _ _ ih => simp [ih]

theorem insertAll {a a' : List (Nat × DeltaRef)} (h : SwapEquiv a a') :
    ∀ d : Delta, (d.insertAll a).swap = d.swap.insertAll a' := by
  induction h with
  | nil => intro d; rfl
  | cons r _ ih =>
    intro d
    simp only [Delta.insertAll, List.foldl_cons] at ih ⊢
    rw [ih, Delta.swap_insert]
    rfl
  | pair r1 r2 hne _ ih =>
    intro d
    simp only [Delta.insertAll, List.foldl_cons] at ih ⊢
    rw [ih, Delta.swap_insert, Delta.swap_insert]
    simp only [swapRecord]
    rw [Delta.insert_comm _ _ _ hne]

end SwapEquiv

namespace RecEquiv

variable {α β γ δ : Type}

theorem pure (g : α → β) (a : α) : RecEquiv g (Trace.pure a) (Trace.pure (g a)) :=
  ⟨rfl, .nil⟩

theorem fail (g : α → β) (f : Failure) : RecEquiv g (Trace.fail f) (Trace.fail f) :=
  ⟨rfl, .nil⟩

theorem emit {g : α → β} {t : Trace α} {t' : Trace β} (h : RecEquiv g t t')
    {evs evs' : List Event} (he : SwapEquiv (recordsOf evs) (recordsOf evs')) :
    RecEquiv g (t.emit evs) (t'.emit evs') := by
  refine ⟨h.1, ?_⟩
  simp only [Trace.emit, recordsOf_append]
  exact he.append h.2

theorem bind {g : α → β} {g2 : γ → δ} {t : Trace α} {t' : Trace β} (h : RecEquiv g t t')
    {f : α → Trace γ} {f' : β → Trace δ} (hf : ∀ a, RecEquiv g2 (f a) (f' (g a))) :
    RecEquiv g2 (t.bind f) (t'.bind f') := by
  obtain ⟨evs, res⟩ := t
  obtain ⟨evs', res'⟩ := t'
  obtain ⟨h1, h2⟩ := h
  simp only at h1 h2
  cases res with
  | error e =>
    simp only [Except.map] at h1
    subst h1
    exact ⟨rfl, h2⟩
  | ok a =>
    simp only [Except.map] at h1
    subst h1
    refine ⟨(hf a).1, ?_⟩
    simp only [Trace.bind, Trace.emit, recordsOf_append]
    exact h2.append (hf a).2

theorem of_single {g : α → β} (a : α) (r : Nat × DeltaRef) :
    RecEquiv g ⟨[.record r.1 r.2], .ok a⟩ ⟨[.record r.1 (r.2.2, r.2.1)], .ok (g a)⟩ :=
  ⟨rfl, .cons r .nil⟩

end RecEquiv

theorem RecEquiv.single {α : Type} (a : α) (k : Nat) (v v' : DeltaRef)
    (h : v' = (v.2, v.1)) :
    RecEquiv id (⟨[.record k v], .ok a⟩ : Trace α) ⟨[.record k v'], .ok a⟩ := by
  subst h
  exact ⟨rfl, .cons (k, v) .nil⟩

theorem swap_oneSided (b : Bool) (x : SHAMapItem) :
    oneSided (!b) x = ((oneSided b x).2, (oneSided b x).1) := by
  cases b <;> rfl

theorem swap_twoSided (b : Bool) (x y : SHAMapItem) :
    twoSided (!b) x y = ((twoSided b x y).2, (twoSided b x y).1) := by
  cases b <;> rfl

section SwapWalk

variable {Hs : Type} [DecidableEq Hs]

omit [DecidableEq Hs] in
theorem pushTrace_swap (m : SHAMap Hs) (isF : Bool) (node : SHAMapTreeNode Hs)
    (is : List Nat) (st : List (SHAMapTreeNode Hs)) :
    RecEquiv id (pushTrace m isF node is st) (pushTrace m (!isF) node is st) := by
  induction is generalizing st with
  | nil => exact RecEquiv.pure id st
  | cons i is ih =>
    simp only [pushTrace]
    cases node.getChildHash i with
    | none => exact ih st
    | some h =>
      simp only
      cases m.getNodePointer (node.getChildNodeID i) h with
      | none => exact RecEquiv.fail id _
      | some child => exact (ih (child :: st)).emit .nil

theorem walkLeafOtherTrace_swap (x : SHAMapItem) (o : Option SHAMapItem) (isF e : Bool) :
    RecEquiv id (walkLeafOtherTrace x o isF e) (walkLeafOtherTrace x o (!isF) e) := by
  unfold walkLeafOtherTrace
  cases o with
  | none => exact RecEquiv.pure id e
  | some y =>
    simp only
    split_ifs
    · exact RecEquiv.single true _ _ _ (swap_oneSided _ _)
    · exact RecEquiv.pure id e

theorem walkLeafItemTrace_swap (x : SHAMapItem) (o : Option SHAMapItem) (isF e : Bool) :
    RecEquiv id (walkLeafItemTrace x o isF e) (walkLeafItemTrace x o (!isF) e) := by
  unfold walkLeafItemTrace
  cases o with
  | none => exact RecEquiv.single e _ _ _ (swap_oneSided _ _)
  | some y =>
    simp only
    split_ifs
    · exact RecEquiv.single e _ _ _ (swap_oneSided _ _)
    · exact RecEquiv.single true _ _ _ (swap_twoSided _ _ _)
    · exact RecEquiv.pure id true

theorem walkLeafTrace_swap (x : SHAMapItem) (o : Option SHAMapItem) (isF e : Bool) :
    RecEquiv id (walkLeafTrace x o isF e) (walkLeafTrace x o (!isF) e) :=
  (walkLeafOtherTrace_swap x o isF e).bind (fun e1 => walkLeafItemTrace_swap x o isF e1)

theorem walkFinishTrace_swap (o : Option SHAMapItem) (isF e : Bool) :
    RecEquiv id (walkFinishTrace o isF e) (walkFinishTrace o (!isF) e) := by
  unfold walkFinishTrace
  cases o with
  | none => exact RecEquiv.pure id ()
  | some y =>
    simp only
    split_ifs
    · exact RecEquiv.single () _ _ _ (swap_oneSided _ _)
    · exact RecEquiv.pure id ()

omit [DecidableEq Hs] in
theorem walkTraceLoop_swap (m : SHAMap Hs) (o : Option SHAMapItem) (isF : Bool)
    (fuel : Nat) (st : List (SHAMapTreeNode Hs)) (e : Bool) :
    RecEquiv id (walkTraceLoop m o isF fuel st e) (walkTraceLoop m o (!isF) fuel st e) := by
  induction fuel generalizing st e with
  | zero =>
    cases st with
    | nil => exact walkFinishTrace_swap o isF e
    | cons node st => exact RecEquiv.fail id _
  | succ fuel ih =>
    cases st with
    | nil => exact walkFinishTrace_swap o isF e
    | cons node st =>
      cases node with
      | inner id hashes =>
        exact (pushTrace_swap m isF _ _ st).bind (fun st1 => ih st1 e)
      | leaf id item =>
        exact (walkLeafTrace_swap item o isF e).bind (fun e1 => ih st e1)

omit [DecidableEq Hs] in
theorem walkBranchTrace_swap (m : SHAMap Hs) (fuel : Nat) (node : SHAMapTreeNode Hs)
    (o : Option SHAMapItem) (isF : Bool) :
    RecEquiv id (walkBranchTrace m fuel node o isF) (walkBranchTrace m fuel node o (!isF)) :=
  walkTraceLoop_swap m o isF fuel [node] o.isNone

omit [DecidableEq Hs] in
theorem walkResolvedTrace_swap (m : SHAMap Hs) (fuel : Nat) (nid : NodeID) (h : Hs)
    (isF : Bool) :
    RecEquiv id (walkResolvedTrace m fuel nid h isF)
      (walkResolvedTrace m fuel nid h (!isF)) := by
  unfold walkResolvedTrace
  cases m.getNodePointer nid h with
  | none => exact RecEquiv.fail id _
  | some iNode => exact (walkBranchTrace_swap m fuel iNode none isF).emit .nil

theorem compareBranchesTrace_swap (self other : SHAMap Hs) (fuel : Nat)
    (n1 n2 : SHAMapTreeNode Hs) (hid : n1.getID = n2.getID) (is : List Nat)
    (st : List (SHAMapDeltaNode Hs)) :
    RecEquiv (List.map swapNode) (compareBranchesTrace self other fuel n1 n2 is st)
      (compareBranchesTrace other self fuel n2 n1 is (st.map swapNode)) := by
  induction is generalizing st with
  | nil => exact RecEquiv.pure _ st
  | cons i is ih =>
    simp only [compareBranchesTrace]
    cases h1 : n1.getChildHash i with
    | none =>
      cases h2 : n2.getChildHash i with
      | none =>
        simp only [ne_eq, not_true_eq_false, if_false]
        exact ih st
      | some b =>
        simp only [ne_eq, reduceCtorEq, not_false_eq_true, if_true]
        exact (walkResolvedTrace_swap other fuel _ b false).bind (fun _ => ih st)
    | some a =>
      cases h2 : n2.getChildHash i with
      | none =>
        simp only [ne_eq, reduceCtorEq, not_false_eq_true, if_true]
        exact (walkResolvedTrace_swap self fuel _ a true).bind (fun _ => ih st)
      | some b =>
        by_cases hab : a = b
        · subst hab
          simp only [ne_eq, not_true_eq_false, if_false]
          exact ih st
        · have hba : ¬ b = a := fun h => hab h.symm
          simp only [ne_eq, Option.some.injEq, hab, hba, not_false_eq_true, if_true]
          have := ih (⟨n1.getChildNodeID i, a, b⟩ :: st)
          simp only [List.map_cons, swapNode, SHAMapTreeNode.getChildNodeID, hid] at this
          simpa only [SHAMapTreeNode.getChildNodeID, hid] using this

theorem compareNodesTrace_swap (self other : SHAMap Hs) (fuel : Nat)
    (n1 n2 : SHAMapTreeNode Hs) (hid : n1.getID = n2.getID)
    (st : List (SHAMapDeltaNode Hs)) :
    RecEquiv (List.map swapNode) (compareNodesTrace self other fuel n1 n2 st)
      (compareNodesTrace other self fuel n2 n1 (st.map swapNode)) := by
  cases n1 with
  | leaf id1 x =>
    cases n2 with
    | leaf id2 y =>
      simp only [compareNodesTrace]
      by_cases ht : x.tag = y.tag
      · by_cases hd : x.data = y.data
        · simp only [ht, hd, ne_eq, not_true_eq_false, if_true, if_false]
          exact RecEquiv.pure _ st
        · have hd' : ¬ y.data = x.data := fun h => hd h.symm
          simp only [ht, hd, hd', ne_eq, not_false_eq_true, if_true]
          exact ⟨rfl, .cons (y.tag, (some x, some y)) .nil⟩
      · have ht' : ¬ y.tag = x.tag := fun h => ht h.symm
        simp only [ht, ht', if_false]
        exact ⟨rfl, .pair (x.tag, (some x, none)) (y.tag, (none, some y)) ht .nil⟩
    | inner id2 hashes2 =>
      exact (walkBranchTrace_swap other fuel _ (some x) false).bind
        (fun _ => RecEquiv.pure _ st)
  | inner id1 hashes1 =>
    cases n2 with
    | leaf id2 y =>
      exact (walkBranchTrace_swap self fuel _ (some y) true).bind
        (fun _ => RecEquiv.pure _ st)
    | inner id2 hashes2 =>
      exact compareBranchesTrace_swap self other fuel _ _ hid (List.range 16) st

theorem compareTraceLoop_swap (self other : SHAMap Hs) (hself : self.Faithful)
    (hother : other.Faithful) (fuel : Nat) (st : List (SHAMapDeltaNode Hs)) :
    RecEquiv id (compareTraceLoop self other fuel st)
      (compareTraceLoop other self fuel (st.map swapNode)) := by
  induction fuel generalizing st with
  | zero =>
    cases st with
    | nil => exact RecEquiv.pure id ()
    | cons d st => exact RecEquiv.fail id _
  | succ fuel ih =>
    cases st with
    | nil => exact RecEquiv.pure id ()
    | cons d st =>
      simp only [List.map_cons, compareTraceLoop, swapNode]
      cases h1 : self.getNodePointer d.mNodeID d.mOurHash with
      | none =>
        cases other.getNodePointer d.mNodeID d.mOtherHash <;> exact RecEquiv.fail id _
      | some n1 =>
        cases h2 : other.getNodePointer d.mNodeID d.mOtherHash with
        | none => exact RecEquiv.fail id _
        | some n2 =>
          have hid : n1.getID = n2.getID := by
            rw [hself _ _ _ h1, hother _ _ _ h2]
          exact ((compareNodesTrace_swap self other fuel n1 n2 hid st).bind
            (fun st1 => ih st1)).emit .nil

theorem compareTrace_swap (self other : SHAMap Hs) (hself : self.Faithful)
    (hother : other.Faithful) (fuel : Nat) :
    RecEquiv id (compareTrace self other fuel) (compareTrace other self fuel) := by
  unfold compareTrace
  by_cases h : self.getHash = other.getHash
  · simp only [h, if_true]
    exact RecEquiv.pure id ()
  · have h' : ¬ other.getHash = self.getHash := fun e => h e.symm
    simp only [h, h', if_false]
    exact compareTraceLoop_swap self other hself hother fuel _

theorem ofTrie_faithful (hs : Hasher Hs) (t : Trie) : (SHAMap.ofTrie hs t).Faithful := by
  intro id h n hn
  simp only [SHAMap.ofTrie] at hn
  cases hsub : t.sub id with
  | none => simp [hsub] at hn
  | some c =>
    simp only [hsub] at hn
    split_ifs at hn
    simp only [Option.some.injEq] at hn
    subst hn
    cases c <;> rfl

end SwapWalk

theorem replay_ok_of_no_records (es : List Event) (s : WalkState) (h : recordsOf es = []) :
    ∃ s', replayEvents es s = .ok s' := by
  induction es generalizing s with
  | nil => exact ⟨s, rfl⟩
  | cons e es ih =>
    cases e with
    | log b id =>
      simp only [replayEvents]
      exact ih _ (by simpa using h)
    | record k v => simp at h

/-- A replay goes through exactly when there is nothing to insert or the budget
exceeds the number of insertions. -/
theorem replay_ok_iff (es : List Event) (s : WalkState) :
    (∃ s', replayEvents es s = .ok s') ↔
      (recordsOf es = [] ∨ ((recordsOf es).length : Int) < s.maxCount) := by
  constructor
  · rintro ⟨s', h⟩
    obtain ⟨_, h2, h3⟩ := replay_ok h
    by_cases hR : recordsOf es = []
    · exact Or.inl hR
    · have := h3 hR
      exact Or.inr (by omega)
  · rintro (h | h)
    · exact replay_ok_of_no_records es s h
    · exact replay_ok_of_lt es s h


/-! ## Calls of `compare` on well-formed trees -/

section Results

variable {Hs : Type} [DecidableEq Hs]

/-- A call of `compare` whose budget-free computation ends normally returns what
the replay of its events against the budget gives. -/
theorem compare_of_trace {self other : SHAMap Hs} {fuel : Nat} {evs : List Event}
    (h : compareTrace self other fuel = ⟨evs, .ok ()⟩) (d : Delta) (maxCount : Int) :
    self.compare other fuel d maxCount =
      .ok (match replayEvents evs ⟨d, maxCount, []⟩ with
        | .ok s1 => (true, s1)
        | .error s1 => (false, s1)) := by
  rw [compare_run, lower_run_of_result _ (by rw [h]), h]

/-- A call of `compare` on well-formed trees, with fuel for all their nodes, in
terms of the list `R` of its insertions in the order they are attempted: the call
returns; a call that returns `true` has made all of them, and a call with a budget
above their number returns `true`; whatever is returned consists of entries of the
full table; a call that returns `false` has used up its budget; with a budget
`k ≥ 1` the table has at most `k` entries and the budget does not go below zero. -/
theorem compare_summary (hs : Hasher Hs) {TA TB : Trie}
    (hwfA : TA.wf [] = true) (hwfB : TB.wf [] = true) (hcf : CollisionFree hs TA TB)
    {fuel : Nat}
    (hf : TA.size + TB.size ≤ fuel) :
    ∃ R : List (Nat × DeltaRef),
      (∀ r ∈ R, Attributed TA.leaves TB.leaves r) ∧
      (∀ x ∈ TA.leaves, x ∈ TB.leaves ∨ x.tag ∈ R.map Prod.fst) ∧
      (∀ y ∈ TB.leaves, y ∈ TA.leaves ∨ y.tag ∈ R.map Prod.fst) ∧
      ∀ maxCount : Int, ∃ b s,
        (SHAMap.ofTrie hs TA).compare (SHAMap.ofTrie hs TB) fuel [] maxCount = .ok (b, s) ∧
        s.differences.Sorted ∧
        (∀ e ∈ s.differences, e ∈ Delta.insertAll [] R) ∧
        (b = true → s.differences = Delta.insertAll [] R ∧
          (R = [] ∨ (R.length : Int) < maxCount)) ∧
        ((R.length : Int) < maxCount → b = true) ∧
        (b = false → 0 < s.differences.length ∧ s.maxCount ≤ 0) ∧
        (1 ≤ maxCount → (s.differences.length : Int) ≤ maxCount ∧ 0 ≤ s.maxCount) := by
  obtain ⟨evs, htr, hattr, hca, hcb⟩ := compareTrace_spec hs hwfA hwfB hcf hf
  refine ⟨recordsOf evs, hattr, hca, hcb, ?_⟩
  intro maxCount
  have hrun := compare_of_trace htr [] maxCount
  have hsorted := replay_sorted evs ⟨[], maxCount, []⟩ List.Pairwise.nil
  have hsub := replay_subset evs ⟨[], maxCount, []⟩
  have hlen := replay_length evs ⟨[], maxCount, []⟩
  cases hrep : replayEvents evs ⟨[], maxCount, []⟩ with
  | ok s1 =>
    rw [hrep] at hrun hsorted hsub hlen
    obtain ⟨h1, h2, h3⟩ := replay_ok hrep
    refine ⟨true, s1, hrun, hsorted, hsub, ?_, ?_, ?_, ?_⟩
    · intro _
      refine ⟨h1, ?_⟩
      by_cases hR : recordsOf evs = []
      · exact Or.inl hR
      · have := h3 hR
        simp only at h2
        exact Or.inr (by omega)
    · intro _
      rfl
    · intro hb
      cases hb
    · intro hk
      have := hlen hk
      simp only [stateOf, List.length_nil] at this
      exact ⟨by omega, this.2⟩
  | error s1 =>
    rw [hrep] at hrun hsorted hsub hlen
    refine ⟨false, s1, hrun, hsorted, hsub, ?_, ?_, ?_, ?_⟩
    · intro hb
      cases hb
    · intro hlt
      obtain ⟨s', hs'⟩ := replay_ok_of_lt evs ⟨[], maxCount, []⟩ hlt
      rw [hs'] at hrep
      cases hrep
    · intro _
      exact ⟨replay_error_pos hrep, replay_error_budget hrep⟩
    · intro hk
      have := hlen hk
      simp only [stateOf, List.length_nil] at this
      exact ⟨by omega, this.2⟩

end Results

/-! ## Exchanging the two trees of a call -/

section SwapCompare

variable {Hs : Type} [DecidableEq Hs]

/-- Exchanging the two trees of a call of `compare` on well-formed trees: both
calls return, with the same flag, and when the flag is `true` the table of the
exchanged call is the table of the call with the two sides of every entry
exchanged. -/
theorem compare_swap_summary (hs : Hasher Hs) {TA TB : Trie}
    (hwfA : TA.wf [] = true) (hwfB : TB.wf [] = true) (hcf : CollisionFree hs TA TB)
    {fuel : Nat}
    (hf : TA.size + TB.size ≤ fuel) (maxCount : Int) :
    ∃ b s s',
      (SHAMap.ofTrie hs TA).compare (SHAMap.ofTrie hs TB) fuel [] maxCount = .ok (b, s) ∧
      (SHAMap.ofTrie hs TB).compare (SHAMap.ofTrie hs TA) fuel [] maxCount = .ok (b, s') ∧
      (b = true → s'.differences = s.differences.swap) := by
  obtain ⟨evs, htr, _⟩ := compareTrace_spec hs hwfA hwfB hcf hf
  obtain ⟨hres, heq⟩ := compareTrace_swap (SHAMap.ofTrie hs TA) (SHAMap.ofTrie hs TB)
    (ofTrie_faithful hs TA) (ofTrie_faithful hs TB) fuel
  rw [htr] at hres heq
  simp only [Except.map, id] at hres
  have htr' : compareTrace (SHAMap.ofTrie hs TB) (SHAMap.ofTrie hs TA) fuel =
      ⟨(compareTrace (SHAMap.ofTrie hs TB) (SHAMap.ofTrie hs TA) fuel).events, .ok ()⟩ := by
    rw [← hres]
  generalize (compareTrace (SHAMap.ofTrie hs TB) (SHAMap.ofTrie hs TA) fuel).events = evs'
    at htr' heq
  simp only at heq
  have hrun := compare_of_trace htr [] maxCount
  have hrun' := compare_of_trace htr' [] maxCount
  have hiff := replay_ok_iff evs ⟨[], maxCount, []⟩
  have hiff' := replay_ok_iff evs' ⟨[], maxCount, []⟩
  have hlen := heq.length_eq
  have hnil : recordsOf evs = [] ↔ recordsOf evs' = [] := by
    rw [← List.length_eq_zero, ← List.length_eq_zero, hlen]
  cases hrep : replayEvents evs ⟨[], maxCount, []⟩ with
  | ok s1 =>
    have hok' : ∃ s', replayEvents evs' ⟨[], maxCount, []⟩ = .ok s' := by
      rw [hiff', ← hnil, hlen]
      exact hiff.1 ⟨s1, hrep⟩
    obtain ⟨s1', hrep'⟩ := hok'
    rw [hrep] at hrun
    rw [hrep'] at hrun'
    refine ⟨true, s1, s1', hrun, hrun', ?_⟩
    intro _
    rw [(replay_ok hrep).1, (replay_ok hrep').1]
    exact (heq.insertAll []).symm
  | error s1 =>
    cases hrep' : replayEvents evs' ⟨[], maxCount, []⟩ with
    | ok s1' =>
      have : ∃ s', replayEvents evs ⟨[], maxCount, []⟩ = .ok s' := by
        rw [hiff, hnil, ← hlen]
        exact hiff'.1 ⟨s1', hrep'⟩
      obtain ⟨s2, hs2⟩ := this
      rw [hs2] at hrep
      cases hrep
    | error s1' =>
      rw [hrep] at hrun
      rw [hrep'] at hrun'
      refine ⟨false, s1, s1', hrun, hrun', ?_⟩
      intro h
      cases h

end SwapCompare

/-! ## The mutation primitives and the loops of `integrate` -/

namespace LeafMap

theorem hasItem_iff (m : LeafMap) (t : Nat) : m.hasItem t = true ↔ ∃ x ∈ m, x.tag = t := by
  simp [hasItem]

theorem peekItem_isSome (m : LeafMap) (t : Nat) : (m.peekItem t).isSome = m.hasItem t := by
  induction m with
  | nil => rfl
  | cons y ys ih =>
    by_cases h : y.tag = t
    · simp [peekItem, hasItem, List.find?, h]
    · simpa [peekItem, hasItem, List.find?, h] using ih

theorem peekItem_eq_none (m : LeafMap) (t : Nat) : m.peekItem t = none ↔ m.hasItem t = false := by
  rw [← peekItem_isSome]
  cases m.peekItem t <;> simp

theorem peekItem_updateGiveItem (m : LeafMap) (x : SHAMapItem) (t : Nat) :
    (m.updateGiveItem x).peekItem t =
      if x.tag = t then (m.peekItem t).map (fun _ => x) else m.peekItem t := by
  induction m with
  | nil => simp [updateGiveItem, peekItem]
  | cons y ys ih =>
    simp only [updateGiveItem, peekItem, List.map_cons, List.find?] at ih ⊢
    by_cases h1 : y.tag = x.tag <;> by_cases h2 : x.tag = t <;> by_cases h3 : y.tag = t <;>
      simp_all

theorem peekItem_delItem (m : LeafMap) (t' t : Nat) :
    (m.delItem t').peekItem t = if t' = t then none else m.peekItem t := by
  induction m with
  | nil => simp [delItem, peekItem]
  | cons y ys ih =>
    simp only [delItem, peekItem, List.filter_cons, List.find?] at ih ⊢
    by_cases h1 : y.tag = t' <;> by_cases h2 : t' = t <;> by_cases h3 : y.tag = t <;>
      simp_all

theorem peekItem_addGiveItem (m : LeafMap) (x : SHAMapItem) (t : Nat)
    (h : m.hasItem x.tag = false) :
    (m.addGiveItem x).peekItem t = if x.tag = t then some x else m.peekItem t := by
  induction m with
  | nil => simp [addGiveItem, peekItem]
  | cons y ys ih =>
    have hy : ¬ y.tag = x.tag := by
      intro he
      simp [hasItem, he] at h
    have hys : hasItem ys x.tag = false := by
      simp only [hasItem, List.any_cons, Bool.or_eq_false_iff] at h ⊢
      exact h.2
    have ih := ih hys
    have hy' : ¬ x.tag = y.tag := fun he => hy he.symm
    simp only [addGiveItem, if_neg hy']
    by_cases h1 : x.tag < y.tag
    · rw [if_pos h1]
      by_cases h2 : x.tag = t
      · simp [peekItem, List.find?, h2]
      · simp [peekItem, List.find?, h2]
    · rw [if_neg h1]
      by_cases h3 : y.tag = t
      · have h2 : ¬ x.tag = t := fun he => hy (h3.trans he.symm)
        simp [peekItem, List.find?, h3, h2]
      · simp only [peekItem, List.find?, h3, decide_False] at ih ⊢
        exact ih

end LeafMap

section IntegrateLoops

theorem integrateModified_eq (st : Bool × LeafMap) (items : List SHAMapItem) :
    integrateModified st items = integrateKind .modified st items := rfl

theorem integrateDeleted_eq (st : Bool × LeafMap) (items : List SHAMapItem) :
    integrateDeleted st items = integrateKind .deleted st items := rfl

theorem integrateNew_eq (st : Bool × LeafMap) (items : List SHAMapItem) :
    integrateNew st items = integrateKind .new st items := rfl

theorem integrateKind_nil (kind : LeafKind) (st : Bool × LeafMap) :
    integrateKind kind st [] = st := rfl

theorem integrateKind_cons (kind : LeafKind) (st : Bool × LeafMap) (x : SHAMapItem)
    (xs : List SHAMapItem) :
    integrateKind kind st (x :: xs) =
      integrateKind kind
        (if kind.precondition st.2 x then (st.1, kind.perform st.2 x) else (false, st.2)) xs :=
  rfl

theorem bestEffort_append (m : LeafMap) (a b : List (LeafKind × SHAMapItem)) :
    bestEffort m (a ++ b) =
      ((bestEffort m a).1 ++ (bestEffort (bestEffort m a).2 b).1,
        (bestEffort (bestEffort m a).2 b).2) := by
  induction a generalizing m with
  | nil => simp [bestEffort]
  | cons p rest ih =>
    obtain ⟨kind, x⟩ := p
    simp only [List.cons_append, bestEffort]
    split_ifs <;> simp [ih]

theorem bestEffort_length (m : LeafMap) (a : List (LeafKind × SHAMapItem)) :
    (bestEffort m a).1.length = a.length := by
  induction a generalizing m with
  | nil => rfl
  | cons p rest ih =>
    obtain ⟨kind, x⟩ := p
    simp only [bestEffort]
    split_ifs <;> simp [ih]

/-- A loop of `integrate` is the best-effort processing of its items: the flag
stays `true` exactly when it was `true` and every precondition held. -/
theorem integrateKind_bestEffort (kind : LeafKind) (b : Bool) (m : LeafMap)
    (items : List SHAMapItem) :
    integrateKind kind (b, m) items =
      (b && (bestEffort m (items.map (fun x => (kind, x)))).1.all id,
        (bestEffort m (items.map (fun x => (kind, x)))).2) := by
  induction items generalizing b m with
  | nil => simp [integrateKind_nil, bestEffort]
  | cons x xs ih =>
    rw [integrateKind_cons]
    simp only [List.map_cons, bestEffort]
    by_cases h : kind.precondition m x = true
    · simp only [h, if_true, ih, List.all_cons, id, Bool.true_and]
    · simp only [h, if_false, ih, List.all_cons, id, Bool.false_and, Bool.and_false]
      simp

/-- The three-set `integrate` is the best-effort processing of the schedule. -/
theorem integrate_bestEffort (leaves : LeafMap) (modified deleted new : List SHAMapItem) :
    SHAMap.integrate leaves modified deleted new =
      ((bestEffort leaves (schedule modified deleted new)).1.all id,
        (bestEffort leaves (schedule modified deleted new)).2) := by
  simp only [SHAMap.integrate, integrateModified_eq, integrateDeleted_eq, integrateNew_eq,
    schedule, integrateKind_bestEffort, bestEffort_append, List.all_append, Bool.true_and,
    Bool.and_assoc]

/-- The flag of a loop is `true` only if it was `true` before the loop. -/
theorem integrateKind_flag (kind : LeafKind) (st : Bool × LeafMap) (items : List SHAMapItem)
    (h : (integrateKind kind st items).1 = true) : st.1 = true := by
  obtain ⟨b, m⟩ := st
  rw [integrateKind_bestEffort] at h
  simp only [Bool.and_eq_true] at h
  exact h.1

end IntegrateLoops

section IntegrateAt

theorem peekItem_integrateModified (st : Bool × LeafMap) (items : List SHAMapItem) (t : Nat) :
    (integrateModified st items).2.peekItem t = modifiedAt t items (st.2.peekItem t) := by
  rw [integrateModified_eq]
  induction items generalizing st with
  | nil => rfl
  | cons x xs ih =>
    rw [integrateKind_cons, ih]
    simp only [modifiedAt, List.foldl_cons]
    congr 1
    by_cases h : st.2.hasItem x.tag = true
    · simp only [LeafKind.precondition, h, if_true, LeafKind.perform,
        LeafMap.peekItem_updateGiveItem]
    · simp only [LeafKind.precondition, h, if_false]
      by_cases h2 : x.tag = t
      · have : st.2.peekItem t = none := by
          rw [LeafMap.peekItem_eq_none, ← h2]
          simpa using h
        simp [h2, this]
      · simp [h2]

theorem peekItem_integrateDeleted (st : Bool × LeafMap) (items : List SHAMapItem) (t : Nat) :
    (integrateDeleted st items).2.peekItem t = deletedAt t items (st.2.peekItem t) := by
  rw [integrateDeleted_eq]
  induction items generalizing st with
  | nil => rfl
  | cons x xs ih =>
    rw [integrateKind_cons, ih]
    simp only [deletedAt, List.foldl_cons]
    congr 1
    by_cases h : st.2.hasItem x.tag = true
    · simp only [LeafKind.precondition, h, if_true, LeafKind.perform,
        LeafMap.peekItem_delItem]
    · simp only [LeafKind.precondition, h, if_false]
      by_cases h2 : x.tag = t
      · have : st.2.peekItem t = none := by
          rw [LeafMap.peekItem_eq_none, ← h2]
          simpa using h
        simp [h2, this]
      · simp [h2]

theorem peekItem_integrateNew (st : Bool × LeafMap) (items : List SHAMapItem) (t : Nat) :
    (integrateNew st items).2.peekItem t = newAt t items (st.2.peekItem t) := by
  rw [integrateNew_eq]
  induction items generalizing st with
  | nil => rfl
  | cons x xs ih =>
    rw [integrateKind_cons, ih]
    simp only [newAt, List.foldl_cons]
    congr 1
    by_cases h : st.2.hasItem x.tag = true
    · simp only [LeafKind.precondition, h, Bool.not_true, if_false, Bool.false_eq_true]
      by_cases h2 : x.tag = t
      · have : (st.2.peekItem t).isSome = true := by
          rw [LeafMap.peekItem_isSome, ← h2]
          exact h
        simp [h2, this]
      · simp [h2]
    · have h' : st.2.hasItem x.tag = false := by simpa using h
      simp only [LeafKind.precondition, h', Bool.not_false, if_true, LeafKind.perform,
        LeafMap.peekItem_addGiveItem _ _ _ h']
      by_cases h2 : x.tag = t
      · have : st.2.peekItem t = none := by
          rw [LeafMap.peekItem_eq_none, ← h2]
          exact h'
        simp [h2, this]
      · simp [h2]

/-- The leaf of every tag after the three-set `integrate`. -/
theorem peekItem_integrate (leaves : LeafMap) (modified deleted new : List SHAMapItem)
    (t : Nat) :
    (SHAMap.integrate leaves modified deleted new).2.peekItem t =
      integratedAt t modified deleted new (leaves.peekItem t) := by
  simp only [SHAMap.integrate, peekItem_integrateNew, peekItem_integrateDeleted,
    peekItem_integrateModified, integratedAt]

end IntegrateAt

namespace LeafMap

theorem mem_addGiveItem (m : LeafMap) (x y : SHAMapItem) (h : y ∈ m.addGiveItem x) :
    y = x ∨ y ∈ m := by
  induction m with
  | nil =>
    simp only [addGiveItem, List.mem_singleton] at h
    exact Or.inl h
  | cons z zs ih =>
    simp only [addGiveItem] at h
    split_ifs at h with h1 h2
    · rcases List.mem_cons.mp h with h | h
      · exact Or.inl h
      · exact Or.inr h
    · exact Or.inr h
    · rcases List.mem_cons.mp h with h | h
      · exact Or.inr (by rw [h]; exact List.mem_cons_self _ _)
      · rcases ih h with h | h
        · exact Or.inl h
        · exact Or.inr (List.mem_cons_of_mem _ h)

theorem sorted_updateGiveItem (m : LeafMap) (x : SHAMapItem) (h : m.Sorted) :
    (m.updateGiveItem x).Sorted := by
  unfold Sorted updateGiveItem
  rw [List.pairwise_map]
  refine h.imp ?_
  intro a b hab
  by_cases ha : a.tag = x.tag <;> by_cases hb : b.tag = x.tag <;> simp [ha, hb] <;> omega

theorem sorted_delItem (m : LeafMap) (t : Nat) (h : m.Sorted) : (m.delItem t).Sorted :=
  List.Pairwise.filter _ h

theorem sorted_addGiveItem (m : LeafMap) (x : SHAMapItem) (h : m.Sorted) :
    (m.addGiveItem x).Sorted := by
  induction m with
  | nil => simp [addGiveItem, Sorted]
  | cons z zs ih =>
    have hz := List.pairwise_cons.mp h
    simp only [addGiveItem]
    split_ifs with h1 h2
    · refine List.pairwise_cons.mpr ⟨?_, h⟩
      intro y hy
      rcases List.mem_cons.mp hy with hy | hy
      · rw [hy]
        exact h1
      · exact lt_trans h1 (hz.1 y hy)
    · exact h
    · refine List.pairwise_cons.mpr ⟨?_, ih hz.2⟩
      intro y hy
      rcases mem_addGiveItem zs x y hy with hy | hy
      · rw [hy]
        omega
      · exact hz.1 y hy

/-- In a content in tag order the leaf of a tag is the only item with the tag. -/
theorem peekItem_of_mem {m : LeafMap} (h : m.Sorted) {x : SHAMapItem} (hx : x ∈ m) :
    m.peekItem x.tag = some x := by
  induction m with
  | nil => cases hx
  | cons z zs ih =>
    have hz := List.pairwise_cons.mp h
    rcases List.mem_cons.mp hx with hx | hx
    · simp [peekItem, List.find?, hx]
    · have hne : ¬ z.tag = x.tag := by
        have := hz.1 x hx
        omega
      have := ih hz.2 hx
      simp only [peekItem, List.find?, hne, decide_False] at this ⊢
      exact this

theorem mem_of_peekItem {m : LeafMap} {t : Nat} {x : SHAMapItem} (h : m.peekItem t = some x) :
    x ∈ m ∧ x.tag = t := by
  have h1 := List.find?_some h
  have h2 := List.mem_of_find?_eq_some h
  exact ⟨h2, by simpa using h1⟩

/-- Two contents in tag order that have the same leaf under every tag are equal. -/
theorem ext_peekItem {a b : LeafMap} (ha : a.Sorted) (hb : b.Sorted)
    (h : ∀ t, a.peekItem t = b.peekItem t) : a = b := by
  induction a generalizing b with
  | nil =>
    cases b with
    | nil => rfl
    | cons y ys =>
      have := h y.tag
      simp [peekItem, List.find?] at this
  | cons x xs ih =>
    cases b with
    | nil =>
      have := h x.tag
      simp [peekItem, List.find?] at this
    | cons y ys =>
      have hx := List.pairwise_cons.mp ha
      have hy := List.pairwise_cons.mp hb
      have h1 : x ∈ y :: ys := by
        have := h x.tag
        rw [peekItem_of_mem ha (List.mem_cons_self _ _)] at this
        exact (mem_of_peekItem this.symm).1
      have h2 : y ∈ x :: xs := by
        have := h y.tag
        rw [peekItem_of_mem hb (List.mem_cons_self _ _)] at this
        exact (mem_of_peekItem this).1
      have hxy : x = y := by
        rcases List.mem_cons.mp h1 with h1 | h1
        · exact h1
        · rcases List.mem_cons.mp h2 with h2 | h2
          · exact h2.symm
          · have := hx.1 y h2
            have := hy.1 x h1
            omega
      subst hxy
      congr 1
      refine ih hx.2 hy.2 ?_
      intro t
      have := h t
      by_cases ht : x.tag = t
      · have e1 : peekItem xs t = none := by
          rw [peekItem_eq_none]
          cases hh : hasItem xs t with
          | false => rfl
          | true =>
            obtain ⟨z, hz, hzt⟩ := (hasItem_iff xs t).mp hh
            have := hx.1 z hz
            omega
        have e2 : peekItem ys t = none := by
          rw [peekItem_eq_none]
          cases hh : hasItem ys t with
          | false => rfl
          | true =>
            obtain ⟨z, hz, hzt⟩ := (hasItem_iff ys t).mp hh
            have := hy.1 z hz
            omega
        rw [e1, e2]
      · simp only [peekItem, List.find?, ht, decide_False] at this ⊢
        exact this

end LeafMap

section IntegrateSorted

theorem sorted_integrateKind (kind : LeafKind) (st : Bool × LeafMap) (items : List SHAMapItem)
    (h : st.2.Sorted) : (integrateKind kind st items).2.Sorted := by
  induction items generalizing st with
  | nil => exact h
  | cons x xs ih =>
    rw [integrateKind_cons]
    apply ih
    split_ifs
    · cases kind
      · exact LeafMap.sorted_updateGiveItem _ _ h
      · exact LeafMap.sorted_delItem _ _ h
      · exact LeafMap.sorted_addGiveItem _ _ h
    · exact h

/-- The three-set `integrate` keeps the content in tag order. -/
theorem sorted_integrate (leaves : LeafMap) (modified deleted new : List SHAMapItem)
    (h : leaves.Sorted) : (SHAMap.integrate leaves modified deleted new).2.Sorted := by
  simp only [SHAMap.integrate, integrateModified_eq, integrateDeleted_eq, integrateNew_eq]
  exact sorted_integrateKind _ _ _ (sorted_integrateKind _ _ _ (sorted_integrateKind _ _ _ h))

end IntegrateSorted

section AtLemmas

theorem modifiedAt_none (t : Nat) (items : List SHAMapItem) : modifiedAt t items none = none := by
  induction items with
  | nil => rfl
  | cons x xs ih =>
    simp only [modifiedAt, List.foldl_cons] at ih ⊢
    split_ifs <;> exact ih

theorem modifiedAt_isSome (t : Nat) (items : List SHAMapItem) (v : Option SHAMapItem) :
    (modifiedAt t items v).isSome = v.isSome := by
  induction items generalizing v with
  | nil => rfl
  | cons x xs ih =>
    simp only [modifiedAt, List.foldl_cons] at ih ⊢
    rw [ih]
    split_ifs <;> simp

theorem modifiedAt_of_not_mem (t : Nat) (items : List SHAMapItem) (v : Option SHAMapItem)
    (h : ∀ x ∈ items, x.tag ≠ t) : modifiedAt t items v = v := by
  induction items generalizing v with
  | nil => rfl
  | cons x xs ih =>
    simp only [modifiedAt, List.foldl_cons] at ih ⊢
    rw [if_neg (h x (List.mem_cons_self _ _))]
    exact ih v (fun y hy => h y (List.mem_cons_of_mem _ hy))

theorem modifiedAt_of_mem (t : Nat) (items : List SHAMapItem) (c c' : SHAMapItem)
    (h : ∃ x ∈ items, x.tag = t) : modifiedAt t items (some c) = modifiedAt t items (some c') := by
  induction items generalizing c c' with
  | nil =>
    obtain ⟨x, hx, _⟩ := h
    cases hx
  | cons x xs ih =>
    simp only [modifiedAt, List.foldl_cons] at ih ⊢
    by_cases hx : x.tag = t
    · simp [hx]
    · simp only [hx, if_false]
      obtain ⟨y, hy, hyt⟩ := h
      rcases List.mem_cons.mp hy with hy | hy
      · rw [hy] at hyt
        exact absurd hyt hx
      · exact ih c c' ⟨y, hy, hyt⟩

theorem modifiedAt_idem (t : Nat) (items : List SHAMapItem) (v : Option SHAMapItem) :
    modifiedAt t items (modifiedAt t items v) = modifiedAt t items v := by
  by_cases h : ∃ x ∈ items, x.tag = t
  · cases v with
    | none => rw [modifiedAt_none, modifiedAt_none]
    | some c =>
      have hs := modifiedAt_isSome t items (some c)
      cases hm : modifiedAt t items (some c) with
      | none => rw [modifiedAt_none]
      | some c' => rw [modifiedAt_of_mem t items c' c h, hm]
  · have h' : ∀ x ∈ items, x.tag ≠ t := fun x hx hxt => h ⟨x, hx, hxt⟩
    rw [modifiedAt_of_not_mem t items _ h']

theorem deletedAt_none (t : Nat) (items : List SHAMapItem) : deletedAt t items none = none := by
  induction items with
  | nil => rfl
  | cons x xs ih =>
    simp only [deletedAt, List.foldl_cons] at ih ⊢
    split_ifs <;> exact ih

theorem deletedAt_of_mem (t : Nat) (items : List SHAMapItem) (v : Option SHAMapItem)
    (h : ∃ x ∈ items, x.tag = t) : deletedAt t items v = none := by
  induction items generalizing v with
  | nil =>
    obtain ⟨x, hx, _⟩ := h
    cases hx
  | cons x xs ih =>
    by_cases hx : x.tag = t
    · have := deletedAt_none t xs
      simp only [deletedAt, List.foldl_cons, hx, if_true] at this ⊢
      exact this
    · simp only [deletedAt, List.foldl_cons, hx, if_false] at ih ⊢
      obtain ⟨y, hy, hyt⟩ := h
      rcases List.mem_cons.mp hy with hy | hy
      · rw [hy] at hyt
        exact absurd hyt hx
      · exact ih v ⟨y, hy, hyt⟩

theorem deletedAt_of_not_mem (t : Nat) (items : List SHAMapItem) (v : Option SHAMapItem)
    (h : ∀ x ∈ items, x.tag ≠ t) : deletedAt t items v = v := by
  induction items generalizing v with
  | nil => rfl
  | cons x xs ih =>
    simp only [deletedAt, List.foldl_cons] at ih ⊢
    rw [if_neg (h x (List.mem_cons_self _ _))]
    exact ih v (fun y hy => h y (List.mem_cons_of_mem _ hy))

theorem newAt_some (t : Nat) (items : List SHAMapItem) (c : SHAMapItem) :
    newAt t items (some c) = some c := by
  induction items with
  | nil => rfl
  | cons x xs ih =>
    simp only [newAt, List.foldl_cons, Option.isSome_some, if_true] at ih ⊢
    split_ifs <;> exact ih

theorem newAt_of_not_mem (t : Nat) (items : List SHAMapItem) (v : Option SHAMapItem)
    (h : ∀ x ∈ items, x.tag ≠ t) : newAt t items v = v := by
  induction items generalizing v with
  | nil => rfl
  | cons x xs ih =>
    simp only [newAt, List.foldl_cons] at ih ⊢
    rw [if_neg (h x (List.mem_cons_self _ _))]
    exact ih v (fun y hy => h y (List.mem_cons_of_mem _ hy))

theorem newAt_isSome_of_mem (t : Nat) (items : List SHAMapItem) (v : Option SHAMapItem)
    (h : ∃ x ∈ items, x.tag = t) : (newAt t items v).isSome = true := by
  induction items generalizing v with
  | nil =>
    obtain ⟨x, hx, _⟩ := h
    cases hx
  | cons x xs ih =>
    cases v with
    | some c => rw [newAt_some]; rfl
    | none =>
      by_cases hx : x.tag = t
      · have := newAt_some t xs x
        simp only [newAt, List.foldl_cons, hx, if_true] at this ⊢
        simp [this]
      · simp only [newAt, List.foldl_cons, hx, if_false] at ih ⊢
        obtain ⟨y, hy, hyt⟩ := h
        rcases List.mem_cons.mp hy with hy | hy
        · rw [hy] at hyt
          exact absurd hyt hx
        · exact ih none ⟨y, hy, hyt⟩

end AtLemmas

section IntegrateFlags

theorem LeafMap.hasItem_eq (m : LeafMap) (t : Nat) : m.hasItem t = (m.peekItem t).isSome :=
  (LeafMap.peekItem_isSome m t).symm

/-- A modified loop that keeps the flag `true` found the tag of every item. -/
theorem integrateModified_flag (st : Bool × LeafMap) (items : List SHAMapItem)
    (h : (integrateModified st items).1 = true) : ∀ x ∈ items, st.2.hasItem x.tag = true := by
  rw [integrateModified_eq] at h
  induction items generalizing st with
  | nil =>
    intro x hx
    cases hx
  | cons y ys ih =>
    rw [integrateKind_cons] at h
    have hflag := integrateKind_flag _ _ _ h
    by_cases hy : st.2.hasItem y.tag = true
    · simp only [LeafKind.precondition, hy, if_true, LeafKind.perform] at h
      intro x hx
      rcases List.mem_cons.mp hx with hx | hx
      · rw [hx]
        exact hy
      · have := ih _ h x hx
        simp only at this
        rw [LeafMap.hasItem_eq, LeafMap.peekItem_updateGiveItem] at this
        rw [LeafMap.hasItem_eq]
        split_ifs at this
        · simpa using this
        · exact this
    · simp [LeafKind.precondition, hy] at hflag

/-- A deleted loop that keeps the flag `true` found the tag of every item. -/
theorem integrateDeleted_flag (st : Bool × LeafMap) (items : List SHAMapItem)
    (h : (integrateDeleted st items).1 = true) : ∀ x ∈ items, st.2.hasItem x.tag = true := by
  rw [integrateDeleted_eq] at h
  induction items generalizing st with
  | nil =>
    intro x hx
    cases hx
  | cons y ys ih =>
    rw [integrateKind_cons] at h
    have hflag := integrateKind_flag _ _ _ h
    by_cases hy : st.2.hasItem y.tag = true
    · simp only [LeafKind.precondition, hy, if_true, LeafKind.perform] at h
      intro x hx
      rcases List.mem_cons.mp hx with hx | hx
      · rw [hx]
        exact hy
      · have := ih _ h x hx
        simp only at this
        rw [LeafMap.hasItem_eq, LeafMap.peekItem_delItem] at this
        rw [LeafMap.hasItem_eq]
        split_ifs at this
        · simp at this
        · exact this
    · simp [LeafKind.precondition, hy] at hflag

/-- A new loop that keeps the flag `true` found the tag of no item. -/
theorem integrateNew_flag (st : Bool × LeafMap) (items : List SHAMapItem)
    (h : (integrateNew st items).1 = true) : ∀ x ∈ items, st.2.hasItem x.tag = false := by
  rw [integrateNew_eq] at h
  induction items generalizing st with
  | nil =>
    intro x hx
    cases hx
  | cons y ys ih =>
    rw [integrateKind_cons] at h
    have hflag := integrateKind_flag _ _ _ h
    by_cases hy : st.2.hasItem y.tag = true
    · simp [LeafKind.precondition, hy] at hflag
    · have hy' : st.2.hasItem y.tag = false := by simpa using hy
      simp only [LeafKind.precondition, hy', Bool.not_false, if_true, LeafKind.perform] at h
      intro x hx
      rcases List.mem_cons.mp hx with hx | hx
      · rw [hx]
        exact hy'
      · have := ih _ h x hx
        simp only at this
        rw [LeafMap.hasItem_eq, LeafMap.peekItem_addGiveItem _ _ _ hy'] at this
        rw [LeafMap.hasItem_eq]
        split_ifs at this
        · simp at this
        · exact this

end IntegrateFlags

section IntegrateTwice

/-- What a first call that returns `true` says about the leaf of a tag before the
call: a tag of a modified item was present, and a tag of a new item was absent once
the modified and the deleted items had been processed. -/
theorem integrate_flag_facts (leaves : LeafMap) (modified deleted new : List SHAMapItem)
    (h : (SHAMap.integrate leaves modified deleted new).1 = true) (t : Nat) :
    ((∃ x ∈ modified, x.tag = t) → (leaves.peekItem t).isSome = true) ∧
    ((∃ x ∈ new, x.tag = t) →
      deletedAt t deleted (modifiedAt t modified (leaves.peekItem t)) = none) := by
  simp only [SHAMap.integrate] at h
  constructor
  · rintro ⟨x, hx, hxt⟩
    have h2 : (integrateDeleted (integrateModified (true, leaves) modified) deleted).1 = true := by
      rw [integrateNew_eq] at h
      exact integrateKind_flag _ _ _ h
    have h3 : (integrateModified (true, leaves) modified).1 = true := by
      rw [integrateDeleted_eq] at h2
      exact integrateKind_flag _ _ _ h2
    have := integrateModified_flag _ _ h3 x hx
    rw [← hxt, ← LeafMap.hasItem_eq]
    exact this
  · rintro ⟨x, hx, hxt⟩
    have := integrateNew_flag _ _ h x hx
    rw [← LeafMap.peekItem_eq_none, peekItem_integrateDeleted, peekItem_integrateModified,
      hxt] at this
    exact this

/-- The leaf of a tag is the same after a second run of the three loops, when the
first run met the conditions of `integrate_flag_facts`. -/
theorem integratedAt_idem (t : Nat) (modified deleted new : List SHAMapItem)
    (v : Option SHAMapItem)
    (ha : (∃ x ∈ modified, x.tag = t) → v.isSome = true)
    (hc : (∃ x ∈ new, x.tag = t) → deletedAt t deleted (modifiedAt t modified v) = none) :
    integratedAt t modified deleted new (integratedAt t modified deleted new v) =
      integratedAt t modified deleted new v := by
  by_cases hN : ∃ x ∈ new, x.tag = t
  · have hw := hc hN
    have hv1 : integratedAt t modified deleted new v = newAt t new none := by
      simp only [integratedAt, hw]
    rw [hv1]
    have hsome := newAt_isSome_of_mem t new none hN
    cases hv : newAt t new none with
    | none => rw [hv] at hsome; cases hsome
    | some c =>
      by_cases hD : ∃ x ∈ deleted, x.tag = t
      · simp only [integratedAt, deletedAt_of_mem t deleted _ hD, hv]
      · have hD' : ∀ x ∈ deleted, x.tag ≠ t := fun x hx hxt => hD ⟨x, hx, hxt⟩
        simp only [integratedAt, deletedAt_of_not_mem t deleted _ hD']
        rw [deletedAt_of_not_mem t deleted _ hD'] at hw
        have hvn : v = none := by
          have := modifiedAt_isSome t modified v
          rw [hw] at this
          cases v with
          | none => rfl
          | some _ => simp at this
        have hM' : ∀ x ∈ modified, x.tag ≠ t := by
          intro x hx hxt
          have := ha ⟨x, hx, hxt⟩
          rw [hvn] at this
          cases this
        rw [modifiedAt_of_not_mem t modified _ hM', newAt_some]
  · have hN' : ∀ x ∈ new, x.tag ≠ t := fun x hx hxt => hN ⟨x, hx, hxt⟩
    simp only [integratedAt, newAt_of_not_mem t new _ hN']
    by_cases hD : ∃ x ∈ deleted, x.tag = t
    · rw [deletedAt_of_mem t deleted _ hD, deletedAt_of_mem t deleted _ hD]
    · have hD' : ∀ x ∈ deleted, x.tag ≠ t := fun x hx hxt => hD ⟨x, hx, hxt⟩
      rw [deletedAt_of_not_mem t deleted _ hD', deletedAt_of_not_mem t deleted _ hD',
        modifiedAt_idem]

/-- After a call every tag of a new item that no deleted item has is present, and
stays present while the modified and the deleted items of a further call are
processed. -/
theorem present_before_new (m : LeafMap) (modified deleted new : List SHAMapItem)
    (n : SHAMapItem) (hn : n ∈ new) (hd : ∀ d ∈ deleted, d.tag ≠ n.tag) :
    (integrateDeleted (integrateModified (true, (SHAMap.integrate m modified deleted new).2)
      modified) deleted).2.hasItem n.tag = true := by
  rw [LeafMap.hasItem_eq, peekItem_integrateDeleted, peekItem_integrateModified,
    deletedAt_of_not_mem _ _ _ hd, modifiedAt_isSome, peekItem_integrate]
  exact newAt_isSome_of_mem _ _ _ ⟨n, hn, rfl⟩

/-- After a call every tag of a deleted item that no new item has is absent, and
stays absent while the modified items of a further call are processed. -/
theorem absent_before_deleted (m : LeafMap) (modified deleted new : List SHAMapItem)
    (d : SHAMapItem) (hd : d ∈ deleted) (hn : ∀ n ∈ new, n.tag ≠ d.tag) :
    (integrateModified (true, (SHAMap.integrate m modified deleted new).2)
      modified).2.hasItem d.tag = false := by
  rw [← LeafMap.peekItem_eq_none, peekItem_integrateModified, peekItem_integrate]
  simp only [integratedAt]
  rw [newAt_of_not_mem _ _ _ hn, deletedAt_of_mem _ _ _ ⟨d, hd, rfl⟩, modifiedAt_none]

end IntegrateTwice

section IntegrateSingle

theorem integrateSingle_eq (leaves : LeafMap) (items : List SHAMapItem) :
    SHAMap.integrateSingle leaves items = (true, items.foldl LeafMap.upsert leaves) := by
  have key : ∀ (b : Bool) (m : LeafMap),
      items.foldl (fun (st : Bool × LeafMap) leaf =>
        if st.2.hasItem leaf.tag then (st.1, st.2.updateGiveItem leaf)
        else (st.1, st.2.addGiveItem leaf)) (b, m) = (b, items.foldl LeafMap.upsert m) := by
    induction items with
    | nil =>
      intro b m
      rfl
    | cons x xs ih =>
      intro b m
      simp only [List.foldl_cons]
      by_cases h : m.hasItem x.tag = true
      · simp only [h, if_true, LeafMap.upsert]
        exact ih _ _
      · simp only [h, if_false, LeafMap.upsert]
        exact ih _ _
  exact key true leaves

theorem LeafMap.peekItem_upsert (m : LeafMap) (x : SHAMapItem) (t : Nat) :
    (m.upsert x).peekItem t = if x.tag = t then some x else m.peekItem t := by
  unfold LeafMap.upsert
  by_cases h : m.hasItem x.tag = true
  · rw [if_pos h, LeafMap.peekItem_updateGiveItem]
    by_cases ht : x.tag = t
    · rw [if_pos ht, if_pos ht]
      rw [LeafMap.hasItem_eq, ht] at h
      cases hp : m.peekItem t with
      | none => rw [hp] at h; cases h
      | some _ => rfl
    · rw [if_neg ht, if_neg ht]
  · rw [if_neg h]
    exact LeafMap.peekItem_addGiveItem m x t (by simpa using h)

theorem LeafMap.sorted_upsert (m : LeafMap) (x : SHAMapItem) (h : m.Sorted) :
    (m.upsert x).Sorted := by
  unfold LeafMap.upsert
  split_ifs
  · exact LeafMap.sorted_updateGiveItem m x h
  · exact LeafMap.sorted_addGiveItem m x h

theorem LeafMap.length_addGiveItem (m : LeafMap) (x : SHAMapItem)
    (h : m.hasItem x.tag = false) : (m.addGiveItem x).length = m.length + 1 := by
  induction m with
  | nil => rfl
  | cons y ys ih =>
    have hy : ¬ x.tag = y.tag := by
      intro he
      simp [LeafMap.hasItem, he] at h
    have hys : LeafMap.hasItem ys x.tag = false := by
      simp only [LeafMap.hasItem, List.any_cons, Bool.or_eq_false_iff] at h ⊢
      exact h.2
    simp only [LeafMap.addGiveItem, if_neg hy]
    split_ifs
    · rfl
    · simp [ih hys]

theorem LeafMap.length_upsert (m : LeafMap) (x : SHAMapItem) :
    (m.upsert x).length = m.length + (if m.hasItem x.tag then 0 else 1) := by
  unfold LeafMap.upsert
  by_cases h : m.hasItem x.tag = true
  · simp [h, LeafMap.updateGiveItem]
  · simp only [h, if_false]
    exact LeafMap.length_addGiveItem m x (by simpa using h)

theorem peekItem_foldl_upsert_of_not_mem (m : LeafMap) (items : List SHAMapItem) (t : Nat)
    (h : ∀ x ∈ items, x.tag ≠ t) : (items.foldl LeafMap.upsert m).peekItem t = m.peekItem t := by
  induction items generalizing m with
  | nil => rfl
  | cons y ys ih =>
    rw [List.foldl_cons, ih _ (fun x hx => h x (List.mem_cons_of_mem _ hx)),
      LeafMap.peekItem_upsert, if_neg (h y (List.mem_cons_self _ _))]

theorem peekItem_foldl_upsert_of_mem (m : LeafMap) (items : List SHAMapItem)
    (hd : (items.map (fun x => x.tag)).Nodup) (x : SHAMapItem) (hx : x ∈ items) :
    (items.foldl LeafMap.upsert m).peekItem x.tag = some x := by
  induction items generalizing m with
  | nil => cases hx
  | cons y ys ih =>
    rw [List.map_cons, List.nodup_cons] at hd
    rw [List.foldl_cons]
    rcases List.mem_cons.mp hx with hxy | hxy
    · rw [peekItem_foldl_upsert_of_not_mem, LeafMap.peekItem_upsert, hxy, if_pos rfl]
      intro z hz hzt
      apply hd.1
      rw [← hxy, ← hzt]
      exact List.mem_map_of_mem _ hz
    · exact ih _ hd.2 hxy

theorem sorted_foldl_upsert (m : LeafMap) (items : List SHAMapItem) (h : m.Sorted) :
    (items.foldl LeafMap.upsert m).Sorted := by
  induction items generalizing m with
  | nil => exact h
  | cons y ys ih =>
    rw [List.foldl_cons]
    exact ih _ (LeafMap.sorted_upsert m y h)

theorem length_foldl_upsert (m : LeafMap) (items : List SHAMapItem)
    (hd : (items.map (fun x => x.tag)).Nodup) :
    (items.foldl LeafMap.upsert m).length =
      m.length + (items.filter (fun x => !m.hasItem x.tag)).length := by
  induction items generalizing m with
  | nil => rfl
  | cons y ys ih =>
    rw [List.map_cons, List.nodup_cons] at hd
    rw [List.foldl_cons, ih _ hd.2, LeafMap.length_upsert]
    have hcongr : ys.filter (fun x => !(m.upsert y).hasItem x.tag) =
        ys.filter (fun x => !m.hasItem x.tag) := by
      apply List.filter_congr
      intro x hx
      have hne : ¬ y.tag = x.tag := by
        intro he
        apply hd.1
        rw [he]
        exact List.mem_map_of_mem _ hx
      rw [LeafMap.hasItem_eq, LeafMap.hasItem_eq, LeafMap.peekItem_upsert, if_neg hne]
    rw [hcongr, List.filter_cons]
    by_cases h : m.hasItem y.tag = true
    · simp [h]
    · have h' : m.hasItem y.tag = false := by simpa using h
      simp [h']
      omega

end IntegrateSingle

section IntegrateFrame

theorem LeafMap.mem_updateGiveItem_of_ne (m : LeafMap) (x y : SHAMapItem)
    (h : x.tag ≠ y.tag) : y ∈ m.updateGiveItem x ↔ y ∈ m := by
  simp only [LeafMap.updateGiveItem, List.mem_map]
  constructor
  · rintro ⟨z, hz, hzy⟩
    by_cases hzt : z.tag = x.tag
    · rw [if_pos hzt] at hzy
      exact absurd (congrArg SHAMapItem.tag hzy) h
    · rw [if_neg hzt] at hzy
      rw [← hzy]
      exact hz
  · intro hy
    refine ⟨y, hy, ?_⟩
    rw [if_neg (fun he => h he.symm)]

theorem LeafMap.mem_delItem_of_ne (m : LeafMap) (t : Nat) (y : SHAMapItem)
    (h : t ≠ y.tag) : y ∈ m.delItem t ↔ y ∈ m := by
  simp only [LeafMap.delItem, List.mem_filter, decide_eq_true_eq]
  constructor
  · exact fun hy => hy.1
  · exact fun hy => ⟨hy, fun he => h he.symm⟩

theorem LeafMap.mem_addGiveItem_of_mem (m : LeafMap) (x y : SHAMapItem) (h : y ∈ m) :
    y ∈ m.addGiveItem x := by
  induction m with
  | nil => cases h
  | cons z zs ih =>
    simp only [LeafMap.addGiveItem]
    split_ifs
    · exact List.mem_cons_of_mem _ h
    · exact h
    · rcases List.mem_cons.mp h with h | h
      · rw [h]
        exact List.mem_cons_self _ _
      · exact List.mem_cons_of_mem _ (ih h)

theorem LeafMap.mem_addGiveItem_of_ne (m : LeafMap) (x y : SHAMapItem)
    (h : x.tag ≠ y.tag) : y ∈ m.addGiveItem x ↔ y ∈ m := by
  constructor
  · intro hy
    rcases LeafMap.mem_addGiveItem m x y hy with hy | hy
    · rw [hy] at h
      exact absurd rfl h
    · exact hy
  · exact LeafMap.mem_addGiveItem_of_mem m x y

theorem mem_perform_of_ne (kind : LeafKind) (m : LeafMap) (x y : SHAMapItem)
    (h : x.tag ≠ y.tag) : y ∈ kind.perform m x ↔ y ∈ m := by
  cases kind
  · exact LeafMap.mem_updateGiveItem_of_ne m x y h
  · exact LeafMap.mem_delItem_of_ne m x.tag y h
  · exact LeafMap.mem_addGiveItem_of_ne m x y h

/-- A loop of `integrate` keeps the items whose tag no item of the loop has, and
adds no item with such a tag. -/
theorem mem_integrateKind_of_ne (kind : LeafKind) (st : Bool × LeafMap)
    (items : List SHAMapItem) (y : SHAMapItem) (h : ∀ x ∈ items, x.tag ≠ y.tag) :
    y ∈ (integrateKind kind st items).2 ↔ y ∈ st.2 := by
  induction items generalizing st with
  | nil => rfl
  | cons x xs ih =>
    rw [integrateKind_cons, ih _ (fun z hz => h z (List.mem_cons_of_mem _ hz))]
    split_ifs
    · exact mem_perform_of_ne kind st.2 x y (h x (List.mem_cons_self _ _))
    · rfl

theorem mem_integrate_of_ne (leaves : LeafMap) (modified deleted new : List SHAMapItem)
    (y : SHAMapItem) (h : ∀ x ∈ modified ++ deleted ++ new, x.tag ≠ y.tag) :
    y ∈ (SHAMap.integrate leaves modified deleted new).2 ↔ y ∈ leaves := by
  simp only [SHAMap.integrate, integrateModified_eq, integrateDeleted_eq, integrateNew_eq]
  rw [mem_integrateKind_of_ne _ _ _ _ (fun x hx => h x (by simp [hx])),
    mem_integrateKind_of_ne _ _ _ _ (fun x hx => h x (by simp [hx])),
    mem_integrateKind_of_ne _ _ _ _ (fun x hx => h x (by simp [hx]))]

theorem LeafMap.mem_upsert_of_ne (m : LeafMap) (x y : SHAMapItem)
    (h : x.tag ≠ y.tag) : y ∈ m.upsert x ↔ y ∈ m := by
  unfold LeafMap.upsert
  split_ifs
  · exact LeafMap.mem_updateGiveItem_of_ne m x y h
  · exact LeafMap.mem_addGiveItem_of_ne m x y h

theorem mem_integrateSingle_of_ne (leaves : LeafMap) (items : List SHAMapItem)
    (y : SHAMapItem) (h : ∀ x ∈ items, x.tag ≠ y.tag) :
    y ∈ (SHAMap.integrateSingle leaves items).2 ↔ y ∈ leaves := by
  rw [integrateSingle_eq]
  simp only []
  induction items generalizing leaves with
  | nil => rfl
  | cons x xs ih =>
    rw [List.foldl_cons, ih _ (fun z hz => h z (List.mem_cons_of_mem _ hz))]
    exact LeafMap.mem_upsert_of_ne leaves x y (h x (List.mem_cons_self _ _))

end IntegrateFrame

/-! ## `walkMap` on a tree of which some nodes cannot be resolved -/

section WalkMapSpec

variable {Hs : Type} [DecidableEq Hs]

theorem restrict_resolve (hs : Hasher Hs) {T c : Trie} {id : NodeID} (avail : NodeID → Bool)
    (h : T.sub id = some c) :
    ((SHAMap.ofTrie hs T).restrict avail).getNodePointer id (hs.hashOf c) =
      if avail id then some (c.toNode hs id) else none := by
  simp only [SHAMap.restrict, ofTrie_resolve hs h]

omit [DecidableEq Hs] in
theorem missedKids_cons_none (hs : Hasher Hs) (avail : NodeID → Bool) {id : NodeID} {t : Trie}
    {i : Nat} (is : List Nat) (h : t.child i = none) :
    missedKids hs avail id t (i :: is) = missedKids hs avail id t is := by
  simp only [missedKids, kids_cons_none is h]

omit [DecidableEq Hs] in
theorem missedKids_cons_avail (hs : Hasher Hs) (avail : NodeID → Bool) {id : NodeID}
    {t c : Trie} {i : Nat} (is : List Nat) (h : t.child i = some c)
    (ha : avail (id ++ [i]) = true) :
    missedKids hs avail id t (i :: is) = missedKids hs avail id t is := by
  simp only [missedKids, kids_cons_some is h, List.filterMap_cons, ha, if_true]

omit [DecidableEq Hs] in
theorem missedKids_cons_missing (hs : Hasher Hs) (avail : NodeID → Bool) {id : NodeID}
    {t c : Trie} {i : Nat} (is : List Nat) (h : t.child i = some c)
    (ha : avail (id ++ [i]) = false) :
    missedKids hs avail id t (i :: is) =
      (id ++ [i], hs.hashOf c) :: missedKids hs avail id t is := by
  simp [missedKids, kids_cons_some is h, List.filterMap_cons, ha]

theorem innerKids_cons_none (avail : NodeID → Bool) {id : NodeID} {t : Trie}
    {i : Nat} (is : List Nat) (h : t.child i = none) :
    innerKids avail id t (i :: is) = innerKids avail id t is := by
  simp only [innerKids, kids_cons_none is h]

theorem innerKids_cons_push (avail : NodeID → Bool) {id : NodeID}
    {t c : Trie} {i : Nat} (is : List Nat) (h : t.child i = some c)
    (ha : avail (id ++ [i]) = true) (hc : c.isInner = true) :
    innerKids avail id t (i :: is) = (id ++ [i], c) :: innerKids avail id t is := by
  simp [innerKids, kids_cons_some is h, List.filter_cons, ha, hc]

theorem innerKids_cons_skip (avail : NodeID → Bool) {id : NodeID}
    {t c : Trie} {i : Nat} (is : List Nat) (h : t.child i = some c)
    (ha : (avail (id ++ [i]) && c.isInner) = false) :
    innerKids avail id t (i :: is) = innerKids avail id t is := by
  simp [innerKids, kids_cons_some is h, List.filter_cons, ha]

/-- The `for` loop of `walkMap` on a node of the tree: the children that cannot be
resolved are reported against the cap in the order of the branches, and the inner
children that can be resolved are pushed. -/
theorem walkMapBranches_ofTrie (hs : Hasher Hs) {T t : Trie} {id : NodeID}
    (avail : NodeID → Bool) (hsub : T.sub id = some t) (is : List Nat)
    (st : List (SHAMapTreeNode Hs)) (ms : List (SHAMapMissingNode Hs)) (k : Int) :
    walkMapBranches ((SHAMap.ofTrie hs T).restrict avail) (t.toNode hs id) is st ms k =
      match capped ms (missedKids hs avail id t is) k with
      | .error r => .error r
      | .ok (ms1, k1) => .ok ((nodesOf hs (innerKids avail id t is)).reverse ++ st, ms1, k1) := by
  induction is generalizing st ms k with
  | nil => rfl
  | cons i is ih =>
    simp only [walkMapBranches, toNode_getChildHash, toNode_getChildNodeID]
    cases hc : t.child i with
    | none =>
      simp only [Option.map_none']
      rw [missedKids_cons_none hs avail is hc, innerKids_cons_none avail is hc]
      exact ih st ms k
    | some c =>
      simp only [Option.map_some']
      rw [restrict_resolve hs avail (Trie.sub_child hsub hc)]
      cases ha : avail (id ++ [i]) with
      | true =>
        simp only [if_true]
        rw [missedKids_cons_avail hs avail is hc ha]
        cases c with
        | leaf x =>
          have hn : Trie.toNode hs (id ++ [i]) (.leaf x) = .leaf (id ++ [i]) x := rfl
          rw [hn, innerKids_cons_skip avail is hc (by simp [Trie.isInner])]
          exact ih st ms k
        | inner bs =>
          have hn : Trie.toNode hs (id ++ [i]) (.inner bs) =
              .inner (id ++ [i]) (bs.map (fun b => b.map hs.hashOf)) := rfl
          rw [hn, innerKids_cons_push avail is hc ha rfl]
          simp only []
          rw [ih]
          cases capped ms (missedKids hs avail id t is) k with
          | error r => rfl
          | ok r =>
            simp only [nodesOf, List.map_cons, List.reverse_cons, List.append_assoc,
              List.singleton_append, hn]
      | false =>
        simp only [Bool.false_eq_true, if_false]
        rw [missedKids_cons_missing hs avail is hc ha,
          innerKids_cons_skip avail is hc (by simp [ha])]
        simp only [capped]
        by_cases hk : k - 1 ≤ 0
        · simp only [hk, if_true]
        · simp only [hk, if_false]
          exact ih st _ _

omit [DecidableEq Hs] in
theorem capped_append (ms W1 W2 : List (SHAMapMissingNode Hs)) (k : Int) :
    capped ms (W1 ++ W2) k =
      match capped ms W1 k with
      | .error r => .error r
      | .ok (ms1, k1) => capped ms1 W2 k1 := by
  induction W1 generalizing ms k with
  | nil => rfl
  | cons d ds ih =>
    simp only [List.cons_append, capped]
    split_ifs
    · rfl
    · exact ih _ _

omit [DecidableEq Hs] in
/-- What a capped report lets through. -/
theorem reported_capped (ms W : List (SHAMapMissingNode Hs)) (k : Int) :
    reported (capped ms W k) = ms ++ W.take (capCount k) := by
  induction W generalizing ms k with
  | nil => simp [capped, reported]
  | cons d ds ih =>
    simp only [capped]
    by_cases hk : k - 1 ≤ 0
    · have hc : capCount k = 1 := by
        simp only [capCount]
        rw [if_pos (by omega)]
      simp [hk, reported, hc]
    · have hc : capCount k = capCount (k - 1) + 1 := by
        simp only [capCount]
        rw [if_neg (by omega)]
        split_ifs <;> omega
      simp only [hk, if_false, ih, hc, List.take_succ_cons, List.append_assoc,
        List.singleton_append]

end WalkMapSpec

section MissingSpec

variable {Hs : Type}

theorem missingList_eq (hs : Hasher Hs) (avail : NodeID → Bool) (id : NodeID)
    (bs : List (Option Trie)) (k : Nat) :
    Trie.missingList hs avail id k bs =
      (List.range bs.length).flatMap (fun j =>
        match bs[j]?.join with
        | none => []
        | some c =>
          if avail (id ++ [k + j]) then c.missing hs avail (id ++ [k + j])
          else [(id ++ [k + j], hs.hashOf c)]) := by
  induction bs generalizing k with
  | nil => simp [Trie.missingList]
  | cons b bs ih =>
    rw [List.length_cons, List.range_succ_eq_map, List.flatMap_cons, List.flatMap_map]
    have hshift : ∀ j, (fun j =>
        match (b :: bs)[j]?.join with
        | none => []
        | some c =>
          if avail (id ++ [k + j]) then c.missing hs avail (id ++ [k + j])
          else [(id ++ [k + j], hs.hashOf c)]) (j + 1) =
        (fun j =>
        match bs[j]?.join with
        | none => []
        | some c =>
          if avail (id ++ [k + 1 + j]) then c.missing hs avail (id ++ [k + 1 + j])
          else [(id ++ [k + 1 + j], hs.hashOf c)]) j := by
      intro j
      have : k + (j + 1) = k + 1 + j := by omega
      simp only [List.getElem?_cons_succ, this]
    cases b with
    | none =>
      simp only [Trie.missingList, ih (k + 1)]
      simp only [List.getElem?_cons_zero, Option.join, List.nil_append]
      apply congrArg
      funext j
      exact (hshift j).symm
    | some c =>
      simp only [Trie.missingList, ih (k + 1)]
      simp only [List.getElem?_cons_zero, Option.join, Nat.add_zero]
      congr 1
      apply congrArg
      funext j
      exact (hshift j).symm

/-- The descriptors below an inner node with 16 branch slots, branch by branch. -/
theorem missing_inner_eq (hs : Hasher Hs) (avail : NodeID → Bool) (id : NodeID)
    {bs : List (Option Trie)} (h : bs.length = 16) :
    (Trie.inner bs).missing hs avail id =
      (List.range 16).flatMap (branchMissing hs avail id (.inner bs)) := by
  rw [Trie.missing, missingList_eq, h]
  apply congrArg
  funext j
  simp only [branchMissing, Trie.child, Nat.zero_add]

theorem missing_leaf (hs : Hasher Hs) (avail : NodeID → Bool) (id : NodeID) (x : SHAMapItem) :
    (Trie.leaf x).missing hs avail id = [] := rfl

theorem branchMissing_perm (hs : Hasher Hs) (avail : NodeID → Bool) (id : NodeID) (t : Trie)
    (is : List Nat) :
    (is.flatMap (branchMissing hs avail id t)).Perm
      (missedKids hs avail id t is ++
        (innerKids avail id t is).flatMap (fun p => p.2.missing hs avail p.1)) := by
  induction is with
  | nil => exact List.Perm.refl _
  | cons i is ih =>
    rw [List.flatMap_cons]
    cases hc : t.child i with
    | none =>
      rw [missedKids_cons_none hs avail is hc, innerKids_cons_none avail is hc]
      simpa [branchMissing, hc] using ih
    | some c =>
      cases ha : avail (id ++ [i]) with
      | true =>
        rw [missedKids_cons_avail hs avail is hc ha]
        cases c with
        | leaf x =>
          rw [innerKids_cons_skip avail is hc (by simp [Trie.isInner])]
          simpa [branchMissing, hc, ha, missing_leaf] using ih
        | inner bs =>
          rw [innerKids_cons_push avail is hc ha rfl, List.flatMap_cons]
          have hb : branchMissing hs avail id t i =
              (Trie.inner bs).missing hs avail (id ++ [i]) := by
            simp [branchMissing, hc, ha]
          rw [hb]
          refine (List.Perm.append_left _ ih).trans ?_
          rw [← List.append_assoc, ← List.append_assoc]
          exact List.Perm.append_right _ List.perm_append_comm
      | false =>
        rw [missedKids_cons_missing hs avail is hc ha,
          innerKids_cons_skip avail is hc (by simp [ha])]
        have hb : branchMissing hs avail id t i = [(id ++ [i], hs.hashOf c)] := by
          simp [branchMissing, hc, ha]
        rw [hb]
        exact List.Perm.cons _ ih

theorem totalSize_filter_le (ts : List (NodeID × Trie)) (p : NodeID × Trie → Bool) :
    totalSize (ts.filter p) ≤ totalSize ts := by
  induction ts with
  | nil => exact Nat.le_refl _
  | cons a ts ih =>
    rw [List.filter_cons]
    split_ifs
    · simp only [totalSize, List.map_cons, List.sum_cons] at ih ⊢
      omega
    · simp only [totalSize, List.map_cons, List.sum_cons] at ih ⊢
      omega

end MissingSpec

section WalkMapLoop

variable {Hs : Type} [DecidableEq Hs]

theorem kids_leaf (id : NodeID) (x : SHAMapItem) (is : List Nat) :
    kids id (.leaf x) is = [] := by
  induction is with
  | nil => rfl
  | cons i is ih =>
    have h : (Trie.leaf x).child i = none := rfl
    rw [kids_cons_none is h, ih]

theorem reverse_flatMap_perm {α β : Type} (l : List α) (f : α → List β) :
    (l.reverse.flatMap f).Perm (l.flatMap f) :=
  (List.reverse_perm l).flatMap_right f

/-- The loop of `walkMap` on a stack of nodes of a well-formed tree, with fuel for
every node below the stack: the loop returns, and what it reports is a list `W` of
the descriptors below the stack, each once, put against the cap. -/
theorem walkMapLoop_spec (hs : Hasher Hs) {T : Trie} (hwf : T.wf [] = true)
    (avail : NodeID → Bool) :
    ∀ (fuel : Nat) (ts : List (NodeID × Trie)),
      (∀ p ∈ ts, T.sub p.1 = some p.2) → totalSize ts ≤ fuel →
      ∃ W : List (SHAMapMissingNode Hs),
        W.Perm (ts.flatMap (fun p => p.2.missing hs avail p.1)) ∧
        ∀ ms k, walkMapLoop ((SHAMap.ofTrie hs T).restrict avail) fuel (nodesOf hs ts) ms k =
          .ok (reported (capped ms W k)) := by
  intro fuel
  induction fuel with
  | zero =>
    intro ts hsub hsz
    cases ts with
    | nil => exact ⟨[], List.Perm.refl _, fun ms k => rfl⟩
    | cons p ts =>
      have := Trie.size_pos p.2
      simp only [totalSize, List.map_cons, List.sum_cons] at hsz
      omega
  | succ fuel ih =>
    intro ts hsub hsz
    cases ts with
    | nil => exact ⟨[], List.Perm.refl _, fun ms k => rfl⟩
    | cons p ts =>
      obtain ⟨id, t⟩ := p
      have hsubt : T.sub id = some t := hsub (id, t) (List.mem_cons_self _ _)
      have hsub' : ∀ p ∈ ts, T.sub p.1 = some p.2 :=
        fun p hp => hsub p (List.mem_cons_of_mem _ hp)
      simp only [totalSize, List.map_cons, List.sum_cons] at hsz
      have hkids : totalSize (kids id t (List.range 16)) + 1 ≤ t.size := by
        cases t with
        | leaf x => simp [kids_leaf, totalSize, Trie.size]
        | inner bs =>
          have hlen : bs.length = 16 := Trie.wf_inner_length (Trie.wf_sub hwf hsubt)
          rw [totalSize_kids, Trie.size_inner_eq hlen]
          omega
      have hmiss : (t.missing hs avail id).Perm
          (missedKids hs avail id t (List.range 16) ++
            (innerKids avail id t (List.range 16)).flatMap
              (fun p => p.2.missing hs avail p.1)) := by
        cases t with
        | leaf x =>
          simp [missing_leaf, missedKids, innerKids, kids_leaf]
        | inner bs =>
          have hlen : bs.length = 16 := Trie.wf_inner_length (Trie.wf_sub hwf hsubt)
          rw [missing_inner_eq hs avail id hlen]
          exact branchMissing_perm hs avail id _ _
      have hsz' : totalSize ((innerKids avail id t (List.range 16)).reverse ++ ts) ≤ fuel := by
        rw [totalSize_append, totalSize_reverse]
        have := totalSize_filter_le (kids id t (List.range 16))
          (fun p => avail p.1 && p.2.isInner)
        simp only [innerKids]
        simp only [totalSize] at this hkids ⊢
        omega
      have hsubk : ∀ p ∈ (innerKids avail id t (List.range 16)).reverse ++ ts,
          T.sub p.1 = some p.2 := by
        intro p hp
        rcases List.mem_append.1 hp with hp | hp
        · have hp' := List.mem_reverse.1 hp
          simp only [innerKids] at hp'
          exact kids_sub hsubt _ p (List.mem_filter.1 hp').1
        · exact hsub' p hp
      obtain ⟨W2, hperm2, hrun2⟩ := ih _ hsubk hsz'
      refine ⟨missedKids hs avail id t (List.range 16) ++ W2, ?_, ?_⟩
      · rw [List.flatMap_cons]
        rw [List.flatMap_append] at hperm2
        refine List.Perm.trans ?_ (List.Perm.append_right _ hmiss.symm)
        rw [List.append_assoc]
        refine List.Perm.append_left _ (hperm2.trans ?_)
        exact List.Perm.append_right _ (reverse_flatMap_perm _ _)
      · intro ms k
        have hn : nodesOf hs ((id, t) :: ts) = t.toNode hs id :: nodesOf hs ts := rfl
        rw [hn]
        simp only [walkMapLoop]
        rw [walkMapBranches_ofTrie hs avail hsubt, capped_append]
        cases hcap : capped ms (missedKids hs avail id t (List.range 16)) k with
        | error r => rfl
        | ok r =>
          obtain ⟨ms1, k1⟩ := r
          simp only []
          rw [← nodesOf_reverse, ← nodesOf_append]
          exact hrun2 ms1 k1

/-- A call of `walkMap` on a well-formed tree of which the nodes at the positions
where `avail` is false cannot be resolved, with fuel for all its nodes: the call
returns, and what it reports is a list `W` of the descriptors of the tree, each once,
put against the cap. -/
theorem walkMap_spec (hs : Hasher Hs) {T : Trie} (hwf : T.wf [] = true)
    (avail : NodeID → Bool) {fuel : Nat} (hf : T.size ≤ fuel) :
    ∃ W : List (SHAMapMissingNode Hs),
      W.Perm (T.missing hs avail []) ∧
      ∀ ms k, ((SHAMap.ofTrie hs T).restrict avail).walkMap (T.toNode hs []) fuel ms k =
        .ok (ms ++ W.take (capCount k)) := by
  cases T with
  | leaf x =>
    exact ⟨[], List.Perm.refl _, fun ms k => by simp [SHAMap.walkMap, Trie.toNode]⟩
  | inner bs =>
    obtain ⟨W, hperm, hrun⟩ := walkMapLoop_spec hs hwf avail fuel [([], .inner bs)]
      (by
        intro p hp
        simp only [List.mem_singleton] at hp
        subst hp
        rfl)
      (by simpa [totalSize] using hf)
    refine ⟨W, by simpa using hperm, ?_⟩
    intro ms k
    have := hrun ms k
    rw [reported_capped] at this
    simpa [SHAMap.walkMap, Trie.toNode, nodesOf] using this

end WalkMapLoop

section MissingMem

variable {Hs : Type}

theorem mem_branchMissing (hs : Hasher Hs) (avail : NodeID → Bool) (id : NodeID) (t : Trie)
    (j : Nat) (d : SHAMapMissingNode Hs) :
    d ∈ branchMissing hs avail id t j ↔
      ∃ c, t.child j = some c ∧
        ((avail (id ++ [j]) = true ∧ d ∈ c.missing hs avail (id ++ [j])) ∨
          (avail (id ++ [j]) = false ∧ d = (id ++ [j], hs.hashOf c))) := by
  simp only [branchMissing]
  cases hc : t.child j with
  | none => simp
  | some c =>
    cases ha : avail (id ++ [j]) <;> simp

theorem sub_leaf_cons (x : SHAMapItem) (j : Nat) (r : NodeID) :
    (Trie.leaf x).sub (j :: r) = none := rfl

theorem sub_cons (t : Trie) (j : Nat) (r : NodeID) :
    t.sub (j :: r) = (t.child j).bind (fun c => c.sub r) := by
  simp only [Trie.sub]
  cases t.child j <;> rfl

/-- The descriptors below a node of a well-formed tree are those of the children
that cannot be resolved while every node on the way down to their parent can. -/
theorem mem_missing (hs : Hasher Hs) (avail : NodeID → Bool) :
    ∀ (t : Trie) (id : NodeID), t.wf id = true → ∀ d : SHAMapMissingNode Hs,
      (d ∈ t.missing hs avail id ↔
        ∃ rest i c, d = (id ++ rest ++ [i], hs.hashOf c) ∧ t.sub (rest ++ [i]) = some c ∧
          avail (id ++ rest ++ [i]) = false ∧
          ∀ q, q <+: rest → q ≠ [] → avail (id ++ q) = true) := by
  intro t
  induction t using Trie.induction_on with
  | hleaf x =>
    intro id _ d
    rw [missing_leaf]
    constructor
    · intro h
      cases h
    · rintro ⟨rest, i, c, _, hsub, _⟩
      cases rest <;> simp [sub_leaf_cons] at hsub
  | hinner bs ih =>
    intro id hwf d
    have hlen : bs.length = 16 := Trie.wf_inner_length hwf
    rw [missing_inner_eq hs avail id hlen, List.mem_flatMap]
    constructor
    · rintro ⟨j, _, hj⟩
      obtain ⟨c, hc, h⟩ := (mem_branchMissing hs avail id _ j d).1 hj
      rcases h with ⟨ha, hd⟩ | ⟨ha, hd⟩
      · obtain ⟨rest, i, c', hd', hsub, hna, hq⟩ :=
          (ih j c hc (id ++ [j]) (Trie.wf_child hwf hc) d).1 hd
        refine ⟨j :: rest, i, c', ?_, ?_, ?_, ?_⟩
        · simpa using hd'
        · rw [List.cons_append, sub_cons, hc]
          exact hsub
        · simpa using hna
        · intro q hq1 hq2
          cases q with
          | nil => exact absurd rfl hq2
          | cons a q' =>
            obtain ⟨rfl, hq'⟩ := List.cons_prefix_cons.1 hq1
            by_cases hnil : q' = []
            · subst hnil
              exact ha
            · have := hq q' hq' hnil
              simpa using this
      · refine ⟨[], j, c, ?_, ?_, ?_, ?_⟩
        · simpa using hd
        · simp only [List.nil_append, sub_cons, hc, Option.some_bind, Trie.sub]
        · simpa using ha
        · intro q hq1 hq2
          exact absurd (List.prefix_nil.1 hq1) hq2
    · rintro ⟨rest, i, c, hd, hsub, hna, hq⟩
      cases rest with
      | nil =>
        simp only [List.nil_append, sub_cons] at hsub
        cases hc : (Trie.inner bs).child i with
        | none => simp [hc] at hsub
        | some ci =>
          simp only [hc, Option.some_bind, Trie.sub, Option.some.injEq] at hsub
          subst hsub
          have hi : i < 16 := by
            rw [← hlen]
            exact Trie.child_lt_length hc
          refine ⟨i, List.mem_range.2 hi, ?_⟩
          rw [mem_branchMissing]
          exact ⟨ci, hc, Or.inr ⟨by simpa using hna, by simpa using hd⟩⟩
      | cons j rest' =>
        rw [List.cons_append, sub_cons] at hsub
        cases hc : (Trie.inner bs).child j with
        | none => simp [hc] at hsub
        | some cj =>
          simp only [hc, Option.some_bind] at hsub
          have hj : j < 16 := by
            rw [← hlen]
            exact Trie.child_lt_length hc
          have ha : avail (id ++ [j]) = true :=
            hq [j] (by simp [List.prefix_iff_eq_append]) (by simp)
          refine ⟨j, List.mem_range.2 hj, ?_⟩
          rw [mem_branchMissing]
          refine ⟨cj, hc, Or.inl ⟨ha, ?_⟩⟩
          rw [ih j cj hc (id ++ [j]) (Trie.wf_child hwf hc) d]
          refine ⟨rest', i, c, by simpa using hd, hsub, by simpa using hna, ?_⟩
          intro q hq1 hq2
          have := hq (j :: q) (List.cons_prefix_cons.2 ⟨rfl, hq1⟩) (by simp)
          simpa using this

end MissingMem

section MissingNodup

variable {Hs : Type}

theorem getElem?_append_cons (id : NodeID) (j : Nat) (r : NodeID) :
    (id ++ j :: r)[id.length]? = some j := by
  induction id with
  | nil => simp
  | cons a id ih => simpa using ih

theorem branchMissing_position (hs : Hasher Hs) (avail : NodeID → Bool) {id : NodeID}
    {t : Trie} (hwf : t.wf id = true) {j : Nat} {d : SHAMapMissingNode Hs}
    (h : d ∈ branchMissing hs avail id t j) : d.1[id.length]? = some j := by
  obtain ⟨c, hc, h⟩ := (mem_branchMissing hs avail id t j d).1 h
  rcases h with ⟨_, hd⟩ | ⟨_, hd⟩
  · obtain ⟨rest, i, c', hd', _⟩ :=
      (mem_missing hs avail c (id ++ [j]) (Trie.wf_child hwf hc) d).1 hd
    rw [hd']
    simp only [List.append_assoc, List.singleton_append]
    exact getElem?_append_cons id j _
  · rw [hd]
    exact getElem?_append_cons id j []

/-- No descriptor occurs twice below a node of a well-formed tree. -/
theorem missing_nodup (hs : Hasher Hs) (avail : NodeID → Bool) :
    ∀ (t : Trie) (id : NodeID), t.wf id = true → (t.missing hs avail id).Nodup := by
  intro t
  induction t using Trie.induction_on with
  | hleaf x =>
    intro id _
    rw [missing_leaf]
    exact List.nodup_nil
  | hinner bs ih =>
    intro id hwf
    have hlen : bs.length = 16 := Trie.wf_inner_length hwf
    rw [missing_inner_eq hs avail id hlen, List.nodup_flatMap]
    constructor
    · intro j _
      simp only [branchMissing]
      cases hc : (Trie.inner bs).child j with
      | none => exact List.nodup_nil
      | some c =>
        simp only []
        split_ifs
        · exact ih j c hc (id ++ [j]) (Trie.wf_child hwf hc)
        · exact List.nodup_singleton _
    · refine List.Pairwise.imp_of_mem ?_ (List.nodup_range 16)
      intro a b _ _ hab
      simp only [Function.onFun]
      intro d hda hdb
      have h1 := branchMissing_position hs avail hwf hda
      have h2 := branchMissing_position hs avail hwf hdb
      rw [h1] at h2
      exact hab (Option.some.inj h2)

/-- The descriptors of a well-formed tree are the unresolvable children that the
walk reaches. -/
theorem mem_missing_root (hs : Hasher Hs) (avail : NodeID → Bool) {T : Trie}
    (hwf : T.wf [] = true) (d : SHAMapMissingNode Hs) :
    d ∈ T.missing hs avail [] ↔ Unresolved hs avail T d := by
  rw [mem_missing hs avail T [] hwf d]
  constructor
  · rintro ⟨rest, i, c, hd, hsub, hna, hq⟩
    rw [Trie.sub_append_single] at hsub
    cases hp : T.sub rest with
    | none => simp [hp] at hsub
    | some p =>
      simp only [hp, Option.some_bind] at hsub
      have hi : i < 16 := by
        cases p with
        | leaf x => cases hsub
        | inner bs =>
          have hw := Trie.wf_sub hwf hp
          rw [← Trie.wf_inner_length hw]
          exact Trie.child_lt_length hsub
      refine ⟨rest, i, p, by simp [hd], hi, hp, ?_, by simpa [hd] using hna, ?_⟩
      · rw [toNode_getChildHash, hsub, hd]
        rfl
      · intro q hq1 hq2
        simpa using hq q hq1 hq2
  · rintro ⟨parent, i, p, hd1, _, hp, hh, hna, hq⟩
    rw [toNode_getChildHash] at hh
    cases hc : p.child i with
    | none => simp [hc] at hh
    | some c =>
      simp only [hc, Option.map_some', Option.some.injEq] at hh
      refine ⟨parent, i, c, ?_, ?_, ?_, ?_⟩
      · simp only [List.nil_append]
        exact Prod.ext hd1 hh.symm
      · rw [Trie.sub_append_single, hp]
        exact hc
      · simpa [hd1] using hna
      · intro q hq1 hq2
        simpa using hq q hq1 hq2

end MissingNodup

section WalkMapComplete

variable {Hs : Type} [DecidableEq Hs]

theorem restrict_true (m : SHAMap Hs) : m.restrict (fun _ => true) = m := by
  cases m
  simp [SHAMap.restrict]

/-- When no child that the walk reaches is unresolvable, `walkMap` reports
nothing. -/
theorem walkMap_of_no_unresolved (hs : Hasher Hs) {T : Trie} (hwf : T.wf [] = true)
    (avail : NodeID → Bool) (hres : ∀ d, ¬ Unresolved hs avail T d)
    {fuel : Nat} (hf : T.size ≤ fuel) (ms : List (SHAMapMissingNode Hs)) (k : Int) :
    ((SHAMap.ofTrie hs T).restrict avail).walkMap (T.toNode hs []) fuel ms k = .ok ms := by
  obtain ⟨W, hperm, hrun⟩ := walkMap_spec hs hwf avail hf
  have hW : W = [] := by
    apply List.eq_nil_iff_forall_not_mem.2
    intro d hd
    exact hres d ((mem_missing_root hs avail hwf d).1 (hperm.mem_iff.1 hd))
  rw [hrun, hW]
  simp

/-- On a tree of which every node can be resolved `walkMap` reports nothing. -/
theorem walkMap_complete (hs : Hasher Hs) {T : Trie} (hwf : T.wf [] = true)
    {fuel : Nat} (hf : T.size ≤ fuel) (ms : List (SHAMapMissingNode Hs)) (k : Int) :
    (SHAMap.ofTrie hs T).walkMap (T.toNode hs []) fuel ms k = .ok ms := by
  have h := walkMap_of_no_unresolved hs hwf (fun _ => true)
    (fun d ⟨_, _, _, _, _, _, _, h, _⟩ => Bool.noConfusion h) hf ms k
  rwa [restrict_true] at h

end WalkMapComplete

/-! ## Calls of `walkBranch` on well-formed trees, and the shape of the entries -/

theorem Trie.size_sub_le {t c : Trie} {id : NodeID} (h : t.sub id = some c) :
    c.size ≤ t.size := by
  induction id generalizing t with
  | nil =>
    simp only [Trie.sub, Option.some.injEq] at h
    subst h
    exact Nat.le_refl _
  | cons j r ih =>
    rw [sub_cons] at h
    cases hc : t.child j with
    | none => simp [hc] at h
    | some cj =>
      simp only [hc, Option.some_bind] at h
      have h1 := ih h
      have h2 := Trie.sizeOpt_child_lt t j
      rw [hc] at h2
      simp only [Trie.sizeOpt] at h2
      omega

section WalkResults

variable {Hs : Type} [DecidableEq Hs]

/-- A call of `walkBranch` on a subtree of a well-formed tree, with fuel for all its
nodes, in terms of the list `R` of its insertions in the order they are attempted:
the call returns, whatever is in the table afterwards was there before or is one of
the insertions, a call that returns `true` has made all of them, and a call with a
budget above their number returns `true`. -/
theorem walkBranch_summary (hs : Hasher Hs) {T t : Trie} (hwf : T.wf [] = true)
    {id : NodeID} (hsub : T.sub id = some t) (o : Option SHAMapItem) (isF : Bool)
    {fuel : Nat} (hf : t.size ≤ fuel) :
    ∃ R : List (Nat × DeltaRef),
      (∀ r ∈ R, WalkAttr o isF t.leaves r) ∧
      (∀ x ∈ t.leaves, x.tag ∈ R.map Prod.fst ∨ o = some x) ∧
      ∀ (s0 : WalkState), ∃ b s,
        (SHAMap.ofTrie hs T).walkBranch fuel (t.toNode hs id) o isF s0 = .ok (b, s) ∧
        (∀ e ∈ s.differences, e ∈ s0.differences ∨ e ∈ R) ∧
        (b = true → s.differences = s0.differences.insertAll R ∧
          s.maxCount = s0.maxCount - R.length) ∧
        ((R.length : Int) < s0.maxCount → b = true) := by
  obtain ⟨evs, htr, hattr, hcov, _⟩ := walkBranchTrace_spec hs hwf hsub o isF hf
  refine ⟨recordsOf evs, hattr, hcov, ?_⟩
  intro s0
  have hrun : (SHAMap.ofTrie hs T).walkBranch fuel (t.toNode hs id) o isF s0 =
      .ok (match replayEvents evs s0 with
        | .ok s1 => (true, s1)
        | .error s1 => (false, s1)) := by
    rw [walkBranch_run, lower_run_of_result _ (by rw [htr]), htr]
  have hsub' := replay_subset evs s0
  cases hrep : replayEvents evs s0 with
  | ok s1 =>
    rw [hrep] at hrun hsub'
    obtain ⟨h1, h2, _⟩ := replay_ok hrep
    refine ⟨true, s1, hrun, ?_, fun _ => ⟨h1, h2⟩, fun _ => rfl⟩
    intro e he
    exact Delta.mem_insertAll (hsub' e he)
  | error s1 =>
    rw [hrep] at hrun hsub'
    refine ⟨false, s1, hrun, ?_, ?_, ?_⟩
    · intro e he
      exact Delta.mem_insertAll (hsub' e he)
    · intro hb
      cases hb
    · intro hlt
      obtain ⟨s', hs'⟩ := replay_ok_of_lt evs s0 hlt
      rw [hs'] at hrep
      cases hrep

end WalkResults

section EntryShape

/-- An entry attributed to two leaf sets is well formed. -/
theorem entryWF_of_attributed {ours theirs : List SHAMapItem} {r : Nat × DeltaRef}
    (h : Attributed ours theirs r) : EntryWF r := by
  obtain ⟨h1, h2, h3, h4⟩ := h
  refine ⟨h3, fun x hx => (h1 x hx).2, fun y hy => (h2 y hy).2, ?_⟩
  intro x y hx hy
  exact ⟨((h1 x hx).2).trans ((h2 y hy).2).symm, h4 x y hx hy⟩

/-- An entry that a walk may record is well formed. -/
theorem entryWF_of_walkAttr {o : Option SHAMapItem} {isF : Bool} {leaves : List SHAMapItem}
    {r : Nat × DeltaRef} (h : WalkAttr o isF leaves r) : EntryWF r := by
  rcases h with ⟨x, _, rfl⟩ | ⟨y, _, rfl⟩ | ⟨x, _, y, _, hxy, hd, rfl⟩
  · cases isF <;> simp [EntryWF, oneSided]
  · cases isF <;> simp [EntryWF, oneSided]
  · cases isF
    · simp only [EntryWF, twoSided]
      refine ⟨by simp, ?_, ?_, ?_⟩
      · intro a ha
        simp only [Bool.false_eq_true, if_false, Option.some.injEq] at ha
        rw [← ha]
      · intro a ha
        simp only [Bool.false_eq_true, if_false, Option.some.injEq] at ha
        rw [← ha]
        exact hxy
      · intro a b ha hb
        simp only [Bool.false_eq_true, if_false, Option.some.injEq] at ha hb
        rw [← ha, ← hb]
        exact ⟨hxy.symm, fun h => hd h.symm⟩
    · simp only [EntryWF, twoSided]
      refine ⟨by simp, ?_, ?_, ?_⟩
      · intro a ha
        simp only [if_true, Option.some.injEq] at ha
        rw [← ha]
        exact hxy
      · intro a ha
        simp only [if_true, Option.some.injEq] at ha
        rw [← ha]
      · intro a b ha hb
        simp only [if_true, Option.some.injEq] at ha hb
        rw [← ha, ← hb]
        exact ⟨hxy, hd⟩

end EntryShape

section CompareEntries

variable {Hs : Type} [DecidableEq Hs]

/-- A call of `compare` on well-formed trees with a table passed in: the call
returns, and every entry of the table afterwards was in it before or is attributed to
the leaves of the two trees. -/
theorem compare_entries (hs : Hasher Hs) {TA TB : Trie}
    (hwfA : TA.wf [] = true) (hwfB : TB.wf [] = true) (hcf : CollisionFree hs TA TB)
    {fuel : Nat} (hf : TA.size + TB.size ≤ fuel) (d : Delta) (maxCount : Int) :
    ∃ b s,
      (SHAMap.ofTrie hs TA).compare (SHAMap.ofTrie hs TB) fuel d maxCount = .ok (b, s) ∧
      ∀ e ∈ s.differences, e ∈ d ∨ Attributed TA.leaves TB.leaves e := by
  obtain ⟨evs, htr, hattr, _⟩ := compareTrace_spec hs hwfA hwfB hcf hf
  have hrun := compare_of_trace htr d maxCount
  have hsub := replay_subset evs ⟨d, maxCount, []⟩
  cases hrep : replayEvents evs ⟨d, maxCount, []⟩ with
  | ok s1 =>
    rw [hrep] at hrun hsub
    refine ⟨true, s1, hrun, ?_⟩
    intro e he
    rcases Delta.mem_insertAll (hsub e he) with h | h
    · exact Or.inl h
    · exact Or.inr (hattr e h)
  | error s1 =>
    rw [hrep] at hrun hsub
    refine ⟨false, s1, hrun, ?_⟩
    intro e he
    rcases Delta.mem_insertAll (hsub e he) with h | h
    · exact Or.inl h
    · exact Or.inr (hattr e h)

end CompareEntries

/-! ## The order in which `walkBranch` visits the leaves -/

section LeavesOrder

theorem leavesOf_kids (id : NodeID) (t : Trie) (is : List Nat) :
    leavesOf (kids id t is) = is.flatMap (fun i => Trie.leavesOpt (t.child i)) := by
  induction is with
  | nil => rfl
  | cons i is ih =>
    cases hc : t.child i with
    | none =>
      rw [kids_cons_none is hc, ih]
      simp [hc, Trie.leavesOpt]
    | some c =>
      rw [kids_cons_some is hc, leavesOf_cons, ih]
      simp [hc, Trie.leavesOpt]

/-- The leaves of an inner node with 16 branch slots are the leaves of its children,
branch 0 first. -/
theorem leaves_inner_eq (id : NodeID) {bs : List (Option Trie)} (h : bs.length = 16) :
    (Trie.inner bs).leaves = leavesOf (kids id (.inner bs) (List.range 16)) := by
  rw [leavesOf_kids]
  have h1 := Trie.range_children bs
  rw [h] at h1
  simp only [Trie.leaves, Trie.leavesList_eq]
  conv_lhs => rw [← h1]
  rw [List.flatMap_map]
  rfl

/-- No item occurs twice among the leaves of a well-formed tree. -/
theorem Trie.leaves_nodup : ∀ (t : Trie) (id : NodeID), t.wf id = true → t.leaves.Nodup := by
  intro t
  induction t using Trie.induction_on with
  | hleaf z =>
    intro id _
    simp [Trie.leaves]
  | hinner bs ih =>
    intro id h
    have hlen : bs.length = 16 := Trie.wf_inner_length h
    rw [leaves_inner_eq id hlen, leavesOf_kids, List.nodup_flatMap]
    constructor
    · intro i _
      cases hc : (Trie.inner bs).child i with
      | none => simp [Trie.leavesOpt]
      | some c => exact ih i c hc _ (Trie.wf_child h hc)
    · refine List.Pairwise.imp_of_mem ?_ (List.nodup_range 16)
      intro i j _ _ hij
      simp only [Function.onFun]
      intro x hxi hxj
      cases hc : (Trie.inner bs).child i with
      | none => simp [hc, Trie.leavesOpt] at hxi
      | some c =>
        cases hd : (Trie.inner bs).child j with
        | none => simp [hd, Trie.leavesOpt] at hxj
        | some d =>
          simp only [hc, hd, Trie.leavesOpt] at hxi hxj
          have h1 := Trie.leaf_position c _ (Trie.wf_child h hc) x hxi
          have h2 := Trie.leaf_position d _ (Trie.wf_child h hd) x hxj
          have h3 : id ++ [i] = id ++ [j] := by
            have := List.prefix_of_prefix_length_le h1 h2 (by simp)
            exact this.eq_of_length (by simp)
          exact hij (by simpa using h3)

/-- No tag occurs twice among the leaves of a well-formed tree. -/
theorem Trie.tags_nodup (t : Trie) (id : NodeID) (h : t.wf id = true) :
    (t.leaves.map (fun x => x.tag)).Nodup :=
  List.Nodup.map_on (fun x hx y hy hxy => Trie.tag_inj t id h x hx y hy hxy)
    (Trie.leaves_nodup t id h)

end LeavesOrder

section VisitOrder

variable {Hs : Type} [DecidableEq Hs]

/-- The leaves below a stack of nodes in the order in which the loop of `walkBranch`
visits them: the node on top first, and below a node the branches from 15 down
to 0. -/
theorem visitOrder_cons (p : NodeID × Trie) (ts : List (NodeID × Trie)) :
    visitOrder (p :: ts) = p.2.leaves.reverse ++ visitOrder ts := by
  simp [visitOrder]

theorem visitOrder_kids (id : NodeID) {bs : List (Option Trie)} (h : bs.length = 16)
    (ts : List (NodeID × Trie)) :
    visitOrder ((kids id (.inner bs) (List.range 16)).reverse ++ ts) =
      visitOrder ((id, .inner bs) :: ts) := by
  rw [visitOrder_cons]
  simp only [visitOrder, List.flatMap_append]
  congr 1
  rw [leaves_inner_eq id h, leavesOf, List.reverse_flatMap]
  rfl

/-- With no counterpart the loop of `walkBranch` on a stack of nodes of a well-formed
tree, with fuel for every node below the stack, inserts one entry per leaf, in the
order in which it visits the leaves. -/
theorem walkTraceLoop_none_spec (hs : Hasher Hs) {T : Trie} (hwf : T.wf [] = true)
    (isF : Bool) :
    ∀ (fuel : Nat) (ts : List (NodeID × Trie)) (e : Bool),
      (∀ p ∈ ts, T.sub p.1 = some p.2) → totalSize ts ≤ fuel →
      ∃ evs, walkTraceLoop (SHAMap.ofTrie hs T) none isF fuel (nodesOf hs ts) e =
          ⟨evs, .ok ()⟩ ∧
        recordsOf evs = (visitOrder ts).map (fun x => (x.tag, oneSided isF x)) := by
  intro fuel
  induction fuel with
  | zero =>
    intro ts e hsub hsz
    cases ts with
    | nil => exact ⟨[], rfl, rfl⟩
    | cons p ts =>
      have := Trie.size_pos p.2
      simp only [totalSize, List.map_cons, List.sum_cons] at hsz
      omega
  | succ fuel ih =>
    intro ts e hsub hsz
    cases ts with
    | nil => exact ⟨[], rfl, rfl⟩
    | cons p ts =>
      obtain ⟨id, t⟩ := p
      have hsubt : T.sub id = some t := hsub (id, t) (List.mem_cons_self _ _)
      have hsub' : ∀ p ∈ ts, T.sub p.1 = some p.2 :=
        fun p hp => hsub p (List.mem_cons_of_mem _ hp)
      simp only [totalSize, List.map_cons, List.sum_cons] at hsz
      cases t with
      | leaf x =>
        obtain ⟨evs1, h1, hr1⟩ := ih ts e hsub' (by
          simp only [Trie.size] at hsz
          simp only [totalSize]
          omega)
        refine ⟨.record x.tag (oneSided isF x) :: evs1, ?_, ?_⟩
        · have hn : nodesOf hs ((id, Trie.leaf x) :: ts) = .leaf id x :: nodesOf hs ts := rfl
          have h0 : walkLeafTrace x none isF e =
              ⟨[.record x.tag (oneSided isF x)], .ok e⟩ := rfl
          rw [hn]
          simp only [walkTraceLoop]
          rw [h0, Trace.bind_mk, h1]
          rfl
        · rw [visitOrder_cons]
          simp only [recordsOf, hr1, Trie.leaves, List.reverse_singleton,
            List.singleton_append, List.map_cons]
      | inner bs =>
        have hlen : bs.length = 16 := Trie.wf_inner_length (Trie.wf_sub hwf hsubt)
        obtain ⟨evs0, hr0, h0⟩ :=
          pushTrace_ofTrie hs hsubt isF (List.range 16) (nodesOf hs ts)
        have hsz' : totalSize ((kids id (.inner bs) (List.range 16)).reverse ++ ts) ≤ fuel := by
          rw [totalSize_append, totalSize_reverse, totalSize_kids]
          have := Trie.size_inner_eq hlen
          simp only [totalSize]
          omega
        have hsubk : ∀ p ∈ (kids id (.inner bs) (List.range 16)).reverse ++ ts,
            T.sub p.1 = some p.2 := by
          intro p hp
          rcases List.mem_append.1 hp with hp | hp
          · exact kids_sub hsubt _ p (List.mem_reverse.1 hp)
          · exact hsub' p hp
        obtain ⟨evs1, h1, hr1⟩ := ih _ e hsubk hsz'
        refine ⟨evs0 ++ evs1, ?_, ?_⟩
        · rw [nodesOf_append, nodesOf_reverse] at h1
          have hn : nodesOf hs ((id, Trie.inner bs) :: ts) =
              .inner id (bs.map (fun b => b.map hs.hashOf)) :: nodesOf hs ts := rfl
          have ht : Trie.toNode hs id (.inner bs) =
              .inner id (bs.map (fun b => b.map hs.hashOf)) := rfl
          rw [hn]
          simp only [walkTraceLoop]
          rw [← ht, h0, Trace.bind_mk, h1]
        · rw [recordsOf_append, hr0, List.nil_append, hr1, visitOrder_kids id hlen]

/-- With no counterpart `walkBranch` on a subtree of a well-formed tree inserts one
entry per leaf of the subtree, the leaves taken from the last one to the first. -/
theorem walkBranchTrace_none_spec (hs : Hasher Hs) {T t : Trie} (hwf : T.wf [] = true)
    {id : NodeID} (hsub : T.sub id = some t) (isF : Bool) {fuel : Nat} (hf : t.size ≤ fuel) :
    ∃ evs, walkBranchTrace (SHAMap.ofTrie hs T) fuel (t.toNode hs id) none isF =
        ⟨evs, .ok ()⟩ ∧
      recordsOf evs = t.leaves.reverse.map (fun x => (x.tag, oneSided isF x)) := by
  obtain ⟨evs, h1, h2⟩ := walkTraceLoop_none_spec hs hwf isF fuel [(id, t)] true
    (by
      intro p hp
      simp only [List.mem_singleton] at hp
      subst hp
      exact hsub)
    (by simpa [totalSize] using hf)
  refine ⟨evs, h1, ?_⟩
  rw [h2]
  simp [visitOrder]

end VisitOrder

namespace Delta

theorem length_insert_of_not_mem (d : Delta) (k : Nat) (v : DeltaRef) (h : k ∉ d.keys) :
    (d.insert k v).length = d.length + 1 := by
  induction d with
  | nil => simp [insert]
  | cons a rest ih =>
    obtain ⟨k', v'⟩ := a
    simp only [keys, List.map_cons, List.mem_cons, not_or] at h
    simp only [insert]
    split_ifs with h1 h2
    · simp
    · exact absurd h2 h.1
    · simp only [List.length_cons]
      rw [ih h.2]

theorem keys_insert (d : Delta) (k : Nat) (v : DeltaRef) (k' : Nat)
    (h : k' ∈ (d.insert k v).keys) : k' = k ∨ k' ∈ d.keys := by
  obtain ⟨e, he, rfl⟩ := List.mem_map.1 h
  rcases mem_insert he with h | h
  · exact Or.inr (List.mem_map.2 ⟨e, h, rfl⟩)
  · exact Or.inl (by rw [h])

/-- Insertions with pairwise different keys that are not in the table each add an
entry. -/
theorem length_insertAll_of_nodup (d : Delta) (rs : List (Nat × DeltaRef))
    (hn : (rs.map Prod.fst).Nodup) (hd : ∀ k ∈ rs.map Prod.fst, k ∉ d.keys) :
    (d.insertAll rs).length = d.length + rs.length := by
  induction rs generalizing d with
  | nil => simp [insertAll]
  | cons r rs ih =>
    rw [List.map_cons, List.nodup_cons] at hn
    have h1 : r.1 ∉ d.keys := hd r.1 (by simp)
    have h2 := ih (d.insert r.1 r.2) hn.2 (by
      intro k hk hk'
      rcases keys_insert d r.1 r.2 k hk' with h | h
      · rw [h] at hk
        exact hn.1 hk
      · exact hd k (by simp [hk]) h)
    simp only [insertAll, List.foldl_cons, List.length_cons] at h2 ⊢
    rw [h2, length_insert_of_not_mem d r.1 r.2 h1]
    omega

end Delta

/-! ## The pruning invariant of `compare` -/

section Prune

variable {Hs : Type} [DecidableEq Hs]

/-- The `for` loop of the inner/inner case pushes only tasks with two different
hashes. -/
theorem compareBranches_pushes (self other : SHAMap Hs) (fuel : Nat)
    (ourNode otherNode : SHAMapTreeNode Hs) :
    ∀ (is : List Nat) (st st1 : List (SHAMapDeltaNode Hs)) (s s1 : WalkState),
      compareBranches self other fuel ourNode otherNode is st s = .ok (.ok (st1, s1)) →
      ∀ d ∈ st1, d ∈ st ∨ d.mOurHash ≠ d.mOtherHash := by
  intro is
  induction is with
  | nil =>
    intro st st1 s s1 h d hd
    simp only [compareBranches, Outcome.ok.injEq, Except.ok.injEq, Prod.mk.injEq] at h
    rw [← h.1] at hd
    exact Or.inl hd
  | cons i is ih =>
    intro st st1 s s1 h d hd
    simp only [compareBranches] at h
    split_ifs at h with hne
    · cases ho : ourNode.getChildHash i with
      | none =>
        cases ht : otherNode.getChildHash i with
        | none =>
          rw [ho, ht] at h
          exact ih _ _ _ _ h d hd
        | some otherHash =>
          rw [ho, ht] at h
          simp only at h
          cases hw : walkResolved other fuel (otherNode.getChildNodeID i) otherHash false s with
          | ok r =>
            rw [hw] at h
            cases r with
            | ok s2 => exact ih _ _ _ _ h d hd
            | error s2 => simp at h
          | missingNode id => rw [hw] at h; simp at h
          | outOfFuel => rw [hw] at h; simp at h
      | some ourHash =>
        cases ht : otherNode.getChildHash i with
        | none =>
          rw [ho, ht] at h
          simp only at h
          cases hw : walkResolved self fuel (ourNode.getChildNodeID i) ourHash true s with
          | ok r =>
            rw [hw] at h
            cases r with
            | ok s2 => exact ih _ _ _ _ h d hd
            | error s2 => simp at h
          | missingNode id => rw [hw] at h; simp at h
          | outOfFuel => rw [hw] at h; simp at h
        | some otherHash =>
          rw [ho, ht] at h
          simp only at h
          rcases ih _ _ _ _ h d hd with hd' | hd'
          · rcases List.mem_cons.1 hd' with hd' | hd'
            · right
              rw [hd']
              simp only
              intro he
              apply hne
              rw [ho, ht, he]
            · exact Or.inl hd'
          · exact Or.inr hd'
    · exact ih _ _ _ _ h d hd

/-- One iteration of the loop of `compare` pushes only tasks with two different
hashes. -/
theorem compareNodes_pushes (self other : SHAMap Hs) (fuel : Nat)
    (ourNode otherNode : SHAMapTreeNode Hs) (st st1 : List (SHAMapDeltaNode Hs))
    (s s1 : WalkState)
    (h : compareNodes self other fuel ourNode otherNode st s = .ok (.ok (st1, s1))) :
    ∀ d ∈ st1, d ∈ st ∨ d.mOurHash ≠ d.mOtherHash := by
  intro d hd
  cases ourNode with
  | leaf id x =>
    cases otherNode with
    | leaf id' y =>
      left
      simp only [compareNodes] at h
      split_ifs at h <;>
        simp only [Outcome.ok.injEq, Except.ok.injEq, Prod.mk.injEq, reduceCtorEq] at h <;>
        (rw [← h.1] at hd; exact hd)
    | inner id' hashes =>
      left
      simp only [compareNodes] at h
      cases hw : other.walkBranch fuel (.inner id' hashes) (some x) false s with
      | ok r =>
        rw [hw] at h
        obtain ⟨b, s2⟩ := r
        cases b
        · simp at h
        · simp only [Outcome.ok.injEq, Except.ok.injEq, Prod.mk.injEq] at h
          rw [← h.1] at hd
          exact hd
      | missingNode id => rw [hw] at h; simp at h
      | outOfFuel => rw [hw] at h; simp at h
  | inner id hashes =>
    cases otherNode with
    | leaf id' y =>
      left
      simp only [compareNodes] at h
      cases hw : self.walkBranch fuel (.inner id hashes) (some y) true s with
      | ok r =>
        rw [hw] at h
        obtain ⟨b, s2⟩ := r
        cases b
        · simp at h
        · simp only [Outcome.ok.injEq, Except.ok.injEq, Prod.mk.injEq] at h
          rw [← h.1] at hd
          exact hd
      | missingNode id => rw [hw] at h; simp at h
      | outOfFuel => rw [hw] at h; simp at h
    | inner id' hashes' =>
      simp only [compareNodes] at h
      exact compareBranches_pushes self other fuel _ _ _ _ _ _ _ h d hd

/-- Every task on the work stack of `compare` has two different hashes. -/
theorem compareReach_differ {self other : SHAMap Hs} {differences : Delta} {maxCount : Int}
    {st : List (SHAMapDeltaNode Hs)} {s : WalkState}
    (h : CompareReach self other differences maxCount st s) :
    ∀ d ∈ st, d.mOurHash ≠ d.mOtherHash := by
  induction h with
  | start hne =>
    intro d hd
    simp only [List.mem_singleton] at hd
    rw [hd]
    exact hne
  | step fuel _ _ _ hstep ih =>
    intro d hd
    rcases compareNodes_pushes _ _ _ _ _ _ _ _ _ hstep d hd with h | h
    · exact ih d (List.mem_cons_of_mem _ h)
    · exact h

/-- An iteration of the loop of `compare` that does not return leads from one
configuration of `CompareReach` to the next: the loop goes on with the new stack and
state. -/
theorem compareLoop_step (self other : SHAMap Hs) (fuel : Nat) (dNode : SHAMapDeltaNode Hs)
    (st st1 : List (SHAMapDeltaNode Hs)) (s s1 : WalkState)
    (ourNode otherNode : SHAMapTreeNode Hs)
    (h1 : self.getNodePointer dNode.mNodeID dNode.mOurHash = some ourNode)
    (h2 : other.getNodePointer dNode.mNodeID dNode.mOtherHash = some otherNode)
    (h3 : compareNodes self other fuel ourNode otherNode st
      ((s.log true dNode.mNodeID).log false dNode.mNodeID) = .ok (.ok (st1, s1))) :
    compareLoop self other (fuel + 1) (dNode :: st) s = compareLoop self other fuel st1 s1 := by
  simp only [compareLoop, h1, h2, h3]

end Prune

section TraceEvents

variable {α β : Type}

theorem Trace.mem_bind_events {t : Trace α} {f : α → Trace β} {e : Event}
    (h : e ∈ (t.bind f).events) :
    e ∈ t.events ∨ ∃ a, t.result = .ok a ∧ e ∈ (f a).events := by
  obtain ⟨evs, r⟩ := t
  cases r with
  | error x => exact Or.inl h
  | ok a =>
    rw [Trace.bind_mk] at h
    rcases List.mem_append.1 h with h | h
    · exact Or.inl h
    · exact Or.inr ⟨a, rfl, h⟩

theorem Trace.mem_emit_events {t : Trace α} {evs : List Event} {e : Event}
    (h : e ∈ (t.emit evs).events) : e ∈ evs ∨ e ∈ t.events :=
  List.mem_append.1 h

end TraceEvents

section SubLemmas

theorem Trie.sub_append (t : Trie) (p r : NodeID) :
    t.sub (p ++ r) = (t.sub p).bind (fun c => c.sub r) := by
  induction p generalizing t with
  | nil => simp [Trie.sub]
  | cons j p ih =>
    rw [List.cons_append, sub_cons, sub_cons]
    cases t.child j with
    | none => rfl
    | some c => simpa using ih c

theorem Trie.sub_none_of_prefix {t : Trie} {p q : NodeID} (h : t.sub p = none)
    (hpq : p <+: q) : t.sub q = none := by
  obtain ⟨r, rfl⟩ := hpq
  rw [Trie.sub_append, h]
  rfl

theorem Trie.sub_leaf_none {t : Trie} {p q : NodeID} {x : SHAMapItem}
    (h : t.sub p = some (.leaf x)) (hpq : p <+: q) (hne : p ≠ q) : t.sub q = none := by
  obtain ⟨r, rfl⟩ := hpq
  rw [Trie.sub_append, h]
  cases r with
  | nil => simp at hne
  | cons j r => rfl

end SubLemmas

section DivergeLemmas

variable {Hs : Type} [DecidableEq Hs]

theorem prefix_snoc_cases {p id : NodeID} {i : Nat} (h : p <+: id ++ [i]) :
    p <+: id ∨ p = id ++ [i] := by
  rcases List.prefix_concat_iff.1 (by simpa [List.concat_eq_append] using h) with h | h
  · exact Or.inr (by simpa [List.concat_eq_append] using h)
  · exact Or.inl h

/-- Below a position with diverging hashes on the way to it and under which one of
the two trees has no further node, the hashes diverge on the way to every
position. -/
theorem Diverge.extend {hs : Hasher Hs} {TA TB : Trie} {id q : NodeID}
    (h : Diverge hs TA TB id)
    (hnone : ∀ p, id <+: p → p ≠ id → TA.sub p = none ∨ TB.sub p = none)
    (hq : id <+: q) : Diverge hs TA TB q := by
  intro p hp a b ha hb
  rcases List.prefix_or_prefix_of_prefix hp hq with h1 | h1
  · exact h p h1 a b ha hb
  · by_cases he : p = id
    · subst he
      exact h p (List.prefix_refl _) a b ha hb
    · rcases hnone p h1 he with h2 | h2
      · rw [h2] at ha
        cases ha
      · rw [h2] at hb
        cases hb

theorem Diverge.snoc {hs : Hasher Hs} {TA TB : Trie} {id : NodeID} {i : Nat}
    (h : Diverge hs TA TB id)
    (hi : ∀ a b, TA.sub (id ++ [i]) = some a → TB.sub (id ++ [i]) = some b →
      hs.hashOf a ≠ hs.hashOf b) : Diverge hs TA TB (id ++ [i]) := by
  intro p hp a b ha hb
  rcases prefix_snoc_cases hp with h1 | h1
  · exact h p h1 a b ha hb
  · subst h1
    exact hi a b ha hb

/-- Below a branch that one of the two trees does not have. -/
theorem Diverge.below_missing {hs : Hasher Hs} {TA TB : Trie} {id q : NodeID} {i : Nat}
    (h : Diverge hs TA TB id)
    (hnone : TA.sub (id ++ [i]) = none ∨ TB.sub (id ++ [i]) = none)
    (hq : id ++ [i] <+: q) : Diverge hs TA TB q := by
  refine Diverge.extend (Diverge.snoc h ?_) ?_ hq
  · intro a b ha hb
    rcases hnone with h1 | h1
    · rw [h1] at ha
      cases ha
    · rw [h1] at hb
      cases hb
  · intro p hp _
    rcases hnone with h1 | h1
    · exact Or.inl (Trie.sub_none_of_prefix h1 hp)
    · exact Or.inr (Trie.sub_none_of_prefix h1 hp)

/-- Below a position at which one of the two trees has a leaf. -/
theorem Diverge.below_leaf {hs : Hasher Hs} {TA TB : Trie} {id q : NodeID}
    (h : Diverge hs TA TB id)
    (hleaf : (∃ x, TA.sub id = some (.leaf x)) ∨ (∃ x, TB.sub id = some (.leaf x)))
    (hq : id <+: q) : Diverge hs TA TB q := by
  refine Diverge.extend h ?_ hq
  intro p hp hne
  rcases hleaf with ⟨x, hx⟩ | ⟨x, hx⟩
  · exact Or.inl (Trie.sub_leaf_none hx hp (fun e => hne e.symm))
  · exact Or.inr (Trie.sub_leaf_none hx hp (fun e => hne e.symm))

theorem ofTrie_resolve_inv (hs : Hasher Hs) {T : Trie} {id : NodeID} {h : Hs}
    {n : SHAMapTreeNode Hs} (hres : (SHAMap.ofTrie hs T).getNodePointer id h = some n) :
    ∃ c, T.sub id = some c ∧ hs.hashOf c = h ∧ n = c.toNode hs id := by
  simp only [SHAMap.ofTrie] at hres
  cases hc : T.sub id with
  | none => simp [hc] at hres
  | some c =>
    simp only [hc] at hres
    split_ifs at hres with hh
    simp only [Option.some.injEq] at hres
    exact ⟨c, rfl, hh, hres.symm⟩

end DivergeLemmas

section WalkLogs

variable {Hs : Type} [DecidableEq Hs]

/-- The resolutions of `pushBranches` are those of children of the node, and the
nodes it pushes are children of the node. -/
theorem pushTrace_logs (m : SHAMap Hs) (hF : m.Faithful) (isF : Bool)
    (node : SHAMapTreeNode Hs) :
    ∀ (is : List Nat) (st : List (SHAMapTreeNode Hs)),
      (∀ e ∈ (pushTrace m isF node is st).events, ∃ i, e = .log isF (node.getID ++ [i])) ∧
      (∀ st1, (pushTrace m isF node is st).result = .ok st1 →
        ∀ n ∈ st1, n ∈ st ∨ ∃ i, n.getID = node.getID ++ [i]) := by
  intro is
  induction is with
  | nil =>
    intro st
    refine ⟨fun e he => absurd he (List.not_mem_nil _), ?_⟩
    intro st1 h n hn
    simp only [pushTrace, Trace.pure, Except.ok.injEq] at h
    rw [← h] at hn
    exact Or.inl hn
  | cons i is ih =>
    intro st
    simp only [pushTrace]
    cases hc : node.getChildHash i with
    | none => exact ih st
    | some h =>
      simp only
      cases hr : m.getNodePointer (node.getChildNodeID i) h with
      | none =>
        refine ⟨fun e he => absurd he (List.not_mem_nil _), ?_⟩
        intro st1 h1
        cases h1
      | some child =>
        simp only
        obtain ⟨h1, h2⟩ := ih (child :: st)
        constructor
        · intro e he
          rcases Trace.mem_emit_events he with he | he
          · simp only [List.mem_singleton] at he
            exact ⟨i, he⟩
          · exact h1 e he
        · intro st1 hst1 n hn
          rcases h2 st1 hst1 n hn with h3 | h3
          · rcases List.mem_cons.1 h3 with h3 | h3
            · right
              refine ⟨i, ?_⟩
              rw [h3]
              exact hF _ _ _ hr
            · exact Or.inl h3
          · exact Or.inr h3

theorem walkLeafTrace_no_log (x : SHAMapItem) (o : Option SHAMapItem) (isF e : Bool)
    (b : Bool) (q : NodeID) : Event.log b q ∉ (walkLeafTrace x o isF e).events := by
  intro h
  rcases Trace.mem_bind_events h with h | ⟨a, _, h⟩
  · simp only [walkLeafOtherTrace] at h
    cases o with
    | none => simp [Trace.pure] at h
    | some y =>
      simp only at h
      split_ifs at h <;> simp [Trace.pure] at h
  · simp only [walkLeafItemTrace] at h
    cases o with
    | none => simp at h
    | some y =>
      simp only at h
      split_ifs at h <;> simp [Trace.pure] at h

theorem walkFinishTrace_no_log (o : Option SHAMapItem) (isF e : Bool)
    (b : Bool) (q : NodeID) : Event.log b q ∉ (walkFinishTrace o isF e).events := by
  intro h
  simp only [walkFinishTrace] at h
  cases o with
  | none => simp [Trace.pure] at h
  | some y =>
    simp only at h
    split_ifs at h <;> simp [Trace.pure] at h

/-- Every resolution of the loop of `walkBranch` is on the map walked, at a position
strictly below a node of the stack. -/
theorem walkTraceLoop_logs (m : SHAMap Hs) (hF : m.Faithful) (o : Option SHAMapItem)
    (isF : Bool) :
    ∀ (fuel : Nat) (st : List (SHAMapTreeNode Hs)) (e : Bool) (b : Bool) (q : NodeID),
      Event.log b q ∈ (walkTraceLoop m o isF fuel st e).events →
      b = isF ∧ ∃ n ∈ st, n.getID <+: q ∧ n.getID ≠ q := by
  intro fuel
  induction fuel with
  | zero =>
    intro st e b q h
    cases st with
    | nil => exact absurd h (walkFinishTrace_no_log o isF e b q)
    | cons n st => simp [walkTraceLoop, Trace.fail] at h
  | succ fuel ih =>
    intro st e b q h
    cases st with
    | nil => exact absurd h (walkFinishTrace_no_log o isF e b q)
    | cons n st =>
      cases n with
      | inner id hashes =>
        simp only [walkTraceLoop] at h
        obtain ⟨h1, h2⟩ := pushTrace_logs m hF isF (.inner id hashes) (List.range 16) st
        rcases Trace.mem_bind_events h with h | ⟨st1, hst1, h⟩
        · obtain ⟨i, hi⟩ := h1 _ h
          simp only [Event.log.injEq] at hi
          refine ⟨hi.1, .inner id hashes, List.mem_cons_self _ _, ?_, ?_⟩
          · rw [hi.2]
            exact List.prefix_append _ _
          · rw [hi.2]
            simp [SHAMapTreeNode.getID]
        · obtain ⟨hb, n, hn, hpre, hne⟩ := ih st1 e b q h
          refine ⟨hb, ?_⟩
          rcases h2 st1 hst1 n hn with h3 | ⟨i, h3⟩
          · exact ⟨n, List.mem_cons_of_mem _ h3, hpre, hne⟩
          · refine ⟨.inner id hashes, List.mem_cons_self _ _, ?_, ?_⟩
            · rw [h3] at hpre
              exact (List.prefix_append _ _).trans hpre
            · intro he
              rw [h3, ← he] at hpre
              have := hpre.length_le
              simp at this
      | leaf id x =>
        simp only [walkTraceLoop] at h
        rcases Trace.mem_bind_events h with h | ⟨e1, _, h⟩
        · exact absurd h (walkLeafTrace_no_log x o isF e b q)
        · obtain ⟨hb, n, hn, hpre, hne⟩ := ih st e1 b q h
          exact ⟨hb, n, List.mem_cons_of_mem _ hn, hpre, hne⟩

theorem walkBranchTrace_logs (m : SHAMap Hs) (hF : m.Faithful) (fuel : Nat)
    (node : SHAMapTreeNode Hs) (o : Option SHAMapItem) (isF : Bool) (b : Bool) (q : NodeID)
    (h : Event.log b q ∈ (walkBranchTrace m fuel node o isF).events) :
    b = isF ∧ node.getID <+: q ∧ node.getID ≠ q := by
  obtain ⟨hb, n, hn, hpre, hne⟩ := walkTraceLoop_logs m hF o isF fuel [node] _ b q h
  simp only [List.mem_singleton] at hn
  subst hn
  exact ⟨hb, hpre, hne⟩

theorem walkResolvedTrace_logs (m : SHAMap Hs) (hF : m.Faithful) (fuel : Nat) (id : NodeID)
    (h : Hs) (isF : Bool) (b : Bool) (q : NodeID)
    (hq : Event.log b q ∈ (walkResolvedTrace m fuel id h isF).events) :
    b = isF ∧ id <+: q := by
  simp only [walkResolvedTrace] at hq
  cases hr : m.getNodePointer id h with
  | none => simp [hr, Trace.fail] at hq
  | some iNode =>
    simp only [hr] at hq
    rcases Trace.mem_emit_events hq with hq | hq
    · simp only [List.mem_singleton, Event.log.injEq] at hq
      exact ⟨hq.1, by rw [hq.2]⟩
    · obtain ⟨hb, hpre, _⟩ := walkBranchTrace_logs m hF fuel iNode none isF b q hq
      rw [hF _ _ _ hr] at hpre
      exact ⟨hb, hpre⟩

end WalkLogs

section CompareLogs

variable {Hs : Type} [DecidableEq Hs]

theorem Trace.bind_result {α β : Type} {t : Trace α} {f : α → Trace β} {b : β}
    (h : (t.bind f).result = .ok b) : ∃ a, t.result = .ok a ∧ (f a).result = .ok b := by
  obtain ⟨evs, r⟩ := t
  cases r with
  | error x => cases h
  | ok a => exact ⟨a, rfl, h⟩

theorem compareBranchesTrace_logs (hs : Hasher Hs) {TA TB a b : Trie} {id : NodeID}
    (ha : TA.sub id = some a) (hb : TB.sub id = some b) (hdiv : Diverge hs TA TB id)
    (fuel : Nat) :
    ∀ (is : List Nat) (st : List (SHAMapDeltaNode Hs)),
      (∀ b' q, Event.log b' q ∈ (compareBranchesTrace (SHAMap.ofTrie hs TA)
          (SHAMap.ofTrie hs TB) fuel (a.toNode hs id) (b.toNode hs id) is st).events →
        Diverge hs TA TB q) ∧
      (∀ st1, (compareBranchesTrace (SHAMap.ofTrie hs TA) (SHAMap.ofTrie hs TB) fuel
          (a.toNode hs id) (b.toNode hs id) is st).result = .ok st1 →
        ∀ d ∈ st1, d ∈ st ∨ TaskOK hs TA TB d) := by
  intro is
  induction is with
  | nil =>
    intro st
    constructor
    · intro b' q h
      cases h
    · intro st1 h d hd
      simp only [compareBranchesTrace, Trace.pure, Except.ok.injEq] at h
      rw [← h] at hd
      exact Or.inl hd
  | cons i is ih =>
    intro st
    simp only [compareBranchesTrace, toNode_getChildHash, toNode_getChildNodeID]
    cases hx : a.child i with
    | none =>
      cases hy : b.child i with
      | none =>
        simp only [Option.map_none', ne_eq, not_true_eq_false, if_false]
        exact ih st
      | some y =>
        have hAnone : TA.sub (id ++ [i]) = none := by
          rw [Trie.sub_append_single, ha]
          exact hx
        simp only [Option.map_none', Option.map_some', ne_eq, reduceCtorEq, not_false_eq_true,
          if_true]
        constructor
        · intro b' q h
          rcases Trace.mem_bind_events h with h | ⟨_, _, h⟩
          · obtain ⟨_, hpre⟩ := walkResolvedTrace_logs _ (ofTrie_faithful hs TB) _ _ _ _ _ _ h
            exact Diverge.below_missing hdiv (Or.inl hAnone) hpre
          · exact (ih st).1 b' q h
        · intro st1 h d hd
          obtain ⟨_, _, h2⟩ := Trace.bind_result h
          exact (ih st).2 st1 h2 d hd
    | some x =>
      cases hy : b.child i with
      | none =>
        have hBnone : TB.sub (id ++ [i]) = none := by
          rw [Trie.sub_append_single, hb]
          exact hy
        simp only [Option.map_none', Option.map_some', ne_eq, reduceCtorEq, not_false_eq_true,
          if_true]
        constructor
        · intro b' q h
          rcases Trace.mem_bind_events h with h | ⟨_, _, h⟩
          · obtain ⟨_, hpre⟩ := walkResolvedTrace_logs _ (ofTrie_faithful hs TA) _ _ _ _ _ _ h
            exact Diverge.below_missing hdiv (Or.inr hBnone) hpre
          · exact (ih st).1 b' q h
        · intro st1 h d hd
          obtain ⟨_, _, h2⟩ := Trace.bind_result h
          exact (ih st).2 st1 h2 d hd
      | some y =>
        simp only [Option.map_some', ne_eq, Option.some.injEq]
        by_cases hne : hs.hashOf x = hs.hashOf y
        · simp only [hne, not_true_eq_false, if_false]
          exact ih st
        · simp only [hne, not_false_eq_true, if_true]
          obtain ⟨h1, h2⟩ := ih (⟨id ++ [i], hs.hashOf x, hs.hashOf y⟩ :: st)
          refine ⟨h1, ?_⟩
          intro st1 hst1 d hd
          rcases h2 st1 hst1 d hd with h3 | h3
          · rcases List.mem_cons.1 h3 with h3 | h3
            · right
              rw [h3]
              refine ⟨hne, ?_⟩
              intro p hp hpne a' b' ha' hb'
              rcases prefix_snoc_cases hp with h4 | h4
              · exact hdiv p h4 a' b' ha' hb'
              · exact absurd h4 hpne
            · exact Or.inl h3
          · exact Or.inr h3

theorem compareNodesTrace_logs (hs : Hasher Hs) {TA TB a b : Trie} {id : NodeID}
    (ha : TA.sub id = some a) (hb : TB.sub id = some b) (hdiv : Diverge hs TA TB id)
    (fuel : Nat) (st : List (SHAMapDeltaNode Hs)) :
    (∀ b' q, Event.log b' q ∈ (compareNodesTrace (SHAMap.ofTrie hs TA)
        (SHAMap.ofTrie hs TB) fuel (a.toNode hs id) (b.toNode hs id) st).events →
      Diverge hs TA TB q) ∧
    (∀ st1, (compareNodesTrace (SHAMap.ofTrie hs TA) (SHAMap.ofTrie hs TB) fuel
        (a.toNode hs id) (b.toNode hs id) st).result = .ok st1 →
      ∀ d ∈ st1, d ∈ st ∨ TaskOK hs TA TB d) := by
  cases a with
  | leaf x =>
    cases b with
    | leaf y =>
      simp only [Trie.toNode, compareNodesTrace]
      constructor
      · intro b' q h
        split_ifs at h <;> simp [Trace.pure] at h
      · intro st1 h d hd
        left
        split_ifs at h <;> simp only [Trace.pure, Except.ok.injEq] at h <;>
          (rw [← h] at hd; exact hd)
    | inner bs =>
      have hn : Trie.toNode hs id (.leaf x) = .leaf id x := rfl
      have hm : Trie.toNode hs id (.inner bs) =
          .inner id (bs.map (fun c => c.map hs.hashOf)) := rfl
      rw [hn, hm]
      simp only [compareNodesTrace]
      constructor
      · intro b' q h
        rcases Trace.mem_bind_events h with h | ⟨_, _, h⟩
        · obtain ⟨_, hpre, _⟩ := walkBranchTrace_logs _ (ofTrie_faithful hs TB) _ _ _ _ _ _ h
          exact Diverge.below_leaf hdiv (Or.inl ⟨x, ha⟩) hpre
        · simp [Trace.pure] at h
      · intro st1 h d hd
        obtain ⟨_, _, h2⟩ := Trace.bind_result h
        simp only [Trace.pure, Except.ok.injEq] at h2
        rw [← h2] at hd
        exact Or.inl hd
  | inner as =>
    cases b with
    | leaf y =>
      have hn : Trie.toNode hs id (.leaf y) = .leaf id y := rfl
      have hm : Trie.toNode hs id (.inner as) =
          .inner id (as.map (fun c => c.map hs.hashOf)) := rfl
      rw [hn, hm]
      simp only [compareNodesTrace]
      constructor
      · intro b' q h
        rcases Trace.mem_bind_events h with h | ⟨_, _, h⟩
        · obtain ⟨_, hpre, _⟩ := walkBranchTrace_logs _ (ofTrie_faithful hs TA) _ _ _ _ _ _ h
          exact Diverge.below_leaf hdiv (Or.inr ⟨y, hb⟩) hpre
        · simp [Trace.pure] at h
      · intro st1 h d hd
        obtain ⟨_, _, h2⟩ := Trace.bind_result h
        simp only [Trace.pure, Except.ok.injEq] at h2
        rw [← h2] at hd
        exact Or.inl hd
    | inner bs =>
      have h := compareBranchesTrace_logs hs ha hb hdiv fuel (List.range 16) st
      have hn : Trie.toNode hs id (.inner as) =
          .inner id (as.map (fun c => c.map hs.hashOf)) := rfl
      have hm : Trie.toNode hs id (.inner bs) =
          .inner id (bs.map (fun c => c.map hs.hashOf)) := rfl
      rw [hn, hm] at h ⊢
      simp only [compareNodesTrace]
      exact h

/-- Every resolution of the loop of `compare` on a stack of good tasks is at a
position on the way to which the two trees have different hashes. -/
theorem compareTraceLoop_logs (hs : Hasher Hs) (TA TB : Trie) :
    ∀ (fuel : Nat) (st : List (SHAMapDeltaNode Hs)),
      (∀ d ∈ st, TaskOK hs TA TB d) →
      ∀ b' q, Event.log b' q ∈ (compareTraceLoop (SHAMap.ofTrie hs TA)
          (SHAMap.ofTrie hs TB) fuel st).events →
        Diverge hs TA TB q := by
  intro fuel
  induction fuel with
  | zero =>
    intro st _ b' q h
    cases st <;> simp [compareTraceLoop, Trace.pure, Trace.fail] at h
  | succ fuel ih =>
    intro st hst b' q h
    cases st with
    | nil => simp [compareTraceLoop, Trace.pure] at h
    | cons d rest =>
      simp only [compareTraceLoop] at h
      cases hr1 : (SHAMap.ofTrie hs TA).getNodePointer d.mNodeID d.mOurHash with
      | none => simp [hr1, Trace.fail] at h
      | some ourNode =>
        cases hr2 : (SHAMap.ofTrie hs TB).getNodePointer d.mNodeID d.mOtherHash with
        | none => simp [hr1, hr2, Trace.fail] at h
        | some otherNode =>
          simp only [hr1, hr2] at h
          obtain ⟨a, ha, hha, hna⟩ := ofTrie_resolve_inv hs hr1
          obtain ⟨b, hb, hhb, hnb⟩ := ofTrie_resolve_inv hs hr2
          obtain ⟨hd1, hd2⟩ := hst d (List.mem_cons_self _ _)
          have hdiv : Diverge hs TA TB d.mNodeID := by
            intro p hp a' b'' ha' hb'
            by_cases he : p = d.mNodeID
            · subst he
              rw [ha] at ha'
              rw [hb] at hb'
              cases ha'
              cases hb'
              rw [hha, hhb]
              exact hd1
            · exact hd2 p hp he a' b'' ha' hb'
          subst hna
          subst hnb
          obtain ⟨h1, h2⟩ := compareNodesTrace_logs hs ha hb hdiv fuel rest
          rcases Trace.mem_emit_events h with h | h
          · simp only [List.mem_cons, Event.log.injEq, List.mem_singleton, List.not_mem_nil,
              or_false] at h
            rcases h with h | h
            · rw [h.2]
              exact hdiv
            · rw [h.2]
              exact hdiv
          · rcases Trace.mem_bind_events h with h | ⟨st1, hst1, h⟩
            · exact h1 b' q h
            · refine ih st1 ?_ b' q h
              intro d' hd'
              rcases h2 st1 hst1 d' hd' with h3 | h3
              · exact hst d' (List.mem_cons_of_mem _ h3)
              · exact h3

/-- Every resolution of `compare` is at a position on the way to which the two
trees have different hashes wherever both have a node. -/
theorem compareTrace_logs (hs : Hasher Hs) (TA TB : Trie) (fuel : Nat) (b' : Bool)
    (q : NodeID)
    (h : Event.log b' q ∈ (compareTrace (SHAMap.ofTrie hs TA) (SHAMap.ofTrie hs TB)
      fuel).events) : Diverge hs TA TB q := by
  simp only [compareTrace] at h
  split_ifs at h with he
  · simp [Trace.pure] at h
  · refine compareTraceLoop_logs hs TA TB fuel _ ?_ b' q h
    intro d hd
    simp only [List.mem_singleton] at hd
    subst hd
    refine ⟨he, ?_⟩
    intro p hp hne
    exact absurd (List.prefix_nil.1 hp) hne

/-- The resolutions in the state after a replay were in the state before it or are
among the events. -/
theorem replay_resolved (es : List Event) (s : WalkState) (e : Bool × NodeID)
    (h : e ∈ (stateOf (replayEvents es s)).resolved) :
    e ∈ s.resolved ∨ Event.log e.1 e.2 ∈ es := by
  induction es generalizing s with
  | nil => exact Or.inl h
  | cons ev es ih =>
    cases ev with
    | log b id =>
      simp only [replayEvents] at h
      rcases ih _ h with h1 | h1
      · simp only [WalkState.log, List.mem_cons] at h1
        rcases h1 with h1 | h1
        · right
          rw [h1]
          exact List.mem_cons_self _ _
        · exact Or.inl h1
      · exact Or.inr (List.mem_cons_of_mem _ h1)
    | record k v =>
      simp only [replayEvents] at h
      split_ifs at h
      · exact Or.inl h
      · rcases ih _ h with h1 | h1
        · exact Or.inl h1
        · exact Or.inr (List.mem_cons_of_mem _ h1)

/-- The resolutions logged by a call of `compare` that returns are among the events
of its budget-free computation. -/
theorem compare_resolved (self other : SHAMap Hs) (fuel : Nat) (d : Delta) (maxCount : Int)
    (b : Bool) (s : WalkState) (h : self.compare other fuel d maxCount = .ok (b, s))
    (e : Bool × NodeID) (he : e ∈ s.resolved) :
    Event.log e.1 e.2 ∈ (compareTrace self other fuel).events := by
  rw [compare_run] at h
  have hs : s = stateOf (replayEvents (compareTrace self other fuel).events
      ⟨d, maxCount, []⟩) := by
    rcases lower_run_ok h with ⟨_, h1, _⟩ | ⟨_, h1⟩ <;> rw [h1] <;> rfl
  rw [hs] at he
  rcases replay_resolved _ _ e he with h1 | h1
  · cases h1
  · exact h1

end CompareLogs

/-! ## `compare` on maps of which some nodes cannot be resolved -/

namespace Cut

variable {α β : Type} {av : Bool → NodeID → Bool}

theorem refl {t : Trace α} (h : ∀ e ∈ t.events, e.avail av = true) : Cut av t t :=
  Or.inl ⟨h, rfl⟩

theorem of_no_log {t : Trace α} (h : ∀ b q, Event.log b q ∉ t.events) : Cut av t t := by
  apply refl
  intro e he
  cases e with
  | record k v => rfl
  | log b q => exact absurd he (h b q)

theorem pure_cut (a : α) : Cut av (Trace.pure a) (Trace.pure a) :=
  refl (fun _ he => absurd he (List.not_mem_nil _))

theorem fail_cut (f : Failure) : Cut av (Trace.fail f : Trace α) (Trace.fail f) :=
  refl (fun _ he => absurd he (List.not_mem_nil _))

theorem emit_cut {t t' : Trace α} (evs : List Event) (hevs : ∀ e ∈ evs, e.avail av = true)
    (h : Cut av t t') : Cut av (t.emit evs) (t'.emit evs) := by
  rcases h with ⟨h1, h2⟩ | ⟨pre, mid, post, b, id, h1, h2, h3, h4, h5⟩
  · left
    refine ⟨?_, by rw [h2]⟩
    intro e he
    rcases List.mem_append.1 he with he | he
    · exact hevs e he
    · exact h1 e he
  · right
    refine ⟨evs ++ pre, mid, post, b, id, ?_, ?_, h3, h4, ?_⟩
    · simp only [Trace.emit, h1, List.append_assoc]
    · intro e he
      simp only [List.append_assoc, List.mem_append] at he
      rcases he with he | he | he
      · exact hevs e he
      · exact h2 e (List.mem_append_left _ he)
      · exact h2 e (List.mem_append_right _ he)
    · rw [h5]
      simp [Trace.emit]

/-- A resolution that fails on the cut side: the full computation logs the
resolution after resolutions that are at hand. -/
theorem missing (t : Trace α) (mid : List Event) (hmid : ∀ e ∈ mid, e.avail av = true)
    (hrec : recordsOf mid = []) (b : Bool) (id : NodeID) (h : av b id = false) :
    Cut av (t.emit (mid ++ [Event.log b id])) (Trace.fail (.missingNode id)) := by
  right
  refine ⟨[], mid, t.events, b, id, ?_, ?_, hrec, h, rfl⟩
  · simp [Trace.emit]
  · intro e he
    exact hmid e (by simpa using he)

theorem bind_cut {t t' : Trace α} {f f' : α → Trace β} (h : Cut av t t')
    (hf : ∀ a, Cut av (f a) (f' a)) : Cut av (t.bind f) (t'.bind f') := by
  rcases h with ⟨h1, h2⟩ | ⟨pre, mid, post, b, id, h1, h2, h3, h4, h5⟩
  · rw [h2]
    obtain ⟨evs, r⟩ := t
    cases r with
    | error x => exact Or.inl ⟨h1, rfl⟩
    | ok a => exact emit_cut evs h1 (hf a)
  · right
    obtain ⟨evs, r⟩ := t
    simp only at h1
    subst h5
    cases r with
    | error x => exact ⟨pre, mid, post, b, id, h1, h2, h3, h4, rfl⟩
    | ok a =>
      refine ⟨pre, mid, post ++ (f a).events, b, id, ?_, h2, h3, h4, rfl⟩
      rw [Trace.bind_mk]
      simp only [h1, List.append_assoc, List.cons_append]

end Cut

section CutWalk

variable {Hs : Type} [DecidableEq Hs] (av : Bool → NodeID → Bool)

theorem restrict_getNodePointer (m : SHAMap Hs) (a : NodeID → Bool) (id : NodeID) (h : Hs) :
    (m.restrict a).getNodePointer id h = if a id then m.getNodePointer id h else none := rfl

theorem pushTrace_cut (m : SHAMap Hs) (isF : Bool) (node : SHAMapTreeNode Hs) :
    ∀ (is : List Nat) (st : List (SHAMapTreeNode Hs)),
      Cut av (pushTrace m isF node is st) (pushTrace (m.restrict (av isF)) isF node is st) := by
  intro is
  induction is with
  | nil => exact fun st => Cut.pure_cut st
  | cons i is ih =>
    intro st
    simp only [pushTrace, restrict_getNodePointer]
    cases node.getChildHash i with
    | none => exact ih st
    | some h =>
      simp only
      cases ha : av isF (node.getChildNodeID i) with
      | true =>
        simp only [if_true]
        cases m.getNodePointer (node.getChildNodeID i) h with
        | none => exact Cut.fail_cut _
        | some child =>
          refine Cut.emit_cut _ ?_ (ih _)
          intro e he
          simp only [List.mem_singleton] at he
          rw [he]
          exact ha
      | false =>
        simp only [Bool.false_eq_true, if_false]
        cases m.getNodePointer (node.getChildNodeID i) h with
        | none => exact Cut.fail_cut _
        | some child =>
          exact Cut.missing _ [] (fun _ he => absurd he (List.not_mem_nil _)) rfl isF _ ha

theorem walkTraceLoop_cut (m : SHAMap Hs) (o : Option SHAMapItem) (isF : Bool) :
    ∀ (fuel : Nat) (st : List (SHAMapTreeNode Hs)) (e : Bool),
      Cut av (walkTraceLoop m o isF fuel st e)
        (walkTraceLoop (m.restrict (av isF)) o isF fuel st e) := by
  intro fuel
  induction fuel with
  | zero =>
    intro st e
    cases st with
    | nil => exact Cut.of_no_log (walkFinishTrace_no_log o isF e)
    | cons n st => exact Cut.fail_cut _
  | succ fuel ih =>
    intro st e
    cases st with
    | nil => exact Cut.of_no_log (walkFinishTrace_no_log o isF e)
    | cons n st =>
      cases n with
      | inner id hashes =>
        simp only [walkTraceLoop]
        exact Cut.bind_cut (pushTrace_cut av m isF _ _ _) (fun st1 => ih st1 e)
      | leaf id x =>
        simp only [walkTraceLoop]
        exact Cut.bind_cut (Cut.of_no_log (walkLeafTrace_no_log x o isF e)) (fun e1 => ih st e1)

theorem walkBranchTrace_cut (m : SHAMap Hs) (fuel : Nat) (node : SHAMapTreeNode Hs)
    (o : Option SHAMapItem) (isF : Bool) :
    Cut av (walkBranchTrace m fuel node o isF)
      (walkBranchTrace (m.restrict (av isF)) fuel node o isF) :=
  walkTraceLoop_cut av m o isF fuel [node] _

theorem walkResolvedTrace_cut (m : SHAMap Hs) (fuel : Nat) (id : NodeID) (h : Hs)
    (isF : Bool) :
    Cut av (walkResolvedTrace m fuel id h isF)
      (walkResolvedTrace (m.restrict (av isF)) fuel id h isF) := by
  simp only [walkResolvedTrace, restrict_getNodePointer]
  cases ha : av isF id with
  | true =>
    simp only [if_true]
    cases m.getNodePointer id h with
    | none => exact Cut.fail_cut _
    | some iNode =>
      refine Cut.emit_cut _ ?_ (walkBranchTrace_cut av m fuel iNode none isF)
      intro e he
      simp only [List.mem_singleton] at he
      rw [he]
      exact ha
  | false =>
    simp only [Bool.false_eq_true, if_false]
    cases m.getNodePointer id h with
    | none => exact Cut.fail_cut _
    | some iNode =>
      exact Cut.missing _ [] (fun _ he => absurd he (List.not_mem_nil _)) rfl isF _ ha

theorem compareBranchesTrace_cut (self other : SHAMap Hs) (fuel : Nat)
    (ourNode otherNode : SHAMapTreeNode Hs) :
    ∀ (is : List Nat) (st : List (SHAMapDeltaNode Hs)),
      Cut av (compareBranchesTrace self other fuel ourNode otherNode is st)
        (compareBranchesTrace (self.restrict (av true)) (other.restrict (av false)) fuel
          ourNode otherNode is st) := by
  intro is
  induction is with
  | nil => exact fun st => Cut.pure_cut st
  | cons i is ih =>
    intro st
    simp only [compareBranchesTrace]
    split_ifs
    · cases ourNode.getChildHash i with
      | none =>
        cases otherNode.getChildHash i with
        | none => exact ih st
        | some otherHash =>
          exact Cut.bind_cut (walkResolvedTrace_cut av other fuel _ otherHash false)
            (fun _ => ih st)
      | some ourHash =>
        cases otherNode.getChildHash i with
        | none =>
          exact Cut.bind_cut (walkResolvedTrace_cut av self fuel _ ourHash true) (fun _ => ih st)
        | some otherHash => exact ih _
    · exact ih st

theorem compareNodesTrace_cut (self other : SHAMap Hs) (fuel : Nat)
    (ourNode otherNode : SHAMapTreeNode Hs) (st : List (SHAMapDeltaNode Hs)) :
    Cut av (compareNodesTrace self other fuel ourNode otherNode st)
      (compareNodesTrace (self.restrict (av true)) (other.restrict (av false)) fuel
        ourNode otherNode st) := by
  cases ourNode with
  | leaf id x =>
    cases otherNode with
    | leaf id' y =>
      simp only [compareNodesTrace]
      apply Cut.of_no_log
      intro b q h
      split_ifs at h <;> simp [Trace.pure] at h
    | inner id' hashes =>
      simp only [compareNodesTrace]
      exact Cut.bind_cut (walkBranchTrace_cut av other fuel _ _ false) (fun _ => Cut.pure_cut st)
  | inner id hashes =>
    cases otherNode with
    | leaf id' y =>
      simp only [compareNodesTrace]
      exact Cut.bind_cut (walkBranchTrace_cut av self fuel _ _ true) (fun _ => Cut.pure_cut st)
    | inner id' hashes' =>
      simp only [compareNodesTrace]
      exact compareBranchesTrace_cut av self other fuel _ _ _ st

theorem compareTraceLoop_cut (self other : SHAMap Hs) :
    ∀ (fuel : Nat) (st : List (SHAMapDeltaNode Hs)),
      Cut av (compareTraceLoop self other fuel st)
        (compareTraceLoop (self.restrict (av true)) (other.restrict (av false)) fuel st) := by
  intro fuel
  induction fuel with
  | zero =>
    intro st
    cases st with
    | nil => exact Cut.pure_cut ()
    | cons d st => exact Cut.fail_cut _
  | succ fuel ih =>
    intro st
    cases st with
    | nil => exact Cut.pure_cut ()
    | cons d st =>
      simp only [compareTraceLoop, restrict_getNodePointer]
      cases hr1 : self.getNodePointer d.mNodeID d.mOurHash with
      | none =>
        have : ∀ (x : Option (SHAMapTreeNode Hs)) (y : Option (SHAMapTreeNode Hs)),
            x = none →
            (match x, y with
              | some ourNode, some otherNode =>
                ((compareNodesTrace (self.restrict (av true)) (other.restrict (av false)) fuel
                  ourNode otherNode st).bind
                  (fun st1 => compareTraceLoop (self.restrict (av true))
                    (other.restrict (av false)) fuel st1)).emit
                  [Event.log true d.mNodeID, Event.log false d.mNodeID]
              | _, _ => Trace.fail (.missingNode d.mNodeID)) =
              (Trace.fail (.missingNode d.mNodeID) : Trace Unit) := by
          intro x y hx
          subst hx
          rfl
        rw [this _ _ (by split_ifs <;> rfl)]
        exact Cut.fail_cut _
      | some ourNode =>
        cases hr2 : other.getNodePointer d.mNodeID d.mOtherHash with
        | none =>
          have : ∀ (x : Option (SHAMapTreeNode Hs)) (y : Option (SHAMapTreeNode Hs)),
              y = none →
              (match x, y with
                | some ourNode, some otherNode =>
                  ((compareNodesTrace (self.restrict (av true)) (other.restrict (av false))
                    fuel ourNode otherNode st).bind
                    (fun st1 => compareTraceLoop (self.restrict (av true))
                      (other.restrict (av false)) fuel st1)).emit
                    [Event.log true d.mNodeID, Event.log false d.mNodeID]
                | _, _ => Trace.fail (.missingNode d.mNodeID)) =
                (Trace.fail (.missingNode d.mNodeID) : Trace Unit) := by
            intro x y hy
            subst hy
            cases x <;> rfl
          rw [this _ _ (by split_ifs <;> rfl)]
          exact Cut.fail_cut _
        | some otherNode =>
          cases ha : av true d.mNodeID with
          | false =>
            simp only [Bool.false_eq_true, if_false]
            exact Cut.missing
              (Trace.emit [Event.log false d.mNodeID]
                ((compareNodesTrace self other fuel ourNode otherNode st).bind
                  (fun st1 => compareTraceLoop self other fuel st1)))
              [] (fun _ he => absurd he (List.not_mem_nil _)) rfl true _ ha
          | true =>
            cases hb : av false d.mNodeID with
            | false =>
              simp only [if_true, Bool.false_eq_true, if_false]
              refine Cut.missing
                ((compareNodesTrace self other fuel ourNode otherNode st).bind
                  (fun st1 => compareTraceLoop self other fuel st1))
                [Event.log true d.mNodeID] ?_ rfl false _ hb
              intro e he
              simp only [List.mem_singleton] at he
              rw [he]
              exact ha
            | true =>
              simp only [if_true]
              refine Cut.emit_cut _ ?_ (Cut.bind_cut (compareNodesTrace_cut av self other fuel _ _ st)
                (fun st1 => ih st1))
              intro e he
              simp only [List.mem_cons, List.mem_singleton, List.not_mem_nil, or_false] at he
              rcases he with he | he
              · rw [he]
                exact ha
              · rw [he]
                exact hb

theorem compareTrace_cut (self other : SHAMap Hs) (fuel : Nat) :
    Cut av (compareTrace self other fuel)
      (compareTrace (self.restrict (av true)) (other.restrict (av false)) fuel) := by
  simp only [compareTrace]
  have h1 : (self.restrict (av true)).getHash = self.getHash := rfl
  have h2 : (other.restrict (av false)).getHash = other.getHash := rfl
  rw [h1, h2]
  split_ifs
  · exact Cut.pure_cut ()
  · exact compareTraceLoop_cut av self other fuel _

end CutWalk

section CutReplay

variable {Hs : Type} [DecidableEq Hs]

theorem replay_resolved_mono (es : List Event) (s : WalkState) (e : Bool × NodeID)
    (h : e ∈ s.resolved) : e ∈ (stateOf (replayEvents es s)).resolved := by
  induction es generalizing s with
  | nil => exact h
  | cons ev es ih =>
    cases ev with
    | log b id =>
      simp only [replayEvents]
      exact ih _ (List.mem_cons_of_mem _ h)
    | record k v =>
      simp only [replayEvents]
      split_ifs
      · exact h
      · exact ih _ h

/-- A resolution that the replay reaches is in the state at the end. -/
theorem replay_reaches (pre mid post : List Event) (b : Bool) (id : NodeID)
    (s s1 : WalkState) (hpre : replayEvents pre s = .ok s1) (hmid : recordsOf mid = []) :
    (b, id) ∈ (stateOf (replayEvents (pre ++ mid ++ Event.log b id :: post) s)).resolved := by
  obtain ⟨s2, hs2⟩ := replay_ok_of_no_records mid s1 hmid
  rw [List.append_assoc, Trace.replayEvents_append, hpre]
  simp only
  rw [Trace.replayEvents_append, hs2]
  simp only [replayEvents]
  exact replay_resolved_mono post _ _ (List.mem_cons_self _ _)

/-- A call of `compare` on two maps that returns, run again on the maps without the
nodes at the positions where `av` is false: when every node that the call resolved
is still at hand the second call returns the same, otherwise it fails with a missing
node at a position that the first call resolved and that is no longer at hand. -/
theorem compare_restrict (self other : SHAMap Hs) (av : Bool → NodeID → Bool) (fuel : Nat)
    (d : Delta) (maxCount : Int) (b : Bool) (s : WalkState)
    (h : self.compare other fuel d maxCount = .ok (b, s)) :
    ((∀ e ∈ s.resolved, av e.1 e.2 = true) ∧
      (self.restrict (av true)).compare (other.restrict (av false)) fuel d maxCount =
        .ok (b, s)) ∨
    (∃ side id, (side, id) ∈ s.resolved ∧ av side id = false ∧
      (self.restrict (av true)).compare (other.restrict (av false)) fuel d maxCount =
        .missingNode id) := by
  have hcut := compareTrace_cut av self other fuel
  have hs : s = stateOf (replayEvents (compareTrace self other fuel).events
      ⟨d, maxCount, []⟩) := by
    have h' := h
    rw [compare_run] at h'
    rcases lower_run_ok h' with ⟨_, h1, _⟩ | ⟨_, h1⟩ <;> rw [h1] <;> rfl
  rcases hcut with ⟨h1, h2⟩ | ⟨pre, mid, post, b', id, h1, h2, h3, h4, h5⟩
  · left
    constructor
    · intro e he
      have := h1 _ (compare_resolved self other fuel d maxCount b s h e he)
      exact this
    · rw [compare_run, h2, ← compare_run]
      exact h
  · have hfull := h
    rw [compare_run] at hfull
    cases hpre : replayEvents pre ⟨d, maxCount, []⟩ with
    | error s1 =>
      left
      have hrep : replayEvents (compareTrace self other fuel).events ⟨d, maxCount, []⟩ =
          .error s1 := by
        rw [h1, List.append_assoc, Trace.replayEvents_append, hpre]
      have hbs : b = false ∧ s = s1 := by
        simp only [Trace.run, hrep, lower, Outcome.ok.injEq, Prod.mk.injEq] at hfull
        exact ⟨hfull.1.symm, hfull.2.symm⟩
      obtain ⟨hb, hs1⟩ := hbs
      subst hb
      subst hs1
      constructor
      · intro e he
        have hs' : s = stateOf (replayEvents pre ⟨d, maxCount, []⟩) := by rw [hpre]; rfl
        rw [hs'] at he
        rcases replay_resolved pre _ e he with h6 | h6
        · cases h6
        · exact h2 _ (List.mem_append_left _ h6)
      · rw [compare_run, h5]
        simp only [Trace.run, hpre, lower]
    | ok s1 =>
      right
      refine ⟨b', id, ?_, h4, ?_⟩
      · rw [hs, h1]
        exact replay_reaches pre mid post b' id _ s1 hpre h3
      · rw [compare_run, h5]
        simp only [Trace.run, hpre, lower]

end CutReplay

/-! ## Insertions under pairwise different keys -/

section KeysLemmas

end KeysLemmas

/-! ## The keys that `walkBranch` inserts -/

section WalkKeys

variable {Hs : Type} [DecidableEq Hs]

end WalkKeys

/-! ## The keys that `compare` inserts -/

section CompareKeys

variable {Hs : Type} [DecidableEq Hs]

end CompareKeys

/-- C1: the round trip fails on the scenario trees A = {10:"x", 20:"y"} and
B = {10:"x", 20:"z", 30:"w"} (both well-formed). `A.compare (B)` with a budget of 1000
returns `true`; its table, partitioned by populated sides, makes the three-set
`integrate` on A return `true` and leave the leaves {10:"x", 30:"w"}, which is not
the leaf set {10:"x", 20:"z", 30:"w"} of B. -/
theorem roundtrip_scenario_diverges :
    scenarioA.wf [] = true ∧ scenarioB.wf [] = true ∧
    ∃ d, ((SHAMap.ofTrie contentHasher scenarioA).compare
        (SHAMap.ofTrie contentHasher scenarioB) 200 [] 1000).result = some (true, d) ∧
      partitionDelta d = ([], [⟨20, [121]⟩], [⟨30, [119]⟩]) ∧
      SHAMap.integrate scenarioA.leaves (partitionDelta d).1 (partitionDelta d).2.1
        (partitionDelta d).2.2 = (true, [⟨10, [120]⟩, ⟨30, [119]⟩]) ∧
      scenarioB.leaves = [⟨10, [120]⟩, ⟨20, [122]⟩, ⟨30, [119]⟩] := by
  refine ⟨by decide!, by decide!,
    [(20, (some ⟨20, [121]⟩, none)), (30, (none, some ⟨30, [119]⟩))], by decide!, by decide!,
    by decide!, by decide!⟩

/-- C2: on the scenario trees A = {10:"x", 20:"y"} and B = {10:"x", 20:"z", 30:"w"}
(both well-formed), `A.compare (B, 10)` returns `true`, but the table is
{20: (ours = "y", theirs absent), 30: (ours absent, theirs = "w")}: the entry of
tag 20 lacks the item of B, so the table is not the one the scenario states. -/
theorem scenario_compare_result :
    scenarioA.wf [] = true ∧ scenarioB.wf [] = true ∧
    ((SHAMap.ofTrie contentHasher scenarioA).compare
        (SHAMap.ofTrie contentHasher scenarioB) 200 [] 10).result =
      some (true, [(20, (some ⟨20, [121]⟩, none)), (30, (none, some ⟨30, [119]⟩))]) ∧
    ((SHAMap.ofTrie contentHasher scenarioA).compare
        (SHAMap.ofTrie contentHasher scenarioB) 200 [] 10).result ≠
      some (true, [(20, (some ⟨20, [121]⟩, some ⟨20, [122]⟩)),
        (30, (none, some ⟨30, [119]⟩))]) := by
  have h : ((SHAMap.ofTrie contentHasher scenarioA).compare
      (SHAMap.ofTrie contentHasher scenarioB) 200 [] 10).result =
      some (true, [(20, (some ⟨20, [121]⟩, none)), (30, (none, some ⟨30, [119]⟩))]) := by
    decide!
  refine ⟨by decide!, by decide!, h, ?_⟩
  rw [h]
  decide

/-- C3: on the scenario trees tag 20 is present in A with payload "y" and in B with
payload "z", yet the entry of tag 20 in the table of `A.compare (B)` (budget 1000,
returned `true`) has the item of A only: its side for B is absent. -/
theorem modified_tag_entry_one_sided :
    scenarioA.wf [] = true ∧ scenarioB.wf [] = true ∧
    (⟨20, [121]⟩ : SHAMapItem) ∈ scenarioA.leaves ∧
    (⟨20, [122]⟩ : SHAMapItem) ∈ scenarioB.leaves ∧
    ∃ d, ((SHAMap.ofTrie contentHasher scenarioA).compare
        (SHAMap.ofTrie contentHasher scenarioB) 200 [] 1000).result = some (true, d) ∧
      d.find 20 = some (some ⟨20, [121]⟩, none) := by
  refine ⟨by decide!, by decide!, by decide!, by decide!,
    [(20, (some ⟨20, [121]⟩, none)), (30, (none, some ⟨30, [119]⟩))], by decide!, by decide!⟩

/-- C5: the trees A = {10:"x", 20:"y"} and C = {10:"x", 20:"y", 30:"w"} (both
well-formed) hold tag 20 with the same payload, yet the table of `A.compare (C)`
(budget 1000, returned `true`) has an entry for tag 20. -/
theorem unchanged_tag_reported :
    scenarioA.wf [] = true ∧ scenarioC.wf [] = true ∧
    (⟨20, [121]⟩ : SHAMapItem) ∈ scenarioA.leaves ∧
    (⟨20, [121]⟩ : SHAMapItem) ∈ scenarioC.leaves ∧
    ∃ d, ((SHAMap.ofTrie contentHasher scenarioA).compare
        (SHAMap.ofTrie contentHasher scenarioC) 200 [] 1000).result = some (true, d) ∧
      d.find 20 = some (some ⟨20, [121]⟩, none) := by
  refine ⟨by decide!, by decide!, by decide!, by decide!,
    [(20, (some ⟨20, [121]⟩, none)), (30, (none, some ⟨30, [119]⟩))], by decide!, by decide!⟩

/-- C6: when the two root hashes are equal, `compare` returns `true` at once, for
every budget and every table passed in: the table and the budget are unchanged and
the log of node resolutions is empty, also with no fuel for any loop iteration. -/
theorem compare_equal_root_hashes {Hs : Type} [DecidableEq Hs] (self other : SHAMap Hs)
    (fuel : Nat) (differences : Delta) (maxCount : Int)
    (h : self.getHash = other.getHash) :
    self.compare other fuel differences maxCount =
      .ok (true, ⟨differences, maxCount, []⟩) := by
  simp [SHAMap.compare, h]

/-- C6, on a concrete pair of maps with equal root hashes. -/
theorem compare_equal_root_hashes_witness :
    (SHAMap.ofTrie contentHasher singleA).getHash =
      (SHAMap.ofTrie contentHasher singleA).getHash ∧
    (SHAMap.ofTrie contentHasher singleA).compare (SHAMap.ofTrie contentHasher singleA)
      0 [] 5 = .ok (true, ⟨[], 5, []⟩) :=
  ⟨rfl, compare_equal_root_hashes _ _ 0 [] 5 rfl⟩

/-- C9: the well-formed trees `singleA` and `singleB` differ in exactly one tag, and
`compare` with `maxCount = 1` records that difference but returns `false`. -/
theorem compare_exact_budget_returns_false :
    singleA.wf [] = true ∧ singleB.wf [] = true ∧
    diffCount singleA.leaves singleB.leaves = 1 ∧
    ((SHAMap.ofTrie contentHasher singleA).compare
        (SHAMap.ofTrie contentHasher singleB) 10 [] 1).result =
      some (false, [(tagOne, (some ⟨tagOne, [1]⟩, some ⟨tagOne, [2]⟩))]) := by
  refine ⟨by decide!, by decide!, by decide!, by decide!⟩

/-- C7: the claim as stated fails on the well-formed trees `singleA` and `singleC`,
whose leaves have different tags at the same position, with `maxCount = 1`:
`singleA.compare (singleC, 1)` stops with the entry of the leaf of `singleA` only,
`singleC.compare (singleA, 1)` stops with the entry of the leaf of `singleC` only,
and the second table is not the first with its sides exchanged. -/
theorem compare_swap_truncated_differs :
    singleA.wf [] = true ∧ singleC.wf [] = true ∧
    ∃ dAC dCA,
      ((SHAMap.ofTrie contentHasher singleA).compare
        (SHAMap.ofTrie contentHasher singleC) 10 [] 1).result = some (false, dAC) ∧
      ((SHAMap.ofTrie contentHasher singleC).compare
        (SHAMap.ofTrie contentHasher singleA) 10 [] 1).result = some (false, dCA) ∧
      dAC = [(tagOne, (some ⟨tagOne, [1]⟩, none))] ∧
      dCA = [(tagOne + 1, (some ⟨tagOne + 1, [2]⟩, none))] ∧
      dCA ≠ dAC.swap := by
  refine ⟨by decide!, by decide!, [(tagOne, (some ⟨tagOne, [1]⟩, none))],
    [(tagOne + 1, (some ⟨tagOne + 1, [2]⟩, none))], by decide!, by decide!, rfl, rfl,
    by decide!⟩

section Claims

variable {Hs : Type} [DecidableEq Hs]

/-- The entry of a recorded key in the full table is one of the records. -/
theorem find_of_recorded {R : List (Nat × DeltaRef)} {k : Nat}
    (hk : k ∈ R.map Prod.fst) :
    ∃ v, (Delta.insertAll [] R).find k = some v ∧ (k, v) ∈ R := by
  have h1 : k ∈ (Delta.insertAll [] R).keys := Delta.key_mem_insertAll hk
  obtain ⟨e, he, hek⟩ := List.mem_map.1 h1
  obtain ⟨k', v⟩ := e
  simp only at hek
  subst hek
  have hs : (Delta.insertAll [] R).Sorted := Delta.sorted_insertAll R List.Pairwise.nil
  refine ⟨v, Delta.find_eq_of_mem hs he, ?_⟩
  rcases Delta.mem_insertAll he with h | h
  · cases h
  · exact h

/-- C4: for well-formed trees A and B whose hashes do not collide (content
addressing) and fuel for all their nodes, `A.compare (B)` returns `true` for every
budget from some bound on, and whenever it returns `true` the table holds, for every
item of A whose tag is in no leaf of B, the entry (that item, absent) under its tag,
and for every item of B whose tag is in no leaf of A, the entry (absent, that item)
under its tag. -/
theorem compare_one_sided_entries (hs : Hasher Hs) (TA TB : Trie)
    (hwfA : TA.wf [] = true) (hwfB : TB.wf [] = true) (hcf : CollisionFree hs TA TB)
    (fuel : Nat) (hf : TA.size + TB.size ≤ fuel) :
    (∃ M : Int, ∀ maxCount : Int, M ≤ maxCount →
      ∃ s, (SHAMap.ofTrie hs TA).compare (SHAMap.ofTrie hs TB) fuel [] maxCount =
        .ok (true, s)) ∧
    ∀ (maxCount : Int) (s : WalkState),
      (SHAMap.ofTrie hs TA).compare (SHAMap.ofTrie hs TB) fuel [] maxCount = .ok (true, s) →
      (∀ a ∈ TA.leaves, (∀ b ∈ TB.leaves, b.tag ≠ a.tag) →
        s.differences.find a.tag = some (some a, none)) ∧
      (∀ b ∈ TB.leaves, (∀ a ∈ TA.leaves, a.tag ≠ b.tag) →
        s.differences.find b.tag = some (none, some b)) := by
  obtain ⟨R, hattr, hca, hcb, hrun⟩ := compare_summary hs hwfA hwfB hcf hf
  constructor
  · refine ⟨(R.length : Int) + 1, ?_⟩
    intro maxCount hM
    obtain ⟨b, s, h1, _, _, _, h5, _⟩ := hrun maxCount
    have hb : b = true := h5 (by omega)
    subst hb
    exact ⟨s, h1⟩
  · intro maxCount s hres
    obtain ⟨b, s', h1, _, _, h4, _⟩ := hrun maxCount
    rw [hres] at h1
    simp only [Outcome.ok.injEq, Prod.mk.injEq] at h1
    obtain ⟨hb, hss⟩ := h1
    subst hb hss
    obtain ⟨hfull, _⟩ := h4 rfl
    rw [hfull]
    constructor
    · intro a ha hno
      have hna : a ∉ TB.leaves := fun h => hno a h rfl
      have hk : a.tag ∈ R.map Prod.fst := (hca a ha).resolve_left hna
      obtain ⟨v, hfind, hmem⟩ := find_of_recorded hk
      obtain ⟨h1, h2, h3, _⟩ := hattr _ hmem
      obtain ⟨o, th⟩ := v
      simp only at h1 h2 h3
      rw [hfind]
      cases th with
      | some y => exact absurd (h2 y rfl).2 (hno y (h2 y rfl).1)
      | none =>
        cases o with
        | none => simp at h3
        | some x =>
          have := Trie.tag_inj TA [] hwfA x (h1 x rfl).1 a ha (h1 x rfl).2
          rw [this]
    · intro b hb hno
      have hnb : b ∉ TA.leaves := fun h => hno b h rfl
      have hk : b.tag ∈ R.map Prod.fst := (hcb b hb).resolve_left hnb
      obtain ⟨v, hfind, hmem⟩ := find_of_recorded hk
      obtain ⟨h1, h2, h3, _⟩ := hattr _ hmem
      obtain ⟨o, th⟩ := v
      simp only at h1 h2 h3
      rw [hfind]
      cases o with
      | some x => exact absurd (h1 x rfl).2 (hno x (h1 x rfl).1)
      | none =>
        cases th with
        | none => simp at h3
        | some y =>
          have := Trie.tag_inj TB [] hwfB y (h2 y rfl).1 b hb (h2 y rfl).2
          rw [this]

/-- C10: for well-formed trees whose hashes do not collide (content addressing) and
fuel for all their nodes there is one full table,
the table of every call of `compare` that returns `true` (as every call with a budget
from some bound on does); and for every budget `maxCount` the call returns, and every
entry of its table is an entry of the full table, with the same two sides. -/
theorem compare_truncation_subset (hs : Hasher Hs) (TA TB : Trie)
    (hwfA : TA.wf [] = true) (hwfB : TB.wf [] = true) (hcf : CollisionFree hs TA TB)
    (fuel : Nat) (hf : TA.size + TB.size ≤ fuel) :
    ∃ full : Delta,
      (∃ M : Int, ∀ maxCount : Int, M ≤ maxCount →
        ∃ s, (SHAMap.ofTrie hs TA).compare (SHAMap.ofTrie hs TB) fuel [] maxCount =
          .ok (true, s) ∧ s.differences = full) ∧
      ∀ maxCount : Int, ∃ b s,
        (SHAMap.ofTrie hs TA).compare (SHAMap.ofTrie hs TB) fuel [] maxCount = .ok (b, s) ∧
        (b = true → s.differences = full) ∧
        ∀ k v, s.differences.find k = some v → full.find k = some v := by
  obtain ⟨R, _, _, _, hrun⟩ := compare_summary hs hwfA hwfB hcf hf
  refine ⟨Delta.insertAll [] R, ?_, ?_⟩
  · refine ⟨(R.length : Int) + 1, ?_⟩
    intro maxCount hM
    obtain ⟨b, s, h1, _, _, h4, h5, _⟩ := hrun maxCount
    have hb : b = true := h5 (by omega)
    subst hb
    exact ⟨s, h1, (h4 rfl).1⟩
  · intro maxCount
    obtain ⟨b, s, h1, _, h3, h4, _⟩ := hrun maxCount
    refine ⟨b, s, h1, fun hb => (h4 hb).1, ?_⟩
    intro k v hfind
    exact Delta.find_eq_of_mem (Delta.sorted_insertAll R List.Pairwise.nil)
      (h3 _ (Delta.mem_of_find hfind))

end Claims

/-- C4, on the trees `singleA` and `singleC`. -/
theorem compare_one_sided_entries_witness :
    singleA.wf [] = true ∧ singleC.wf [] = true ∧
    CollisionFree contentHasher singleA singleC ∧ singleA.size + singleC.size ≤ 10 ∧
    ((∃ M : Int, ∀ maxCount : Int, M ≤ maxCount →
      ∃ s, (SHAMap.ofTrie contentHasher singleA).compare (SHAMap.ofTrie contentHasher singleC)
        10 [] maxCount = .ok (true, s)) ∧
    ∀ (maxCount : Int) (s : WalkState),
      (SHAMap.ofTrie contentHasher singleA).compare (SHAMap.ofTrie contentHasher singleC)
        10 [] maxCount = .ok (true, s) →
      (∀ a ∈ singleA.leaves, (∀ b ∈ singleC.leaves, b.tag ≠ a.tag) →
        s.differences.find a.tag = some (some a, none)) ∧
      (∀ b ∈ singleC.leaves, (∀ a ∈ singleA.leaves, a.tag ≠ b.tag) →
        s.differences.find b.tag = some (none, some b))) :=
  ⟨by decide, by decide, fun _ _ _ _ _ h => h, by decide,
    compare_one_sided_entries contentHasher singleA singleC (by decide) (by decide)
      (fun _ _ _ _ _ h => h) 10
      (by decide)⟩

/-- C10, on the trees `singleA` and `singleC`. -/
theorem compare_truncation_subset_witness :
    singleA.wf [] = true ∧ singleC.wf [] = true ∧
    CollisionFree contentHasher singleA singleC ∧ singleA.size + singleC.size ≤ 10 ∧
    ∃ full : Delta,
      (∃ M : Int, ∀ maxCount : Int, M ≤ maxCount →
        ∃ s, (SHAMap.ofTrie contentHasher singleA).compare
          (SHAMap.ofTrie contentHasher singleC) 10 [] maxCount = .ok (true, s) ∧
            s.differences = full) ∧
      ∀ maxCount : Int, ∃ b s,
        (SHAMap.ofTrie contentHasher singleA).compare
          (SHAMap.ofTrie contentHasher singleC) 10 [] maxCount = .ok (b, s) ∧
        (b = true → s.differences = full) ∧
        ∀ k v, s.differences.find k = some v → full.find k = some v :=
  ⟨by decide, by decide, fun _ _ _ _ _ h => h, by decide,
    compare_truncation_subset contentHasher singleA singleC (by decide) (by decide)
      (fun _ _ _ _ _ h => h) 10
      (by decide)⟩

section ClaimsSwap

variable {Hs : Type} [DecidableEq Hs]

/-- C7, amended: for well-formed trees A and B whose hashes do not collide (content
addressing), fuel for all their nodes and every
`maxCount`, the calls `A.compare (B, maxCount)` and `B.compare (A, maxCount)` both
return, with the same completeness flag, and when that flag is `true` the table of
`B.compare (A)` is the table of `A.compare (B)` with the two sides of every entry
exchanged. -/
theorem compare_swap_symmetry (hs : Hasher Hs) (TA TB : Trie)
    (hwfA : TA.wf [] = true) (hwfB : TB.wf [] = true) (hcf : CollisionFree hs TA TB)
    (fuel : Nat) (hf : TA.size + TB.size ≤ fuel) (maxCount : Int) :
    ∃ b s s',
      (SHAMap.ofTrie hs TA).compare (SHAMap.ofTrie hs TB) fuel [] maxCount = .ok (b, s) ∧
      (SHAMap.ofTrie hs TB).compare (SHAMap.ofTrie hs TA) fuel [] maxCount = .ok (b, s') ∧
      (b = true → s'.differences = s.differences.swap) :=
  compare_swap_summary hs hwfA hwfB hcf hf maxCount

end ClaimsSwap

/-- C7, amended, on the trees `singleA` and `singleC` with the budget 5. -/
theorem compare_swap_symmetry_witness :
    singleA.wf [] = true ∧ singleC.wf [] = true ∧
    CollisionFree contentHasher singleA singleC ∧ singleA.size + singleC.size ≤ 10 ∧
    ∃ b s s',
      (SHAMap.ofTrie contentHasher singleA).compare (SHAMap.ofTrie contentHasher singleC)
        10 [] 5 = .ok (b, s) ∧
      (SHAMap.ofTrie contentHasher singleC).compare (SHAMap.ofTrie contentHasher singleA)
        10 [] 5 = .ok (b, s') ∧
      (b = true → s'.differences = s.differences.swap) :=
  ⟨by decide, by decide, fun _ _ _ _ _ h => h, by decide,
    compare_swap_symmetry contentHasher singleA singleC (by decide) (by decide)
      (fun _ _ _ _ _ h => h) 10
      (by decide) 5⟩

/-! ## The claims about `integrate` -/

/-- C12: the three-set `integrate` is the best-effort processing of its items in the
order modified, deleted, new: it returns `true` exactly when the precondition of
every item held at the moment the item was processed, every item of every set is
attempted (there is one outcome per item, and the content at the end is the one of
the best-effort processing, in which the items after a fault still take effect).
On A = {10:"x", 20:"y"} with the modified items 40:"q" and 20:"z" and the new item
30:"w" the first item faults, the call returns `false`, and the two other items are
applied. -/
theorem integrate_returns_true_iff (leaves : LeafMap)
    (modified deleted new : List SHAMapItem) :
    ((SHAMap.integrate leaves modified deleted new).1 = true ↔
      ∀ held ∈ (bestEffort leaves (schedule modified deleted new)).1, held = true) ∧
    (bestEffort leaves (schedule modified deleted new)).1.length =
      modified.length + deleted.length + new.length ∧
    (SHAMap.integrate leaves modified deleted new).2 =
      (bestEffort leaves (schedule modified deleted new)).2 ∧
    SHAMap.integrate [⟨10, [120]⟩, ⟨20, [121]⟩] [⟨40, [113]⟩, ⟨20, [122]⟩] [] [⟨30, [119]⟩] =
      (false, [⟨10, [120]⟩, ⟨20, [122]⟩, ⟨30, [119]⟩]) := by
  refine ⟨?_, ?_, ?_, by decide⟩
  · rw [integrate_bestEffort]
    simp [List.all_eq_true]
  · rw [bestEffort_length]
    simp [schedule]
    omega
  · rw [integrate_bestEffort]

/-- C13: for a tree with its leaves in tag order, the three-set `integrate` leaves,
under every tag, the leaf that the three loops give in turn (a modified item replaces
the leaf of its tag if there is one, a deleted item removes it, a new item becomes the
leaf if there is none), and the leaves are again in tag order. On the leaves of
A = {10:"x", 20:"y"} the call with modified = {20:"z"}, deleted = {} and
new = {30:"w"} returns `true` and yields the leaves of B = {10:"x", 20:"z", 30:"w"}. -/
theorem integrate_leaf_map (leaves : LeafMap) (modified deleted new : List SHAMapItem)
    (hs : leaves.Sorted) :
    (∀ tag, (SHAMap.integrate leaves modified deleted new).2.peekItem tag =
      integratedAt tag modified deleted new (leaves.peekItem tag)) ∧
    (SHAMap.integrate leaves modified deleted new).2.Sorted ∧
    scenarioA.leaves = [⟨10, [120]⟩, ⟨20, [121]⟩] ∧
    scenarioB.leaves = [⟨10, [120]⟩, ⟨20, [122]⟩, ⟨30, [119]⟩] ∧
    SHAMap.integrate scenarioA.leaves [⟨20, [122]⟩] [] [⟨30, [119]⟩] =
      (true, scenarioB.leaves) := by
  refine ⟨fun tag => peekItem_integrate leaves modified deleted new tag,
    sorted_integrate leaves modified deleted new hs, by decide!, by decide!, by decide!⟩

/-- C13, on the leaves of A with the sets of the scenario. -/
theorem integrate_leaf_map_witness :
    LeafMap.Sorted [⟨10, [120]⟩, ⟨20, [121]⟩] ∧
    (∀ tag, (SHAMap.integrate [⟨10, [120]⟩, ⟨20, [121]⟩] [⟨20, [122]⟩] []
        [⟨30, [119]⟩]).2.peekItem tag =
      integratedAt tag [⟨20, [122]⟩] [] [⟨30, [119]⟩]
        (LeafMap.peekItem [⟨10, [120]⟩, ⟨20, [121]⟩] tag)) :=
  ⟨by decide,
    (integrate_leaf_map [⟨10, [120]⟩, ⟨20, [121]⟩] [⟨20, [122]⟩] [] [⟨30, [119]⟩]
      (by decide)).1⟩

/-- C14: a second run of the same three-set `integrate` can return `true`. On
A = {10:"x", 20:"y"} with modified = {20:"z"} and no deleted and no new item the
first call returns `true`, and so does the second call on the resulting tree: the
tag of the modified item is still present. -/
theorem integrate_again_returns_true :
    (SHAMap.integrate [⟨10, [120]⟩, ⟨20, [121]⟩] [⟨20, [122]⟩] [] []).1 = true ∧
    (SHAMap.integrate
      (SHAMap.integrate [⟨10, [120]⟩, ⟨20, [121]⟩] [⟨20, [122]⟩] [] []).2
      [⟨20, [122]⟩] [] []).1 = true := by
  decide

/-- C14, amended: when some new item has a tag that no deleted item has, or some
deleted item has a tag that no new item has, a second run of the same three-set
`integrate` on the tree that a first run leaves returns `false`. -/
theorem integrate_again_returns_false (leaves : LeafMap)
    (modified deleted new : List SHAMapItem)
    (h : (∃ n ∈ new, ∀ d ∈ deleted, d.tag ≠ n.tag) ∨
      (∃ d ∈ deleted, ∀ n ∈ new, n.tag ≠ d.tag)) :
    (SHAMap.integrate (SHAMap.integrate leaves modified deleted new).2
      modified deleted new).1 = false := by
  cases hflag : (SHAMap.integrate (SHAMap.integrate leaves modified deleted new).2
      modified deleted new).1 with
  | false => rfl
  | true =>
    exfalso
    have hnew : (integrateNew (integrateDeleted (integrateModified
        (true, (SHAMap.integrate leaves modified deleted new).2) modified) deleted) new).1 =
        true := hflag
    rcases h with ⟨n, hn, hd⟩ | ⟨d, hd, hn⟩
    · have h1 := integrateNew_flag _ _ hnew n hn
      rw [present_before_new leaves modified deleted new n hn hd] at h1
      cases h1
    · have hdel : (integrateDeleted (integrateModified
          (true, (SHAMap.integrate leaves modified deleted new).2) modified) deleted).1 =
          true := by
        rw [integrateNew_eq] at hnew
        exact integrateKind_flag _ _ _ hnew
      have h1 := integrateDeleted_flag _ _ hdel d hd
      rw [absent_before_deleted leaves modified deleted new d hd hn] at h1
      cases h1

/-- C14, amended, on A = {10:"x", 20:"y"} with the sets of the scenario: the new
item 30:"w" has a tag that no deleted item has. -/
theorem integrate_again_returns_false_witness :
    (∃ n ∈ [(⟨30, [119]⟩ : SHAMapItem)], ∀ d ∈ ([] : List SHAMapItem), d.tag ≠ n.tag) ∧
    (SHAMap.integrate
      (SHAMap.integrate [⟨10, [120]⟩, ⟨20, [121]⟩] [⟨20, [122]⟩] [] [⟨30, [119]⟩]).2
      [⟨20, [122]⟩] [] [⟨30, [119]⟩]).1 = false :=
  ⟨⟨⟨30, [119]⟩, by decide, by decide⟩,
    integrate_again_returns_false [⟨10, [120]⟩, ⟨20, [121]⟩] [⟨20, [122]⟩] [] [⟨30, [119]⟩]
      (Or.inl ⟨⟨30, [119]⟩, by decide, by decide⟩)⟩

/-- C15: for a tree with its leaves in tag order and a three-set `integrate` call
that returned `true`, the same call run again on the resulting tree leaves the same
leaf under every tag, and the leaf content as a whole is the one after the first
call. -/
theorem integrate_again_same_leaves (leaves : LeafMap)
    (modified deleted new : List SHAMapItem) (hs : leaves.Sorted)
    (h : (SHAMap.integrate leaves modified deleted new).1 = true) :
    (∀ tag, (SHAMap.integrate (SHAMap.integrate leaves modified deleted new).2
        modified deleted new).2.peekItem tag =
      (SHAMap.integrate leaves modified deleted new).2.peekItem tag) ∧
    (SHAMap.integrate (SHAMap.integrate leaves modified deleted new).2
      modified deleted new).2 = (SHAMap.integrate leaves modified deleted new).2 := by
  have hper : ∀ tag, (SHAMap.integrate (SHAMap.integrate leaves modified deleted new).2
        modified deleted new).2.peekItem tag =
      (SHAMap.integrate leaves modified deleted new).2.peekItem tag := by
    intro tag
    rw [peekItem_integrate, peekItem_integrate]
    have hf := integrate_flag_facts leaves modified deleted new h tag
    exact integratedAt_idem tag modified deleted new _ hf.1 hf.2
  refine ⟨hper, ?_⟩
  have hs1 := sorted_integrate leaves modified deleted new hs
  exact LeafMap.ext_peekItem (sorted_integrate _ modified deleted new hs1) hs1 hper

/-- C15, on A = {10:"x", 20:"y"} with the sets of the scenario. -/
theorem integrate_again_same_leaves_witness :
    LeafMap.Sorted [⟨10, [120]⟩, ⟨20, [121]⟩] ∧
    (SHAMap.integrate [⟨10, [120]⟩, ⟨20, [121]⟩] [⟨20, [122]⟩] [] [⟨30, [119]⟩]).1 = true ∧
    (SHAMap.integrate
      (SHAMap.integrate [⟨10, [120]⟩, ⟨20, [121]⟩] [⟨20, [122]⟩] [] [⟨30, [119]⟩]).2
      [⟨20, [122]⟩] [] [⟨30, [119]⟩]).2 =
      (SHAMap.integrate [⟨10, [120]⟩, ⟨20, [121]⟩] [⟨20, [122]⟩] [] [⟨30, [119]⟩]).2 :=
  ⟨by decide, by decide,
    (integrate_again_same_leaves [⟨10, [120]⟩, ⟨20, [121]⟩] [⟨20, [122]⟩] [] [⟨30, [119]⟩]
      (by decide) (by decide)).2⟩

/-- C16: for a set of items with pairwise distinct tags the single-set `integrate`
returns `true`, and afterwards the leaf under the tag of every item is that item and
the leaf under every other tag is the one from before the call; the number of leaves
has grown by the number of items whose tag was absent (these were inserted, the
others updated a leaf), and leaves in tag order stay in tag order. -/
theorem integrate_single_upsert (leaves : LeafMap) (items : List SHAMapItem)
    (hd : (items.map (fun x => x.tag)).Nodup) :
    (SHAMap.integrateSingle leaves items).1 = true ∧
    (∀ x ∈ items, (SHAMap.integrateSingle leaves items).2.peekItem x.tag = some x) ∧
    (∀ tag, (∀ x ∈ items, x.tag ≠ tag) →
      (SHAMap.integrateSingle leaves items).2.peekItem tag = leaves.peekItem tag) ∧
    (SHAMap.integrateSingle leaves items).2.length =
      leaves.length + (items.filter (fun x => !leaves.hasItem x.tag)).length ∧
    (leaves.Sorted → (SHAMap.integrateSingle leaves items).2.Sorted) := by
  rw [integrateSingle_eq]
  exact ⟨rfl, fun x hx => peekItem_foldl_upsert_of_mem leaves items hd x hx,
    fun tag h => peekItem_foldl_upsert_of_not_mem leaves items tag h,
    length_foldl_upsert leaves items hd, fun hs => sorted_foldl_upsert leaves items hs⟩

/-- C16, on A = {10:"x", 20:"y"} with the items 20:"z" and 30:"w": the leaf 20 is
updated, the leaf 30 is inserted and the leaf 10 is unchanged. -/
theorem integrate_single_upsert_witness :
    ([(⟨20, [122]⟩ : SHAMapItem), ⟨30, [119]⟩].map (fun x => x.tag)).Nodup ∧
    SHAMap.integrateSingle [⟨10, [120]⟩, ⟨20, [121]⟩] [⟨20, [122]⟩, ⟨30, [119]⟩] =
      (true, [⟨10, [120]⟩, ⟨20, [122]⟩, ⟨30, [119]⟩]) ∧
    (SHAMap.integrateSingle [⟨10, [120]⟩, ⟨20, [121]⟩] [⟨20, [122]⟩, ⟨30, [119]⟩]).1 = true :=
  ⟨by decide, by decide,
    (integrate_single_upsert [⟨10, [120]⟩, ⟨20, [121]⟩] [⟨20, [122]⟩, ⟨30, [119]⟩]
      (by decide)).1⟩

/-- C23: `integrate` touches only the named tags. For the three-set form and an
item `y` whose tag no item of the three sets has, and for the single-set form and an
item `y` whose tag no item of the set has: `y` is a leaf after the call exactly when it
was one before the call; so every such leaf is kept with its payload, and no leaf with
such a tag appears that was not there. The leaf under such a tag is the same before
and after. -/
theorem integrate_frame (leaves : LeafMap) (modified deleted new items : List SHAMapItem)
    (y : SHAMapItem) (h3 : ∀ x ∈ modified ++ deleted ++ new, x.tag ≠ y.tag)
    (h1 : ∀ x ∈ items, x.tag ≠ y.tag) :
    (y ∈ (SHAMap.integrate leaves modified deleted new).2 ↔ y ∈ leaves) ∧
    (SHAMap.integrate leaves modified deleted new).2.peekItem y.tag =
      leaves.peekItem y.tag ∧
    (y ∈ (SHAMap.integrateSingle leaves items).2 ↔ y ∈ leaves) ∧
    (SHAMap.integrateSingle leaves items).2.peekItem y.tag = leaves.peekItem y.tag := by
  refine ⟨mem_integrate_of_ne leaves modified deleted new y h3, ?_,
    mem_integrateSingle_of_ne leaves items y h1, ?_⟩
  · rw [peekItem_integrate]
    simp only [integratedAt]
    rw [newAt_of_not_mem _ _ _ (fun x hx => h3 x (by simp [hx])),
      deletedAt_of_not_mem _ _ _ (fun x hx => h3 x (by simp [hx])),
      modifiedAt_of_not_mem _ _ _ (fun x hx => h3 x (by simp [hx]))]
  · rw [integrateSingle_eq]
    exact peekItem_foldl_upsert_of_not_mem leaves items y.tag h1

/-- C23, on A = {10:"x", 20:"y"} with the sets of the scenario and the leaf 10:"x",
whose tag is in no set. -/
theorem integrate_frame_witness :
    (∀ x ∈ [(⟨20, [122]⟩ : SHAMapItem)] ++ [] ++ [⟨30, [119]⟩],
      x.tag ≠ (⟨10, [120]⟩ : SHAMapItem).tag) ∧
    (∀ x ∈ [(⟨20, [122]⟩ : SHAMapItem), ⟨30, [119]⟩],
      x.tag ≠ (⟨10, [120]⟩ : SHAMapItem).tag) ∧
    ((⟨10, [120]⟩ : SHAMapItem) ∈
        (SHAMap.integrate [⟨10, [120]⟩, ⟨20, [121]⟩] [⟨20, [122]⟩] [] [⟨30, [119]⟩]).2 ↔
      (⟨10, [120]⟩ : SHAMapItem) ∈ [(⟨10, [120]⟩ : SHAMapItem), ⟨20, [121]⟩]) :=
  ⟨by decide, by decide,
    (integrate_frame [⟨10, [120]⟩, ⟨20, [121]⟩] [⟨20, [122]⟩] [] [⟨30, [119]⟩]
      [⟨20, [122]⟩, ⟨30, [119]⟩] ⟨10, [120]⟩ (by decide) (by decide)).1⟩

/-- C29: the single-set `integrate` returns `true` for every tree and every set of
items. -/
theorem integrate_single_returns_true (leaves : LeafMap) (items : List SHAMapItem) :
    (SHAMap.integrateSingle leaves items).1 = true := by
  rw [integrateSingle_eq]

/-! ## The claims about `walkMap` -/

section WalkMapClaims

variable {Hs : Type} [DecidableEq Hs]

/-- C17: on a well-formed tree in which every child that the walk reaches can be
resolved (no node is an unresolvable child of a node reached from the root through
resolvable nodes), `walkMap` with fuel for all nodes returns with the list
`missingNodes` as it was passed in, for every `maxMissing`; so it does on the tree of
which every node can be resolved, and on a tree whose root is a leaf. -/
theorem walkMap_no_missing (hs : Hasher Hs) (T : Trie) (hwf : T.wf [] = true)
    (avail : NodeID → Bool) (hres : ∀ d, ¬ Unresolved hs avail T d)
    (fuel : Nat) (hf : T.size ≤ fuel) (missingNodes : List (SHAMapMissingNode Hs))
    (maxMissing : Int) :
    ((SHAMap.ofTrie hs T).restrict avail).walkMap (T.toNode hs []) fuel missingNodes
      maxMissing = .ok missingNodes ∧
    (SHAMap.ofTrie hs T).walkMap (T.toNode hs []) fuel missingNodes maxMissing =
      .ok missingNodes ∧
    (∀ x, (SHAMap.ofTrie hs (Trie.leaf x)).walkMap ((Trie.leaf x).toNode hs []) fuel
      missingNodes maxMissing = .ok missingNodes) :=
  ⟨walkMap_of_no_unresolved hs hwf avail hres hf missingNodes maxMissing,
    walkMap_complete hs hwf hf missingNodes maxMissing, fun _ => rfl⟩

/-- C17, on the tree `forkTree` with all its nodes at hand, a list that already
holds a descriptor and the cap 0. -/
theorem walkMap_no_missing_witness :
    forkTree.wf [] = true ∧
    (∀ d, ¬ Unresolved contentHasher (fun _ => true) forkTree d) ∧
    forkTree.size ≤ 10 ∧
    ((SHAMap.ofTrie contentHasher forkTree).restrict (fun _ => true)).walkMap
      (forkTree.toNode contentHasher []) 10 [([7], Trie.leaf ⟨0, []⟩)] 0 =
      .ok [([7], Trie.leaf ⟨0, []⟩)] :=
  ⟨by decide, fun d ⟨_, _, _, _, _, _, _, h, _⟩ => Bool.noConfusion h, by decide,
    (walkMap_no_missing contentHasher forkTree (by decide) (fun _ => true)
      (fun d ⟨_, _, _, _, _, _, _, h, _⟩ => Bool.noConfusion h) 10 (by decide)
      [([7], Trie.leaf ⟨0, []⟩)] 0).1⟩

/-- C18: on a well-formed tree of which some nodes cannot be resolved, with fuel for
all nodes, an empty list and `maxMissing` above the number of unresolvable children
that the walk reaches, `walkMap` returns a list without repetition whose entries are
exactly the descriptors of those children: the position `parent ++ [i]` of a child in
a non-empty branch `i` of a node that is reached from the root through resolvable
nodes, with the hash the node declares for the branch, when that child cannot be
resolved. -/
theorem walkMap_reports_unresolved (hs : Hasher Hs) (T : Trie) (hwf : T.wf [] = true)
    (avail : NodeID → Bool) (fuel : Nat) (hf : T.size ≤ fuel) (maxMissing : Int)
    (hk : ((T.missing hs avail []).length : Int) < maxMissing) :
    ∃ L, ((SHAMap.ofTrie hs T).restrict avail).walkMap (T.toNode hs []) fuel []
        maxMissing = .ok L ∧
      L.Nodup ∧ (∀ d, d ∈ L ↔ Unresolved hs avail T d) ∧
      L.length = (T.missing hs avail []).length := by
  obtain ⟨W, hperm, hrun⟩ := walkMap_spec hs hwf avail hf
  have hlen : W.length = (T.missing hs avail []).length := hperm.length_eq
  have htake : W.take (capCount maxMissing) = W := by
    apply List.take_of_length_le
    simp only [capCount]
    split_ifs <;> omega
  refine ⟨W, ?_, ?_, ?_, hlen⟩
  · rw [hrun, htake]
    simp
  · exact (hperm.nodup_iff).2 (missing_nodup hs avail T [] hwf)
  · intro d
    rw [hperm.mem_iff]
    exact mem_missing_root hs avail hwf d

end WalkMapClaims

/-- C18, on the tree `forkTree` without its leaf at `[1]` and its leaf at `[2, 1]`:
the two leaves are reported with the hashes declared for them, the inner node at `[2]`
and the leaf at `[2, 0]` are not. -/
theorem walkMap_reports_unresolved_witness :
    forkTree.wf [] = true ∧ forkTree.size ≤ 10 ∧
    (((forkTree.missing contentHasher forkAvail []).length : Int) < 5) ∧
    ((SHAMap.ofTrie contentHasher forkTree).restrict forkAvail).walkMap
      (forkTree.toNode contentHasher []) 10 [] 5 =
      .ok [([1], Trie.leaf ⟨tagOne, [1]⟩), ([2, 1], Trie.leaf ⟨tagTwo + 16 ^ 62, [3]⟩)] ∧
    ∃ L, ((SHAMap.ofTrie contentHasher forkTree).restrict forkAvail).walkMap
        (forkTree.toNode contentHasher []) 10 [] 5 = .ok L ∧
      L.Nodup ∧ (∀ d, d ∈ L ↔ Unresolved contentHasher forkAvail forkTree d) ∧
      L.length = (forkTree.missing contentHasher forkAvail []).length :=
  ⟨by decide, by decide, by decide, by decide,
    walkMap_reports_unresolved contentHasher forkTree (by decide) forkAvail 10 (by decide) 5
      (by decide)⟩

/-- C19: with the cap 0 `walkMap` does report a descriptor. On the tree `forkTree`
without its leaf at `[1]` and its leaf at `[2, 1]`, called with an empty list and
`maxMissing = 0`, it returns a list with one descriptor. -/
theorem walkMap_zero_cap_one_descriptor :
    forkTree.wf [] = true ∧
    ((SHAMap.ofTrie contentHasher forkTree).restrict forkAvail).walkMap
      (forkTree.toNode contentHasher []) 10 [] 0 =
      .ok [([1], Trie.leaf ⟨tagOne, [1]⟩)] := by
  refine ⟨by decide, by decide⟩

/-- C19, amended: on a well-formed tree of which some nodes cannot be resolved,
with fuel for all nodes, an empty list and `maxMissing ≥ 1`, `walkMap` returns at
most `maxMissing` descriptors, and exactly `maxMissing` when there are at least that
many unresolvable children that the walk reaches; every descriptor returned is one of
those, and none is returned twice. -/
theorem walkMap_stops_at_cap {Hs : Type} [DecidableEq Hs] (hs : Hasher Hs) (T : Trie)
    (hwf : T.wf [] = true) (avail : NodeID → Bool) (fuel : Nat) (hf : T.size ≤ fuel)
    (maxMissing : Int) (hk : 1 ≤ maxMissing) :
    ∃ L, ((SHAMap.ofTrie hs T).restrict avail).walkMap (T.toNode hs []) fuel []
        maxMissing = .ok L ∧
      (L.length : Int) ≤ maxMissing ∧
      (maxMissing ≤ ((T.missing hs avail []).length : Int) → (L.length : Int) = maxMissing) ∧
      (∀ d ∈ L, Unresolved hs avail T d) ∧ L.Nodup := by
  obtain ⟨W, hperm, hrun⟩ := walkMap_spec hs hwf avail hf
  have hlen : W.length = (T.missing hs avail []).length := hperm.length_eq
  have hcap : (capCount maxMissing : Int) = maxMissing := by
    simp only [capCount]
    split_ifs <;> omega
  refine ⟨W.take (capCount maxMissing), ?_, ?_, ?_, ?_, ?_⟩
  · rw [hrun]
    simp
  · rw [List.length_take]
    omega
  · intro h
    rw [List.length_take]
    omega
  · intro d hd
    exact (mem_missing_root hs avail hwf d).1 (hperm.mem_iff.1 (List.mem_of_mem_take hd))
  · exact ((hperm.nodup_iff).2 (missing_nodup hs avail T [] hwf)).sublist (List.take_sublist _ _)

/-- C19, amended, on the tree `forkTree` without its leaf at `[1]` and its leaf at
`[2, 1]`, with the cap 1: one of the two descriptors is returned. -/
theorem walkMap_stops_at_cap_witness :
    forkTree.wf [] = true ∧ forkTree.size ≤ 10 ∧ (1 : Int) ≤ 1 ∧
    (forkTree.missing contentHasher forkAvail []).length = 2 ∧
    ∃ L, ((SHAMap.ofTrie contentHasher forkTree).restrict forkAvail).walkMap
        (forkTree.toNode contentHasher []) 10 [] 1 = .ok L ∧
      (L.length : Int) ≤ 1 ∧
      ((1 : Int) ≤ ((forkTree.missing contentHasher forkAvail []).length : Int) →
        (L.length : Int) = 1) ∧
      (∀ d ∈ L, Unresolved contentHasher forkAvail forkTree d) ∧ L.Nodup :=
  ⟨by decide, by decide, by decide, by decide,
    walkMap_stops_at_cap contentHasher forkTree (by decide) forkAvail 10 (by decide) 1
      (by decide)⟩

/-! ## Further claims about `compare` and `walkBranch` -/

section ClaimsMore

variable {Hs : Type} [DecidableEq Hs]

/-- C20: for well-formed trees A and B whose hashes do not collide (content
addressing), fuel for all their nodes, every table passed in and every `maxCount`,
`A.compare (B)` returns, and in every entry it has added the ours item, when present,
is the item of a leaf of A and the theirs item, when present, is the item of a leaf
of B. A call of `walkBranch` on a subtree of B with `isFirstMap = false` and the
single item `x` of A returns a table in which every added entry has, as its ours
item, `x` or nothing and, as its theirs item, the item of a leaf of the subtree or
nothing. -/
theorem compare_attribution (hs : Hasher Hs) (TA TB : Trie)
    (hwfA : TA.wf [] = true) (hwfB : TB.wf [] = true) (hcf : CollisionFree hs TA TB)
    (fuel : Nat) (hf : TA.size + TB.size ≤ fuel) (d : Delta) (maxCount : Int) :
    (∃ b s,
      (SHAMap.ofTrie hs TA).compare (SHAMap.ofTrie hs TB) fuel d maxCount = .ok (b, s) ∧
      ∀ e ∈ s.differences, e ∈ d ∨
        ((∀ x, e.2.1 = some x → x ∈ TA.leaves) ∧ (∀ y, e.2.2 = some y → y ∈ TB.leaves))) ∧
    (∀ (id : NodeID) (t : Trie) (x : SHAMapItem), TB.sub id = some t → ∃ b s,
      (SHAMap.ofTrie hs TB).walkBranch fuel (t.toNode hs id) (some x) false
        ⟨d, maxCount, []⟩ = .ok (b, s) ∧
      ∀ e ∈ s.differences, e ∈ d ∨
        ((∀ a, e.2.1 = some a → a = x) ∧ (∀ y, e.2.2 = some y → y ∈ t.leaves))) := by
  constructor
  · obtain ⟨b, s, hrun, hent⟩ := compare_entries hs hwfA hwfB hcf hf d maxCount
    refine ⟨b, s, hrun, ?_⟩
    intro e he
    rcases hent e he with h | h
    · exact Or.inl h
    · exact Or.inr ⟨fun x hx => (h.1 x hx).1, fun y hy => (h.2.1 y hy).1⟩
  · intro id t x hsub
    have hsz : t.size ≤ fuel := by
      have := Trie.size_sub_le hsub
      omega
    obtain ⟨R, hattr, _, hrun⟩ := walkBranch_summary hs hwfB hsub (some x) false hsz
    obtain ⟨b, s, h1, h2, _⟩ := hrun ⟨d, maxCount, []⟩
    refine ⟨b, s, h1, ?_⟩
    intro e he
    rcases h2 e he with h | h
    · exact Or.inl h
    · right
      rcases hattr e h with ⟨z, hz, rfl⟩ | ⟨y, hy, rfl⟩ | ⟨z, hz, y, hy, _, _, rfl⟩
      · simp only [oneSided, Bool.false_eq_true, if_false]
        refine ⟨?_, ?_⟩
        · intro a ha
          cases ha
        · intro y hy
          cases hy
          exact hz
      · simp only [Option.some.injEq] at hy
        subst hy
        simp only [oneSided, Bool.not_false, if_true]
        refine ⟨?_, ?_⟩
        · intro a ha
          cases ha
          rfl
        · intro y hy
          cases hy
      · simp only [Option.some.injEq] at hy
        subst hy
        simp only [twoSided, Bool.false_eq_true, if_false]
        refine ⟨?_, ?_⟩
        · intro a ha
          cases ha
          rfl
        · intro y hy
          cases hy
          exact hz

/-- C21: for well-formed trees A and B whose hashes do not collide (content
addressing), fuel for all their nodes, every `maxCount` and every table of well-formed
entries passed in, `A.compare (B)` returns with a table of well-formed entries: in
every entry at least one side is present, every item present has the key as its tag,
and two items that are both present have the same tag and different payloads. The
same holds for a call of `walkBranch` on a subtree of A, for either value of
`isFirstMap` and every counterpart. -/
theorem entries_well_formed (hs : Hasher Hs) (TA TB : Trie)
    (hwfA : TA.wf [] = true) (hwfB : TB.wf [] = true) (hcf : CollisionFree hs TA TB)
    (fuel : Nat) (hf : TA.size + TB.size ≤ fuel) (d : Delta) (hd : ∀ e ∈ d, EntryWF e)
    (maxCount : Int) :
    (∃ b s,
      (SHAMap.ofTrie hs TA).compare (SHAMap.ofTrie hs TB) fuel d maxCount = .ok (b, s) ∧
      ∀ e ∈ s.differences, EntryWF e) ∧
    (∀ (id : NodeID) (t : Trie) (o : Option SHAMapItem) (isFirstMap : Bool),
      TA.sub id = some t → ∃ b s,
        (SHAMap.ofTrie hs TA).walkBranch fuel (t.toNode hs id) o isFirstMap
          ⟨d, maxCount, []⟩ = .ok (b, s) ∧
        ∀ e ∈ s.differences, EntryWF e) := by
  constructor
  · obtain ⟨b, s, hrun, hent⟩ := compare_entries hs hwfA hwfB hcf hf d maxCount
    refine ⟨b, s, hrun, ?_⟩
    intro e he
    rcases hent e he with h | h
    · exact hd e h
    · exact entryWF_of_attributed h
  · intro id t o isF hsub
    have hsz : t.size ≤ fuel := by
      have := Trie.size_sub_le hsub
      omega
    obtain ⟨R, hattr, _, hrun⟩ := walkBranch_summary hs hwfA hsub o isF hsz
    obtain ⟨b, s, h1, h2, _⟩ := hrun ⟨d, maxCount, []⟩
    refine ⟨b, s, h1, ?_⟩
    intro e he
    rcases h2 e he with h | h
    · exact hd e h
    · exact entryWF_of_walkAttr (hattr e h)

/-- C22: for well-formed trees whose hashes do not collide (content addressing),
fuel for all their nodes and every `maxCount ≥ 1`, `compare` called with an empty
table returns and leaves the table with at most `maxCount` entries. -/
theorem compare_capped_by_budget (hs : Hasher Hs) (TA TB : Trie)
    (hwfA : TA.wf [] = true) (hwfB : TB.wf [] = true) (hcf : CollisionFree hs TA TB)
    (fuel : Nat) (hf : TA.size + TB.size ≤ fuel) (maxCount : Int) (hk : 1 ≤ maxCount) :
    ∃ b s,
      (SHAMap.ofTrie hs TA).compare (SHAMap.ofTrie hs TB) fuel [] maxCount = .ok (b, s) ∧
      (s.differences.length : Int) ≤ maxCount := by
  obtain ⟨R, _, _, _, hrun⟩ := compare_summary hs hwfA hwfB hcf hf
  obtain ⟨b, s, h1, _, _, _, _, _, h7⟩ := hrun maxCount
  exact ⟨b, s, h1, (h7 hk).1⟩

/-- C28: for well-formed trees A and B whose hashes do not collide (content
addressing), fuel for all their nodes and every `maxCount` for which
`A.compare (B, maxCount)` returns `true`, the call `B.compare (A, maxCount)` returns
`true` as well, and its table is the table of `A.compare (B)` with the two sides of
every entry exchanged. -/
theorem compare_swap_complete (hs : Hasher Hs) (TA TB : Trie)
    (hwfA : TA.wf [] = true) (hwfB : TB.wf [] = true) (hcf : CollisionFree hs TA TB)
    (fuel : Nat) (hf : TA.size + TB.size ≤ fuel) (maxCount : Int) (s : WalkState)
    (h : (SHAMap.ofTrie hs TA).compare (SHAMap.ofTrie hs TB) fuel [] maxCount =
      .ok (true, s)) :
    ∃ s', (SHAMap.ofTrie hs TB).compare (SHAMap.ofTrie hs TA) fuel [] maxCount =
        .ok (true, s') ∧
      s'.differences = s.differences.swap := by
  obtain ⟨b, s1, s1', h1, h2, h3⟩ := compare_swap_summary hs hwfA hwfB hcf hf maxCount
  rw [h1] at h
  simp only [Outcome.ok.injEq, Prod.mk.injEq] at h
  obtain ⟨hb, hs⟩ := h
  subst hb
  subst hs
  exact ⟨s1', h2, h3 rfl⟩

/-- C30: on well-formed trees whose hashes do not collide (content addressing), of
which every node can be resolved, `compare` with fuel for all the nodes of the two
trees returns for every `maxCount` and every table passed in (it does not run out of
fuel), so does `walkBranch` on every subtree with every counterpart, and `walkMap`
with fuel for all the nodes of its tree returns for every `maxMissing`, also when
some nodes cannot be resolved. -/
theorem walks_terminate (hs : Hasher Hs) (TA TB : Trie)
    (hwfA : TA.wf [] = true) (hwfB : TB.wf [] = true) (hcf : CollisionFree hs TA TB)
    (fuel : Nat) (hf : TA.size + TB.size ≤ fuel) :
    (∀ (d : Delta) (maxCount : Int), ∃ b s,
      (SHAMap.ofTrie hs TA).compare (SHAMap.ofTrie hs TB) fuel d maxCount = .ok (b, s)) ∧
    (∀ (id : NodeID) (t : Trie) (o : Option SHAMapItem) (isFirstMap : Bool) (s0 : WalkState),
      TA.sub id = some t → ∃ b s,
        (SHAMap.ofTrie hs TA).walkBranch fuel (t.toNode hs id) o isFirstMap s0 = .ok (b, s)) ∧
    (∀ (avail : NodeID → Bool) (missingNodes : List (SHAMapMissingNode Hs))
      (maxMissing : Int), ∃ L,
        ((SHAMap.ofTrie hs TA).restrict avail).walkMap (TA.toNode hs []) fuel missingNodes
          maxMissing = .ok L) := by
  refine ⟨?_, ?_, ?_⟩
  · intro d maxCount
    obtain ⟨b, s, hrun, _⟩ := compare_entries hs hwfA hwfB hcf hf d maxCount
    exact ⟨b, s, hrun⟩
  · intro id t o isF s0 hsub
    have hsz : t.size ≤ fuel := by
      have := Trie.size_sub_le hsub
      omega
    obtain ⟨R, _, _, hrun⟩ := walkBranch_summary hs hwfA hsub o isF hsz
    obtain ⟨b, s, h1, _⟩ := hrun s0
    exact ⟨b, s, h1⟩
  · intro avail ms k
    obtain ⟨W, _, hrun⟩ := walkMap_spec hs hwfA avail (show TA.size ≤ fuel by omega)
    exact ⟨_, hrun ms k⟩

end ClaimsMore

/-- C20, on the trees `singleA` and `singleC`. -/
theorem compare_attribution_witness :
    singleA.wf [] = true ∧ singleC.wf [] = true ∧
    CollisionFree contentHasher singleA singleC ∧ singleA.size + singleC.size ≤ 10 ∧
    ∃ b s,
      (SHAMap.ofTrie contentHasher singleA).compare (SHAMap.ofTrie contentHasher singleC)
        10 [] 5 = .ok (b, s) ∧
      ∀ e ∈ s.differences, e ∈ ([] : Delta) ∨
        ((∀ x, e.2.1 = some x → x ∈ singleA.leaves) ∧
          (∀ y, e.2.2 = some y → y ∈ singleC.leaves)) :=
  ⟨by decide, by decide, fun _ _ _ _ _ h => h, by decide,
    (compare_attribution contentHasher singleA singleC (by decide) (by decide)
      (fun _ _ _ _ _ h => h) 10 (by decide) [] 5).1⟩

/-- C21, on the trees `singleA` and `singleC` with an empty table. -/
theorem entries_well_formed_witness :
    singleA.wf [] = true ∧ singleC.wf [] = true ∧
    CollisionFree contentHasher singleA singleC ∧ singleA.size + singleC.size ≤ 10 ∧
    (∀ e ∈ ([] : Delta), EntryWF e) ∧
    ∃ b s,
      (SHAMap.ofTrie contentHasher singleA).compare (SHAMap.ofTrie contentHasher singleC)
        10 [] 5 = .ok (b, s) ∧
      ∀ e ∈ s.differences, EntryWF e :=
  ⟨by decide, by decide, fun _ _ _ _ _ h => h, by decide,
    (fun _ h => absurd h (List.not_mem_nil _)),
    (entries_well_formed contentHasher singleA singleC (by decide) (by decide)
      (fun _ _ _ _ _ h => h) 10 (by decide) [] (fun _ h => absurd h (List.not_mem_nil _))
      5).1⟩

/-- C22, on the trees `singleA` and `singleC`, which differ in two tags, with the
budget 1. -/
theorem compare_capped_by_budget_witness :
    singleA.wf [] = true ∧ singleC.wf [] = true ∧
    CollisionFree contentHasher singleA singleC ∧ singleA.size + singleC.size ≤ 10 ∧
    (1 : Int) ≤ 1 ∧
    ∃ b s,
      (SHAMap.ofTrie contentHasher singleA).compare (SHAMap.ofTrie contentHasher singleC)
        10 [] 1 = .ok (b, s) ∧
      (s.differences.length : Int) ≤ 1 :=
  ⟨by decide, by decide, fun _ _ _ _ _ h => h, by decide, by decide,
    compare_capped_by_budget contentHasher singleA singleC (by decide) (by decide)
      (fun _ _ _ _ _ h => h) 10 (by decide) 1 (by decide)⟩

/-- C28, on the trees `singleA` and `singleC` with the budget 5. -/
theorem compare_swap_complete_witness :
    singleA.wf [] = true ∧ singleC.wf [] = true ∧
    CollisionFree contentHasher singleA singleC ∧ singleA.size + singleC.size ≤ 10 ∧
    (SHAMap.ofTrie contentHasher singleA).compare (SHAMap.ofTrie contentHasher singleC)
      10 [] 5 = .ok (true, ⟨[(tagOne, (some ⟨tagOne, [1]⟩, none)),
        (tagOne + 1, (none, some ⟨tagOne + 1, [2]⟩))], 3, [(false, [1]), (true, [1]),
        (false, []), (true, [])]⟩) ∧
    ∃ s', (SHAMap.ofTrie contentHasher singleC).compare (SHAMap.ofTrie contentHasher singleA)
        10 [] 5 = .ok (true, s') ∧
      s'.differences = Delta.swap [(tagOne, (some ⟨tagOne, [1]⟩, none)),
        (tagOne + 1, (none, some ⟨tagOne + 1, [2]⟩))] :=
  ⟨by decide, by decide, fun _ _ _ _ _ h => h, by decide, by decide,
    compare_swap_complete contentHasher singleA singleC (by decide) (by decide)
      (fun _ _ _ _ _ h => h) 10 (by decide) 5
      ⟨[(tagOne, (some ⟨tagOne, [1]⟩, none)), (tagOne + 1, (none, some ⟨tagOne + 1, [2]⟩))],
        3, [(false, [1]), (true, [1]), (false, []), (true, [])]⟩ (by decide)⟩

/-- C30, on the trees `singleA` and `singleC`. -/
theorem walks_terminate_witness :
    singleA.wf [] = true ∧ singleC.wf [] = true ∧
    CollisionFree contentHasher singleA singleC ∧ singleA.size + singleC.size ≤ 10 ∧
    (∀ (d : Delta) (maxCount : Int), ∃ b s,
      (SHAMap.ofTrie contentHasher singleA).compare (SHAMap.ofTrie contentHasher singleC)
        10 d maxCount = .ok (b, s)) :=
  ⟨by decide, by decide, fun _ _ _ _ _ h => h, by decide,
    (walks_terminate contentHasher singleA singleC (by decide) (by decide)
      (fun _ _ _ _ _ h => h) 10 (by decide)).1⟩

/-- C26: for a subtree with `n` leaves of a well-formed tree, fuel for all its nodes,
either value of `isFirstMap`, an empty table and a budget greater than `n`,
`walkBranch` with an absent counterpart returns `true`, leaves the budget lowered by
exactly `n`, and leaves a table of exactly `n` entries: under the tag of every leaf
the entry with that leaf on the ours side when `isFirstMap` is true and on the theirs
side when it is false, the other side being absent, and no other entry. -/
theorem walkBranch_absent_counterpart {Hs : Type} [DecidableEq Hs] (hs : Hasher Hs)
    (T t : Trie) (hwf : T.wf [] = true) (id : NodeID) (hsub : T.sub id = some t)
    (isFirstMap : Bool) (fuel : Nat) (hf : t.size ≤ fuel) (maxCount : Int)
    (hk : (t.leaves.length : Int) < maxCount) :
    ∃ s, (SHAMap.ofTrie hs T).walkBranch fuel (t.toNode hs id) none isFirstMap
        ⟨[], maxCount, []⟩ = .ok (true, s) ∧
      s.maxCount = maxCount - t.leaves.length ∧
      s.differences.length = t.leaves.length ∧
      (∀ x ∈ t.leaves, s.differences.find x.tag =
        some (if isFirstMap then (some x, none) else (none, some x))) ∧
      (∀ e ∈ s.differences, ∃ x ∈ t.leaves,
        e = (x.tag, if isFirstMap then (some x, none) else (none, some x))) := by
  obtain ⟨evs, htr, hrec⟩ := walkBranchTrace_none_spec hs hwf hsub isFirstMap hf
  have hlen : (recordsOf evs).length = t.leaves.length := by
    rw [hrec]
    simp
  obtain ⟨s, hrep⟩ := replay_ok_of_lt evs ⟨[], maxCount, []⟩ (by rw [hlen]; exact hk)
  obtain ⟨h1, h2, _⟩ := replay_ok hrep
  have hkeys : (recordsOf evs).map Prod.fst = t.leaves.reverse.map (fun x => x.tag) := by
    rw [hrec, List.map_map]
    rfl
  have hwft : t.wf ([] ++ id) = true := Trie.wf_sub hwf hsub
  have hsorted : s.differences.Sorted := by
    rw [h1]
    exact Delta.sorted_insertAll _ List.Pairwise.nil
  have hmem : ∀ e ∈ s.differences, ∃ x ∈ t.leaves, e = (x.tag, oneSided isFirstMap x) := by
    intro e he
    rw [h1] at he
    rcases Delta.mem_insertAll he with h | h
    · cases h
    · rw [hrec] at h
      obtain ⟨x, hx, rfl⟩ := List.mem_map.1 h
      exact ⟨x, List.mem_reverse.1 hx, rfl⟩
  refine ⟨s, ?_, ?_, ?_, ?_, ?_⟩
  · rw [walkBranch_run, lower_run_of_result _ (by rw [htr]), htr]
    simp only [hrep]
  · rw [h2, hlen]
  · rw [h1, Delta.length_insertAll_of_nodup [] _ ?_ ?_, hlen]
    · simp
    · rw [hkeys, List.map_reverse]
      exact List.nodup_reverse.2 (Trie.tags_nodup t _ hwft)
    · intro k _ hk'
      cases hk'
  · intro x hx
    have hkx : x.tag ∈ s.differences.keys := by
      rw [h1]
      apply Delta.key_mem_insertAll
      rw [hkeys]
      exact List.mem_map.2 ⟨x, List.mem_reverse.2 hx, rfl⟩
    obtain ⟨e, he, hek⟩ := List.mem_map.1 hkx
    obtain ⟨z, hz, rfl⟩ := hmem e he
    simp only at hek
    have hzx : z = x := Trie.tag_inj t _ hwft z hz x hx hek
    subst hzx
    rw [Delta.find_eq_of_mem hsorted he]
    rfl
  · intro e he
    obtain ⟨x, hx, rfl⟩ := hmem e he
    exact ⟨x, hx, rfl⟩

/-- C26, on the tree `forkTree`, which has three leaves, with `isFirstMap = false`
and the budget 4. -/
theorem walkBranch_absent_counterpart_witness :
    forkTree.wf [] = true ∧ forkTree.sub [] = some forkTree ∧ forkTree.size ≤ 10 ∧
    ((forkTree.leaves.length : Int) < 4) ∧
    ∃ s, (SHAMap.ofTrie contentHasher forkTree).walkBranch 10
        (forkTree.toNode contentHasher []) none false ⟨[], 4, []⟩ = .ok (true, s) ∧
      s.maxCount = 4 - forkTree.leaves.length ∧
      s.differences.length = forkTree.leaves.length ∧
      (∀ x ∈ forkTree.leaves, s.differences.find x.tag =
        some (if false then (some x, none) else (none, some x))) ∧
      (∀ e ∈ s.differences, ∃ x ∈ forkTree.leaves,
        e = (x.tag, if false then (some x, none) else (none, some x))) :=
  ⟨by decide, by decide, by decide, by decide,
    walkBranch_absent_counterpart contentHasher forkTree forkTree (by decide) [] (by decide)
      false 10 (by decide) 4 (by decide)⟩

/-- C27: in every configuration that the loop of `compare` goes through, on any two
maps, every task on the work stack has `mOurHash` different from `mOtherHash`. On
two trees every node that a returning call of `compare` has resolved lies at a
position on the way to which, the position included, the two trees have different
hashes wherever both have a node: no node is resolved at or below a branch that the
two trees hold with equal hashes. -/
theorem compare_pruning_invariant {Hs : Type} [DecidableEq Hs] (self other : SHAMap Hs)
    (hs : Hasher Hs) (TA TB : Trie) (fuel : Nat) (differences : Delta) (maxCount : Int) :
    (∀ st s, CompareReach self other differences maxCount st s →
      ∀ d ∈ st, d.mOurHash ≠ d.mOtherHash) ∧
    (∀ b s, (SHAMap.ofTrie hs TA).compare (SHAMap.ofTrie hs TB) fuel differences maxCount =
        .ok (b, s) →
      ∀ e ∈ s.resolved, ∀ p, p <+: e.2 → ∀ a c, TA.sub p = some a → TB.sub p = some c →
        hs.hashOf a ≠ hs.hashOf c) := by
  constructor
  · intro st s h
    exact compareReach_differ h
  · intro b s h e he
    exact compareTrace_logs hs TA TB fuel e.1 e.2 (compare_resolved _ _ _ _ _ _ _ h e he)

/-- C27, on the trees `singleA` and `singleC`: the configuration after the root push
and the call with the budget 5. -/
theorem compare_pruning_invariant_witness :
    CompareReach (SHAMap.ofTrie contentHasher singleA) (SHAMap.ofTrie contentHasher singleC)
      [] 5 [⟨[], singleA, singleC⟩] ⟨[], 5, []⟩ ∧
    (SHAMap.ofTrie contentHasher singleA).compare (SHAMap.ofTrie contentHasher singleC)
      10 [] 5 = .ok (true, ⟨[(tagOne, (some ⟨tagOne, [1]⟩, none)),
        (tagOne + 1, (none, some ⟨tagOne + 1, [2]⟩))], 3, [(false, [1]), (true, [1]),
        (false, []), (true, [])]⟩) ∧
    (∀ d ∈ [(⟨[], singleA, singleC⟩ : SHAMapDeltaNode Trie)], d.mOurHash ≠ d.mOtherHash) ∧
    (∀ e ∈ [(false, [1]), (true, [1]), (false, []), (true, [])],
      ∀ p, p <+: e.2 → ∀ a c, singleA.sub p = some a → singleC.sub p = some c →
        contentHasher.hashOf a ≠ contentHasher.hashOf c) :=
  ⟨CompareReach.start (by decide), by decide,
    (compare_pruning_invariant (SHAMap.ofTrie contentHasher singleA)
      (SHAMap.ofTrie contentHasher singleC) contentHasher singleA singleC 10 [] 5).1
      _ _ (CompareReach.start (by decide)),
    (compare_pruning_invariant (SHAMap.ofTrie contentHasher singleA)
      (SHAMap.ofTrie contentHasher singleC) contentHasher singleA singleC 10 [] 5).2
      true ⟨[(tagOne, (some ⟨tagOne, [1]⟩, none)),
        (tagOne + 1, (none, some ⟨tagOne + 1, [2]⟩))], 3, [(false, [1]), (true, [1]),
        (false, []), (true, [])]⟩ (by decide)⟩

/-! ## Further claims settled by evaluation -/

/-- C24: on the well-formed tree B = {10:"x", 20:"z", 30:"w"} of the scenario, whose
leaves from left to right have the tags 10, 20, 30, `walkBranch` with an absent
counterpart makes its insertions, one per leaf visited, in the order 30, 20, 10; with
a budget of 1 it returns `false` with the entry of tag 30 only, and with a budget of
2 with the entries of the tags 20 and 30: the leaves are visited from right to left,
in descending tag order. -/
theorem walkBranch_visits_descending :
    scenarioB.wf [] = true ∧
    scenarioB.leaves.map (fun x => x.tag) = [10, 20, 30] ∧
    (recordsOf (walkBranchTrace (SHAMap.ofTrie contentHasher scenarioB) 200
      (scenarioB.toNode contentHasher []) none true).events).map Prod.fst = [30, 20, 10] ∧
    ((SHAMap.ofTrie contentHasher scenarioB).walkBranch 200
      (scenarioB.toNode contentHasher []) none true ⟨[], 1, []⟩).result =
      some (false, [(30, (some ⟨30, [119]⟩, none))]) ∧
    ((SHAMap.ofTrie contentHasher scenarioB).walkBranch 200
      (scenarioB.toNode contentHasher []) none true ⟨[], 2, []⟩).result =
      some (false, [(20, (some ⟨20, [122]⟩, none)), (30, (some ⟨30, [119]⟩, none))]) := by
  refine ⟨by decide!, by decide!, by decide!, by decide!, by decide!⟩

/-- C25: on the well-formed tree B = {10:"x", 20:"z", 30:"w"} of the scenario,
walked with `isFirstMap = false`, a budget of 10 and an empty table: with the
counterpart 20:"y", whose tag B holds with another payload, the entry of tag 20 has
the counterpart only, not both items; with the counterpart 20:"z", which B holds with
the same payload, the table still has an entry of tag 20. -/
theorem walkBranch_counterpart_mismatched :
    scenarioB.wf [] = true ∧ (⟨20, [122]⟩ : SHAMapItem) ∈ scenarioB.leaves ∧
    ((SHAMap.ofTrie contentHasher scenarioB).walkBranch 200
      (scenarioB.toNode contentHasher []) (some ⟨20, [121]⟩) false ⟨[], 10, []⟩).result =
      some (true, [(10, (none, some ⟨10, [120]⟩)), (20, (some ⟨20, [121]⟩, none)),
        (30, (none, some ⟨30, [119]⟩))]) ∧
    ((SHAMap.ofTrie contentHasher scenarioB).walkBranch 200
      (scenarioB.toNode contentHasher []) (some ⟨20, [122]⟩) false ⟨[], 10, []⟩).result =
      some (true, [(10, (none, some ⟨10, [120]⟩)), (20, (some ⟨20, [122]⟩, none)),
        (30, (none, some ⟨30, [119]⟩))]) := by
  refine ⟨by decide!, by decide!, by decide!, by decide!⟩

/-! ## The claim about missing nodes in `compare` -/

/-- C11: take a call of `compare` on two maps that returns (with a flag and the log
of the nodes it has resolved, each with its side), and run it again on the maps
without the nodes at the positions where `availOurs` (this map) and `availTheirs` (the
other map) are false. When every node that the call resolved is still at hand, the
second call returns the same flag and state: it does not fail. When one of them is
not, the second call fails with a missing-node error, returns no flag, and the
position of the error is that of a node that the first call resolved on a side on
which it is no longer at hand. -/
theorem compare_missing_node_iff {Hs : Type} [DecidableEq Hs] (self other : SHAMap Hs)
    (availOurs availTheirs : NodeID → Bool) (fuel : Nat) (differences : Delta)
    (maxCount : Int) (b : Bool) (s : WalkState)
    (h : self.compare other fuel differences maxCount = .ok (b, s)) :
    ((∀ e ∈ s.resolved, cond e.1 (availOurs e.2) (availTheirs e.2) = true) →
      (self.restrict availOurs).compare (other.restrict availTheirs) fuel differences
        maxCount = .ok (b, s)) ∧
    ((∃ e ∈ s.resolved, cond e.1 (availOurs e.2) (availTheirs e.2) = false) →
      ∃ id, (self.restrict availOurs).compare (other.restrict availTheirs) fuel differences
          maxCount = .missingNode id ∧
        (((true, id) ∈ s.resolved ∧ availOurs id = false) ∨
          ((false, id) ∈ s.resolved ∧ availTheirs id = false))) := by
  have key := compare_restrict self other
    (fun side id => cond side (availOurs id) (availTheirs id)) fuel differences maxCount b s h
  have h1 : (fun side id => cond side (availOurs id) (availTheirs id)) true = availOurs := rfl
  have h2 : (fun side id => cond side (availOurs id) (availTheirs id)) false = availTheirs :=
    rfl
  rw [h1, h2] at key
  constructor
  · intro hall
    rcases key with ⟨_, hk⟩ | ⟨side, id, hmem, hav, _⟩
    · exact hk
    · have := hall (side, id) hmem
      simp only at hav this
      rw [hav] at this
      cases this
  · rintro ⟨e, he, hav⟩
    rcases key with ⟨hall, _⟩ | ⟨side, id, hmem, hav', hk⟩
    · have := hall e he
      simp only at this
      rw [hav] at this
      cases this
    · refine ⟨id, hk, ?_⟩
      cases side
      · exact Or.inr ⟨hmem, hav'⟩
      · exact Or.inl ⟨hmem, hav'⟩

/-- C11, on the trees `singleA` and `singleC` with the budget 5: the call resolves
the roots and the leaves at `[1]` of both trees; without the leaf at `[1]` of the
other tree it fails with a missing node at `[1]`. -/
theorem compare_missing_node_iff_witness :
    (SHAMap.ofTrie contentHasher singleA).compare (SHAMap.ofTrie contentHasher singleC)
      10 [] 5 = .ok (true, ⟨[(tagOne, (some ⟨tagOne, [1]⟩, none)),
        (tagOne + 1, (none, some ⟨tagOne + 1, [2]⟩))], 3, [(false, [1]), (true, [1]),
        (false, []), (true, [])]⟩) ∧
    ((SHAMap.ofTrie contentHasher singleA).restrict (fun _ => true)).compare
      ((SHAMap.ofTrie contentHasher singleC).restrict (fun id => !(id == [1]))) 10 [] 5 =
      .missingNode [1] ∧
    ∃ id, ((SHAMap.ofTrie contentHasher singleA).restrict (fun _ => true)).compare
        ((SHAMap.ofTrie contentHasher singleC).restrict (fun id => !(id == [1]))) 10 [] 5 =
        .missingNode id ∧
      (((true, id) ∈ [(false, [1]), (true, [1]), (false, []), (true, [])] ∧
          (fun _ => true) id = false) ∨
        ((false, id) ∈ [(false, [1]), (true, [1]), (false, []), (true, [])] ∧
          (fun id => !(id == [1])) id = false)) :=
  ⟨by decide, by decide,
    (compare_missing_node_iff (SHAMap.ofTrie contentHasher singleA)
      (SHAMap.ofTrie contentHasher singleC) (fun _ => true) (fun id => !(id == [1])) 10 [] 5
      true ⟨[(tagOne, (some ⟨tagOne, [1]⟩, none)),
        (tagOne + 1, (none, some ⟨tagOne + 1, [2]⟩))], 3, [(false, [1]), (true, [1]),
        (false, []), (true, [])]⟩ (by decide)).2 ⟨(false, [1]), by decide, by decide⟩⟩

/-! ## The account list parser: all or nothing -/

/-- When every value still to visit is accepted, the loop ends with a duplicate-free
set that holds the set built so far and the account IDs of the values visited. -/
theorem parseAccountIdsLoop_of_accepted {A : Type} [DecidableEq A]
    (setAccountID : String → Option A) (elems : List JsonValue)
    (hall : ∀ e ∈ elems, ∃ a, e.parsesAs setAccountID a) (acc : List A)
    (hacc : acc.Nodup) :
    (parseAccountIdsLoop setAccountID elems acc).Nodup ∧
    ∀ a, a ∈ parseAccountIdsLoop setAccountID elems acc ↔
      a ∈ acc ∨ ∃ e ∈ elems, e.parsesAs setAccountID a := by
  induction elems generalizing acc with
  | nil => exact ⟨hacc, fun a => by simp [parseAccountIdsLoop]⟩
  | cons e rest ih =>
    obtain ⟨a0, s, rfl, hs⟩ := hall _ (List.mem_cons_self _ _)
    have hrest : ∀ e ∈ rest, ∃ a, e.parsesAs setAccountID a :=
      fun e he => hall e (List.mem_cons_of_mem _ he)
    obtain ⟨h1, h2⟩ := ih hrest (acc.insert a0) (hacc.insert)
    simp only [parseAccountIdsLoop, hs]
    refine ⟨h1, fun a => ?_⟩
    rw [h2 a, List.mem_insert_iff]
    constructor
    · rintro ((rfl | h) | ⟨e, he, hp⟩)
      · exact Or.inr ⟨_, List.mem_cons_self _ _, s, rfl, hs⟩
      · exact Or.inl h
      · exact Or.inr ⟨e, List.mem_cons_of_mem _ he, hp⟩
    · rintro (h | ⟨e, he, hp⟩)
      · exact Or.inl (Or.inr h)
      · rcases List.mem_cons.1 he with rfl | he
        · obtain ⟨s', h', hs'⟩ := hp
          cases h'
          rw [hs] at hs'
          cases hs'
          exact Or.inl (Or.inl rfl)
        · exact Or.inr ⟨e, he, hp⟩

/-- When some value still to visit is rejected, the loop ends with the empty set,
whatever set was built so far. -/
theorem parseAccountIdsLoop_of_rejected {A : Type} [DecidableEq A]
    (setAccountID : String → Option A) (elems : List JsonValue)
    (hex : ∃ e ∈ elems, e.rejected setAccountID) (acc : List A) :
    parseAccountIdsLoop setAccountID elems acc = [] := by
  induction elems generalizing acc with
  | nil => obtain ⟨e, he, _⟩ := hex; cases he
  | cons e rest ih =>
    cases e with
    | stringValue s =>
      cases hs : setAccountID s with
      | none => simp only [parseAccountIdsLoop, hs]
      | some a =>
        simp only [parseAccountIdsLoop, hs]
        apply ih
        obtain ⟨e, he, hr⟩ := hex
        rcases List.mem_cons.1 he with rfl | he
        · have := hr s rfl
          rw [hs] at this
          cases this
        · exact ⟨e, he, hr⟩
    | _ => simp only [parseAccountIdsLoop]

/-- Every JSON value is accepted with some account ID or rejected. -/
theorem JsonValue.parsesAs_or_rejected {A : Type} (setAccountID : String → Option A)
    (e : JsonValue) : (∃ a, e.parsesAs setAccountID a) ∨ e.rejected setAccountID := by
  cases e with
  | stringValue s =>
    cases hs : setAccountID s with
    | none =>
      refine Or.inr (fun s' h => ?_)
      cases h
      exact hs
    | some a => exact Or.inl ⟨a, s, rfl, hs⟩
  | _ => exact Or.inr (fun s h => by cases h)

/-- C31: `parseAccountIds` is all-or-nothing on a JSON array. When every element is a
string of which `setAccountID` makes an account ID, the result is a set (without
duplicates) whose members are exactly the account IDs of the elements. When some
element, with any elements before and after it, is not a string or is a string of
which `setAccountID` makes no account ID, the result is the empty set. One of the two
cases always applies. -/
theorem parseAccountIds_all_or_nothing {A : Type} [DecidableEq A]
    (setAccountID : String → Option A) (elems : List JsonValue) :
    ((∀ e ∈ elems, ∃ a, e.parsesAs setAccountID a) →
      (parseAccountIds setAccountID (.arrayValue elems)).Nodup ∧
      ∀ a, a ∈ parseAccountIds setAccountID (.arrayValue elems) ↔
        ∃ e ∈ elems, e.parsesAs setAccountID a) ∧
    (∀ before e after, elems = before ++ e :: after → e.rejected setAccountID →
      parseAccountIds setAccountID (.arrayValue elems) = []) ∧
    ((∀ e ∈ elems, ∃ a, e.parsesAs setAccountID a) ∨
      ∃ before e after, elems = before ++ e :: after ∧ e.rejected setAccountID) := by
  refine ⟨fun hall => ?_, fun before e after h hr => ?_, ?_⟩
  · obtain ⟨h1, h2⟩ := parseAccountIdsLoop_of_accepted setAccountID elems hall []
      List.nodup_nil
    refine ⟨h1, fun a => ?_⟩
    have h3 := h2 a
    simp only [List.not_mem_nil, false_or] at h3
    exact h3
  · exact parseAccountIdsLoop_of_rejected setAccountID elems
      ⟨e, by rw [h]; exact List.mem_append_right _ (List.mem_cons_self _ _), hr⟩ []
  · by_cases hall : ∀ e ∈ elems, ∃ a, e.parsesAs setAccountID a
    · exact Or.inl hall
    · right
      simp only [not_forall] at hall
      obtain ⟨e, he, hne⟩ := hall
      obtain ⟨before, after, hsplit⟩ := List.append_of_mem he
      refine ⟨before, e, after, hsplit, ?_⟩
      rcases JsonValue.parsesAs_or_rejected setAccountID e with h | h
      · exact absurd h hne
      · exact h

/-- C31, on two arrays read with `sampleAccountID`: the array of the strings `rAlice`,
`rBob`, `rAlice` gives the set of the accounts 2 and 1, and the array with the
number 3 between `rAlice` and `rBob` gives the empty set. -/
theorem parseAccountIds_all_or_nothing_witness :
    (∀ e ∈ [JsonValue.stringValue "rAlice", .stringValue "rBob", .stringValue "rAlice"],
      ∃ a, e.parsesAs sampleAccountID a) ∧
    ((parseAccountIds sampleAccountID (.arrayValue
        [.stringValue "rAlice", .stringValue "rBob", .stringValue "rAlice"])).Nodup ∧
      ∀ a, a ∈ parseAccountIds sampleAccountID (.arrayValue
          [.stringValue "rAlice", .stringValue "rBob", .stringValue "rAlice"]) ↔
        ∃ e ∈ [JsonValue.stringValue "rAlice", .stringValue "rBob", .stringValue "rAlice"],
          e.parsesAs sampleAccountID a) ∧
    parseAccountIds sampleAccountID (.arrayValue
      [.stringValue "rAlice", .stringValue "rBob", .stringValue "rAlice"]) = [2, 1] ∧
    (JsonValue.intValue 3).rejected sampleAccountID ∧
    parseAccountIds sampleAccountID (.arrayValue
      [.stringValue "rAlice", .intValue 3, .stringValue "rBob"]) = [] :=
  have hall : ∀ e ∈ [JsonValue.stringValue "rAlice", .stringValue "rBob",
      .stringValue "rAlice"], ∃ a, e.parsesAs sampleAccountID a := by
    intro e he
    simp only [List.mem_cons, List.mem_singleton, List.not_mem_nil, or_false] at he
    rcases he with rfl | rfl | rfl
    · exact ⟨1, "rAlice", rfl, by decide⟩
    · exact ⟨2, "rBob", rfl, by decide⟩
    · exact ⟨1, "rAlice", rfl, by decide⟩
  have hrej : (JsonValue.intValue 3).rejected sampleAccountID :=
    fun s h => by cases h
  ⟨hall,
    (parseAccountIds_all_or_nothing sampleAccountID
      [.stringValue "rAlice", .stringValue "rBob", .stringValue "rAlice"]).1 hall,
    by decide, hrej,
    (parseAccountIds_all_or_nothing sampleAccountID
      [.stringValue "rAlice", .intValue 3, .stringValue "rBob"]).2.1
      [.stringValue "rAlice"] (.intValue 3) [.stringValue "rBob"] rfl hrej⟩

end Ripple
